import Mathlib

/-!
# kqlfile: a shallow embedding of the query pipeline

The Go packages `model`, `csvio`, `jsonio`, `plan`, `parser` and `exec` and the
table resolution of the command `kqlfile` are embedded as pure definitions.
Conventions:

* a Go function returning `(T, error)` becomes a function into
  `Except Error T`; a run-time panic (failed type assertion, index out of
  range) is the distinguished error `Error.panic`, which every caller
  propagates unchanged;
* an operator with mutable state becomes a function returning the result of
  the call together with the updated operator;
* a `for` loop without bound takes a fuel argument and returns `none` when the
  fuel is exhausted;
* `int64` payloads are integers, Go strings are Lean strings (both are ordered
  lexicographically, code point order being the order of the UTF-8 bytes).
-/

namespace Kql

/-! ## package model -/

/-- The Go type `model.Type`, a string tag. -/
abbrev Typ := String

def TypeString : Typ := "string"
def TypeInt : Typ := "int"
def TypeFloat : Typ := "float"
def TypeBool : Typ := "bool"
def TypeDateTime : Typ := "datetime"

/-- A `float64`, given by its IEEE-754 bit pattern (a number below `2^64`). -/
structure Float64 where
  bits : Nat
  deriving DecidableEq, Repr

/-- A `time.Time` instant: seconds and nanoseconds since the zero instant, and
the zone offset in seconds.  `time.Time{}` is `⟨0, 0, 0⟩`. -/
structure Time where
  sec : Int
  nsec : Nat
  offset : Int
  deriving DecidableEq, Repr

/-- The dynamic payload of a `model.Value` (the field `V any`). -/
inductive Payload where
  | nil
  | str (s : String)
  | int (i : Int)
  | float (f : Float64)
  | bool (b : Bool)
  | time (t : Time)
  deriving DecidableEq, Repr

/-- The struct `model.Column`. -/
structure Column where
  Name : String
  Typ : Typ
  deriving DecidableEq, Repr

/-- The struct `model.Value`: the tag and the payload are independent fields. -/
structure Value where
  Typ : Typ
  V : Payload
  deriving DecidableEq, Repr

/-- The zero value `model.Value{}`. -/
def Value.zero : Value := ⟨"", .nil⟩

/-- A Go `map[string]α` as an association list without duplicate keys, kept in
order of first insertion.  Iteration order over a Go map is not this order; it
is modelled separately where the code ranges over a map. -/
abbrev GoMap (α : Type) := List (String × α)

/-- The lookup `m[k]` with the comma-ok flag. -/
def GoMap.get {α : Type} : GoMap α → String → Option α
  | [], _ => none
  | (a, b) :: m, k => if a = k then some b else GoMap.get m k

/-- The assignment `m[k] = v`: the entry of `k` is replaced where it stands, a
new key is added at the end. -/
def GoMap.set {α : Type} : GoMap α → String → α → GoMap α
  | [], k, v => [(k, v)]
  | (a, b) :: m, k, v => if a = k then (k, v) :: m else (a, b) :: GoMap.set m k v

/-- The keys of a map, in order of first insertion. -/
def GoMap.keys {α : Type} (m : GoMap α) : List String := m.map Prod.fst

/-- The struct `model.Schema`.  Positions are natural numbers, as `NewSchema`
produces them. -/
structure Schema where
  Columns : List Column
  Index : GoMap Nat
  deriving DecidableEq, Repr

/-- The loop of `NewSchema`: `idx[c.Name] = i` for the columns from position
`i` on. -/
def NewSchema.loop : Nat → List Column → GoMap Nat → GoMap Nat
  | _, [], idx => idx
  | i, c :: cs, idx => NewSchema.loop (i + 1) cs (idx.set c.Name i)

/-- The function `model.NewSchema`. -/
def NewSchema (cols : List Column) : Schema :=
  { Columns := cols, Index := NewSchema.loop 0 cols [] }

/-- Errors: `io.EOF`, any other error value, and a run-time panic. -/
inductive Error where
  | EOF
  | other (msg : String)
  | panic (msg : String)
  deriving DecidableEq, Repr

deriving instance DecidableEq for Except

/-- Functions of the Go standard library that format and parse floats, format
instants and lower-case the runes outside ASCII; they are taken as
parameters. -/
structure GoLib where
  /-- `strconv.FormatFloat(f, 'f', -1, 64)` -/
  FormatFloat : Float64 → String
  /-- `t.Format(time.RFC3339)` -/
  FormatRFC3339 : Time → String
  /-- `fmt.Sprintf("%v", f)` for a `float64` -/
  SprintFloat : Float64 → String
  /-- `fmt.Sprintf("%v", t)` for a `time.Time` -/
  SprintTime : Time → String
  /-- `unicode.ToLower` on the runes outside ASCII -/
  ToLowerRune : Char → Char
  /-- `strconv.ParseFloat(s, 64)`, `none` for an error -/
  ParseFloat : String → Option Float64
  /-- `time.Parse(time.RFC3339, s)`, `none` for an error -/
  ParseRFC3339 : String → Option Time

/-- `strconv.FormatInt(i, 10)`. -/
def FormatInt (i : Int) : String :=
  if i < 0 then "-" ++ Nat.repr i.natAbs else Nat.repr i.natAbs

/-- `fmt.Sprintf("%v", v.V)`, the default branch of `Value.String`. -/
def Sprintv (lib : GoLib) : Payload → String
  | .nil => "<nil>"
  | .str s => s
  | .int i => FormatInt i
  | .float f => lib.SprintFloat f
  | .bool b => if b then "true" else "false"
  | .time t => lib.SprintTime t

/-- The method `Value.String`; a type assertion on a payload of another shape
panics. -/
def Value.String (lib : GoLib) (v : Value) : Except Error String :=
  if v.Typ = TypeString then
    match v.V with
    | .str s => .ok s
    | _ => .error (.panic "interface conversion: not a string")
  else if v.Typ = TypeInt then
    match v.V with
    | .int i => .ok (FormatInt i)
    | _ => .error (.panic "interface conversion: not an int64")
  else if v.Typ = TypeFloat then
    match v.V with
    | .float f => .ok (lib.FormatFloat f)
    | _ => .error (.panic "interface conversion: not a float64")
  else if v.Typ = TypeBool then
    match v.V with
    | .bool b => .ok (if b then "true" else "false")
    | _ => .error (.panic "interface conversion: not a bool")
  else if v.Typ = TypeDateTime then
    match v.V with
    | .time t => .ok (lib.FormatRFC3339 t)
    | _ => .error (.panic "interface conversion: not a time.Time")
  else .ok (Sprintv lib v.V)

/-! ## package csvio: rows -/

/-- The struct `csvio.Row`. -/
structure Row where
  Schema : Schema
  Values : List Value
  deriving DecidableEq, Repr

/-- The method `Row.Get`: the value and the found flag; `none` stands for
`(model.Value{}, false)`. -/
def Row.Get (r : Row) (col : String) : Option Value :=
  match r.Schema.Index.get col with
  | none => none
  | some idx => if idx ≥ r.Values.length then none else r.Values[idx]?

/-- The value that `v, _ := row.Get(name)` binds. -/
def Row.GetD (r : Row) (col : String) : Value :=
  (r.Get col).getD Value.zero

/-! ## package plan: expressions -/

/-- The implementations of the interface `plan.Expr`; `other` stands for any
implementation outside the package. -/
inductive Expr where
  | ColumnRef (Name : String)
  | Literal (Value : Value)
  | CompareExpr (Left : Expr) (Op : String) (Right : Expr)
  | LogicalExpr (Left : Expr) (Op : String) (Right : Expr)
  | other
  deriving DecidableEq, Repr

/-! ## package exec: comparison and expression evaluation -/

/-- Is the float a NaN. -/
def Float64.isNaN (f : Float64) : Bool :=
  (f.bits / 2 ^ 52) % 2 ^ 11 == 2047 && f.bits % 2 ^ 52 != 0

/-- A key whose integer order is the numeric order of the floats that are not
NaN: the magnitude bits, negated when the sign bit is set. -/
def Float64.key (f : Float64) : Int :=
  if f.bits % 2 ^ 64 < 2 ^ 63 then (f.bits % 2 ^ 64 : Nat) else - ((f.bits % 2 ^ 64 - 2 ^ 63 : Nat) : Int)

/-- The comparison `a < b` on `float64`. -/
def Float64.lt (a b : Float64) : Bool :=
  !a.isNaN && !b.isNaN && decide (a.key < b.key)

/-- The test `f != 0` on `float64`. -/
def Float64.neZero (f : Float64) : Bool :=
  f.isNaN || f.key != 0

/-- The mathematical value of a finite float as `m * 2 ^ e`, sign included. -/
def Float64.decode (f : Float64) : Int × Int :=
  let b : Nat := f.bits % 2 ^ 64
  let ex : Nat := (b / 2 ^ 52) % 2 ^ 11
  let man : Nat := b % 2 ^ 52
  let m : Nat := if ex = 0 then man else man + 2 ^ 52
  let e : Int := (if ex = 0 then 1 else (ex : Int)) - 1075
  (if b < 2 ^ 63 then (m : Int) else - (m : Int), e)

/-- The conversion `int64(f)`: truncation toward zero; a NaN, an infinity or a
value outside the range gives `-2^63`, as on amd64. -/
def Float64.toInt64 (f : Float64) : Int :=
  if (f.bits / 2 ^ 52) % 2 ^ 11 = 2047 then - 2 ^ 63
  else
    let (m, e) := f.decode
    let t : Int := if e ≥ 0 then m * 2 ^ e.toNat else Int.tdiv m (2 ^ (-e).toNat)
    if - 2 ^ 63 ≤ t ∧ t < 2 ^ 63 then t else - 2 ^ 63

/-- The bit pattern of the non-negative float `m * 2 ^ (e - 1075)` for a
mantissa `2^52 ≤ m < 2^53` after rounding, or a subnormal with `e = 1`. -/
def Float64.pack (neg : Bool) (m : Nat) (e : Nat) : Float64 :=
  ⟨(if neg then 2 ^ 63 else 0) + (if m < 2 ^ 52 then m else e * 2 ^ 52 + (m - 2 ^ 52))⟩

/-- The conversion `float64(i)` of an `int64`, rounding to nearest, ties to
even. -/
def Float64.ofInt64 (i : Int) : Float64 :=
  let n := i.natAbs
  if n = 0 then ⟨0⟩
  else
    let len := Nat.log2 n + 1
    if len ≤ 53 then Float64.pack (i < 0) (n * 2 ^ (53 - len)) (1075 - (53 - len))
    else
      let sh := len - 53
      let q := n / 2 ^ sh
      let r := n % 2 ^ sh
      let half := 2 ^ (sh - 1)
      let q1 := if r > half ∨ (r = half ∧ q % 2 = 1) then q + 1 else q
      if q1 = 2 ^ 53 then Float64.pack (i < 0) (2 ^ 52) (1075 + sh + 1)
      else Float64.pack (i < 0) q1 (1075 + sh)

/-- The function `toInt64`. -/
def toInt64 (v : Value) : Except Error Int :=
  if v.Typ = TypeInt then
    match v.V with
    | .int i => .ok i
    | _ => .error (.panic "interface conversion: not an int64")
  else if v.Typ = TypeFloat then
    match v.V with
    | .float f => .ok f.toInt64
    | _ => .error (.panic "interface conversion: not a float64")
  else if v.Typ = TypeBool then
    match v.V with
    | .bool b => .ok (if b then 1 else 0)
    | _ => .error (.panic "interface conversion: not a bool")
  else .ok 0

/-- The function `toFloat64`. -/
def toFloat64 (v : Value) : Except Error Float64 :=
  if v.Typ = TypeFloat then
    match v.V with
    | .float f => .ok f
    | _ => .error (.panic "interface conversion: not a float64")
  else if v.Typ = TypeInt then
    match v.V with
    | .int i => .ok (Float64.ofInt64 i)
    | _ => .error (.panic "interface conversion: not an int64")
  else if v.Typ = TypeBool then
    match v.V with
    | .bool b => .ok (if b then Float64.ofInt64 1 else ⟨0⟩)
    | _ => .error (.panic "interface conversion: not a bool")
  else .ok ⟨0⟩

/-- The function `toBool`. -/
def toBool (lib : GoLib) (v : Value) : Except Error Bool :=
  if v.Typ = TypeBool then
    match v.V with
    | .bool b => .ok b
    | _ => .error (.panic "interface conversion: not a bool")
  else if v.Typ = TypeInt then
    match v.V with
    | .int i => .ok (i != 0)
    | _ => .error (.panic "interface conversion: not an int64")
  else if v.Typ = TypeFloat then
    match v.V with
    | .float f => .ok f.neZero
    | _ => .error (.panic "interface conversion: not a float64")
  else
    match v.String lib with
    | .ok s => .ok (s == "true")
    | .error e => .error e

/-- The function `toTime`. -/
def toTime (v : Value) : Except Error Time :=
  if v.Typ = TypeDateTime then
    match v.V with
    | .time t => .ok t
    | _ => .error (.panic "interface conversion: not a time.Time")
  else .ok ⟨0, 0, 0⟩

/-- The method `Time.Before` on instants. -/
def Time.Before (a b : Time) : Bool :=
  decide (a.sec < b.sec) || (a.sec == b.sec && decide (a.nsec < b.nsec))

/-- The method `Time.After` on instants. -/
def Time.After (a b : Time) : Bool :=
  decide (a.sec > b.sec) || (a.sec == b.sec && decide (a.nsec > b.nsec))

/-- The function `compareValues`: the branch is chosen by the tag of `a`. -/
def compareValues (lib : GoLib) (a b : Value) : Except Error Int :=
  if a.Typ = TypeInt then
    match a.V with
    | .int ai =>
      match toInt64 b with
      | .error e => .error e
      | .ok bi => .ok (if ai < bi then -1 else if ai > bi then 1 else 0)
    | _ => .error (.panic "interface conversion: not an int64")
  else if a.Typ = TypeFloat then
    match a.V with
    | .float af =>
      match toFloat64 b with
      | .error e => .error e
      | .ok bf => .ok (if af.lt bf then -1 else if bf.lt af then 1 else 0)
    | _ => .error (.panic "interface conversion: not a float64")
  else if a.Typ = TypeBool then
    match a.V with
    | .bool ab =>
      match toBool lib b with
      | .error e => .error e
      | .ok bb => .ok (if !ab && bb then -1 else if ab && !bb then 1 else 0)
    | _ => .error (.panic "interface conversion: not a bool")
  else if a.Typ = TypeDateTime then
    match a.V with
    | .time at_ =>
      match toTime b with
      | .error e => .error e
      | .ok bt => .ok (if at_.Before bt then -1 else if at_.After bt then 1 else 0)
    | _ => .error (.panic "interface conversion: not a time.Time")
  else
    match a.String lib with
    | .error e => .error e
    | .ok as_ =>
      match b.String lib with
      | .error e => .error e
      | .ok bs => .ok (if as_ < bs then -1 else if as_ > bs then 1 else 0)

/-- The function `evalExpr`. -/
def evalExpr (row : Row) : Expr → Except Error Value
  | .ColumnRef name => .ok (row.GetD name)
  | .Literal v => .ok v
  | _ => .error (.other "unsupported expression")

/-- The function `evalCompare` on the fields of a `plan.CompareExpr`. -/
def evalCompare (lib : GoLib) (row : Row) (left : Expr) (op : String) (right : Expr) :
    Except Error Bool :=
  match evalExpr row left with
  | .error e => .error e
  | .ok l =>
    match evalExpr row right with
    | .error e => .error e
    | .ok r =>
      match compareValues lib l r with
      | .error e => .error e
      | .ok c =>
        if op = "==" ∨ op = "=" then .ok (decide (c = 0))
        else if op = "!=" then .ok (decide (c ≠ 0))
        else if op = ">" then .ok (decide (c > 0))
        else if op = ">=" then .ok (decide (c ≥ 0))
        else if op = "<" then .ok (decide (c < 0))
        else if op = "<=" then .ok (decide (c ≤ 0))
        else .error (.other "unsupported operator")

/-- The function `evalLogical`. -/
def evalLogical (lib : GoLib) (row : Row) : Expr → Except Error Bool
  | .CompareExpr l op r => evalCompare lib row l op r
  | .LogicalExpr l op r =>
    match evalLogical lib row l with
    | .error e => .error e
    | .ok left =>
      if op = "and" ∧ left = false then .ok false
      else if op = "or" ∧ left = true then .ok true
      else
        match evalLogical lib row r with
        | .error e => .error e
        | .ok right =>
          if op = "and" then .ok (left && right)
          else if op = "or" then .ok (left || right)
          else .error (.other "unsupported logical operator")
  | _ => .error (.other "unsupported expression")

/-! ## package exec: operators -/

/-- The interface `exec.Operator` over a state type: `Next` returns the result
of the call and the state after it. -/
class Operator (σ : Type) where
  Next : σ → Except Error Row × σ

/-- The test double `sliceOp`: a finite source of rows. -/
structure sliceOp where
  rows : List Row
  idx : Nat
  deriving DecidableEq, Repr

/-- The method `sliceOp.Next`. -/
def sliceOp.Next (s : sliceOp) : Except Error Row × sliceOp :=
  if s.idx ≥ s.rows.length then (.error .EOF, s)
  else
    match s.rows[s.idx]? with
    | some row => (.ok row, { s with idx := s.idx + 1 })
    | none => (.error (.panic "index out of range"), s)

instance : Operator sliceOp := ⟨sliceOp.Next⟩

/-- An operator together with the number of times its `Next` has been called. -/
structure Counted (σ : Type) where
  op : σ
  calls : Nat

instance {σ : Type} [Operator σ] : Operator (Counted σ) :=
  ⟨fun c => ((Operator.Next c.op).1, { op := (Operator.Next c.op).2, calls := c.calls + 1 })⟩

/-- The struct `FilterOp`. -/
structure FilterOp (σ : Type) where
  In : σ
  Expr : Expr

/-- The method `FilterOp.Next`; the fuel bounds the iterations of its loop. -/
def FilterOp.Next {σ : Type} [Operator σ] (lib : GoLib) :
    Nat → FilterOp σ → Option (Except Error Row × FilterOp σ)
  | 0, _ => none
  | fuel + 1, f =>
    match Operator.Next f.In with
    | (.error err, s) => some (.error err, { f with In := s })
    | (.ok row, s) =>
      match evalLogical lib row f.Expr with
      | .error err => some (.error err, { f with In := s })
      | .ok true => some (.ok row, { f with In := s })
      | .ok false => FilterOp.Next lib fuel { f with In := s }

/-- The results of `n` successive calls of `FilterOp.Next`, each with the given
fuel, and the operator after them. -/
def FilterOp.NextN {σ : Type} [Operator σ] (lib : GoLib) (fuel : Nat) :
    Nat → FilterOp σ → Option (List (Except Error Row) × FilterOp σ)
  | 0, f => some ([], f)
  | n + 1, f =>
    match FilterOp.Next lib fuel f with
    | none => none
    | some (r, f1) =>
      match FilterOp.NextN lib fuel n f1 with
      | none => none
      | some (rs, f2) => some (r :: rs, f2)

/-- Does `evalLogical` return `true` on the row. -/
def keepsRow (lib : GoLib) (e : Expr) (r : Row) : Bool :=
  match evalLogical lib r e with
  | .ok true => true
  | _ => false

/-- The struct `ProjectOp`. -/
structure ProjectOp (σ : Type) where
  In : σ
  Columns : List String

/-- The loop of `ProjectOp.Next` over the requested names, appending to `cols`
and `vals`. -/
def ProjectOp.loop (row : Row) : List String → List Column → List Value →
    List Column × List Value
  | [], cols, vals => (cols, vals)
  | name :: names, cols, vals =>
    match row.Get name with
    | none => ProjectOp.loop row names cols vals
    | some v => ProjectOp.loop row names (cols ++ [⟨name, v.Typ⟩]) (vals ++ [v])

/-- The method `ProjectOp.Next`. -/
def ProjectOp.Next {σ : Type} [Operator σ] (p : ProjectOp σ) :
    Except Error Row × ProjectOp σ :=
  match Operator.Next p.In with
  | (.error err, s) => (.error err, { p with In := s })
  | (.ok row, s) =>
    let cv := ProjectOp.loop row p.Columns [] []
    (.ok { Schema := NewSchema cv.1, Values := cv.2 }, { p with In := s })

/-- The struct `ExtendOp`. -/
structure ExtendOp (σ : Type) where
  In : σ
  Name : String
  Value : Expr

/-- The method `ExtendOp.Next`. -/
def ExtendOp.Next {σ : Type} [Operator σ] (e : ExtendOp σ) :
    Except Error Row × ExtendOp σ :=
  match Operator.Next e.In with
  | (.error err, s) => (.error err, { e with In := s })
  | (.ok row, s) =>
    match evalExpr row e.Value with
    | .error err => (.error err, { e with In := s })
    | .ok val =>
      let cols := row.Schema.Columns ++ [⟨e.Name, val.Typ⟩]
      let vals := row.Values ++ [val]
      (.ok { Schema := NewSchema cols, Values := vals }, { e with In := s })

/-- The struct `TakeOp`. -/
structure TakeOp (σ : Type) where
  In : σ
  Left : Int
  Total : Int

/-- The method `TakeOp.Next`. -/
def TakeOp.Next {σ : Type} [Operator σ] (t : TakeOp σ) : Except Error Row × TakeOp σ :=
  if t.Left ≥ t.Total then (.error .EOF, t)
  else
    match Operator.Next t.In with
    | (.error err, s) => (.error err, { t with In := s })
    | (.ok row, s) => (.ok row, { t with In := s, Left := t.Left + 1 })

/-- The results of `n` successive calls of `TakeOp.Next` and the operator after
them. -/
def TakeOp.NextN {σ : Type} [Operator σ] : Nat → TakeOp σ →
    List (Except Error Row) × TakeOp σ
  | 0, t => ([], t)
  | n + 1, t =>
    let r := TakeOp.Next t
    let rs := TakeOp.NextN n r.2
    (r.1 :: rs.1, rs.2)

/-- The schema invariant of the data model: the index maps each name as
`NewSchema` does on the column list. -/
def Schema.WF (s : Schema) : Prop :=
  ∀ n : String, s.Index.get n = (NewSchema s.Columns).Index.get n

/-- The position of the last column called `n`, counted from `i`. -/
def lastIndexFrom (n : String) : Nat → List Column → Option Nat
  | _, [] => none
  | i, c :: cs =>
    match lastIndexFrom n (i + 1) cs with
    | some j => some j
    | none => if c.Name = n then some i else none

/-- Formatters that return the empty string, parsers of floats and instants
that accept nothing and the identity on the runes outside ASCII, for closed
examples without floats, instants or letters outside ASCII. -/
def GoLib.blank : GoLib :=
  { FormatFloat := fun _ => "", FormatRFC3339 := fun _ => "",
    SprintFloat := fun _ => "", SprintTime := fun _ => "",
    ToLowerRune := fun c => c, ParseFloat := fun _ => none,
    ParseRFC3339 := fun _ => none }

/-- The test helper `rowWithInt`: one column `n` of type int. -/
def rowWithInt (n : Int) : Row :=
  { Schema := NewSchema [⟨"n", TypeInt⟩], Values := [⟨TypeInt, .int n⟩] }

/-- The function `stringsJoin`. -/
def stringsJoin : List String → String → String
  | [], _ => ""
  | p :: ps, sep => ps.foldl (fun out q => out ++ (sep ++ q)) p

/-- The results of `n` successive calls of a method with fuel, and the state
after them; `none` when a call runs out of fuel. -/
def callN {S R : Type} (next : S → Option (R × S)) : Nat → S → Option (List R × S)
  | 0, s => some ([], s)
  | n + 1, s =>
    match next s with
    | none => none
    | some (r, s1) =>
      match callN next n s1 with
      | none => none
      | some (rs, s2) => some (r :: rs, s2)

/-- The struct `JoinOp`. -/
structure JoinOp (σ : Type) where
  In : σ
  Right : GoMap (List Row)
  RightSchema : Schema
  LeftKey : String
  RightKey : String
  pending : List Row
  pendingIdx : Nat

/-- The first loop of `buildJoinedRows`: the right columns, renamed `right.<name>`
when the name is a key of the left index, appended to `cols`. -/
def buildJoinedRows.cols (left : Row) : List Column → List Column → List Column
  | [], cols => cols
  | c :: cs, cols =>
    let name := if (left.Schema.Index.get c.Name).isSome then "right." ++ c.Name else c.Name
    buildJoinedRows.cols left cs (cols ++ [⟨name, c.Typ⟩])

/-- The inner loop of `buildJoinedRows`: `r.Values[i]` for each position of the
right schema, appended to `vals`; a missing position panics. -/
def buildJoinedRows.vals (r : Row) : Nat → List Column → List Value → Except Error (List Value)
  | _, [], vals => .ok vals
  | i, _ :: cs, vals =>
    match r.Values[i]? with
    | none => .error (.panic "index out of range")
    | some v => buildJoinedRows.vals r (i + 1) cs (vals ++ [v])

/-- The outer loop of `buildJoinedRows` over the right rows. -/
def buildJoinedRows.rows (left : Row) (joinedSchema rightSchema : Schema) :
    List Row → List Row → Except Error (List Row)
  | [], rows => .ok rows
  | r :: rs, rows =>
    match buildJoinedRows.vals r 0 rightSchema.Columns left.Values with
    | .error err => .error err
    | .ok vals =>
      buildJoinedRows.rows left joinedSchema rightSchema rs
        (rows ++ [{ Schema := joinedSchema, Values := vals }])

/-- The function `buildJoinedRows`. -/
def buildJoinedRows (left : Row) (rights : List Row) (rightSchema : Schema) :
    Except Error (List Row) :=
  let cols := buildJoinedRows.cols left rightSchema.Columns left.Schema.Columns
  buildJoinedRows.rows left (NewSchema cols) rightSchema rights []

/-- The loop of `NewJoinOp` over the right reader, filling the multimap
`rightRows`; the fuel bounds its iterations. -/
def NewJoinOp.load {ρ : Type} [Operator ρ] (lib : GoLib) (rightKey : String) :
    Nat → ρ → GoMap (List Row) → Option (Except Error (GoMap (List Row)) × ρ)
  | 0, _, _ => none
  | fuel + 1, reader, rightRows =>
    match Operator.Next reader with
    | (.error .EOF, rd) => some (.ok rightRows, rd)
    | (.error err, rd) => some (.error err, rd)
    | (.ok row, rd) =>
      match (row.GetD rightKey).String lib with
      | .error err => some (.error err, rd)
      | .ok key =>
        NewJoinOp.load lib rightKey fuel rd
          (rightRows.set key ((rightRows.get key).getD [] ++ [row]))

/-- The function `NewJoinOp`; `opened` is the result of
`csvio.NewReader(rightPath, nil)`: an error, or the reader with its schema. -/
def NewJoinOp {σ ρ : Type} [Operator ρ] (lib : GoLib) (fuel : Nat) (inp : σ)
    (opened : Except Error (ρ × Schema)) (leftKey rightKey : String) :
    Option (Except Error (JoinOp σ)) :=
  match opened with
  | .error err => some (.error err)
  | .ok (reader, rightSchema) =>
    match NewJoinOp.load lib rightKey fuel reader [] with
    | none => none
    | some (.error err, _) => some (.error err)
    | some (.ok rightRows, _) =>
      some (.ok { In := inp, Right := rightRows, RightSchema := rightSchema,
                  LeftKey := leftKey, RightKey := rightKey, pending := [], pendingIdx := 0 })

/-- The method `JoinOp.Next`; the fuel bounds the iterations of its loop. -/
def JoinOp.Next {σ : Type} [Operator σ] (lib : GoLib) :
    Nat → JoinOp σ → Option (Except Error Row × JoinOp σ)
  | 0, _ => none
  | fuel + 1, j =>
    if j.pendingIdx < j.pending.length then
      match j.pending[j.pendingIdx]? with
      | some row => some (.ok row, { j with pendingIdx := j.pendingIdx + 1 })
      | none => some (.error (.panic "index out of range"), j)
    else
      match Operator.Next j.In with
      | (.error err, s) => some (.error err, { j with In := s, pending := [], pendingIdx := 0 })
      | (.ok leftRow, s) =>
        match (leftRow.GetD j.LeftKey).String lib with
        | .error err => some (.error err, { j with In := s, pending := [], pendingIdx := 0 })
        | .ok key =>
          let found := (j.Right.get key).getD []
          if found.length = 0 then
            JoinOp.Next lib fuel { j with In := s, pending := [], pendingIdx := 0 }
          else
            match buildJoinedRows leftRow found j.RightSchema with
            | .error err =>
              some (.error err, { j with In := s, pending := [], pendingIdx := 0 })
            | .ok rows =>
              JoinOp.Next lib fuel { j with In := s, pending := rows, pendingIdx := 0 }

/-- The columns of a joined row as the specification words them: the left
columns, then the right columns, one renamed `right.<name>` when its name is
the name of a left column. -/
def joinedColumns (leftCols rightCols : List Column) : List Column :=
  leftCols ++ rightCols.map (fun c =>
    ⟨if c.Name ∈ leftCols.map Column.Name then "right." ++ c.Name else c.Name, c.Typ⟩)

/-- Does the key column of the row have the textual form `t`. -/
def hasKeyText (lib : GoLib) (key : String) (t : String) (r : Row) : Bool :=
  match (r.GetD key).String lib with
  | .ok s => s == t
  | .error _ => false

/-- The row that `buildJoinedRows` builds from a left row and one right row. -/
def joinedRow (left : Row) (rightSchema : Schema) (r : Row) : Row :=
  { Schema := NewSchema (buildJoinedRows.cols left rightSchema.Columns left.Schema.Columns),
    Values := left.Values ++ r.Values.take rightSchema.Columns.length }

/-- The right rows that match a left row: those whose key text is the text of
the left key, in the order of the right rows. -/
def rightMatches (lib : GoLib) (leftKey rightKey : String) (rights : List Row)
    (left : Row) : List Row :=
  match (left.GetD leftKey).String lib with
  | .ok t => rights.filter (hasKeyText lib rightKey t)
  | .error _ => []

/-- The joined rows a left row contributes: one per matching right row. -/
def joinGroup (lib : GoLib) (leftKey rightKey : String) (rightSchema : Schema)
    (rights : List Row) (left : Row) : List Row :=
  (rightMatches lib leftKey rightKey rights left).map (joinedRow left rightSchema)

/-- A `JoinOp` over a finite left source of which `pre` has been read. -/
def JoinOp.over (right : GoMap (List Row)) (rightSchema : Schema) (leftKey rightKey : String)
    (pre rest pending : List Row) (pendingIdx : Nat) : JoinOp sliceOp :=
  { In := ⟨pre ++ rest, pre.length⟩, Right := right, RightSchema := rightSchema,
    LeftKey := leftKey, RightKey := rightKey, pending := pending, pendingIdx := pendingIdx }

/-- The struct `SummarizeOp`. -/
structure SummarizeOp where
  rows : List Row
  idx : Nat
  deriving DecidableEq, Repr

/-- The inner loop of `NewSummarizeOp` over the BY names: the values and their
textual forms, appended to `vals` and `keyParts`. -/
def NewSummarizeOp.keyOf (lib : GoLib) (row : Row) :
    List String → List Value → List String → Except Error (List Value × List String)
  | [], vals, keyParts => .ok (vals, keyParts)
  | name :: names, vals, keyParts =>
    match (row.GetD name).String lib with
    | .error err => .error err
    | .ok s => NewSummarizeOp.keyOf lib row names (vals ++ [row.GetD name]) (keyParts ++ [s])

/-- The first loop of `NewSummarizeOp`: it drains the input into the maps
`counts` and `keys`; the fuel bounds its iterations. -/
def NewSummarizeOp.drain {σ : Type} [Operator σ] (lib : GoLib) (by_ : List String) :
    Nat → σ → GoMap Int → GoMap (List Value) →
      Option (Except Error (GoMap Int × GoMap (List Value)) × σ)
  | 0, _, _, _ => none
  | fuel + 1, inp, counts, keys =>
    match Operator.Next inp with
    | (.error .EOF, s) => some (.ok (counts, keys), s)
    | (.error err, s) => some (.error err, s)
    | (.ok row, s) =>
      match NewSummarizeOp.keyOf lib row by_ [] [] with
      | .error err => some (.error err, s)
      | .ok (vals, keyParts) =>
        let k := stringsJoin keyParts "|"
        let counts1 := counts.set k ((counts.get k).getD 0 + 1)
        let keys1 := match keys.get k with
          | some _ => keys
          | none => keys.set k vals
        NewSummarizeOp.drain lib by_ fuel s counts1 keys1

/-- The loop of `NewSummarizeOp` that builds the columns of a group:
`(name, vals[i].Type)` for each BY name; a missing position panics. -/
def NewSummarizeOp.cols (vals : List Value) :
    Nat → List String → List Column → Except Error (List Column)
  | _, [], cols => .ok cols
  | i, name :: names, cols =>
    match vals[i]? with
    | none => .error (.panic "index out of range")
    | some v => NewSummarizeOp.cols vals (i + 1) names (cols ++ [⟨name, v.Typ⟩])

/-- The second loop of `NewSummarizeOp`: one row per key, for the keys in the
order in which the map is ranged over. -/
def NewSummarizeOp.emit (by_ : List String) (counts : GoMap Int) (keys : GoMap (List Value)) :
    List String → List Row → Except Error (List Row)
  | [], rows => .ok rows
  | k :: ks, rows =>
    let cnt := (counts.get k).getD 0
    let vals := (keys.get k).getD []
    match NewSummarizeOp.cols vals 0 by_ [] with
    | .error err => .error err
    | .ok cols =>
      NewSummarizeOp.emit by_ counts keys ks
        (rows ++ [{ Schema := NewSchema (cols ++ [⟨"count", TypeInt⟩]),
                    Values := vals ++ [⟨TypeInt, .int cnt⟩] }])

/-- The function `NewSummarizeOp`.  `order` is the order in which Go ranges
over the keys of the map `counts`, which the language leaves unspecified. -/
def NewSummarizeOp {σ : Type} [Operator σ] (lib : GoLib) (order : List String → List String)
    (fuel : Nat) (inp : σ) (by_ : List String) : Option (Except Error SummarizeOp) :=
  match NewSummarizeOp.drain lib by_ fuel inp [] [] with
  | none => none
  | some (.error err, _) => some (.error err)
  | some (.ok (counts, keys), _) =>
    match NewSummarizeOp.emit by_ counts keys (order counts.keys) [] with
    | .error err => some (.error err)
    | .ok rows => some (.ok { rows := rows, idx := 0 })

/-- The method `SummarizeOp.Next`. -/
def SummarizeOp.Next (s : SummarizeOp) : Except Error Row × SummarizeOp :=
  if s.idx ≥ s.rows.length then (.error .EOF, s)
  else
    match s.rows[s.idx]? with
    | some row => (.ok row, { s with idx := s.idx + 1 })
    | none => (.error (.panic "index out of range"), s)

/-- The textual form of a value, empty where `Value.String` panics. -/
def textOf (lib : GoLib) (v : Value) : String :=
  match v.String lib with
  | .ok s => s
  | .error _ => ""

/-- The composite group key of a row: the textual forms of its BY values joined
by `|`. -/
def groupKey (lib : GoLib) (by_ : List String) (r : Row) : String :=
  stringsJoin (by_.map (fun n => textOf lib (r.GetD n))) "|"

/-- Does the row have the composite group key `k`. -/
def keyIs (lib : GoLib) (by_ : List String) (k : String) (r : Row) : Bool :=
  groupKey lib by_ r == k

/-- The row of a group as the specification words it: the BY values of the
first row of the group, then the number of rows of the group in a column
`count` of type int. -/
def summaryRow (lib : GoLib) (by_ : List String) (rows : List Row) (k : String) : Row :=
  let vals := match rows.find? (keyIs lib by_ k) with
    | some r => by_.map r.GetD
    | none => []
  { Schema := NewSchema ((by_.zip vals).map (fun nv => ⟨nv.1, nv.2.Typ⟩)
      ++ [⟨"count", TypeInt⟩]),
    Values := vals ++ [⟨TypeInt, .int (rows.countP (keyIs lib by_ k))⟩] }

/-- The state of the maps of `NewSummarizeOp` after the rows `done`: the keys
are distinct, `counts` holds the number of rows of each key that occurs, and
`keys` holds the BY values of the first row of each key. -/
def SummarizeInv (lib : GoLib) (by_ : List String) (done : List Row) (counts : GoMap Int)
    (keys : GoMap (List Value)) : Prop :=
  counts.keys.Nodup
  ∧ (∀ k : String, counts.get k
      = if done.countP (keyIs lib by_ k) = 0 then none
        else some ((done.countP (keyIs lib by_ k) : Nat) : Int))
  ∧ (∀ k : String, keys.get k = (done.find? (keyIs lib by_ k)).map (fun r => by_.map r.GetD))

/-- The struct `OrderByOp`. -/
structure OrderByOp where
  rows : List Row
  idx : Nat
  deriving DecidableEq, Repr

/-- The closure that `NewOrderByOp` passes to `sort.Slice`, on the rows at the
two positions it is called with. -/
def orderByLess (lib : GoLib) (column : String) (desc : Bool) (ri rj : Row) :
    Except Error Bool :=
  match compareValues lib (ri.GetD column) (rj.GetD column) with
  | .error err => .error err
  | .ok c =>
    let less := decide (c < 0)
    .ok (if desc then !less else less)

/-- The inner loop of `insertionSort_func` of the Go package `sort`:
`for j := i; j > a && less(j, j-1); j-- { swap(j, j-1) }`.  The element `x`
stands at position `i`; the list holds the elements to its left, the nearest
first, and so does the result for position `i + 1`. -/
def insertionSort.shift {α : Type} (less : α → α → Except Error Bool) (x : α) :
    List α → Except Error (List α)
  | [] => .ok [x]
  | p :: ps =>
    match less x p with
    | .error err => .error err
    | .ok true =>
      match insertionSort.shift less x ps with
      | .error err => .error err
      | .ok l => .ok (p :: l)
    | .ok false => .ok (x :: p :: ps)

/-- The function `insertionSort_func` of the Go package `sort`: each element in
turn is moved left past the neighbours it is less than.  `rev` holds the
elements already placed, the last one first. -/
def insertionSort {α : Type} (less : α → α → Except Error Bool) :
    List α → List α → Except Error (List α)
  | [], rev => .ok rev.reverse
  | x :: xs, rev =>
    match insertionSort.shift less x rev with
    | .error err => .error err
    | .ok rev1 => insertionSort less xs rev1

/-- The function `sort.Slice` of the Go standard library.  In every release a
slice of at most 6 elements is sorted by `insertionSort_func` alone; the code
for longer slices differs between releases and is the parameter `longSort`. -/
def sortSlice {α : Type}
    (longSort : (α → α → Except Error Bool) → List α → Except Error (List α))
    (less : α → α → Except Error Bool) (xs : List α) : Except Error (List α) :=
  if xs.length ≤ 6 then insertionSort less xs [] else longSort less xs

/-- What `sort.Slice` promises of its code for long slices: when `less` is a
transitive ordering in the sense of the package documentation (both `less` and
its negation are transitive), the result is a rearrangement of the slice in
which no element is followed by one strictly less than it. -/
def SortsSlice {α : Type}
    (longSort : (α → α → Except Error Bool) → List α → Except Error (List α)) : Prop :=
  ∀ (less : α → α → Except Error Bool) (lt : α → α → Bool) (xs : List α),
    (∀ a ∈ xs, ∀ b ∈ xs, less a b = .ok (lt a b)) →
    (∀ a b c, lt a b = true → lt b c = true → lt a c = true) →
    (∀ a b c, lt a b = false → lt b c = false → lt a c = false) →
    ∃ out : List α, longSort less xs = .ok out ∧ out.Perm xs
      ∧ out.Chain' (fun a b => lt b a = true → lt a b = true)

/-- The first loop of `NewOrderByOp`: it drains the input into `rows`; the fuel
bounds its iterations. -/
def NewOrderByOp.drain {σ : Type} [Operator σ] :
    Nat → σ → List Row → Option (Except Error (List Row) × σ)
  | 0, _, _ => none
  | fuel + 1, inp, rows =>
    match Operator.Next inp with
    | (.error .EOF, s) => some (.ok rows, s)
    | (.error err, s) => some (.error err, s)
    | (.ok row, s) => NewOrderByOp.drain fuel s (rows ++ [row])

/-- The function `NewOrderByOp`. -/
def NewOrderByOp {σ : Type} [Operator σ] (lib : GoLib)
    (longSort : (Row → Row → Except Error Bool) → List Row → Except Error (List Row))
    (fuel : Nat) (inp : σ) (column : String) (desc : Bool) :
    Option (Except Error OrderByOp) :=
  match NewOrderByOp.drain fuel inp [] with
  | none => none
  | some (.error err, _) => some (.error err)
  | some (.ok rows, _) =>
    if rows.length = 0 then some (.ok { rows := rows, idx := 0 })
    else
      match sortSlice longSort (orderByLess lib column desc) rows with
      | .error err => some (.error err)
      | .ok sorted => some (.ok { rows := sorted, idx := 0 })

/-- The method `OrderByOp.Next`. -/
def OrderByOp.Next (o : OrderByOp) : Except Error Row × OrderByOp :=
  if o.idx ≥ o.rows.length then (.error .EOF, o)
  else
    match o.rows[o.idx]? with
    | some row => (.ok row, { o with idx := o.idx + 1 })
    | none => (.error (.panic "index out of range"), o)

/-- The results of `n` successive calls of `OrderByOp.Next`. -/
def OrderByOp.NextN : Nat → OrderByOp → List (Except Error Row)
  | 0, _ => []
  | n + 1, o => (OrderByOp.Next o).1 :: OrderByOp.NextN n (OrderByOp.Next o).2

/-- The sign of the comparison of two keys in a linear order, as the branches
of `compareValues` compute it. -/
def cmpOf {κ : Type} [LinearOrder κ] (a b : κ) : Int :=
  if a < b then -1 else if a > b then 1 else 0

/-- The comparator of `NewOrderByOp` on rows whose keys are `key r`. -/
def keyLess {κ : Type} [LinearOrder κ] (key : Row → κ) (desc : Bool) (a b : Row) : Bool :=
  if desc then !decide (key a < key b) else decide (key a < key b)

/-- All rows carry the key column with values of one same type among int, bool
and string, the payload matching the tag. -/
def SameTypeKeys (column : String) (rows : List Row) : Prop :=
  (∀ r ∈ rows, ∃ i : Int, r.Get column = some ⟨TypeInt, .int i⟩)
  ∨ (∀ r ∈ rows, ∃ b : Bool, r.Get column = some ⟨TypeBool, .bool b⟩)
  ∨ (∀ r ∈ rows, ∃ s : String, r.Get column = some ⟨TypeString, .str s⟩)

/-- The row `(k, v)` of scenario S5: an int column `k` and a string column `v`. -/
def rowKV (k : Int) (v : String) : Row :=
  { Schema := NewSchema [⟨"k", TypeInt⟩, ⟨"v", TypeString⟩],
    Values := [⟨TypeInt, .int k⟩, ⟨TypeString, .str v⟩] }

/-- The inner loop of insertion sort for a comparator that cannot fail. -/
def shiftP {α : Type} (lt : α → α → Bool) (x : α) : List α → List α
  | [] => [x]
  | p :: ps => if lt x p then p :: shiftP lt x ps else x :: p :: ps

/-- Insertion sort for a comparator that cannot fail. -/
def isortP {α : Type} (lt : α → α → Bool) : List α → List α → List α
  | [], rev => rev.reverse
  | x :: xs, rev => isortP lt xs (shiftP lt x rev)

/-- Do the key values of `r` and `x` compare equal under `compareValues`. -/
def keysTie (lib : GoLib) (column : String) (x r : Row) : Bool :=
  decide (compareValues lib (r.GetD column) (x.GetD column) = .ok 0)

/-- Does the payload of the value have the shape its type tag announces; a tag
outside the five types puts no constraint on the payload. -/
def Value.wellTagged (v : Value) : Bool :=
  if v.Typ = TypeString then (match v.V with | .str _ => true | _ => false)
  else if v.Typ = TypeInt then (match v.V with | .int _ => true | _ => false)
  else if v.Typ = TypeFloat then (match v.V with | .float _ => true | _ => false)
  else if v.Typ = TypeBool then (match v.V with | .bool _ => true | _ => false)
  else if v.Typ = TypeDateTime then (match v.V with | .time _ => true | _ => false)
  else true

/-- The test helper `sampleRow`: one column `age` of type int with value 3. -/
def sampleRow : Row :=
  { Schema := NewSchema [⟨"age", TypeInt⟩], Values := [⟨TypeInt, .int 3⟩] }

/-- The row invariant of the data model: the list of the type tags of the values
is the list of the types of the columns, that is, there are as many values as
columns and `Values[i].Type == Schema.Columns[i].Type` for every `i`. -/
def RowInv (r : Row) : Prop :=
  r.Values.map Value.Typ = r.Schema.Columns.map Column.Typ

/-- An input operator that, from every state satisfying `P`, moves to a state
satisfying `P` and delivers only rows satisfying `Good`. -/
def Delivers {σ : Type} [Operator σ] (P : σ → Prop) (Good : Row → Prop) : Prop :=
  ∀ s : σ, P s → P (Operator.Next s).2 ∧ ∀ r : Row, (Operator.Next s).1 = .ok r → Good r

/-- What `sort.Slice` does whatever the comparator is: it only swaps elements,
so a result is a rearrangement of the slice. -/
def PermutesSlice {α : Type}
    (longSort : (α → α → Except Error Bool) → List α → Except Error (List α)) : Prop :=
  ∀ (less : α → α → Except Error Bool) (xs out : List α),
    longSort less xs = .ok out → out.Perm xs

/-- The state of a `JoinOp` between calls: the right rows of its multimap have
the types of the right schema, and its pending rows satisfy the row
invariant. -/
def JoinInv {σ : Type} (j : JoinOp σ) : Prop :=
  (∀ (k : String) (rows : List Row), j.Right.get k = some rows →
      ∀ r ∈ rows, r.Values.map Value.Typ = j.RightSchema.Columns.map Column.Typ)
  ∧ ∀ r ∈ j.pending, RowInv r

/-! ## Go standard library: strings and strconv

Go strings are modelled as Lean strings and handled as lists of characters.
Where the code slices a string at a byte offset, the offset is the length of
an ASCII text just matched at that place, so that it counts characters too. -/

/-- `unicode.IsSpace`. -/
def isSpace (c : Char) : Bool :=
  c.toNat = 0x09 || c.toNat = 0x0A || c.toNat = 0x0B || c.toNat = 0x0C || c.toNat = 0x0D
    || c.toNat = 0x20 || c.toNat = 0x85 || c.toNat = 0xA0 || c.toNat = 0x1680
    || (0x2000 ≤ c.toNat && c.toNat ≤ 0x200A) || c.toNat = 0x2028 || c.toNat = 0x2029
    || c.toNat = 0x202F || c.toNat = 0x205F || c.toNat = 0x3000

/-- The characters after the leading ones that satisfy `p`. -/
def trimLeft (p : Char → Bool) (cs : List Char) : List Char := cs.dropWhile p

/-- The characters before the trailing ones that satisfy `p`. -/
def trimRight (p : Char → Bool) (cs : List Char) : List Char :=
  (cs.reverse.dropWhile p).reverse

/-- `strings.TrimSpace`. -/
def TrimSpace (s : String) : String := ⟨trimRight isSpace (trimLeft isSpace s.data)⟩

/-- `strings.Trim(s, cutset)` for a cutset of one character. -/
def Trim (s : String) (cut : Char) : String :=
  ⟨trimRight (fun c => c == cut) (trimLeft (fun c => c == cut) s.data)⟩

/-- The loop of `strings.Fields`: `cur` is the field being read. -/
def Fields.go : List Char → List Char → List String
  | [], cur => if cur.isEmpty then [] else [⟨cur⟩]
  | c :: cs, cur =>
    if isSpace c then
      (if cur.isEmpty then Fields.go cs [] else ⟨cur⟩ :: Fields.go cs [])
    else Fields.go cs (cur ++ [c])

/-- `strings.Fields`. -/
def Fields (s : String) : List String := Fields.go s.data []

/-- The loop of `strings.Split` for a separator of one character. -/
def Split.go (sep : Char) : List Char → List Char → List String
  | [], cur => [⟨cur⟩]
  | c :: cs, cur =>
    if c = sep then ⟨cur⟩ :: Split.go sep cs [] else Split.go sep cs (cur ++ [c])

/-- `strings.Split(s, sep)` for a separator of one character. -/
def Split (s : String) (sep : Char) : List String := Split.go sep s.data []

/-- The loop of `strings.SplitN(s, sep, 2)` for a separator of one character. -/
def SplitN2.go (sep : Char) : List Char → List Char → List String
  | [], cur => [⟨cur⟩]
  | c :: cs, cur => if c = sep then [⟨cur⟩, ⟨cs⟩] else SplitN2.go sep cs (cur ++ [c])

/-- `strings.SplitN(s, sep, 2)` for a separator of one character. -/
def SplitN2 (s : String) (sep : Char) : List String := SplitN2.go sep s.data []

/-- `strings.ToLower`: ASCII letters are lowered, the other ASCII characters
kept, and the runes outside ASCII mapped by `unicode.ToLower`. -/
def ToLower (lib : GoLib) (s : String) : String :=
  ⟨s.data.map (fun c => if c.toNat < 128 then c.toLower else lib.ToLowerRune c)⟩

/-- `strings.HasPrefix`. -/
def HasPrefix (s p : String) : Bool := p.data.isPrefixOf s.data

/-- `strings.HasSuffix`. -/
def HasSuffix (s p : String) : Bool := p.data.reverse.isPrefixOf s.data.reverse

/-- The slice `s[n:]`. -/
def sliceFrom (s : String) (n : Nat) : String := ⟨s.data.drop n⟩

/-- The slice `s[a:b]`. -/
def sliceBetween (s : String) (a b : Nat) : String := ⟨(s.data.take b).drop a⟩

/-- `strings.TrimPrefix`. -/
def TrimPrefix (s p : String) : String :=
  if HasPrefix s p then sliceFrom s p.data.length else s

/-- The position of the first `c` at or after position `i` of the original
string, for `strings.Index`. -/
def Index.go (c : Char) : List Char → Nat → Option Nat
  | [], _ => none
  | d :: ds, i => if d = c then some i else Index.go c ds (i + 1)

/-- `strings.Index(s, c)` for one character, `none` standing for -1. -/
def Index (s : String) (c : Char) : Option Nat := Index.go c s.data 0

/-- The position of the last `c`, for `strings.LastIndex`. -/
def LastIndex.go (c : Char) : List Char → Nat → Option Nat → Option Nat
  | [], _, last => last
  | d :: ds, i, last => LastIndex.go c ds (i + 1) (if d = c then some i else last)

/-- `strings.LastIndex(s, c)` for one character, `none` standing for -1. -/
def LastIndex (s : String) (c : Char) : Option Nat := LastIndex.go c s.data 0 none

/-- Does `sub` occur in the list. -/
def containsL (sub : List Char) : List Char → Bool
  | [] => sub.isEmpty
  | c :: cs => sub.isPrefixOf (c :: cs) || containsL sub cs

/-- `strings.Contains`. -/
def Contains (s sub : String) : Bool := containsL sub.data s.data

/-- `strings.Join`. -/
def Join : List String → String → String
  | [], _ => ""
  | [a], _ => a
  | a :: b :: rest, sep => a ++ sep ++ Join (b :: rest) sep

/-- The value of a non-empty list of decimal digits. -/
def digitsValue : List Char → Nat → Option Nat
  | [], acc => some acc
  | c :: cs, acc =>
    if '0' ≤ c ∧ c ≤ '9' then digitsValue cs (acc * 10 + (c.toNat - '0'.toNat)) else none

/-- `strconv.ParseInt(s, 10, 64)`, and `strconv.Atoi` on a 64-bit platform:
an optional sign and decimal digits, within the range of `int64`; `none` for
an error. -/
def ParseInt (s : String) : Option Int :=
  let body : Bool × List Char :=
    match s.data with
    | '+' :: r => (false, r)
    | '-' :: r => (true, r)
    | r => (false, r)
  if body.2.isEmpty then none
  else
    match digitsValue body.2 0 with
    | none => none
    | some n =>
      let v : Int := if body.1 then - (n : Int) else (n : Int)
      if - 2 ^ 63 ≤ v ∧ v < 2 ^ 63 then some v else none

/-- `strconv.ParseBool`, `none` for an error. -/
def ParseBool (s : String) : Option Bool :=
  if s = "1" ∨ s = "t" ∨ s = "T" ∨ s = "TRUE" ∨ s = "true" ∨ s = "True" then some true
  else if s = "0" ∨ s = "f" ∨ s = "F" ∨ s = "FALSE" ∨ s = "false" ∨ s = "False" then some false
  else none

/-! ## package plan: operators -/

/-- The implementations of the interface `plan.Operator`. -/
inductive PlanOperator where
  | WhereOp (Predicate : Expr)
  | ProjectOp (Columns : List String)
  | ExtendOp (Name : String) (Value : Expr)
  | TakeOp (Count : Int)
  | OrderByOp (Column : String) (Desc : Bool)
  | SummarizeOp (ByColumns : List String)
  | JoinOp (Kind : String) (Right : String) (LeftKey : String) (RightKey : String)
  deriving DecidableEq, Repr

/-! ## package parser -/

/-- The function `isOperator`. -/
def isOperator (lib : GoLib) (tok : String) : Bool :=
  let t := ToLower lib tok
  t = "where" || t = "project" || t = "extend" || t = "summarize" || t = "take"
    || t = "order" || t = "join"

/-- The function `parseLiteralOrColumn`. -/
def parseLiteralOrColumn (lib : GoLib) (raw0 : String) : Except Error Expr :=
  let raw := TrimSpace raw0
  if raw = "" then .error (.other "empty literal or column")
  else if HasPrefix raw "\"" && HasSuffix raw "\"" then
    .ok (.Literal ⟨TypeString, .str (Trim raw '"')⟩)
  else if HasPrefix raw "'" && HasSuffix raw "'" then
    .ok (.Literal ⟨TypeString, .str (Trim raw '\'')⟩)
  else
    match ParseInt raw with
    | some v => .ok (.Literal ⟨TypeInt, .int v⟩)
    | none =>
      match lib.ParseFloat raw with
      | some v => .ok (.Literal ⟨TypeFloat, .float v⟩)
      | none =>
        match ParseBool raw with
        | some v => .ok (.Literal ⟨TypeBool, .bool v⟩)
        | none => .ok (.ColumnRef raw)

/-- The function `splitCSVList`. -/
def splitCSVList (body0 : String) : List String :=
  let body := TrimSpace body0
  if body = "" then []
  else ((Split body ',').map TrimSpace).filter (fun name => name != "")

/-- The function `parseCompare`. -/
def parseCompare (lib : GoLib) (tokens : List String) : Except Error Expr :=
  match tokens with
  | left :: op :: rest2 =>
    if rest2.isEmpty then .error (.other "invalid comparison")
    else if op = "==" ∨ op = "=" ∨ op = "!=" ∨ op = ">" ∨ op = ">=" ∨ op = "<" ∨ op = "<=" then
      match parseLiteralOrColumn lib (Join rest2 " ") with
      | .error err => .error err
      | .ok right => .ok (.CompareExpr (.ColumnRef left) op right)
    else .error (.other "invalid comparison operator")
  | _ => .error (.other "invalid comparison")

/-- The loop of `parseLogicalExpr` over the tokens after the first
comparison. -/
def parseLogicalExpr.loop (lib : GoLib) (body : String) : Expr → List String → Except Error Expr
  | expr, [] => .ok expr
  | expr, o :: a :: b :: c :: rest =>
    let op := ToLower lib o
    if op ≠ "and" ∧ op ≠ "or" then
      .error (.other ("expected logical operator, got " ++ o))
    else
      match parseCompare lib [a, b, c] with
      | .error err => .error err
      | .ok right => parseLogicalExpr.loop lib body (.LogicalExpr expr op right) rest
  | _, _ => .error (.other ("invalid logical expression: " ++ body))

/-- The function `parseLogicalExpr`. -/
def parseLogicalExpr (lib : GoLib) (body : String) : Except Error Expr :=
  match Fields body with
  | a :: b :: c :: rest =>
    match parseCompare lib [a, b, c] with
    | .error err => .error err
    | .ok left => parseLogicalExpr.loop lib body left rest
  | _ => .error (.other ("invalid expression: " ++ body))

/-- The function `parseWhere`. -/
def parseWhere (lib : GoLib) (seg : String) : Except Error PlanOperator :=
  let body := TrimSpace (TrimPrefix seg "where")
  if body = "" then .error (.other "where requires an expression")
  else
    match parseLogicalExpr lib body with
    | .error err => .error err
    | .ok expr => .ok (.WhereOp expr)

/-- The function `parseProject`. -/
def parseProject (seg : String) : Except Error PlanOperator :=
  let body := TrimSpace (TrimPrefix seg "project")
  let cols := splitCSVList body
  if cols.length = 0 then .error (.other "project requires columns")
  else .ok (.ProjectOp cols)

/-- The function `parseExtend`. -/
def parseExtend (lib : GoLib) (seg : String) : Except Error PlanOperator :=
  let body := TrimSpace (TrimPrefix seg "extend")
  match SplitN2 body '=' with
  | [p0, p1] =>
    let name := TrimSpace p0
    match parseLiteralOrColumn lib (TrimSpace p1) with
    | .error err => .error err
    | .ok valueExpr => .ok (.ExtendOp name valueExpr)
  | _ => .error (.other "extend requires name = value")

/-- The function `parseSummarize`. -/
def parseSummarize (lib : GoLib) (seg : String) : Except Error PlanOperator :=
  let body := TrimSpace (TrimPrefix seg "summarize")
  if !HasPrefix (ToLower lib body) "count()" then
    .error (.other "only count() supported in summarize")
  else
    let body1 := TrimSpace (sliceFrom body 7)
    let body2 := if HasPrefix (ToLower lib body1) "by" then TrimSpace (sliceFrom body1 2)
      else body1
    .ok (.SummarizeOp (splitCSVList body2))

/-- The function `parseTake`. -/
def parseTake (seg : String) : Except Error PlanOperator :=
  match Fields seg with
  | [_, count] =>
    match ParseInt count with
    | none => .error (.other "invalid take count")
    | some n => .ok (.TakeOp n)
  | _ => .error (.other "take requires a count")

/-- The function `parseOrderBy`. -/
def parseOrderBy (lib : GoLib) (seg : String) : Except Error PlanOperator :=
  let lower := ToLower lib seg
  if !HasPrefix lower "order by" then .error (.other "invalid order by")
  else
    let body := TrimSpace (sliceFrom seg 8)
    match Fields body with
    | [] => .error (.other "order by requires a column")
    | [col] => .ok (.OrderByOp col false)
    | col :: dir :: _ =>
      let d := ToLower lib dir
      if d = "desc" then .ok (.OrderByOp col true)
      else if d = "asc" then .ok (.OrderByOp col false)
      else .error (.other "order by direction must be asc or desc")

/-- The loop of `parseJoin` over the fields of the join head, looking for
`kind=`. -/
def parseJoin.kind (lib : GoLib) : List String → String → String
  | [], kind => kind
  | p :: ps, kind =>
    if HasPrefix (ToLower lib p) "kind=" then
      parseJoin.kind lib ps (ToLower lib (TrimPrefix p "kind="))
    else parseJoin.kind lib ps kind

/-- The function `parseJoin`. -/
def parseJoin (lib : GoLib) (seg : String) : Except Error PlanOperator :=
  let lower := ToLower lib seg
  if !HasPrefix lower "join" then .error (.other "invalid join")
  else
    match Index seg '(', LastIndex seg ')' with
    | some openIdx, some closeIdx =>
      if closeIdx ≤ openIdx then
        .error (.other "join requires right input in parentheses")
      else
        let rightPath := TrimSpace (sliceBetween seg (openIdx + 1) closeIdx)
        if rightPath = "" then .error (.other "join requires right input path")
        else
          let joinHead := TrimSpace (sliceBetween seg 0 openIdx)
          let kind :=
            if Contains (ToLower lib joinHead) "kind=" then
              parseJoin.kind lib (Fields joinHead) "inner"
            else "inner"
          let rest := TrimSpace (sliceFrom seg (closeIdx + 1))
          let restLower := ToLower lib rest
          if !HasPrefix restLower "on " then .error (.other "join requires on clause")
          else
            match Fields (sliceFrom rest 3) with
            | leftKey :: op :: rightKey :: _ =>
              if op ≠ "==" ∧ op ≠ "=" then .error (.other "join on only supports = or ==")
              else if kind ≠ "inner" then .error (.other "only inner join supported")
              else .ok (.JoinOp kind rightPath leftKey rightKey)
            | _ => .error (.other "join on requires left op right")
    | _, _ => .error (.other "join requires right input in parentheses")

/-- The function `parseOperator`. -/
def parseOperator (lib : GoLib) (seg : String) : Except Error PlanOperator :=
  match Fields seg with
  | [] => .error (.other "empty segment")
  | f :: _ =>
    let kw := ToLower lib f
    if kw = "where" then parseWhere lib seg
    else if kw = "project" then parseProject seg
    else if kw = "extend" then parseExtend lib seg
    else if kw = "summarize" then parseSummarize lib seg
    else if kw = "take" then parseTake seg
    else if kw = "order" then parseOrderBy lib seg
    else if kw = "join" then parseJoin lib seg
    else .error (.other ("unknown operator: " ++ f))

/-- Is the segment a source designator: a single field that is not an operator
keyword. -/
def isDesignator (lib : GoLib) (seg : String) : Bool :=
  match Fields seg with
  | [f] => !isOperator lib f
  | _ => false

/-- The loop of `Parse` over the parts of the query; `i` is the index of the
first of `parts` in the split query. -/
def Parse.loop (lib : GoLib) : Nat → List String → List PlanOperator →
    Except Error (List PlanOperator)
  | _, [], ops => if ops.length = 0 then .error (.other "empty query") else .ok ops
  | i, p :: ps, ops =>
    let seg := TrimSpace p
    if seg = "" then Parse.loop lib (i + 1) ps ops
    else if i = 0 ∧ isDesignator lib seg = true then Parse.loop lib (i + 1) ps ops
    else
      match parseOperator lib seg with
      | .error err => .error err
      | .ok op => Parse.loop lib (i + 1) ps (ops ++ [op])

/-- The function `Parse`. -/
def Parse (lib : GoLib) (query : String) : Except Error (List PlanOperator) :=
  Parse.loop lib 0 (Split query '|') []

/-- A token as `strings.Fields` yields them: not empty and without white
space. -/
def isField (t : String) : Prop :=
  t.data ≠ [] ∧ ∀ ch ∈ t.data, isSpace ch = false

instance (t : String) : Decidable (isField t) := by
  unfold isField
  exact inferInstance

/-- The comparison operators that `parseCompare` accepts. -/
def isCompareOp (op : String) : Prop :=
  op = "==" ∨ op = "=" ∨ op = "!=" ∨ op = ">" ∨ op = ">=" ∨ op = "<" ∨ op = "<="

instance (op : String) : Decidable (isCompareOp op) := by
  unfold isCompareOp
  exact inferInstance

/-- The expression that `parseLiteralOrColumn` returns for an operand. -/
def operandExpr (lib : GoLib) (t : String) : Expr :=
  match parseLiteralOrColumn lib t with
  | .ok e => e
  | .error _ => .other

/-- The comparison `column op operand` as an expression. -/
def cmpExpr (lib : GoLib) (c : String × String × String) : Expr :=
  .CompareExpr (.ColumnRef c.1) c.2.1 (operandExpr lib c.2.2)

/-- The strictly left-nested tree over a first expression and the following
connectives with their right sides. -/
def leftNest : Expr → List (String × Expr) → Expr
  | e, [] => e
  | e, (o, r) :: rest => leftNest (.LogicalExpr e o r) rest

/-- The tokens of a first comparison followed by connectives with their
comparisons. -/
def tokensOf (first : String × String × String)
    (more : List (String × String × String × String)) : List String :=
  [first.1, first.2.1, first.2.2]
    ++ more.flatMap (fun oc => [oc.1, oc.2.1, oc.2.2.1, oc.2.2.2])

/-! ## package model: parsing and inference -/

/-- The function `model.ParseValue`.  An error of the library is rendered by the
name of the function that failed. -/
def ParseValue (lib : GoLib) (t : Typ) (raw : String) : Except Error Value :=
  let s := TrimSpace raw
  if t = TypeInt then
    match ParseInt s with
    | none => .error (.other "strconv.ParseInt")
    | some v => .ok ⟨TypeInt, .int v⟩
  else if t = TypeFloat then
    match lib.ParseFloat s with
    | none => .error (.other "strconv.ParseFloat")
    | some v => .ok ⟨TypeFloat, .float v⟩
  else if t = TypeBool then
    match ParseBool s with
    | none => .error (.other "strconv.ParseBool")
    | some v => .ok ⟨TypeBool, .bool v⟩
  else if t = TypeDateTime then
    match lib.ParseRFC3339 s with
    | none => .error (.other "time.Parse")
    | some v => .ok ⟨TypeDateTime, .time v⟩
  else .ok ⟨TypeString, .str s⟩

/-- The four flags of `InferType`: `isInt`, `isFloat`, `isBool`, `isTime`. -/
structure InferFlags where
  isInt : Bool
  isFloat : Bool
  isBool : Bool
  isTime : Bool
  deriving DecidableEq, Repr

/-- The loop of `InferType` over the samples. -/
def InferType.loop (lib : GoLib) : List String → InferFlags → InferFlags
  | [], f => f
  | v0 :: vs, f =>
    let v := TrimSpace v0
    if v = "" then InferType.loop lib vs f
    else
      let isInt := if f.isInt then (if (ParseInt v).isNone then false else f.isInt) else f.isInt
      let isFloat :=
        if f.isFloat then (if (lib.ParseFloat v).isNone then false else f.isFloat) else f.isFloat
      let isBool :=
        if f.isBool then (if (ParseBool v).isNone then false else f.isBool) else f.isBool
      let isTime :=
        if f.isTime then (if (lib.ParseRFC3339 v).isNone then false else f.isTime) else f.isTime
      InferType.loop lib vs ⟨isInt, isFloat, isBool, isTime⟩

/-- The function `model.InferType`. -/
def InferType (lib : GoLib) (values : List String) : Typ :=
  if values.length = 0 then TypeString
  else
    let f := InferType.loop lib values ⟨true, true, true, true⟩
    if f.isInt then TypeInt
    else if f.isFloat then TypeFloat
    else if f.isBool then TypeBool
    else if f.isTime then TypeDateTime
    else TypeString

/-- Does a text parse under a type; every text parses under `string`. -/
def parsesAs (lib : GoLib) (t : Typ) (v : String) : Bool :=
  if t = TypeInt then (ParseInt v).isSome
  else if t = TypeFloat then (lib.ParseFloat v).isSome
  else if t = TypeBool then (ParseBool v).isSome
  else if t = TypeDateTime then (lib.ParseRFC3339 v).isSome
  else true

/-- A type is admissible for a list of samples when every sample that is not
empty after trimming parses under it. -/
def admissible (lib : GoLib) (t : Typ) (samples : List String) : Bool :=
  samples.all (fun v => TrimSpace v = "" || parsesAs lib t (TrimSpace v))

/-- The reference definition of type inference, in the words of the
specification: `string` on the empty list, and otherwise the first admissible
type in the order int, float, bool, datetime, string. -/
def InferTypeSpec (lib : GoLib) (samples : List String) : Typ :=
  match samples with
  | [] => TypeString
  | _ :: _ =>
    ([TypeInt, TypeFloat, TypeBool, TypeDateTime, TypeString].find?
      (fun t => admissible lib t samples)).getD TypeString

/-! ## packages csvio and jsonio: records -/

/-- The loop of the method `Reader.parseRecord` of `csvio` over the columns
from position `i` on; `vals` holds the values before that position.  The error
message names the column and leaves out the wrapped error of the library. -/
def parseRecord.loop (lib : GoLib) (record : List String) :
    Nat → List Column → List Value → Except Error (List Value)
  | _, [], vals => .ok vals
  | i, col :: cols, vals =>
    if i ≥ record.length then
      parseRecord.loop lib record (i + 1) cols (vals ++ [⟨col.Typ, .str ""⟩])
    else
      match ParseValue lib col.Typ (record.getD i "") with
      | .error _ => .error (.other ("parse column " ++ col.Name))
      | .ok v => parseRecord.loop lib record (i + 1) cols (vals ++ [v])

/-- The method `Reader.parseRecord` of `csvio`, for a reader of the given
schema. -/
def parseRecord (lib : GoLib) (schema : Schema) (record : List String) : Except Error Row :=
  match parseRecord.loop lib record 0 schema.Columns [] with
  | .error err => .error err
  | .ok vals => .ok ⟨schema, vals⟩

/-- The loop of the method `Reader.parseObject` of `jsonio` over the columns;
`render` is `fmt.Sprintf("%v", raw)` on a decoded JSON value.  The error message
names the field and leaves out the wrapped error of the library. -/
def parseObject.loop {J : Type} (lib : GoLib) (render : J → String) (obj : GoMap J) :
    List Column → List Value → Except Error (List Value)
  | [], vals => .ok vals
  | col :: cols, vals =>
    match obj.get col.Name with
    | none => parseObject.loop lib render obj cols (vals ++ [⟨col.Typ, .str ""⟩])
    | some raw =>
      match ParseValue lib col.Typ (render raw) with
      | .error _ => .error (.other ("parse field " ++ col.Name))
      | .ok v => parseObject.loop lib render obj cols (vals ++ [v])

/-- The method `Reader.parseObject` of `jsonio`, for a reader of the given
schema. -/
def parseObject {J : Type} (lib : GoLib) (render : J → String) (schema : Schema)
    (obj : GoMap J) : Except Error Row :=
  match parseObject.loop lib render obj schema.Columns [] with
  | .error err => .error err
  | .ok vals => .ok ⟨schema, vals⟩

/-- A `ProjectOp` is an operator, so that it can be the input of another. -/
instance {σ : Type} [Operator σ] : Operator (ProjectOp σ) := ⟨ProjectOp.Next⟩

/-- What `sort.Slice` does on a long slice when the comparator never panics on
its elements: it returns. -/
def ReturnsSlice {α : Type}
    (longSort : (α → α → Except Error Bool) → List α → Except Error (List α)) : Prop :=
  ∀ (less : α → α → Except Error Bool) (xs : List α),
    (∀ a ∈ xs, ∀ b ∈ xs, ∃ c : Bool, less a b = .ok c) →
    ∃ out : List α, longSort less xs = .ok out

/-! ## package csvio: the reader -/

/-- The text of a Go error, as its method `Error` returns it. -/
def Error.text : Error → String
  | .EOF => "EOF"
  | .other msg => msg
  | .panic msg => msg

/-- What `encoding/csv` finds at the next record of its input: the fields of a
record, or input that it rejects (a quote out of place, a failed read), with the
fields parsed until then and the text of the error. -/
inductive csv.Item where
  | record (fields : List String)
  | failure (fields : List String) (msg : String)
  deriving DecidableEq, Repr

/-- The state of a `csv.Reader` of the library: the input still to read and the
field `FieldsPerRecord`. -/
structure csv.Reader where
  input : List csv.Item
  FieldsPerRecord : Nat
  deriving DecidableEq, Repr

/-- The function `csv.NewReader`: it leaves `FieldsPerRecord` at 0. -/
def csv.NewReader (input : List csv.Item) : csv.Reader :=
  { input := input, FieldsPerRecord := 0 }

/-- The text of the error `csv.ErrFieldCount`; the line that `csv.ParseError`
puts before it is left out. -/
def ErrFieldCount : String := "wrong number of fields"

/-- The method `Read` of `csv.Reader`: `io.EOF` at the end of the input; under a
positive `FieldsPerRecord` a record with another number of fields is the error
`ErrFieldCount`; while `FieldsPerRecord` is 0 the record read sets it to its
number of fields. -/
def csv.Reader.Read (r : csv.Reader) : Except Error (List String) × csv.Reader :=
  match r.input with
  | [] => (.error .EOF, r)
  | .failure fields msg :: rest =>
    (.error (.other msg),
      { input := rest,
        FieldsPerRecord := if r.FieldsPerRecord = 0 then fields.length else r.FieldsPerRecord })
  | .record fields :: rest =>
    if r.FieldsPerRecord > 0 then
      if fields.length ≠ r.FieldsPerRecord then
        (.error (.other ErrFieldCount), { input := rest, FieldsPerRecord := r.FieldsPerRecord })
      else (.ok fields, { input := rest, FieldsPerRecord := r.FieldsPerRecord })
    else (.ok fields, { input := rest, FieldsPerRecord := fields.length })

/-- The struct `csvio.Reader`, without the file handle. -/
structure Reader where
  csvr : csv.Reader
  schema : Schema
  buffer : List (List String)
  bufferIx : Nat
  deriving DecidableEq, Repr

/-- The inner loop of `NewReader` over the positions of the header:
`cols[c] = append(cols[c], rec[c])` where the record has a field `c`; the list
holds `cols` from position `c` on. -/
def NewReader.addSamples : Nat → List (List String) → List String → List (List String)
  | _, [], _ => []
  | c, col :: cols, record =>
    (if c < record.length then col ++ [record.getD c ""] else col)
      :: NewReader.addSamples (c + 1) cols record

/-- The sampling loop of `NewReader` with `n` iterations left, over the
`csv.Reader`, the buffer and the samples by column: `io.EOF` ends the loop, any
other error of `Read` is returned as `sample read: ...`. -/
def NewReader.sample : Nat → csv.Reader → List (List String) → List (List String) →
    Except Error (csv.Reader × List (List String) × List (List String))
  | 0, csvr, buffer, cols => .ok (csvr, buffer, cols)
  | n + 1, csvr, buffer, cols =>
    match csvr.Read with
    | (.error .EOF, csvr) => .ok (csvr, buffer, cols)
    | (.error err, _) => .error (.other ("sample read: " ++ err.text))
    | (.ok record, csvr) =>
      NewReader.sample n csvr (buffer ++ [record]) (NewReader.addSamples 0 cols record)

/-- The loop of `NewReader` that builds the inferred columns:
`inferred[i] = Column{name, InferType(cols[i])}` for the header names from
position `i` on. -/
def NewReader.inferred (lib : GoLib) (cols : List (List String)) : Nat → List String → List Column
  | _, [] => []
  | i, name :: names =>
    ⟨name, InferType lib (cols.getD i [])⟩ :: NewReader.inferred lib cols (i + 1) names

/-- The sample size `inferSampleSize`. -/
def inferSampleSize : Nat := 100

/-- The function `csvio.NewReader` once `os.Open` has succeeded; `input` is what
`encoding/csv` finds in the file, the header first.  An error of the first
`Read` is returned as `read header: ...`. -/
def NewReader (lib : GoLib) (input : List csv.Item) (schema : Option Schema) :
    Except Error Reader :=
  match (csv.NewReader input).Read with
  | (.error err, _) => .error (.other ("read header: " ++ err.text))
  | (.ok head, csvr) =>
    match schema with
    | some sch => .ok { csvr := csvr, schema := sch, buffer := [], bufferIx := 0 }
    | none =>
      match NewReader.sample inferSampleSize csvr [] (List.replicate head.length []) with
      | .error err => .error err
      | .ok sampled =>
        .ok { csvr := sampled.1, schema := NewSchema (NewReader.inferred lib sampled.2.2 0 head),
              buffer := sampled.2.1, bufferIx := 0 }

/-- The method `Reader.Next` of `csvio`: the buffered records first, then the
records that `Read` returns; an error of `Read` is returned as it is. -/
def Reader.Next (lib : GoLib) (r : Reader) : Except Error Row × Reader :=
  if r.bufferIx < r.buffer.length then
    match r.buffer[r.bufferIx]? with
    | some record => (parseRecord lib r.schema record, { r with bufferIx := r.bufferIx + 1 })
    | none => (.error (.panic "index out of range"), r)
  else
    match r.csvr.Read with
    | (.error err, csvr) => (.error err, { r with csvr := csvr })
    | (.ok record, csvr) => (parseRecord lib r.schema record, { r with csvr := csvr })

/-- The results of `n` successive calls of `Reader.Next`. -/
def Reader.NextN (lib : GoLib) : Nat → Reader → List (Except Error Row)
  | 0, _ => []
  | n + 1, r => (Reader.Next lib r).1 :: Reader.NextN lib n (Reader.Next lib r).2

/-- A CSV file as `encoding/csv` finds it: the header and the data records, all
well-formed. -/
def csvFile (head : List String) (records : List (List String)) : List csv.Item :=
  .record head :: records.map .record

/-- The samples of column `c`: the fields at position `c` of the records that
have one. -/
def columnOf (c : Nat) (records : List (List String)) : List String :=
  records.filterMap (fun record => record[c]?)

/-- The type tag that `parseRecord` gives the value at position `i`: the column
type for a missing field, and for a present one the tag that `ParseValue`
returns, which is `string` under a type outside the five. -/
def recordTag (record : List String) (i : Nat) (c : Column) : Typ :=
  if i ≥ record.length then c.Typ
  else if c.Typ = TypeInt ∨ c.Typ = TypeFloat ∨ c.Typ = TypeBool ∨ c.Typ = TypeDateTime then c.Typ
  else TypeString

/-- The tags of `recordTag` for the columns from position `i` on. -/
def recordTags (record : List String) : Nat → List Column → List Typ
  | _, [] => []
  | i, c :: cs => recordTag record i c :: recordTags record (i + 1) cs

/-! ## package jsonio: the reader -/

/-- A line of the input after trimming: blank, a JSON object as decoded into a
map, or a text that `parseJSONLine` rejects. -/
inductive JSONLine (J : Type) where
  | blank
  | object (obj : GoMap J)
  | malformed

/-- The struct `jsonio.Reader`; `lines` holds the lines that the scanner has
still to return. -/
structure jsonio.Reader (J : Type) where
  lines : List (JSONLine J)
  schema : Schema
  buffer : List (GoMap J)
  bufferIx : Nat
  columns : List String

/-- The inner loop of `jsonio.NewReader` over the entries of an object:
`colSamples[k] = append(colSamples[k], fmt.Sprintf("%v", v))`. -/
def jsonio.NewReader.addSamples {J : Type} (render : J → String) :
    List (String × J) → GoMap (List String) → GoMap (List String)
  | [], colSamples => colSamples
  | (k, v) :: rest, colSamples =>
    jsonio.NewReader.addSamples render rest
      (colSamples.set k ((colSamples.get k).getD [] ++ [render v]))

/-- The sampling loop of `jsonio.NewReader` with `n` iterations left: a blank line
uses up an iteration, a malformed line is an error. -/
def jsonio.NewReader.sample {J : Type} (render : J → String) :
    Nat → List (JSONLine J) → List (GoMap J) → GoMap (List String) →
      Except Error (List (JSONLine J) × List (GoMap J) × GoMap (List String))
  | 0, lines, buffer, colSamples => .ok (lines, buffer, colSamples)
  | _ + 1, [], buffer, colSamples => .ok ([], buffer, colSamples)
  | n + 1, .blank :: rest, buffer, colSamples =>
    jsonio.NewReader.sample render n rest buffer colSamples
  | _ + 1, .malformed :: _, _, _ => .error (.other "invalid JSON line")
  | n + 1, .object obj :: rest, buffer, colSamples =>
    jsonio.NewReader.sample render n rest (buffer ++ [obj])
      (jsonio.NewReader.addSamples render obj colSamples)

/-- The function `jsonio.NewReader` after it has opened the file.  `order` is
the order in which Go ranges over the keys of the map `colSamples`, which the
language leaves unspecified. -/
def jsonio.NewReader {J : Type} (lib : GoLib) (render : J → String)
    (order : List String → List String) (lines : List (JSONLine J))
    (schema : Option Schema) : Except Error (jsonio.Reader J) :=
  match schema with
  | some sch =>
    .ok { lines := lines, schema := sch, buffer := [], bufferIx := 0,
          columns := sch.Columns.map Column.Name }
  | none =>
    match jsonio.NewReader.sample render inferSampleSize lines [] [] with
    | .error err => .error err
    | .ok (rest, buffer, colSamples) =>
      let names := order colSamples.keys
      let cols := names.map (fun name => (⟨name, InferType lib ((colSamples.get name).getD [])⟩ :
        Column))
      .ok { lines := rest, schema := NewSchema cols, buffer := buffer, bufferIx := 0,
            columns := names }

/-- The keys in the order in which they are first seen: `acc` holds those seen
so far. -/
def firstSeen : List String → List String → List String
  | [], acc => acc
  | k :: ks, acc => firstSeen ks (if k ∈ acc then acc else acc ++ [k])

/-- The keys of the objects among the first `n` lines, line after line. -/
def sampledKeys {J : Type} : Nat → List (JSONLine J) → List String
  | 0, _ => []
  | _ + 1, [] => []
  | n + 1, .object obj :: rest => obj.keys ++ sampledKeys n rest
  | n + 1, _ :: rest => sampledKeys n rest

/-! ## command kqlfile: the driver -/

/-- The function `isOperatorToken`. -/
def isOperatorToken (lib : GoLib) (tok : String) : Bool :=
  let t := ToLower lib tok
  t = "where" || t = "project" || t = "extend" || t = "summarize" || t = "take"
    || t = "order" || t = "join"

/-- The function `parseTableName`; an index out of range panics. -/
def parseTableName (lib : GoLib) (query : String) : Except Error String :=
  match Split query '|' with
  | [] => .error (.panic "index out of range")
  | p0 :: _ =>
    let first := TrimSpace p0
    if first = "" then .ok ""
    else
      match Fields first with
      | [] => .error (.panic "index out of range")
      | f :: _ => if isOperatorToken lib f then .ok "" else .ok f

/-- The loop of the method `inputList.ToMap`. -/
def ToMap.loop : List String → GoMap String → Nat → Except Error (GoMap String)
  | [], out, _ =>
    if out.length = 0 then .error (.other "no valid inputs provided") else .ok out
  | v0 :: vs, out, unnamed =>
    let v := TrimSpace v0
    if v = "" then ToMap.loop vs out unnamed
    else if Contains v "=" then
      match SplitN2 v '=' with
      | [p0, p1] =>
        let name := TrimSpace p0
        let path := TrimSpace p1
        if name = "" ∨ path = "" then .error (.other "input must be name=path")
        else ToMap.loop vs (out.set name path) unnamed
      | _ => .error (.panic "index out of range")
    else
      if unnamed + 1 > 1 then .error (.other "only one unnamed input is allowed")
      else ToMap.loop vs (out.set "T" v) (unnamed + 1)

/-- The method `inputList.ToMap`. -/
def ToMap (inputs : List String) : Except Error (GoMap String) :=
  ToMap.loop inputs [] 0

/-- The table resolution of `run`: from the inputs and the query to the path of
the input to read. -/
def run.inputPath (lib : GoLib) (inputs : List String) (query : String) : Except Error String :=
  match ToMap inputs with
  | .error err => .error err
  | .ok inputMap =>
    match parseTableName lib query with
    | .error err => .error err
    | .ok name =>
      if name = "" ∧ inputMap.length > 1 then
        .error (.other "query must specify a table name when multiple inputs are provided")
      else
        let tableName := if name = "" then "T" else name
        match inputMap.get tableName with
        | none => .error (.other ("unknown table name: " ++ tableName))
        | some inputPath => .ok inputPath

/-- The loop of `parseSchema` over the parts of the text. -/
def parseSchema.loop (lib : GoLib) : List String → List Column → Except Error (List Column)
  | [], cols => .ok cols
  | p0 :: ps, cols =>
    let p := TrimSpace p0
    if p = "" then parseSchema.loop lib ps cols
    else
      match SplitN2 p ':' with
      | [k, t] => parseSchema.loop lib ps (cols ++ [⟨TrimSpace k, ToLower lib (TrimSpace t)⟩])
      | _ => .error (.other "schema must be col:type")

/-- The function `parseSchema`. -/
def parseSchema (lib : GoLib) (raw : String) : Except Error Schema :=
  match parseSchema.loop lib (Split raw ',') [] with
  | .error err => .error err
  | .ok cols =>
    if cols.length = 0 then .error (.other "empty schema") else .ok (NewSchema cols)

/-! ## Shapes of parsed predicates -/

/-- An operand as `parseLiteralOrColumn` builds it: a column reference, or a
literal whose payload has the shape of its tag. -/
def isOperand : Expr → Bool
  | .ColumnRef _ => true
  | .Literal v => v.wellTagged
  | _ => false

/-- A comparison as `parseCompare` builds it. -/
def isComparison : Expr → Bool
  | .CompareExpr (.ColumnRef _) op r => decide (isCompareOp op) && isOperand r
  | _ => false

/-- A predicate as `parseLogicalExpr` builds it: comparisons connected by `and`
and `or`, nested to the left. -/
def isPredicate : Expr → Bool
  | .LogicalExpr l op r => (op = "and" || op = "or") && isPredicate l && isComparison r
  | e => isComparison e

/-! ## Theorems -/

/-! ### Maps and schemas -/

/-- The lookup after an assignment: `m[k] = v` changes the entry of `k` only. -/
theorem GoMap_get_set {α : Type} (m : GoMap α) (k : String) (v : α) (k' : String) :
    (m.set k v).get k' = if k' = k then some v else m.get k' := by
  induction m with
  | nil =>
    by_cases hk : k' = k
    · subst hk; simp [GoMap.set, GoMap.get]
    · have : ¬ k = k' := fun e => hk e.symm
      simp [GoMap.set, GoMap.get, hk, this]
  | cons p m ih =>
    obtain ⟨a, b⟩ := p
    by_cases hak : a = k
    · subst hak
      by_cases hk : k' = a
      · subst hk; simp [GoMap.set, GoMap.get]
      · have : ¬ a = k' := fun e => hk e.symm
        simp [GoMap.set, GoMap.get, hk, this]
    · by_cases hk : k' = k
      · subst hk
        simp [GoMap.set, GoMap.get, hak, ih]
      · by_cases hka : a = k'
        · subst hka; simp [GoMap.set, GoMap.get, hak, hk]
        · simp [GoMap.set, GoMap.get, hak, hka, ih, hk]

theorem NewSchema_loop_get (n : String) (cols : List Column) :
    ∀ (i : Nat) (idx : GoMap Nat),
      (NewSchema.loop i cols idx).get n
        = match lastIndexFrom n i cols with
          | some j => some j
          | none => idx.get n := by
  induction cols with
  | nil => intro i idx; simp [NewSchema.loop, lastIndexFrom]
  | cons c cs ih =>
    intro i idx
    simp only [NewSchema.loop, lastIndexFrom, ih, GoMap_get_set]
    cases lastIndexFrom n (i + 1) cs with
    | some j => rfl
    | none =>
      by_cases h : c.Name = n
      · simp [h]
      · have h' : ¬ n = c.Name := fun e => h e.symm
        simp [h, h']

/-- The index built by `NewSchema` maps a name to the position of the last
column of that name. -/
theorem NewSchema_get (cols : List Column) (n : String) :
    (NewSchema cols).Index.get n = lastIndexFrom n 0 cols := by
  unfold NewSchema
  simp only [NewSchema_loop_get]
  cases lastIndexFrom n 0 cols <;> simp [GoMap.get]

theorem lastIndexFrom_bounds (n : String) (cols : List Column) :
    ∀ (i j : Nat), lastIndexFrom n i cols = some j → i ≤ j ∧ j < i + cols.length := by
  induction cols with
  | nil => intro i j h; simp [lastIndexFrom] at h
  | cons c cs ih =>
    intro i j h
    simp only [lastIndexFrom] at h
    cases hl : lastIndexFrom n (i + 1) cs with
    | some j' =>
      rw [hl] at h
      simp only [Option.some.injEq] at h
      subst h
      have := ih (i + 1) j' hl
      simp only [List.length_cons]
      omega
    | none =>
      rw [hl] at h
      simp only at h
      split at h
      · simp only [Option.some.injEq] at h
        subst h
        simp
      · exact absurd h (by simp)

theorem lastIndexFrom_append_other (n : String) (c : Column) (hc : c.Name ≠ n)
    (cols : List Column) :
    ∀ i : Nat, lastIndexFrom n i (cols ++ [c]) = lastIndexFrom n i cols := by
  induction cols with
  | nil => intro i; simp [lastIndexFrom, hc]
  | cons d ds ih => intro i; simp [lastIndexFrom, ih]

theorem lastIndexFrom_append_self (c : Column) (cols : List Column) :
    ∀ i : Nat, lastIndexFrom c.Name i (cols ++ [c]) = some (i + cols.length) := by
  induction cols with
  | nil => intro i; simp [lastIndexFrom]
  | cons d ds ih =>
    intro i
    have : i + 1 + ds.length = i + (ds.length + 1) := by omega
    simp only [List.cons_append, lastIndexFrom, List.append_eq, ih (i + 1), List.length_cons,
      this]

theorem sliceOp_Next_cons (pre : List Row) (r : Row) (rest : List Row) :
    sliceOp.Next ⟨pre ++ r :: rest, pre.length⟩
      = (.ok r, ⟨pre ++ r :: rest, pre.length + 1⟩) := by
  have h : (pre ++ r :: rest)[pre.length]? = some r := by
    rw [List.getElem?_append_right (Nat.le_refl _)]
    simp
  unfold sliceOp.Next
  simp only [h]
  simp

theorem sliceOp_Next_end (all : List Row) :
    sliceOp.Next ⟨all, all.length⟩ = (.error .EOF, ⟨all, all.length⟩) := by
  simp [sliceOp.Next]

theorem keeps_false_iff (lib : GoLib) (e : Expr) (r : Row)
    (h : ∃ b, evalLogical lib r e = .ok b) :
    keepsRow lib e r = false ↔ evalLogical lib r e = .ok false := by
  obtain ⟨b, hb⟩ := h
  cases b <;> simp [keepsRow, hb]

theorem keeps_true_iff (lib : GoLib) (e : Expr) (r : Row) :
    keepsRow lib e r = true ↔ evalLogical lib r e = .ok true := by
  unfold keepsRow
  split <;> simp_all

/-- The loop of `FilterOp.Next` skips the rows it rejects and returns the first
row it keeps. -/
theorem FilterOp_Next_skip (lib : GoLib) (e : Expr) (skip : List Row) :
    ∀ (pre : List Row) (r : Row) (tl : List Row) (fuel : Nat),
      (∀ x ∈ skip, evalLogical lib x e = .ok false) →
      evalLogical lib r e = .ok true → skip.length < fuel →
      FilterOp.Next lib fuel ⟨(⟨pre ++ (skip ++ r :: tl), pre.length⟩ : sliceOp), e⟩
        = some (.ok r, ⟨⟨pre ++ (skip ++ r :: tl), pre.length + skip.length + 1⟩, e⟩) := by
  induction skip with
  | nil =>
    intro pre r tl fuel _ hr hf
    obtain ⟨f, rfl⟩ : ∃ f, fuel = f + 1 := ⟨fuel - 1, by simp at hf; omega⟩
    simp [FilterOp.Next, Operator.Next, sliceOp_Next_cons, hr]
  | cons x skip ih =>
    intro pre r tl fuel hs hr hf
    obtain ⟨f, rfl⟩ : ∃ f, fuel = f + 1 := ⟨fuel - 1, by simp at hf; omega⟩
    have hx : evalLogical lib x e = .ok false := hs x (by simp)
    have h := ih (pre ++ [x]) r tl f (fun y hy => hs y (by simp [hy])) hr
      (by simp at hf; omega)
    simp only [List.append_assoc, List.singleton_append, List.length_append,
      List.length_singleton] at h
    simp only [FilterOp.Next, Operator.Next, List.cons_append, sliceOp_Next_cons, hx, h,
      List.length_cons]
    simp only [Option.some.injEq, Prod.mk.injEq, true_and]
    congr 2
    omega

/-- When no remaining row is kept, the loop of `FilterOp.Next` ends with
`io.EOF`, the source being exhausted. -/
theorem FilterOp_Next_eof (lib : GoLib) (e : Expr) (rest : List Row) :
    ∀ (pre : List Row) (fuel : Nat),
      (∀ x ∈ rest, evalLogical lib x e = .ok false) → rest.length < fuel →
      FilterOp.Next lib fuel ⟨(⟨pre ++ rest, pre.length⟩ : sliceOp), e⟩
        = some (.error .EOF, ⟨⟨pre ++ rest, (pre ++ rest).length⟩, e⟩) := by
  induction rest with
  | nil =>
    intro pre fuel _ hf
    obtain ⟨f, rfl⟩ : ∃ f, fuel = f + 1 := ⟨fuel - 1, by simp at hf; omega⟩
    simp [FilterOp.Next, Operator.Next, sliceOp_Next_end]
  | cons x rest ih =>
    intro pre fuel hs hf
    obtain ⟨f, rfl⟩ : ∃ f, fuel = f + 1 := ⟨fuel - 1, by simp at hf; omega⟩
    have hx : evalLogical lib x e = .ok false := hs x (by simp)
    have h := ih (pre ++ [x]) f (fun y hy => hs y (by simp [hy])) (by simp at hf; omega)
    simp only [List.append_assoc, List.singleton_append, List.length_append,
      List.length_singleton] at h
    simp only [FilterOp.Next, Operator.Next, sliceOp_Next_cons, hx, h, List.length_append,
      List.length_cons]

theorem FilterOp_NextN_aux (lib : GoLib) (e : Expr) (fuel : Nat) (out : List Row) :
    ∀ (pre rest : List Row) (k : Nat),
      (∀ r ∈ rest, ∃ b, evalLogical lib r e = .ok b) → rest.length < fuel →
      rest.filter (keepsRow lib e) = out →
      (FilterOp.NextN lib fuel (out.length + k)
          ⟨(⟨pre ++ rest, pre.length⟩ : sliceOp), e⟩).map Prod.fst
        = some (out.map Except.ok ++ List.replicate k (Except.error Error.EOF)) := by
  induction out with
  | nil =>
    intro pre rest k hev hf hout
    have hall : ∀ x ∈ rest, evalLogical lib x e = .ok false := by
      intro x hx
      have := (List.filter_eq_nil_iff.mp hout) x hx
      exact (keeps_false_iff lib e x (hev x hx)).mp (by simpa using this)
    have h1 := FilterOp_Next_eof lib e rest pre fuel hall hf
    have h2 := FilterOp_Next_eof lib e [] (pre ++ rest) fuel (by simp) (by simp; omega)
    simp only [List.append_nil] at h2
    simp only [List.length_nil, Nat.zero_add, List.map_nil, List.nil_append]
    cases k with
    | zero => simp [FilterOp.NextN]
    | succ k =>
      have key : ∀ j, (FilterOp.NextN lib fuel j
          ⟨(⟨pre ++ rest, (pre ++ rest).length⟩ : sliceOp), e⟩).map Prod.fst
          = some (List.replicate j (Except.error Error.EOF)) := by
        intro j
        induction j with
        | zero => simp [FilterOp.NextN]
        | succ j ihj =>
          simp only [FilterOp.NextN, h2]
          cases hn : FilterOp.NextN lib fuel j
              ⟨(⟨pre ++ rest, (pre ++ rest).length⟩ : sliceOp), e⟩ with
          | none => rw [hn] at ihj; exact absurd ihj (by simp)
          | some q =>
            rw [hn] at ihj
            simp only [Option.map_some'] at ihj
            simp [List.replicate_succ, Option.some.inj ihj]
      have hk := key k
      simp only [FilterOp.NextN, h1]
      cases hn : FilterOp.NextN lib fuel k
          ⟨(⟨pre ++ rest, (pre ++ rest).length⟩ : sliceOp), e⟩ with
      | none => rw [hn] at hk; exact absurd hk (by simp)
      | some q =>
        rw [hn] at hk
        simp only [Option.map_some'] at hk
        simp [List.replicate_succ, Option.some.inj hk]
  | cons r out ih =>
    intro pre rest k hev hf hout
    obtain ⟨l₁, l₂, hrest, hl₁, hr, hl₂⟩ := List.filter_eq_cons_iff.mp hout
    subst hrest
    have hskip : ∀ x ∈ l₁, evalLogical lib x e = .ok false := by
      intro x hx
      exact (keeps_false_iff lib e x (hev x (by simp [hx]))).mp (by simpa using hl₁ x hx)
    have hr1 : evalLogical lib r e = .ok true := (keeps_true_iff lib e r).mp hr
    have hlen : (l₁ ++ r :: l₂).length < fuel := hf
    have h1 := FilterOp_Next_skip lib e l₁ pre r l₂ fuel hskip hr1
      (by simp at hlen; omega)
    have h2 := ih (pre ++ (l₁ ++ [r])) l₂ k (fun x hx => hev x (by simp [hx]))
      (by simp at hlen; omega) hl₂
    have e1 : pre ++ (l₁ ++ [r]) ++ l₂ = pre ++ (l₁ ++ r :: l₂) := by simp
    have e2 : (pre ++ (l₁ ++ [r])).length = pre.length + l₁.length + 1 := by
      simp [Nat.add_assoc]
    rw [e1, e2] at h2
    have e3 : (r :: out).length + k = (out.length + k) + 1 := by simp; omega
    rw [e3]
    simp only [FilterOp.NextN, h1]
    cases hn : FilterOp.NextN lib fuel (out.length + k)
        ⟨(⟨pre ++ (l₁ ++ r :: l₂), pre.length + l₁.length + 1⟩ : sliceOp), e⟩ with
    | none => rw [hn] at h2; exact absurd h2 (by simp)
    | some q =>
      rw [hn] at h2
      simp only [Option.map_some'] at h2
      simp [Option.some.inj h2]

/-- C1: over a finite source of rows on each of which the predicate evaluates
without error, successive calls of `FilterOp.Next` return exactly the rows on
which `evalLogical` is true, unchanged and in source order, and `io.EOF` on
every call after them; when no row matches, the first call returns `io.EOF`.
Any fuel above the number of rows suffices for every call. -/
theorem FilterOp_Next_is_filter (lib : GoLib) (rows : List Row) (e : Expr) (fuel k : Nat)
    (hev : ∀ r ∈ rows, ∃ b, evalLogical lib r e = .ok b) (hfuel : rows.length < fuel) :
    (FilterOp.NextN lib fuel ((rows.filter (keepsRow lib e)).length + k)
        ⟨(⟨rows, 0⟩ : sliceOp), e⟩).map Prod.fst
      = some ((rows.filter (keepsRow lib e)).map Except.ok
          ++ List.replicate k (Except.error Error.EOF))
    ∧ (rows.filter (keepsRow lib e) = [] →
        (FilterOp.Next lib fuel ⟨(⟨rows, 0⟩ : sliceOp), e⟩).map Prod.fst
          = some (Except.error Error.EOF)) := by
  constructor
  · exact FilterOp_NextN_aux lib e fuel _ [] rows k hev hfuel rfl
  · intro hnil
    have hall : ∀ x ∈ rows, evalLogical lib x e = .ok false := by
      intro x hx
      have := (List.filter_eq_nil_iff.mp hnil) x hx
      exact (keeps_false_iff lib e x (hev x hx)).mp (by simpa using this)
    have := FilterOp_Next_eof lib e rows [] fuel hall hfuel
    simp only [List.nil_append, List.length_nil] at this
    simp [this]

/-- Witness of C1 (`TestFilterNoMatch`): one row `n = 1` under `n > 10`. -/
theorem FilterOp_Next_is_filter_witness :
    (∀ r ∈ [rowWithInt 1], ∃ b, evalLogical GoLib.blank r
        (.CompareExpr (.ColumnRef "n") ">" (.Literal ⟨TypeInt, .int 10⟩)) = .ok b)
    ∧ [rowWithInt 1].length < 2
    ∧ (FilterOp.Next GoLib.blank 2 ⟨(⟨[rowWithInt 1], 0⟩ : sliceOp),
        .CompareExpr (.ColumnRef "n") ">" (.Literal ⟨TypeInt, .int 10⟩)⟩).map Prod.fst
          = some (Except.error Error.EOF) :=
  have hev : ∀ r ∈ [rowWithInt 1], ∃ b, evalLogical GoLib.blank r
      (.CompareExpr (.ColumnRef "n") ">" (.Literal ⟨TypeInt, .int 10⟩)) = .ok b := by
    intro r hr
    simp only [List.mem_singleton] at hr
    subst hr
    exact ⟨false, by rfl⟩
  ⟨hev, by decide,
    (FilterOp_Next_is_filter GoLib.blank [rowWithInt 1]
      (.CompareExpr (.ColumnRef "n") ">" (.Literal ⟨TypeInt, .int 10⟩)) 2 1 hev
      (by decide)).2 (by decide)⟩

/-! ### ProjectOp -/

theorem ProjectOp_loop_eq (row : Row) (names : List String) :
    ∀ (cols : List Column) (vals : List Value),
      ProjectOp.loop row names cols vals
        = (cols ++ names.filterMap (fun n => (row.Get n).map (fun v => ⟨n, v.Typ⟩)),
           vals ++ names.filterMap row.Get) := by
  induction names with
  | nil => intro cols vals; simp [ProjectOp.loop]
  | cons n ns ih =>
    intro cols vals
    cases h : row.Get n with
    | none => simp [ProjectOp.loop, h, ih]
    | some v => simp [ProjectOp.loop, h, ih]

/-- C2: on an input row, `ProjectOp.Next` returns a row whose schema is
`NewSchema` of the requested names that `Row.Get` finds, in request order, each
with the type of the value found, and whose values are the values found; names
that are absent are dropped, and when every requested name is absent the row
has no column and no value. -/
theorem ProjectOp_Next_found_columns {σ : Type} [Operator σ] (p : ProjectOp σ) (row : Row)
    (s : σ) (hin : Operator.Next p.In = (.ok row, s)) :
    ∃ out : Row, (ProjectOp.Next p).1 = .ok out
      ∧ out.Schema
          = NewSchema (p.Columns.filterMap (fun n => (row.Get n).map (fun v => ⟨n, v.Typ⟩)))
      ∧ out.Schema.Columns
          = p.Columns.filterMap (fun n => (row.Get n).map (fun v => ⟨n, v.Typ⟩))
      ∧ out.Values = p.Columns.filterMap row.Get
      ∧ ((∀ n ∈ p.Columns, row.Get n = none) → out.Schema.Columns = [] ∧ out.Values = []) := by
  have hnext : (ProjectOp.Next p).1 = .ok ⟨NewSchema (p.Columns.filterMap
      (fun n => (row.Get n).map (fun (v : Value) => (⟨n, v.Typ⟩ : Column)))),
      p.Columns.filterMap row.Get⟩ := by
    simp [ProjectOp.Next, hin, ProjectOp_loop_eq]
  refine ⟨_, hnext, rfl, rfl, rfl, ?_⟩
  · intro h
    have h1 : p.Columns.filterMap row.Get = [] := by
      rw [List.filterMap_eq_nil_iff]
      exact h
    have h2 : p.Columns.filterMap (fun n => (row.Get n).map (fun v => (⟨n, v.Typ⟩ : Column)))
        = [] := by
      rw [List.filterMap_eq_nil_iff]
      intro n hn
      simp [h n hn]
    simp [NewSchema, h1, h2]

/-- Witness of C2 (`TestProjectMissingColumn`): the only requested column is
absent. -/
theorem ProjectOp_Next_found_columns_witness :
    ∃ out : Row, (ProjectOp.Next (⟨⟨[rowWithInt 1], 0⟩, ["missing"]⟩ : ProjectOp sliceOp)).1
        = .ok out
      ∧ out.Schema = NewSchema (["missing"].filterMap
          (fun n => ((rowWithInt 1).Get n).map (fun v => ⟨n, v.Typ⟩)))
      ∧ out.Schema.Columns = ["missing"].filterMap
          (fun n => ((rowWithInt 1).Get n).map (fun v => ⟨n, v.Typ⟩))
      ∧ out.Values = ["missing"].filterMap (rowWithInt 1).Get
      ∧ ((∀ n ∈ ["missing"], (rowWithInt 1).Get n = none)
          → out.Schema.Columns = [] ∧ out.Values = []) :=
  ProjectOp_Next_found_columns (⟨⟨[rowWithInt 1], 0⟩, ["missing"]⟩ : ProjectOp sliceOp)
    (rowWithInt 1) ⟨[rowWithInt 1], 1⟩ (by rfl)

/-! ### ExtendOp -/

/-- C10: on an input row with as many values as columns, whose schema index is
the one `NewSchema` builds, and a value expression that evaluates to `val`,
`ExtendOp.Next` returns a row with the columns and values of the input followed
by the column `(Name, val.Typ)` and the value `val`; on that row `Get Name` is
`val`, and `Get m` for every other name is what it is on the input. -/
theorem ExtendOp_Next_appends {σ : Type} [Operator σ] (e : ExtendOp σ) (row : Row) (s : σ)
    (val : Value) (hin : Operator.Next e.In = (.ok row, s))
    (hval : evalExpr row e.Value = .ok val)
    (hlen : row.Values.length = row.Schema.Columns.length) (hwf : row.Schema.WF) :
    ∃ out : Row, (ExtendOp.Next e).1 = .ok out
      ∧ out.Schema.Columns = row.Schema.Columns ++ [⟨e.Name, val.Typ⟩]
      ∧ out.Values = row.Values ++ [val]
      ∧ out.Get e.Name = some val
      ∧ ∀ m : String, m ≠ e.Name → out.Get m = row.Get m := by
  refine ⟨⟨NewSchema (row.Schema.Columns ++ [(⟨e.Name, val.Typ⟩ : Column)]),
    row.Values ++ [val]⟩, ?_, rfl, rfl, ?_, ?_⟩
  · simp [ExtendOp.Next, hin, hval]
  · have h := lastIndexFrom_append_self ⟨e.Name, val.Typ⟩ row.Schema.Columns 0
    simp only [Nat.zero_add] at h
    simp only [Row.Get, NewSchema_get, h, List.length_append, List.length_singleton, hlen]
    rw [if_neg (by omega), List.getElem?_append_right (by omega)]
    simp [hlen]
  · intro m hm
    have h := lastIndexFrom_append_other m ⟨e.Name, val.Typ⟩ (fun e' => hm e'.symm)
      row.Schema.Columns 0
    simp only [Row.Get, NewSchema_get, h, hwf m]
    cases hl : lastIndexFrom m 0 row.Schema.Columns with
    | none => rfl
    | some j =>
      have hb := (lastIndexFrom_bounds m row.Schema.Columns 0 j hl).2
      simp only [List.length_append, List.length_singleton]
      rw [if_neg (by omega), if_neg (by omega), List.getElem?_append_left (by omega)]

/-- Witness of C10 (`TestExtendOpColumnRef`): the row `n = 7` extended with a
copy of `n`. -/
theorem ExtendOp_Next_appends_witness :
    ∃ out : Row, (ExtendOp.Next (⟨⟨[rowWithInt 7], 0⟩, "copy", .ColumnRef "n"⟩ :
        ExtendOp sliceOp)).1 = .ok out
      ∧ out.Schema.Columns = (rowWithInt 7).Schema.Columns ++ [⟨"copy", TypeInt⟩]
      ∧ out.Values = (rowWithInt 7).Values ++ [⟨TypeInt, .int 7⟩]
      ∧ out.Get "copy" = some ⟨TypeInt, .int 7⟩
      ∧ ∀ m : String, m ≠ "copy" → out.Get m = (rowWithInt 7).Get m :=
  ExtendOp_Next_appends (⟨⟨[rowWithInt 7], 0⟩, "copy", .ColumnRef "n"⟩ : ExtendOp sliceOp)
    (rowWithInt 7) ⟨[rowWithInt 7], 1⟩ ⟨TypeInt, .int 7⟩ (by rfl) (by rfl) (by decide)
    (fun _ => rfl)

/-! ### TakeOp -/

/-- Once `Left` has reached `Total`, `TakeOp.Next` returns `io.EOF` and leaves
the operator, its input included, as it is. -/
theorem TakeOp_Next_done {σ : Type} [Operator σ] (t : TakeOp σ) (h : t.Left ≥ t.Total) :
    TakeOp.Next t = (.error .EOF, t) := by
  simp [TakeOp.Next, h]

theorem TakeOp_NextN_done {σ : Type} [Operator σ] (t : TakeOp σ) (h : t.Left ≥ t.Total)
    (k : Nat) : TakeOp.NextN k t = (List.replicate k (.error .EOF), t) := by
  induction k with
  | zero => rfl
  | succ k ih => simp [TakeOp.NextN, TakeOp_Next_done t h, ih, List.replicate_succ]

theorem TakeOp_NextN_exhausted (all : List Row) (c : Nat) (left total : Int)
    (h : left < total) (k : Nat) :
    TakeOp.NextN k (⟨⟨⟨all, all.length⟩, c⟩, left, total⟩ : TakeOp (Counted sliceOp))
      = (List.replicate k (.error .EOF), ⟨⟨⟨all, all.length⟩, c + k⟩, left, total⟩) := by
  induction k generalizing c with
  | zero => rfl
  | succ k ih =>
    have hn : TakeOp.Next (⟨⟨⟨all, all.length⟩, c⟩, left, total⟩ : TakeOp (Counted sliceOp))
        = (.error .EOF, ⟨⟨⟨all, all.length⟩, c + 1⟩, left, total⟩) := by
      simp [TakeOp.Next, Operator.Next, sliceOp_Next_end, Int.not_le.mpr h]
    simp only [TakeOp.NextN, hn, ih, List.replicate_succ]
    simp [Nat.add_assoc, Nat.add_comm 1 k]

/-- The run of a `TakeOp` with budget `b` over a counted finite source: the
results of `min b (remaining rows) + k` calls and the state after them. -/
theorem TakeOp_NextN_run (b : Nat) :
    ∀ (pre rest : List Row) (c : Nat) (left : Int) (k : Nat),
      TakeOp.NextN (min b rest.length + k)
          (⟨⟨⟨pre ++ rest, pre.length⟩, c⟩, left, left + b⟩ : TakeOp (Counted sliceOp))
        = ((rest.take b).map Except.ok ++ List.replicate k (Except.error Error.EOF),
           ⟨⟨⟨pre ++ rest, pre.length + min b rest.length⟩,
              c + (if b ≤ rest.length then b else rest.length + k)⟩,
            left + (min b rest.length : Nat), left + b⟩) := by
  induction b with
  | zero =>
    intro pre rest c left k
    simpa using TakeOp_NextN_done
      (⟨⟨⟨pre ++ rest, pre.length⟩, c⟩, left, left + (0 : Nat)⟩ : TakeOp (Counted sliceOp))
      (by simp) k
  | succ b ih =>
    intro pre rest c left k
    cases rest with
    | nil =>
      have h := TakeOp_NextN_exhausted pre c left (left + ((b + 1 : Nat) : Int))
        (by push_cast; omega) k
      simpa using h
    | cons r rest =>
      have hn : TakeOp.Next (⟨⟨⟨pre ++ r :: rest, pre.length⟩, c⟩, left,
            left + ((b + 1 : Nat) : Int)⟩ : TakeOp (Counted sliceOp))
          = (.ok r, ⟨⟨⟨pre ++ r :: rest, pre.length + 1⟩, c + 1⟩, left + 1,
              left + ((b + 1 : Nat) : Int)⟩) := by
        have : ¬ left + ((b + 1 : Nat) : Int) ≤ left := by push_cast; omega
        simp [TakeOp.Next, Operator.Next, sliceOp_Next_cons, this]
      have h := ih (pre ++ [r]) rest (c + 1) (left + 1) k
      have e1 : pre ++ [r] ++ rest = pre ++ r :: rest := by simp
      have e2 : (pre ++ [r]).length = pre.length + 1 := by simp
      have e3 : left + 1 + (b : Int) = left + ((b + 1 : Nat) : Int) := by push_cast; omega
      rw [e1, e2, e3] at h
      have e4 : min (b + 1) (r :: rest).length + k = (min b rest.length + k) + 1 := by
        simp only [List.length_cons, Nat.add_min_add_right]; omega
      rw [e4]
      simp only [TakeOp.NextN, hn, h, List.take_succ_cons, List.map_cons, List.cons_append,
        List.length_cons, Nat.add_min_add_right]
      refine Prod.ext rfl ?_
      simp only
      have a1 : pre.length + 1 + min b rest.length = pre.length + (min b rest.length + 1) := by
        omega
      have a2 : (c + 1 + if b ≤ rest.length then b else rest.length + k)
          = c + if b + 1 ≤ rest.length + 1 then b + 1 else rest.length + 1 + k := by
        by_cases hb : b ≤ rest.length
        · rw [if_pos hb, if_pos (by omega)]; omega
        · rw [if_neg hb, if_neg (by omega)]; omega
      have a3 : left + 1 + ((min b rest.length : Nat) : Int)
          = left + ((min b rest.length + 1 : Nat) : Int) := by
        push_cast; omega
      rw [a1, a2, a3]

/-- C3: for a count `n ≥ 0` and a finite source, the first `min n (length)`
calls of `TakeOp.Next` return the first rows of the source in order and every
later call returns `io.EOF`; once `Left` has reached `Total` a call returns
`io.EOF` and leaves the input untouched, for every input operator; and when the
source holds at least `n` rows its `Next` has been called exactly `n` times,
however many further calls are made. -/
theorem TakeOp_yields_first_rows (n : Int) (hn : 0 ≤ n) (rows : List Row) (k : Nat) :
    (TakeOp.NextN (min n.toNat rows.length + k)
        (⟨⟨⟨rows, 0⟩, 0⟩, 0, n⟩ : TakeOp (Counted sliceOp))).1
      = (rows.take n.toNat).map Except.ok ++ List.replicate k (Except.error Error.EOF)
    ∧ (n.toNat ≤ rows.length →
        (TakeOp.NextN (min n.toNat rows.length + k)
          (⟨⟨⟨rows, 0⟩, 0⟩, 0, n⟩ : TakeOp (Counted sliceOp))).2.In.calls = n.toNat)
    ∧ (∀ (σ : Type) (_ : Operator σ) (t : TakeOp σ), t.Left ≥ t.Total →
        TakeOp.Next t = (.error .EOF, t)) := by
  have h := TakeOp_NextN_run n.toNat [] rows 0 0 k
  have e : (0 : Int) + (n.toNat : Int) = n := by rw [Int.toNat_of_nonneg hn]; simp
  simp only [List.nil_append, List.length_nil, e] at h
  refine ⟨by rw [h], ?_, ?_⟩
  · intro hle
    rw [h]
    simp [hle]
  · intro σ _ t ht
    exact TakeOp_Next_done t ht

/-- Witness of C3 (`TestTake`): two rows under `take 1`, three calls. -/
theorem TakeOp_yields_first_rows_witness :
    (0 : Int) ≤ 1
    ∧ (TakeOp.NextN 3 (⟨⟨⟨[rowWithInt 1, rowWithInt 2], 0⟩, 0⟩, 0, 1⟩ :
          TakeOp (Counted sliceOp))).1
        = [.ok (rowWithInt 1), .error .EOF, .error .EOF]
    ∧ (TakeOp.NextN 3 (⟨⟨⟨[rowWithInt 1, rowWithInt 2], 0⟩, 0⟩, 0, 1⟩ :
          TakeOp (Counted sliceOp))).2.In.calls = 1 :=
  ⟨by decide,
    (TakeOp_yields_first_rows 1 (by decide) [rowWithInt 1, rowWithInt 2] 2).1,
    (TakeOp_yields_first_rows 1 (by decide) [rowWithInt 1, rowWithInt 2] 2).2.1 (by decide)⟩

/-! ### buildJoinedRows -/

theorem buildJoinedRows_cols_eq (left : Row) (cs : List Column) :
    ∀ acc : List Column,
      buildJoinedRows.cols left cs acc
        = acc ++ cs.map (fun c =>
            ⟨if (left.Schema.Index.get c.Name).isSome then "right." ++ c.Name else c.Name,
             c.Typ⟩) := by
  induction cs with
  | nil => intro acc; simp [buildJoinedRows.cols]
  | cons c cs ih => intro acc; simp [buildJoinedRows.cols, ih]

theorem buildJoinedRows_vals_eq (r : Row) (cs : List Column) :
    ∀ (i : Nat) (acc : List Value), i + cs.length ≤ r.Values.length →
      buildJoinedRows.vals r i cs acc = .ok (acc ++ (r.Values.drop i).take cs.length) := by
  induction cs with
  | nil => intro i acc _; simp [buildJoinedRows.vals]
  | cons c cs ih =>
    intro i acc h
    simp only [List.length_cons] at h
    have hi : i < r.Values.length := by omega
    have hd : r.Values.drop i = r.Values[i] :: r.Values.drop (i + 1) :=
      List.drop_eq_getElem_cons hi
    simp only [buildJoinedRows.vals, List.getElem?_eq_getElem hi, List.length_cons]
    rw [ih (i + 1) (acc ++ [r.Values[i]]) (by omega), hd, List.take_succ_cons]
    simp

theorem buildJoinedRows_rows_eq (left : Row) (js rs : Schema) (rights : List Row) :
    ∀ acc : List Row, (∀ r ∈ rights, rs.Columns.length ≤ r.Values.length) →
      buildJoinedRows.rows left js rs rights acc
        = .ok (acc ++ rights.map (fun r =>
            ⟨js, left.Values ++ r.Values.take rs.Columns.length⟩)) := by
  induction rights with
  | nil => intro acc _; simp [buildJoinedRows.rows]
  | cons r rights ih =>
    intro acc h
    have hr := h r (by simp)
    simp only [buildJoinedRows.rows,
      buildJoinedRows_vals_eq r rs.Columns 0 left.Values (by omega), List.drop_zero]
    rw [ih _ (fun x hx => h x (by simp [hx]))]
    simp

/-- When no right row is shorter than the right schema, `buildJoinedRows`
returns one `joinedRow` per right row, in order. -/
theorem buildJoinedRows_eq (left : Row) (rights : List Row) (rs : Schema)
    (h : ∀ r ∈ rights, rs.Columns.length ≤ r.Values.length) :
    buildJoinedRows left rights rs = .ok (rights.map (joinedRow left rs)) := by
  simp only [buildJoinedRows, buildJoinedRows_rows_eq left _ rs rights [] h, List.nil_append]
  rfl

theorem lastIndexFrom_isSome_iff (n : String) (cols : List Column) :
    ∀ i : Nat, (lastIndexFrom n i cols).isSome = true ↔ n ∈ cols.map Column.Name := by
  induction cols with
  | nil => intro i; simp [lastIndexFrom]
  | cons c cs ih =>
    intro i
    simp only [lastIndexFrom, List.map_cons, List.mem_cons]
    cases hl : lastIndexFrom n (i + 1) cs with
    | some j =>
      have := (ih (i + 1)).mp (by simp [hl])
      simp [this]
    | none =>
      have hn : ¬ n ∈ cs.map Column.Name := fun hmem => by
        have := (ih (i + 1)).mpr hmem
        simp [hl] at this
      by_cases hc : c.Name = n
      · simp [hc]
      · have hc' : ¬ n = c.Name := fun e => hc e.symm
        simp [hc, hc', hn]

/-- C9: for a left row whose schema index is the one `NewSchema` builds and
right rows with as many values as the right schema has columns, every row built
by `buildJoinedRows` has the left columns followed by the right columns in
right-schema order, a right column being renamed `right.<name>` exactly when
its name is the name of a left column, and has the left values followed by the
values of the right row; there is one such row per right row, in order. -/
theorem buildJoinedRows_schema_and_values (left : Row) (rights : List Row) (rs : Schema)
    (hwf : left.Schema.WF) (hlen : ∀ r ∈ rights, r.Values.length = rs.Columns.length) :
    buildJoinedRows left rights rs
      = .ok (rights.map (fun r =>
          ⟨NewSchema (joinedColumns left.Schema.Columns rs.Columns), left.Values ++ r.Values⟩))
    ∧ (NewSchema (joinedColumns left.Schema.Columns rs.Columns)).Columns
        = left.Schema.Columns ++ rs.Columns.map (fun c =>
            ⟨if c.Name ∈ left.Schema.Columns.map Column.Name then "right." ++ c.Name
             else c.Name, c.Typ⟩) := by
  refine ⟨?_, rfl⟩
  rw [buildJoinedRows_eq left rights rs (fun r hr => by rw [hlen r hr])]
  congr 1
  apply List.map_congr_left
  intro r hr
  have hcols : buildJoinedRows.cols left rs.Columns left.Schema.Columns
      = joinedColumns left.Schema.Columns rs.Columns := by
    rw [buildJoinedRows_cols_eq]
    unfold joinedColumns
    congr 1
    apply List.map_congr_left
    intro c _
    have : (left.Schema.Index.get c.Name).isSome = true
        ↔ c.Name ∈ left.Schema.Columns.map Column.Name := by
      rw [hwf c.Name, NewSchema_get]
      exact lastIndexFrom_isSome_iff c.Name left.Schema.Columns 0
    by_cases hm : c.Name ∈ left.Schema.Columns.map Column.Name
    · rw [if_pos (this.mpr hm), if_pos hm]
    · rw [if_neg (fun h => hm (this.mp h)), if_neg hm]
  simp only [joinedRow, hcols, ← hlen r hr, List.take_length]

/-- Witness of C9 (scenario S6, `TestJoinColumnPrefix`): left columns
`id, name` joined with right columns `id, dept` give `id, name, right.id, dept`. -/
theorem buildJoinedRows_schema_and_values_witness :
    (buildJoinedRows
        ⟨NewSchema [⟨"id", TypeInt⟩, ⟨"name", TypeString⟩],
          [⟨TypeInt, .int 1⟩, ⟨TypeString, .str "alice"⟩]⟩
        [⟨NewSchema [⟨"id", TypeInt⟩, ⟨"dept", TypeString⟩],
          [⟨TypeInt, .int 1⟩, ⟨TypeString, .str "eng"⟩]⟩]
        (NewSchema [⟨"id", TypeInt⟩, ⟨"dept", TypeString⟩])
      = .ok [⟨NewSchema [⟨"id", TypeInt⟩, ⟨"name", TypeString⟩, ⟨"right.id", TypeInt⟩,
                ⟨"dept", TypeString⟩],
              [⟨TypeInt, .int 1⟩, ⟨TypeString, .str "alice"⟩, ⟨TypeInt, .int 1⟩,
                ⟨TypeString, .str "eng"⟩]⟩]) :=
  (buildJoinedRows_schema_and_values
    ⟨NewSchema [⟨"id", TypeInt⟩, ⟨"name", TypeString⟩],
      [⟨TypeInt, .int 1⟩, ⟨TypeString, .str "alice"⟩]⟩
    [⟨NewSchema [⟨"id", TypeInt⟩, ⟨"dept", TypeString⟩],
      [⟨TypeInt, .int 1⟩, ⟨TypeString, .str "eng"⟩]⟩]
    (NewSchema [⟨"id", TypeInt⟩, ⟨"dept", TypeString⟩])
    (fun _ => rfl) (by decide)).1.trans (by decide)

/-! ### JoinOp -/

theorem callN_cons {S R : Type} (next : S → Option (R × S)) (n : Nat) (s s1 : S) (r : R)
    (rs : List R) (h : next s = some (r, s1))
    (h2 : (callN next n s1).map Prod.fst = some rs) :
    (callN next (n + 1) s).map Prod.fst = some (r :: rs) := by
  simp only [callN, h]
  cases hc : callN next n s1 with
  | none => rw [hc] at h2; exact absurd h2 (by simp)
  | some q =>
    rw [hc] at h2
    simp only [Option.map_some', Option.some.injEq] at h2
    simp [h2]

/-- The loop of `NewJoinOp` over a finite right source ends, and the multimap
it returns holds under each key text the right rows of that key, in order. -/
theorem NewJoinOp_load_spec (lib : GoLib) (rk : String) (rights : List Row) :
    ∀ (pre : List Row) (m : GoMap (List Row)) (fuel : Nat), rights.length < fuel →
      (∀ r ∈ rights, ∃ t, (r.GetD rk).String lib = .ok t) →
      ∃ m' : GoMap (List Row),
        NewJoinOp.load lib rk fuel (⟨pre ++ rights, pre.length⟩ : sliceOp) m
          = some (.ok m', ⟨pre ++ rights, (pre ++ rights).length⟩)
        ∧ ∀ t : String, (m'.get t).getD []
            = (m.get t).getD [] ++ rights.filter (hasKeyText lib rk t) := by
  induction rights with
  | nil =>
    intro pre m fuel hf _
    obtain ⟨f, rfl⟩ : ∃ f, fuel = f + 1 := ⟨fuel - 1, by simp at hf; omega⟩
    refine ⟨m, ?_, by simp⟩
    simp [NewJoinOp.load, Operator.Next, sliceOp_Next_end]
  | cons r rights ih =>
    intro pre m fuel hf hk
    obtain ⟨f, rfl⟩ : ∃ f, fuel = f + 1 := ⟨fuel - 1, by simp at hf; omega⟩
    obtain ⟨t0, ht0⟩ := hk r (by simp)
    obtain ⟨m', hm', hget⟩ := ih (pre ++ [r]) (m.set t0 ((m.get t0).getD [] ++ [r])) f
      (by simp at hf; omega) (fun x hx => hk x (by simp [hx]))
    simp only [List.append_assoc, List.singleton_append, List.length_append,
      List.length_singleton] at hm'
    refine ⟨m', ?_, ?_⟩
    · simp only [NewJoinOp.load, Operator.Next, sliceOp_Next_cons, ht0, hm', List.length_append,
        List.length_cons]
    · intro t
      rw [hget t, GoMap_get_set]
      by_cases ht : t = t0
      · subst ht
        simp [hasKeyText, ht0, List.filter_cons]
      · have : ¬ t0 = t := fun e => ht e.symm
        simp [hasKeyText, ht0, List.filter_cons, ht, this]

theorem JoinOp_Next_pending {σ : Type} [Operator σ] (lib : GoLib) (fuel : Nat) (j : JoinOp σ)
    (row : Row) (h : j.pending[j.pendingIdx]? = some row) :
    JoinOp.Next lib (fuel + 1) j = some (.ok row, { j with pendingIdx := j.pendingIdx + 1 }) := by
  have hlt : j.pendingIdx < j.pending.length := by
    by_contra hge
    rw [List.getElem?_eq_none (by omega)] at h
    exact absurd h (by simp)
  simp [JoinOp.Next, hlt, h]

/-- The next step of the loop of `JoinOp.Next` on a left row, the pending rows
being exhausted. -/
theorem JoinOp_Next_pull (lib : GoLib) (right : GoMap (List Row)) (rs : Schema)
    (lk rk : String) (rights : List Row)
    (hright : ∀ t : String, (right.get t).getD [] = rights.filter (hasKeyText lib rk t))
    (hlen : ∀ r ∈ rights, rs.Columns.length ≤ r.Values.length)
    (pre : List Row) (l : Row) (tl pend : List Row) (i fuel : Nat) (hi : pend.length ≤ i)
    (hl : ∃ t, (l.GetD lk).String lib = .ok t) :
    JoinOp.Next lib (fuel + 1) (JoinOp.over right rs lk rk pre (l :: tl) pend i)
      = JoinOp.Next lib fuel
          (JoinOp.over right rs lk rk (pre ++ [l]) tl (joinGroup lib lk rk rs rights l) 0) := by
  obtain ⟨t, ht⟩ := hl
  have hnot : ¬ i < pend.length := by omega
  have hfound : (right.get t).getD [] = rightMatches lib lk rk rights l := by
    simp [rightMatches, ht, hright t]
  have hbuild : buildJoinedRows l (rightMatches lib lk rk rights l) rs
      = .ok (joinGroup lib lk rk rs rights l) := by
    apply buildJoinedRows_eq
    intro r hr
    apply hlen
    simp only [rightMatches, ht, List.mem_filter] at hr
    exact hr.1
  have e1 : pre ++ [l] ++ tl = pre ++ l :: tl := by simp
  have e2 : (pre ++ [l]).length = pre.length + 1 := by simp
  simp only [JoinOp.over, JoinOp.Next, hnot, if_false, Operator.Next, sliceOp_Next_cons, ht,
    hfound, e1, e2]
  by_cases hz : (rightMatches lib lk rk rights l).length = 0
  · have hnil : rightMatches lib lk rk rights l = [] := List.length_eq_zero.mp hz
    simp [hz, joinGroup, hnil]
  · simp only [hz, if_false, hbuild]

theorem JoinOp_Next_skip (lib : GoLib) (right : GoMap (List Row)) (rs : Schema)
    (lk rk : String) (rights : List Row)
    (hright : ∀ t : String, (right.get t).getD [] = rights.filter (hasKeyText lib rk t))
    (hlen : ∀ r ∈ rights, rs.Columns.length ≤ r.Values.length) (skip : List Row) :
    ∀ (pre : List Row) (l : Row) (tl pend : List Row) (i fuel : Nat) (g : Row) (gs : List Row),
      pend.length ≤ i →
      (∀ x ∈ skip, ∃ t, (x.GetD lk).String lib = .ok t) →
      (∃ t, (l.GetD lk).String lib = .ok t) →
      (∀ x ∈ skip, joinGroup lib lk rk rs rights x = []) →
      joinGroup lib lk rk rs rights l = g :: gs → skip.length + 1 < fuel →
      JoinOp.Next lib fuel (JoinOp.over right rs lk rk pre (skip ++ l :: tl) pend i)
        = some (.ok g, JoinOp.over right rs lk rk (pre ++ (skip ++ [l])) tl (g :: gs) 1) := by
  induction skip with
  | nil =>
    intro pre l tl pend i fuel g gs hi _ hl _ hg hf
    obtain ⟨f, rfl⟩ : ∃ f, fuel = f + 2 := ⟨fuel - 2, by simp at hf; omega⟩
    rw [List.nil_append, JoinOp_Next_pull lib right rs lk rk rights hright hlen pre l tl pend i
      (f + 1) hi hl, hg]
    rw [JoinOp_Next_pending lib f _ g (by simp [JoinOp.over])]
    simp [JoinOp.over]
  | cons x skip ih =>
    intro pre l tl pend i fuel g gs hi hs hl hnil hg hf
    obtain ⟨f, rfl⟩ : ∃ f, fuel = f + 1 := ⟨fuel - 1, by simp at hf; omega⟩
    rw [List.cons_append, JoinOp_Next_pull lib right rs lk rk rights hright hlen pre x
      (skip ++ l :: tl) pend i f hi (hs x (by simp)), hnil x (by simp)]
    rw [ih (pre ++ [x]) l tl [] 0 f g gs (by simp) (fun y hy => hs y (by simp [hy])) hl
      (fun y hy => hnil y (by simp [hy])) hg (by simp at hf; omega)]
    simp

theorem JoinOp_Next_eof (lib : GoLib) (right : GoMap (List Row)) (rs : Schema)
    (lk rk : String) (rights : List Row)
    (hright : ∀ t : String, (right.get t).getD [] = rights.filter (hasKeyText lib rk t))
    (hlen : ∀ r ∈ rights, rs.Columns.length ≤ r.Values.length) (rest : List Row) :
    ∀ (pre pend : List Row) (i fuel : Nat), pend.length ≤ i →
      (∀ x ∈ rest, ∃ t, (x.GetD lk).String lib = .ok t) →
      (∀ x ∈ rest, joinGroup lib lk rk rs rights x = []) → rest.length < fuel →
      JoinOp.Next lib fuel (JoinOp.over right rs lk rk pre rest pend i)
        = some (.error .EOF, JoinOp.over right rs lk rk (pre ++ rest) [] [] 0) := by
  induction rest with
  | nil =>
    intro pre pend i fuel hi _ _ hf
    obtain ⟨f, rfl⟩ : ∃ f, fuel = f + 1 := ⟨fuel - 1, by simp at hf; omega⟩
    have hnot : ¬ i < pend.length := by omega
    simp [JoinOp.over, JoinOp.Next, hnot, Operator.Next, sliceOp_Next_end]
  | cons x rest ih =>
    intro pre pend i fuel hi hs hnil hf
    obtain ⟨f, rfl⟩ : ∃ f, fuel = f + 1 := ⟨fuel - 1, by simp at hf; omega⟩
    rw [JoinOp_Next_pull lib right rs lk rk rights hright hlen pre x rest pend i f hi
      (hs x (by simp)), hnil x (by simp)]
    rw [ih (pre ++ [x]) [] 0 f (by simp) (fun y hy => hs y (by simp [hy]))
      (fun y hy => hnil y (by simp [hy])) (by simp at hf; omega)]
    simp

theorem JoinOp_callN_eofs (lib : GoLib) (right : GoMap (List Row)) (rs : Schema)
    (lk rk : String) (rights : List Row)
    (hright : ∀ t : String, (right.get t).getD [] = rights.filter (hasKeyText lib rk t))
    (hlen : ∀ r ∈ rights, rs.Columns.length ≤ r.Values.length) (fuel : Nat) (hf : 0 < fuel)
    (all : List Row) (k : Nat) :
    (callN (JoinOp.Next lib fuel) k (JoinOp.over right rs lk rk all [] [] 0)).map Prod.fst
      = some (List.replicate k (Except.error Error.EOF)) := by
  induction k with
  | zero => simp [callN]
  | succ k ih =>
    have h := JoinOp_Next_eof lib right rs lk rk rights hright hlen [] all [] 0 fuel
      (by simp) (by simp) (by simp) (by simpa using hf)
    rw [List.append_nil] at h
    rw [List.replicate_succ]
    exact callN_cons _ k _ _ _ _ h ih

/-- The results of successive calls of `JoinOp.Next` over a finite left source:
the pending rows, then the groups of the remaining left rows, then `io.EOF`. -/
theorem JoinOp_callN_run (lib : GoLib) (right : GoMap (List Row)) (rs : Schema)
    (lk rk : String) (rights : List Row)
    (hright : ∀ t : String, (right.get t).getD [] = rights.filter (hasKeyText lib rk t))
    (hlen : ∀ r ∈ rights, rs.Columns.length ≤ r.Values.length) (fuel k : Nat)
    (G : Row → List Row) (hG : G = joinGroup lib lk rk rs rights) (ne : List Row) :
    ∀ (pre rest pend : List Row) (i : Nat), i ≤ pend.length →
      (∀ x ∈ rest, ∃ t, (x.GetD lk).String lib = .ok t) →
      rest.filter (fun l => !(G l).isEmpty) = ne → rest.length + 1 < fuel →
      (callN (JoinOp.Next lib fuel) ((pend.length - i) + (rest.flatMap G).length + k)
          (JoinOp.over right rs lk rk pre rest pend i)).map Prod.fst
        = some ((pend.drop i ++ rest.flatMap G).map Except.ok
            ++ List.replicate k (Except.error Error.EOF)) := by
  subst hG
  have drain : ∀ (pre rest pend : List Row), rest.length + 1 < fuel →
      (∀ (pend' : List Row) (i' : Nat), pend'.length ≤ i' →
        (callN (JoinOp.Next lib fuel) ((rest.flatMap (joinGroup lib lk rk rs rights)).length + k)
            (JoinOp.over right rs lk rk pre rest pend' i')).map Prod.fst
          = some ((rest.flatMap (joinGroup lib lk rk rs rights)).map Except.ok
              ++ List.replicate k (Except.error Error.EOF))) →
      ∀ (d i : Nat), pend.length - i = d → i ≤ pend.length →
        (callN (JoinOp.Next lib fuel)
            ((pend.length - i) + (rest.flatMap (joinGroup lib lk rk rs rights)).length + k)
            (JoinOp.over right rs lk rk pre rest pend i)).map Prod.fst
          = some ((pend.drop i ++ rest.flatMap (joinGroup lib lk rk rs rights)).map Except.ok
              ++ List.replicate k (Except.error Error.EOF)) := by
    intro pre rest pend hf hE d
    induction d with
    | zero =>
      intro i hd hi
      have hip : i = pend.length := by omega
      subst hip
      simpa using hE pend pend.length (Nat.le_refl _)
    | succ d ihd =>
      intro i hd hi
      have hlt : i < pend.length := by omega
      obtain ⟨f, rfl⟩ : ∃ f, fuel = f + 1 := ⟨fuel - 1, by omega⟩
      have hstep := JoinOp_Next_pending lib f (JoinOp.over right rs lk rk pre rest pend i)
        pend[i] (by simp [JoinOp.over, List.getElem?_eq_getElem hlt])
      have hrec := ihd (i + 1) (by omega) (by omega)
      have hcount : pend.length - i + (rest.flatMap (joinGroup lib lk rk rs rights)).length + k
          = (pend.length - (i + 1) + (rest.flatMap (joinGroup lib lk rk rs rights)).length + k)
            + 1 := by omega
      rw [hcount, List.drop_eq_getElem_cons hlt]
      exact callN_cons _ _ _ _ _ _ hstep hrec
  induction ne with
  | nil =>
    intro pre rest pend i hi hkeys hne hf
    have hnil : ∀ x ∈ rest, joinGroup lib lk rk rs rights x = [] := by
      intro x hx
      have := (List.filter_eq_nil_iff.mp hne) x hx
      simpa using this
    have hflat : rest.flatMap (joinGroup lib lk rk rs rights) = [] := by
      rw [List.flatMap_eq_nil_iff]
      exact hnil
    refine drain pre rest pend hf ?_ (pend.length - i) i rfl hi
    intro pend' i' hi'
    rw [hflat]
    simp only [List.length_nil, Nat.zero_add, List.map_nil, List.nil_append]
    cases k with
    | zero => simp [callN]
    | succ k =>
      have h1 := JoinOp_Next_eof lib right rs lk rk rights hright hlen rest pre pend' i' fuel hi'
        hkeys hnil (by omega)
      rw [List.replicate_succ]
      exact callN_cons _ k _ _ _ _ h1
        (JoinOp_callN_eofs lib right rs lk rk rights hright hlen fuel (by omega) _ k)
  | cons l ne ih =>
    intro pre rest pend i hi hkeys hne hf
    obtain ⟨skip, tl, hrest, hskip, hl, htl⟩ := List.filter_eq_cons_iff.mp hne
    subst hrest
    have hnil : ∀ x ∈ skip, joinGroup lib lk rk rs rights x = [] := by
      intro x hx
      simpa using hskip x hx
    obtain ⟨g, gs, hg⟩ : ∃ g gs, joinGroup lib lk rk rs rights l = g :: gs := by
      cases hgl : joinGroup lib lk rk rs rights l with
      | nil => simp [hgl] at hl
      | cons g gs => exact ⟨g, gs, rfl⟩
    have hflat : (skip ++ l :: tl).flatMap (joinGroup lib lk rk rs rights)
        = g :: (gs ++ tl.flatMap (joinGroup lib lk rk rs rights)) := by
      have h0 : skip.flatMap (joinGroup lib lk rk rs rights) = [] := by
        rw [List.flatMap_eq_nil_iff]
        exact hnil
      simp [List.flatMap_append, h0, hg]
    have hlenr : (skip ++ l :: tl).length = skip.length + tl.length + 1 := by
      simp; omega
    refine drain pre (skip ++ l :: tl) pend hf ?_ (pend.length - i) i rfl hi
    intro pend' i' hi'
    have h1 := JoinOp_Next_skip lib right rs lk rk rights hright hlen skip pre l tl pend' i' fuel
      g gs hi' (fun x hx => hkeys x (by simp [hx])) (hkeys l (by simp)) hnil hg (by omega)
    have h2 := ih (pre ++ (skip ++ [l])) tl (g :: gs) 1 (by simp)
      (fun x hx => hkeys x (by simp [hx])) htl (by omega)
    simp only [List.length_cons, Nat.add_sub_cancel, List.drop_succ_cons, List.drop_zero] at h2
    rw [hflat]
    have hcount : (g :: (gs ++ tl.flatMap (joinGroup lib lk rk rs rights))).length + k
        = (gs.length + (tl.flatMap (joinGroup lib lk rk rs rights)).length + k) + 1 := by
      simp; omega
    rw [hcount, List.map_cons, List.cons_append]
    exact callN_cons _ _ _ _ _ _ h1 h2

/-- C8: with the right side a finite list of rows, `NewJoinOp` builds the
operator, and successive calls of `JoinOp.Next` over a finite left input return
the concatenation, over the left rows in source order, of one joined row per
right row whose right-key text equals the text of the left key, in the order
of the right rows, and `io.EOF` afterwards; so the number of rows is the sum
over the left rows of their numbers of right matches.  The key values are
assumed to have textual forms, and no right row to be shorter than the right
schema. -/
theorem JoinOp_Next_concat_matches (lib : GoLib) (lefts rights : List Row) (rs : Schema)
    (lk rk : String) (fuelR fuel k : Nat)
    (hL : ∀ l ∈ lefts, ∃ t, (l.GetD lk).String lib = .ok t)
    (hR : ∀ r ∈ rights, ∃ t, (r.GetD rk).String lib = .ok t)
    (hlen : ∀ r ∈ rights, rs.Columns.length ≤ r.Values.length)
    (hfR : rights.length < fuelR) (hf : lefts.length + 1 < fuel) :
    ∃ j : JoinOp sliceOp,
      NewJoinOp lib fuelR (⟨lefts, 0⟩ : sliceOp) (.ok ((⟨rights, 0⟩ : sliceOp), rs)) lk rk
        = some (.ok j)
      ∧ (callN (JoinOp.Next lib fuel)
            ((lefts.flatMap (joinGroup lib lk rk rs rights)).length + k) j).map Prod.fst
          = some ((lefts.flatMap (joinGroup lib lk rk rs rights)).map Except.ok
              ++ List.replicate k (Except.error Error.EOF))
      ∧ (lefts.flatMap (joinGroup lib lk rk rs rights)).length
          = (lefts.map (fun l => (rightMatches lib lk rk rights l).length)).sum
      ∧ ∀ l ∈ lefts, rightMatches lib lk rk rights l = [] →
          joinGroup lib lk rk rs rights l = [] := by
  obtain ⟨m, hm, hget⟩ := NewJoinOp_load_spec lib rk rights [] [] fuelR hfR hR
  simp only [List.nil_append, List.length_nil] at hm
  have hright : ∀ t : String, (m.get t).getD [] = rights.filter (hasKeyText lib rk t) := by
    intro t
    rw [hget t]
    simp [GoMap.get]
  refine ⟨JoinOp.over m rs lk rk [] lefts [] 0, ?_, ?_, ?_, ?_⟩
  · simp [NewJoinOp, hm, JoinOp.over]
  · have h := JoinOp_callN_run lib m rs lk rk rights hright hlen fuel k _ rfl _ [] lefts [] 0
      (by simp) hL rfl hf
    simpa using h
  · rw [List.length_flatMap]
    congr 1
    apply List.map_congr_left
    intro l _
    simp [joinGroup]
  · intro l _ h
    simp [joinGroup, h]

/-- Witness of C8 (scenario S6): left rows `id = 1, 2`, right rows `id = 1, 3`. -/
theorem JoinOp_Next_concat_matches_witness :
    ∃ j : JoinOp sliceOp,
      NewJoinOp GoLib.blank 3 (⟨[rowWithInt 1, rowWithInt 2], 0⟩ : sliceOp)
          (.ok ((⟨[rowWithInt 1, rowWithInt 3], 0⟩ : sliceOp), NewSchema [⟨"n", TypeInt⟩]))
          "n" "n" = some (.ok j)
      ∧ (callN (JoinOp.Next GoLib.blank 4) 2 j).map Prod.fst
          = some [.ok ⟨NewSchema [⟨"n", TypeInt⟩, ⟨"right.n", TypeInt⟩],
                    [⟨TypeInt, .int 1⟩, ⟨TypeInt, .int 1⟩]⟩, .error .EOF] :=
  have hkeys : ∀ (rows : List Row), rows = [rowWithInt 1, rowWithInt 2]
      ∨ rows = [rowWithInt 1, rowWithInt 3] →
      ∀ l ∈ rows, ∃ t, (l.GetD "n").String GoLib.blank = .ok t := by
    intro rows hrows l hl
    rcases hrows with h | h <;> subst h <;> simp only [List.mem_cons, List.mem_singleton,
      List.not_mem_nil, or_false] at hl <;> rcases hl with h | h <;> subst h <;>
      exact ⟨_, rfl⟩
  match JoinOp_Next_concat_matches GoLib.blank [rowWithInt 1, rowWithInt 2]
      [rowWithInt 1, rowWithInt 3] (NewSchema [⟨"n", TypeInt⟩]) "n" "n" 3 4 1
      (hkeys _ (Or.inl rfl)) (hkeys _ (Or.inr rfl)) (by decide) (by decide) (by decide) with
  | ⟨j, hj, hrun, _, _⟩ => ⟨j, hj, hrun.trans (by decide)⟩

/-! ### SummarizeOp -/

theorem GoMap_keys_set {α : Type} (m : GoMap α) (k : String) (v : α) :
    (m.set k v).keys = if k ∈ m.keys then m.keys else m.keys ++ [k] := by
  induction m with
  | nil => simp [GoMap.set, GoMap.keys]
  | cons p m ih =>
    obtain ⟨a, b⟩ := p
    by_cases hak : a = k
    · subst hak
      simp [GoMap.set, GoMap.keys]
    · have hka : ¬ k = a := fun e => hak e.symm
      simp only [GoMap.keys] at ih
      simp only [GoMap.set, hak, if_false, GoMap.keys, List.map_cons, List.mem_cons, hka,
        false_or, ih]
      split <;> simp

theorem GoMap_get_eq_none_iff {α : Type} (m : GoMap α) (k : String) :
    m.get k = none ↔ k ∉ m.keys := by
  induction m with
  | nil => simp [GoMap.get, GoMap.keys]
  | cons p m ih =>
    obtain ⟨a, b⟩ := p
    simp only [GoMap.keys] at ih
    by_cases hak : a = k
    · subst hak
      simp [GoMap.get, GoMap.keys]
    · have hka : ¬ k = a := fun e => hak e.symm
      simp [GoMap.get, GoMap.keys, hak, hka, ih]

theorem GoMap_keys_set_nodup {α : Type} (m : GoMap α) (k : String) (v : α)
    (h : m.keys.Nodup) : (m.set k v).keys.Nodup := by
  rw [GoMap_keys_set]
  split
  · exact h
  · rename_i hk
    rw [List.nodup_append]
    refine ⟨h, by simp, ?_⟩
    intro a ha hb
    simp only [List.mem_singleton] at hb
    subst hb
    exact hk ha

theorem NewSummarizeOp_keyOf_eq (lib : GoLib) (row : Row) (names : List String) :
    ∀ (vals : List Value) (parts : List String),
      (∀ n ∈ names, ∃ s, (row.GetD n).String lib = .ok s) →
      NewSummarizeOp.keyOf lib row names vals parts
        = .ok (vals ++ names.map row.GetD,
               parts ++ names.map (fun n => textOf lib (row.GetD n))) := by
  induction names with
  | nil => intro vals parts _; simp [NewSummarizeOp.keyOf]
  | cons n ns ih =>
    intro vals parts h
    obtain ⟨s, hs⟩ := h n (by simp)
    simp only [NewSummarizeOp.keyOf, hs]
    rw [ih _ _ (fun x hx => h x (by simp [hx]))]
    simp [textOf, hs]

theorem SummarizeInv_step (lib : GoLib) (by_ : List String) (done : List Row) (r : Row)
    (counts : GoMap Int) (keys : GoMap (List Value))
    (h : SummarizeInv lib by_ done counts keys) :
    SummarizeInv lib by_ (done ++ [r])
      (counts.set (groupKey lib by_ r) ((counts.get (groupKey lib by_ r)).getD 0 + 1))
      (match keys.get (groupKey lib by_ r) with
        | some _ => keys
        | none => keys.set (groupKey lib by_ r) (by_.map r.GetD)) := by
  obtain ⟨hnd, hc, hk⟩ := h
  refine ⟨GoMap_keys_set_nodup _ _ _ hnd, ?_, ?_⟩
  · intro k
    rw [GoMap_get_set, List.countP_append]
    by_cases hkk : k = groupKey lib by_ r
    · subst hkk
      have hr : keyIs lib by_ (groupKey lib by_ r) r = true := by simp [keyIs]
      rw [if_pos rfl, hc]
      simp only [List.countP_cons, List.countP_nil, hr, if_true]
      by_cases h0 : done.countP (keyIs lib by_ (groupKey lib by_ r)) = 0
      · simp [h0]
      · simp [h0]
    · have hr : keyIs lib by_ k r = false := by
        simp only [keyIs, beq_eq_false_iff_ne, ne_eq]
        exact fun e => hkk e.symm
      rw [if_neg hkk, hc]
      simp [List.countP_cons, hr]
  · intro k
    rw [List.find?_append]
    by_cases hkk : k = groupKey lib by_ r
    · subst hkk
      have hr : keyIs lib by_ (groupKey lib by_ r) r = true := by simp [keyIs]
      cases hget : keys.get (groupKey lib by_ r) with
      | some v =>
        simp only [hget]
        rw [hk] at hget
        cases hf : done.find? (keyIs lib by_ (groupKey lib by_ r)) with
        | none => rw [hf] at hget; exact absurd hget (by simp)
        | some r' => rw [hf] at hget; simpa using hget.symm
      | none =>
        simp only
        rw [GoMap_get_set, if_pos rfl]
        rw [hk] at hget
        cases hf : done.find? (keyIs lib by_ (groupKey lib by_ r)) with
        | none => simp [List.find?_cons, hr]
        | some r' => rw [hf] at hget; exact absurd hget (by simp)
    · have hr : keyIs lib by_ k r = false := by
        simp only [keyIs, beq_eq_false_iff_ne, ne_eq]
        exact fun e => hkk e.symm
      have hor : ((done.find? (keyIs lib by_ k)).or ([r].find? (keyIs lib by_ k)))
          = done.find? (keyIs lib by_ k) := by
        simp [List.find?_cons, hr]
      rw [hor]
      cases hget : keys.get (groupKey lib by_ r) with
      | some v => exact hk k
      | none =>
        simp only
        rw [GoMap_get_set, if_neg hkk]
        exact hk k

/-- The first loop of `NewSummarizeOp` over a finite source ends and keeps the
invariant of its maps. -/
theorem NewSummarizeOp_drain_spec (lib : GoLib) (by_ : List String) (rest : List Row) :
    ∀ (pre : List Row) (counts : GoMap Int) (keys : GoMap (List Value)) (fuel : Nat),
      SummarizeInv lib by_ pre counts keys → rest.length < fuel →
      (∀ r ∈ rest, ∀ n ∈ by_, ∃ s, (r.GetD n).String lib = .ok s) →
      ∃ (counts' : GoMap Int) (keys' : GoMap (List Value)),
        NewSummarizeOp.drain lib by_ fuel (⟨pre ++ rest, pre.length⟩ : sliceOp) counts keys
          = some (.ok (counts', keys'), ⟨pre ++ rest, (pre ++ rest).length⟩)
        ∧ SummarizeInv lib by_ (pre ++ rest) counts' keys' := by
  induction rest with
  | nil =>
    intro pre counts keys fuel hinv hf _
    obtain ⟨f, rfl⟩ : ∃ f, fuel = f + 1 := ⟨fuel - 1, by simp at hf; omega⟩
    refine ⟨counts, keys, ?_, by simpa using hinv⟩
    simp [NewSummarizeOp.drain, Operator.Next, sliceOp_Next_end]
  | cons r rest ih =>
    intro pre counts keys fuel hinv hf hs
    obtain ⟨f, rfl⟩ : ∃ f, fuel = f + 1 := ⟨fuel - 1, by simp at hf; omega⟩
    have hkey := NewSummarizeOp_keyOf_eq lib r by_ [] [] (hs r (by simp))
    simp only [List.nil_append] at hkey
    obtain ⟨counts', keys', hd, hinv'⟩ := ih (pre ++ [r]) _ _ f
      (SummarizeInv_step lib by_ pre r counts keys hinv) (by simp at hf; omega)
      (fun x hx => hs x (by simp [hx]))
    simp only [List.append_assoc, List.singleton_append, List.length_append,
      List.length_singleton] at hd hinv'
    refine ⟨counts', keys', ?_, hinv'⟩
    simp only [NewSummarizeOp.drain, Operator.Next, sliceOp_Next_cons, hkey]
    simpa [groupKey] using hd

theorem NewSummarizeOp_cols_eq (vals : List Value) (names : List String) :
    ∀ (i : Nat) (acc : List Column), i + names.length ≤ vals.length →
      NewSummarizeOp.cols vals i names acc
        = .ok (acc ++ (names.zip (vals.drop i)).map (fun nv => ⟨nv.1, nv.2.Typ⟩)) := by
  induction names with
  | nil => intro i acc _; simp [NewSummarizeOp.cols]
  | cons n ns ih =>
    intro i acc h
    simp only [List.length_cons] at h
    have hi : i < vals.length := by omega
    simp only [NewSummarizeOp.cols, List.getElem?_eq_getElem hi]
    rw [ih (i + 1) _ (by omega), List.drop_eq_getElem_cons hi, List.zip_cons_cons,
      List.map_cons]
    simp

theorem SummarizeInv_mem_keys (lib : GoLib) (by_ : List String) (rows : List Row)
    (counts : GoMap Int) (keys : GoMap (List Value))
    (hinv : SummarizeInv lib by_ rows counts keys) (k : String) :
    k ∈ counts.keys ↔ ∃ r ∈ rows, keyIs lib by_ k r = true := by
  rw [← List.countP_pos_iff]
  constructor
  · intro hk
    by_contra h0
    have hz : rows.countP (keyIs lib by_ k) = 0 := by omega
    have := hinv.2.1 k
    rw [if_pos hz] at this
    exact (GoMap_get_eq_none_iff counts k).mp this hk
  · intro hpos
    by_contra hk
    have hn := (GoMap_get_eq_none_iff counts k).mpr hk
    rw [hinv.2.1 k, if_neg (by omega)] at hn
    exact absurd hn (by simp)

theorem NewSummarizeOp_emit_eq (lib : GoLib) (by_ : List String) (rows : List Row)
    (counts : GoMap Int) (keys : GoMap (List Value))
    (hinv : SummarizeInv lib by_ rows counts keys) (ks : List String) :
    ∀ acc : List Row, (∀ k ∈ ks, k ∈ counts.keys) →
      NewSummarizeOp.emit by_ counts keys ks acc
        = .ok (acc ++ ks.map (summaryRow lib by_ rows)) := by
  induction ks with
  | nil => intro acc _; simp [NewSummarizeOp.emit]
  | cons k ks ih =>
    intro acc hks
    obtain ⟨r0, hr0, hk0⟩ := (SummarizeInv_mem_keys lib by_ rows counts keys hinv k).mp
      (hks k (by simp))
    have hpos : rows.countP (keyIs lib by_ k) ≠ 0 := by
      have := List.countP_pos_iff.mpr ⟨r0, hr0, hk0⟩
      omega
    have hcount := hinv.2.1 k
    rw [if_neg hpos] at hcount
    obtain ⟨r, hfind⟩ : ∃ r, rows.find? (keyIs lib by_ k) = some r := by
      cases hf : rows.find? (keyIs lib by_ k) with
      | none =>
        rw [List.find?_eq_none] at hf
        exact absurd hk0 (hf r0 hr0)
      | some r => exact ⟨r, rfl⟩
    have hkeys := hinv.2.2 k
    rw [hfind] at hkeys
    simp only [Option.map_some'] at hkeys
    have hcols := NewSummarizeOp_cols_eq (by_.map r.GetD) by_ 0 [] (by simp)
    simp only [List.drop_zero, List.nil_append] at hcols
    simp only [NewSummarizeOp.emit, hcount, hkeys, Option.getD_some, hcols]
    rw [ih _ (fun x hx => hks x (by simp [hx]))]
    simp [summaryRow, hfind]

/-- What `NewSummarizeOp` returns over a finite source: some enumeration of the
keys of its map, each with the row of its group. -/
theorem NewSummarizeOp_spec (lib : GoLib) (order : List String → List String)
    (horder : ∀ ks : List String, (order ks).Perm ks) (rows : List Row) (by_ : List String)
    (fuel : Nat) (hf : rows.length < fuel)
    (hs : ∀ r ∈ rows, ∀ n ∈ by_, ∃ s, (r.GetD n).String lib = .ok s) :
    ∃ ks : List String, ks.Perm (rows.map (groupKey lib by_)).dedup
      ∧ NewSummarizeOp lib order fuel (⟨rows, 0⟩ : sliceOp) by_
          = some (.ok ⟨ks.map (summaryRow lib by_ rows), 0⟩) := by
  have hinv0 : SummarizeInv lib by_ [] [] [] := by
    refine ⟨by simp [GoMap.keys], ?_, ?_⟩ <;> intro k <;> simp [GoMap.get]
  obtain ⟨counts, keys, hd, hinv⟩ := NewSummarizeOp_drain_spec lib by_ rows [] [] [] fuel hinv0
    (by simpa using hf) hs
  simp only [List.nil_append, List.length_nil] at hd hinv
  have hperm : (order counts.keys).Perm (rows.map (groupKey lib by_)).dedup := by
    refine (horder counts.keys).trans ?_
    rw [List.perm_ext_iff_of_nodup hinv.1 (List.nodup_dedup _)]
    intro k
    rw [SummarizeInv_mem_keys lib by_ rows counts keys hinv k, List.mem_dedup, List.mem_map]
    simp only [keyIs, beq_iff_eq]
  refine ⟨order counts.keys, hperm, ?_⟩
  have hemit := NewSummarizeOp_emit_eq lib by_ rows counts keys hinv (order counts.keys) []
    (fun k hk => (horder counts.keys).mem_iff.mp hk)
  simp only [List.nil_append] at hemit
  simp only [NewSummarizeOp, hd, hemit]

theorem count_map_groupKey (lib : GoLib) (by_ : List String) (k : String) (rows : List Row) :
    (rows.map (groupKey lib by_)).count k = rows.countP (keyIs lib by_ k) := by
  induction rows with
  | nil => rfl
  | cons r rows ih =>
    simp only [List.map_cons, List.count_cons, List.countP_cons, ih, keyIs]

/-- C6: over a finite input whose BY values have textual forms,
`NewSummarizeOp` returns, in some order, exactly one row per distinct composite
group key of the input; the row of a key holds the BY values of the first input
row with that key followed by a column `count` of type int with the number of
input rows with that key; the counts add up to the number of input rows. -/
theorem NewSummarizeOp_one_row_per_group (lib : GoLib) (order : List String → List String)
    (horder : ∀ ks : List String, (order ks).Perm ks) (rows : List Row) (by_ : List String)
    (fuel : Nat) (hf : rows.length < fuel)
    (hs : ∀ r ∈ rows, ∀ n ∈ by_, ∃ s, (r.GetD n).String lib = .ok s) :
    ∃ out : List Row,
      NewSummarizeOp lib order fuel (⟨rows, 0⟩ : sliceOp) by_ = some (.ok ⟨out, 0⟩)
      ∧ out.Perm ((rows.map (groupKey lib by_)).dedup.map (summaryRow lib by_ rows))
      ∧ ((rows.map (groupKey lib by_)).dedup.map
            (fun k => rows.countP (keyIs lib by_ k))).sum = rows.length := by
  obtain ⟨ks, hperm, hout⟩ := NewSummarizeOp_spec lib order horder rows by_ fuel hf hs
  refine ⟨ks.map (summaryRow lib by_ rows), hout, hperm.map _, ?_⟩
  have h := List.sum_map_count_dedup_eq_length (rows.map (groupKey lib by_))
  simp only [count_map_groupKey, List.length_map] at h
  exact h

/-- Witness of C6 (`TestSummarize`): two rows `n = 1` grouped by `n` give the
single row `(1, 2)`. -/
theorem NewSummarizeOp_one_row_per_group_witness :
    ∃ out : List Row,
      NewSummarizeOp GoLib.blank id 3 (⟨[rowWithInt 1, rowWithInt 1], 0⟩ : sliceOp) ["n"]
        = some (.ok ⟨out, 0⟩)
      ∧ out.Perm [⟨NewSchema [⟨"n", TypeInt⟩, ⟨"count", TypeInt⟩],
                   [⟨TypeInt, .int 1⟩, ⟨TypeInt, .int 2⟩]⟩] :=
  match NewSummarizeOp_one_row_per_group GoLib.blank id (fun _ => List.Perm.refl _)
      [rowWithInt 1, rowWithInt 1] ["n"] 3 (by decide)
      (by
        intro r hr n hn
        simp only [List.mem_cons, List.mem_singleton, List.not_mem_nil, or_false, or_self] at hr hn
        subst hr; subst hn
        exact ⟨_, rfl⟩) with
  | ⟨out, h1, h2, _⟩ => ⟨out, h1, h2.trans (by decide)⟩

/-- Counterexample to C7: with an empty BY list and an input without rows,
`NewSummarizeOp` builds an operator with no row at all, whose first `Next` is
`io.EOF`. -/
theorem NewSummarizeOp_empty_input_no_row :
    NewSummarizeOp GoLib.blank id 1 (⟨[], 0⟩ : sliceOp) [] = some (.ok ⟨[], 0⟩)
    ∧ (SummarizeOp.Next ⟨[], 0⟩).1 = .error .EOF := by
  constructor <;> rfl

/-- C7, amended: with an empty BY list and an input of at least one row,
`NewSummarizeOp` produces exactly one row, whose single column is `count` of
type int and whose value is the number of input rows. -/
theorem NewSummarizeOp_no_by_single_count (lib : GoLib) (order : List String → List String)
    (horder : ∀ ks : List String, (order ks).Perm ks) (rows : List Row) (fuel : Nat)
    (hf : rows.length < fuel) (hne : rows ≠ []) :
    NewSummarizeOp lib order fuel (⟨rows, 0⟩ : sliceOp) []
      = some (.ok ⟨[⟨NewSchema [⟨"count", TypeInt⟩], [⟨TypeInt, .int rows.length⟩]⟩], 0⟩) := by
  obtain ⟨ks, hperm, hout⟩ := NewSummarizeOp_spec lib order horder rows [] fuel hf
    (by intro r _ n hn; simp at hn)
  have hkey : ∀ r : Row, groupKey lib [] r = "" := fun r => rfl
  have hmap : rows.map (groupKey lib []) = List.replicate rows.length "" := by
    rw [List.eq_replicate_iff]
    exact ⟨by simp, fun b hb => by
      obtain ⟨r, _, hr⟩ := List.mem_map.mp hb
      rw [← hr, hkey]⟩
  have hlen : rows.length ≠ 0 := fun h => hne (List.length_eq_zero.mp h)
  have hdd : (rows.map (groupKey lib [])).dedup = [""] := by
    rw [hmap]
    exact List.replicate_dedup hlen
  rw [hdd] at hperm
  have hks : ks = [""] := List.perm_singleton.mp hperm
  have hcount : rows.countP (keyIs lib [] "") = rows.length := by
    rw [List.countP_eq_length]
    intro r _
    simp [keyIs, hkey]
  have hfind : ∃ r, rows.find? (keyIs lib [] "") = some r := by
    cases rows with
    | nil => exact absurd rfl hne
    | cons r rs => exact ⟨r, by simp [List.find?_cons, keyIs, hkey]⟩
  obtain ⟨r, hr⟩ := hfind
  rw [hout, hks]
  simp [summaryRow, hr, hcount]

/-- Witness of the amended C7 (`TestSummarizeNoBy`): one row, no BY column. -/
theorem NewSummarizeOp_no_by_single_count_witness :
    [rowWithInt 1].length < 2 ∧ [rowWithInt 1] ≠ []
    ∧ NewSummarizeOp GoLib.blank id 2 (⟨[rowWithInt 1], 0⟩ : sliceOp) []
        = some (.ok ⟨[⟨NewSchema [⟨"count", TypeInt⟩], [⟨TypeInt, .int 1⟩]⟩], 0⟩) :=
  ⟨by decide, by decide,
    NewSummarizeOp_no_by_single_count GoLib.blank id (fun _ => List.Perm.refl _)
      [rowWithInt 1] 2 (by decide) (by decide)⟩

/-! ### sort.Slice on short slices -/

theorem shift_eq_shiftP {α : Type} (less : α → α → Except Error Bool) (lt : α → α → Bool)
    (x : α) (rev : List α) (h : ∀ p ∈ rev, less x p = .ok (lt x p)) :
    insertionSort.shift less x rev = .ok (shiftP lt x rev) := by
  induction rev with
  | nil => rfl
  | cons p ps ih =>
    have hp := h p (by simp)
    have ih' := ih (fun q hq => h q (by simp [hq]))
    cases hl : lt x p with
    | true => simp [insertionSort.shift, shiftP, hp, hl, ih']
    | false => simp [insertionSort.shift, shiftP, hp, hl]

theorem shiftP_perm {α : Type} (lt : α → α → Bool) (x : α) (rev : List α) :
    (shiftP lt x rev).Perm (x :: rev) := by
  induction rev with
  | nil => exact List.Perm.refl _
  | cons p ps ih =>
    simp only [shiftP]
    split
    · exact (List.Perm.cons p ih).trans (List.Perm.swap x p ps)
    · exact List.Perm.refl _

theorem isortP_perm {α : Type} (lt : α → α → Bool) (xs : List α) :
    ∀ rev : List α, (isortP lt xs rev).Perm (xs ++ rev) := by
  induction xs with
  | nil => intro rev; simp [isortP]
  | cons x xs ih =>
    intro rev
    simp only [isortP]
    refine (ih _).trans ?_
    refine (List.Perm.append_left xs (shiftP_perm lt x rev)).trans ?_
    simp

theorem insertionSort_eq_isortP {α : Type} (less : α → α → Except Error Bool)
    (lt : α → α → Bool) (xs : List α) :
    ∀ rev : List α, (∀ a ∈ xs ++ rev, ∀ b ∈ xs ++ rev, less a b = .ok (lt a b)) →
      insertionSort less xs rev = .ok (isortP lt xs rev) := by
  induction xs with
  | nil => intro rev _; rfl
  | cons x xs ih =>
    intro rev h
    have hs := shift_eq_shiftP less lt x rev
      (fun p hp => h x (by simp) p (by simp [hp]))
    simp only [insertionSort, hs, isortP]
    apply ih
    have hmem : ∀ a, a ∈ xs ++ shiftP lt x rev → a ∈ x :: xs ++ rev := by
      intro a ha
      rcases List.mem_append.mp ha with h1 | h1
      · simp [h1]
      · have := (shiftP_perm lt x rev).mem_iff.mp h1
        simp only [List.mem_cons] at this
        rcases this with h2 | h2 <;> simp [h2]
    intro a ha b hb
    exact h a (hmem a ha) b (hmem b hb)

theorem shiftP_pairwise {α : Type} (lt : α → α → Bool) (R : α → α → Prop)
    (h1 : ∀ x p, lt x p = true → R p x) (h2 : ∀ x p, lt x p = false → R x p)
    (htr : ∀ a b c, R a b → R b c → R a c) (x : α) (rev : List α)
    (hrev : rev.Pairwise R) : (shiftP lt x rev).Pairwise R := by
  induction rev with
  | nil => simp [shiftP]
  | cons p ps ih =>
    rw [List.pairwise_cons] at hrev
    simp only [shiftP]
    cases hl : lt x p with
    | true =>
      simp only [if_true]
      rw [List.pairwise_cons]
      refine ⟨?_, ih hrev.2⟩
      intro y hy
      have := (shiftP_perm lt x ps).mem_iff.mp hy
      simp only [List.mem_cons] at this
      rcases this with e | e
      · subst e; exact h1 _ _ hl
      · exact hrev.1 y e
    | false =>
      simp only [Bool.false_eq_true, if_false]
      rw [List.pairwise_cons, List.pairwise_cons]
      refine ⟨?_, hrev.1, hrev.2⟩
      intro y hy
      simp only [List.mem_cons] at hy
      rcases hy with e | e
      · subst e; exact h2 _ _ hl
      · exact htr _ _ _ (h2 _ _ hl) (hrev.1 y e)

theorem isortP_pairwise {α : Type} (lt : α → α → Bool) (R : α → α → Prop)
    (h1 : ∀ x p, lt x p = true → R p x) (h2 : ∀ x p, lt x p = false → R x p)
    (htr : ∀ a b c, R a b → R b c → R a c) (xs : List α) :
    ∀ rev : List α, rev.Pairwise R → (isortP lt xs rev).Pairwise (fun a b => R b a) := by
  induction xs with
  | nil => intro rev hrev; simpa [isortP, List.pairwise_reverse] using hrev
  | cons x xs ih =>
    intro rev hrev
    exact ih _ (shiftP_pairwise lt R h1 h2 htr x rev hrev)

theorem shiftP_filter {α : Type} (lt : α → α → Bool) (C : α → Bool)
    (hC : ∀ a b, C a = true → C b = true → lt a b = false) (x : α) (rev : List α) :
    (shiftP lt x rev).filter C = (x :: rev).filter C := by
  induction rev with
  | nil => rfl
  | cons p ps ih =>
    simp only [shiftP]
    cases hl : lt x p with
    | false => simp
    | true =>
      simp only [if_true]
      by_cases hx : C x = true
      · have hp : C p = false := by
          by_contra hp
          have := hC x p hx (by simpa using hp)
          rw [hl] at this
          exact absurd this (by simp)
        rw [List.filter_cons, ih]
        simp [List.filter_cons, hp]
      · have hx' : C x = false := by simpa using hx
        rw [List.filter_cons, ih]
        simp [List.filter_cons, hx']

theorem isortP_filter {α : Type} (lt : α → α → Bool) (C : α → Bool)
    (hC : ∀ a b, C a = true → C b = true → lt a b = false) (xs : List α) :
    ∀ rev : List α, (isortP lt xs rev).filter C = (rev.reverse ++ xs).filter C := by
  induction xs with
  | nil => intro rev; simp [isortP]
  | cons x xs ih =>
    intro rev
    simp only [isortP]
    rw [ih, List.filter_append, List.filter_reverse, shiftP_filter lt C hC]
    simp [List.filter_cons]
    split <;> simp

/-- Insertion sort meets what `sort.Slice` promises. -/
theorem insertionSort_sortsSlice {α : Type} :
    SortsSlice (fun (less : α → α → Except Error Bool) xs => insertionSort less xs []) := by
  intro less lt xs hless ht1 ht2
  refine ⟨isortP lt xs [], ?_, ?_, ?_⟩
  · exact insertionSort_eq_isortP less lt xs [] (by simpa using hless)
  · simpa using isortP_perm lt xs []
  · apply List.Pairwise.chain'
    have := isortP_pairwise lt (fun p q => lt p q = true → lt q p = true)
      (fun x p hxp _ => hxp) (fun x p hxp h => by rw [hxp] at h; exact absurd h (by simp))
      (fun a b c hab hbc hac => by
        by_contra hca
        have hca' : lt c a = false := by simpa using hca
        cases hab' : lt a b with
        | true =>
          have hba := hab hab'
          cases hbc' : lt b c with
          | true =>
            have hcb := hbc hbc'
            have := ht1 c b a hcb hba
            rw [hca'] at this
            exact absurd this (by simp)
          | false =>
            have := ht1 b a c hba hac
            rw [hbc'] at this
            exact absurd this (by simp)
        | false =>
          cases hbc' : lt b c with
          | true =>
            have hcb := hbc hbc'
            have := ht2 c a b hca' hab'
            rw [hcb] at this
            exact absurd this (by simp)
          | false =>
            have := ht2 a b c hab' hbc'
            rw [hac] at this
            exact absurd this (by simp))
      xs [] List.Pairwise.nil
    exact this

/-! ### OrderByOp -/

theorem NewOrderByOp_drain_spec (rest : List Row) :
    ∀ (pre acc : List Row) (fuel : Nat), rest.length < fuel →
      NewOrderByOp.drain fuel (⟨pre ++ rest, pre.length⟩ : sliceOp) acc
        = some (.ok (acc ++ rest), ⟨pre ++ rest, (pre ++ rest).length⟩) := by
  induction rest with
  | nil =>
    intro pre acc fuel hf
    obtain ⟨f, rfl⟩ : ∃ f, fuel = f + 1 := ⟨fuel - 1, by simp at hf; omega⟩
    simp [NewOrderByOp.drain, Operator.Next, sliceOp_Next_end]
  | cons r rest ih =>
    intro pre acc fuel hf
    obtain ⟨f, rfl⟩ : ∃ f, fuel = f + 1 := ⟨fuel - 1, by simp at hf; omega⟩
    have h := ih (pre ++ [r]) (acc ++ [r]) f (by simp at hf; omega)
    simp only [List.append_assoc, List.singleton_append, List.length_append,
      List.length_singleton] at h
    simp only [NewOrderByOp.drain, Operator.Next, sliceOp_Next_cons, h, List.length_append,
      List.length_cons]

/-- Successive calls of `OrderByOp.Next` return the buffered rows in order and
then `io.EOF`. -/
theorem OrderByOp_NextN_all (rest : List Row) :
    ∀ (pre : List Row) (k : Nat),
      OrderByOp.NextN (rest.length + k) ⟨pre ++ rest, pre.length⟩
        = rest.map Except.ok ++ List.replicate k (Except.error Error.EOF) := by
  induction rest with
  | nil =>
    intro pre k
    induction k with
    | zero => rfl
    | succ k ih =>
      simp only [List.append_nil, List.length_nil, Nat.zero_add, List.map_nil,
        List.nil_append] at ih ⊢
      simp [OrderByOp.NextN, OrderByOp.Next, ih, List.replicate_succ]
  | cons r rest ih =>
    intro pre k
    have hget : (pre ++ r :: rest)[pre.length]? = some r := by
      rw [List.getElem?_append_right (Nat.le_refl _)]
      simp
    have hnext : OrderByOp.Next ⟨pre ++ r :: rest, pre.length⟩
        = (.ok r, ⟨pre ++ r :: rest, pre.length + 1⟩) := by
      unfold OrderByOp.Next
      simp only [hget]
      simp
    have h := ih (pre ++ [r]) k
    simp only [List.append_assoc, List.singleton_append, List.length_append,
      List.length_singleton] at h
    have e : (r :: rest).length + k = (rest.length + k) + 1 := by simp; omega
    rw [e]
    simp only [OrderByOp.NextN, hnext, h, List.map_cons, List.cons_append]

theorem cmpOf_neg_iff {κ : Type} [LinearOrder κ] (a b : κ) : cmpOf a b < 0 ↔ a < b := by
  unfold cmpOf
  by_cases h : a < b
  · simp [h]
  · by_cases h2 : a > b
    · simp [h, h2]
    · simp [h, h2]

theorem cmpOf_nonpos_iff {κ : Type} [LinearOrder κ] (a b : κ) : cmpOf a b ≤ 0 ↔ a ≤ b := by
  unfold cmpOf
  by_cases h : a < b
  · simp [h, le_of_lt h]
  · by_cases h2 : a > b
    · simp [h, h2]
    · simp [h, h2, le_of_not_lt h2]

theorem cmpOf_nonneg_iff {κ : Type} [LinearOrder κ] (a b : κ) : 0 ≤ cmpOf a b ↔ b ≤ a := by
  unfold cmpOf
  by_cases h : a < b
  · simp [h]
  · by_cases h2 : a > b
    · simp [h, h2, le_of_lt h2]
    · simp [h, h2, le_of_not_lt h]

theorem cmpOf_eq_zero_iff {κ : Type} [LinearOrder κ] (a b : κ) : cmpOf a b = 0 ↔ a = b := by
  unfold cmpOf
  by_cases h : a < b
  · simp [h, ne_of_lt h]
  · by_cases h2 : a > b
    · simp [h, h2, ne_of_gt h2]
    · simp [h, h2, le_antisymm (le_of_not_lt h2) (le_of_not_lt h)]

theorem compareValues_int (lib : GoLib) (i j : Int) :
    compareValues lib ⟨TypeInt, .int i⟩ ⟨TypeInt, .int j⟩ = .ok (cmpOf i j) := by
  simp [compareValues, toInt64, cmpOf]

theorem compareValues_bool (lib : GoLib) (a b : Bool) :
    compareValues lib ⟨TypeBool, .bool a⟩ ⟨TypeBool, .bool b⟩ = .ok (cmpOf a b) := by
  have h1 : ¬ TypeBool = TypeInt := by decide
  have h2 : ¬ TypeBool = TypeFloat := by decide
  simp only [compareValues, toBool, h1, h2, if_false, if_true]
  cases a <;> cases b <;> decide

theorem compareValues_string (lib : GoLib) (a b : String) :
    compareValues lib ⟨TypeString, .str a⟩ ⟨TypeString, .str b⟩ = .ok (cmpOf a b) := by
  have h1 : ¬ TypeString = TypeInt := by decide
  have h2 : ¬ TypeString = TypeFloat := by decide
  have h3 : ¬ TypeString = TypeBool := by decide
  have h4 : ¬ TypeString = TypeDateTime := by decide
  simp only [compareValues, Value.String, h1, h2, h3, h4, if_false, if_true, cmpOf]
  by_cases hab : a < b <;> by_cases hba : a > b <;> simp [hab, hba]

theorem orderByLess_eq_keyLess {κ : Type} [LinearOrder κ] (lib : GoLib) (column : String)
    (desc : Bool) (key : Row → κ) (a b : Row)
    (h : compareValues lib (a.GetD column) (b.GetD column) = .ok (cmpOf (key a) (key b))) :
    orderByLess lib column desc a b = .ok (keyLess key desc a b) := by
  simp only [orderByLess, h, keyLess, cmpOf_neg_iff]

theorem keyLess_trans {κ : Type} [LinearOrder κ] (key : Row → κ) (desc : Bool) (a b c : Row)
    (h1 : keyLess key desc a b = true) (h2 : keyLess key desc b c = true) :
    keyLess key desc a c = true := by
  cases desc
  · simp only [keyLess, Bool.false_eq_true, if_false, decide_eq_true_eq] at *
    exact lt_trans h1 h2
  · simp only [keyLess, if_true, Bool.not_eq_true', decide_eq_false_iff_not, not_lt] at *
    exact le_trans h2 h1

theorem keyLess_neg_trans {κ : Type} [LinearOrder κ] (key : Row → κ) (desc : Bool)
    (a b c : Row) (h1 : keyLess key desc a b = false) (h2 : keyLess key desc b c = false) :
    keyLess key desc a c = false := by
  cases desc
  · simp only [keyLess, Bool.false_eq_true, if_false, decide_eq_false_iff_not, not_lt] at *
    exact le_trans h2 h1
  · simp only [keyLess, if_true, Bool.not_eq_false', decide_eq_true_eq] at *
    exact lt_trans h1 h2

/-- The rows of the operator built by `NewOrderByOp` over a finite source whose
keys are compared as the keys `key r` of a linear order: a rearrangement of the
input in which the keys never decrease, or never increase when `desc`. -/
theorem NewOrderByOp_sorted_of_key {κ : Type} [LinearOrder κ] (lib : GoLib)
    (longSort : (Row → Row → Except Error Bool) → List Row → Except Error (List Row))
    (hlong : SortsSlice longSort) (rows : List Row) (column : String) (desc : Bool)
    (fuel : Nat) (hf : rows.length < fuel) (key : Row → κ)
    (hcmp : ∀ a ∈ rows, ∀ b ∈ rows,
      compareValues lib (a.GetD column) (b.GetD column) = .ok (cmpOf (key a) (key b))) :
    ∃ out : List Row,
      NewOrderByOp lib longSort fuel (⟨rows, 0⟩ : sliceOp) column desc = some (.ok ⟨out, 0⟩)
      ∧ out.Perm rows
      ∧ out.Chain' (fun a b => if desc = true then key b ≤ key a else key a ≤ key b) := by
  have hd := NewOrderByOp_drain_spec rows [] [] fuel hf
  simp only [List.nil_append, List.length_nil] at hd
  by_cases h0 : rows.length = 0
  · have hnil : rows = [] := List.length_eq_zero.mp h0
    subst hnil
    exact ⟨[], by simp [NewOrderByOp, hd], List.Perm.refl _, List.chain'_nil⟩
  · have hless : ∀ a ∈ rows, ∀ b ∈ rows,
        orderByLess lib column desc a b = .ok (keyLess key desc a b) :=
      fun a ha b hb => orderByLess_eq_keyLess lib column desc key a b (hcmp a ha b hb)
    have hsorts : SortsSlice (sortSlice longSort) := by
      intro less lt xs h1 h2 h3
      unfold sortSlice
      split
      · exact insertionSort_sortsSlice less lt xs h1 h2 h3
      · exact hlong less lt xs h1 h2 h3
    obtain ⟨out, hout, hperm, hchain⟩ := hsorts (orderByLess lib column desc)
      (keyLess key desc) rows hless (keyLess_trans key desc) (keyLess_neg_trans key desc)
    refine ⟨out, by simp [NewOrderByOp, hd, h0, hout], hperm, ?_⟩
    refine hchain.imp ?_
    intro a b hab
    cases desc
    · simp only [keyLess, Bool.false_eq_true, if_false, decide_eq_true_eq] at hab ⊢
      by_contra hle
      have hba : key b < key a := lt_of_not_le hle
      exact absurd (hab hba) (not_lt_of_gt hba)
    · simp only [keyLess, if_true, Bool.not_eq_true', decide_eq_false_iff_not, not_lt] at hab ⊢
      by_contra hle
      have hab' : key a < key b := lt_of_not_le hle
      exact absurd (hab (le_of_lt hab')) hle

theorem NewOrderByOp_sorted_aux {κ : Type} [LinearOrder κ] (lib : GoLib)
    (longSort : (Row → Row → Except Error Bool) → List Row → Except Error (List Row))
    (hlong : SortsSlice longSort) (rows : List Row) (column : String) (desc : Bool)
    (fuel k : Nat) (hf : rows.length < fuel) (key : Row → κ)
    (hcmp : ∀ a ∈ rows, ∀ b ∈ rows,
      compareValues lib (a.GetD column) (b.GetD column) = .ok (cmpOf (key a) (key b))) :
    ∃ out : List Row,
      NewOrderByOp lib longSort fuel (⟨rows, 0⟩ : sliceOp) column desc = some (.ok ⟨out, 0⟩)
      ∧ OrderByOp.NextN (out.length + k) ⟨out, 0⟩
          = out.map Except.ok ++ List.replicate k (Except.error Error.EOF)
      ∧ out.Chain' (fun a b => ∃ c : Int,
          compareValues lib (a.GetD column) (b.GetD column) = .ok c
          ∧ (if desc = true then 0 ≤ c else c ≤ 0)) := by
  obtain ⟨out, hout, hperm, hchain⟩ := NewOrderByOp_sorted_of_key lib longSort hlong rows
    column desc fuel hf key hcmp
  refine ⟨out, hout, by simpa using OrderByOp_NextN_all out [] k, ?_⟩
  rw [List.Chain'.iff_mem] at hchain
  refine hchain.imp ?_
  intro a b ⟨ha, hb, hab⟩
  refine ⟨cmpOf (key a) (key b), hcmp a (hperm.mem_iff.mp ha) b (hperm.mem_iff.mp hb), ?_⟩
  cases desc
  · simp only [Bool.false_eq_true, if_false] at hab ⊢
    exact (cmpOf_nonpos_iff _ _).mpr hab
  · simp only [if_true] at hab ⊢
    exact (cmpOf_nonneg_iff _ _).mpr hab

/-- The keys of rows that all carry an int, a bool or a string in the key
column are compared by `compareValues` as elements of a linear order. -/
theorem SameTypeKeys_cases (lib : GoLib) (column : String) (rows : List Row)
    (h : SameTypeKeys column rows) :
    (∃ key : Row → Int, ∀ a ∈ rows, ∀ b ∈ rows,
        compareValues lib (a.GetD column) (b.GetD column) = .ok (cmpOf (key a) (key b)))
    ∨ (∃ key : Row → Bool, ∀ a ∈ rows, ∀ b ∈ rows,
        compareValues lib (a.GetD column) (b.GetD column) = .ok (cmpOf (key a) (key b)))
    ∨ (∃ key : Row → String, ∀ a ∈ rows, ∀ b ∈ rows,
        compareValues lib (a.GetD column) (b.GetD column) = .ok (cmpOf (key a) (key b))) := by
  rcases h with h | h | h
  · refine Or.inl ⟨fun r => match r.Get column with
      | some ⟨_, .int i⟩ => i
      | _ => 0, ?_⟩
    intro a ha b hb
    obtain ⟨i, hi⟩ := h a ha
    obtain ⟨j, hj⟩ := h b hb
    simp only [Row.GetD, hi, hj, Option.getD_some, compareValues_int]
  · refine Or.inr (Or.inl ⟨fun r => match r.Get column with
      | some ⟨_, .bool i⟩ => i
      | _ => false, ?_⟩)
    intro a ha b hb
    obtain ⟨i, hi⟩ := h a ha
    obtain ⟨j, hj⟩ := h b hb
    simp only [Row.GetD, hi, hj, Option.getD_some, compareValues_bool]
  · refine Or.inr (Or.inr ⟨fun r => match r.Get column with
      | some ⟨_, .str i⟩ => i
      | _ => "", ?_⟩)
    intro a ha b hb
    obtain ⟨i, hi⟩ := h a ha
    obtain ⟨j, hj⟩ := h b hb
    simp only [Row.GetD, hi, hj, Option.getD_some, compareValues_string]

/-- C4: over a finite input whose rows all carry the key column with values of
one same type among int, bool and string, `NewOrderByOp` builds an operator
whose `Next` yields its rows in order and then `io.EOF`, and in that order each
row's key compares `<=` the key of the next row under `compareValues`, or `>=`
when `desc`.  Slices of at most 6 rows are sorted by the insertion sort of
`sort.Slice`; for longer ones `sort.Slice` is assumed to sort (`SortsSlice`). -/
theorem NewOrderByOp_sorted (lib : GoLib)
    (longSort : (Row → Row → Except Error Bool) → List Row → Except Error (List Row))
    (hlong : SortsSlice longSort) (rows : List Row) (column : String) (desc : Bool)
    (fuel k : Nat) (hf : rows.length < fuel) (hkeys : SameTypeKeys column rows) :
    ∃ out : List Row,
      NewOrderByOp lib longSort fuel (⟨rows, 0⟩ : sliceOp) column desc = some (.ok ⟨out, 0⟩)
      ∧ OrderByOp.NextN (out.length + k) ⟨out, 0⟩
          = out.map Except.ok ++ List.replicate k (Except.error Error.EOF)
      ∧ out.Chain' (fun a b => ∃ c : Int,
          compareValues lib (a.GetD column) (b.GetD column) = .ok c
          ∧ (if desc = true then 0 ≤ c else c ≤ 0)) := by
  rcases SameTypeKeys_cases lib column rows hkeys with ⟨key, hcmp⟩ | ⟨key, hcmp⟩ | ⟨key, hcmp⟩
  · exact NewOrderByOp_sorted_aux lib longSort hlong rows column desc fuel k hf key hcmp
  · exact NewOrderByOp_sorted_aux lib longSort hlong rows column desc fuel k hf key hcmp
  · exact NewOrderByOp_sorted_aux lib longSort hlong rows column desc fuel k hf key hcmp

/-- Witness of C4 (`TestOrderByDesc`): rows `n = 1, 2` in descending order, with
insertion sort standing for the code of `sort.Slice` for long slices. -/
theorem NewOrderByOp_sorted_witness :
    SortsSlice (fun (less : Row → Row → Except Error Bool) xs => insertionSort less xs [])
    ∧ SameTypeKeys "n" [rowWithInt 1, rowWithInt 2]
    ∧ ∃ out : List Row,
        NewOrderByOp GoLib.blank (fun less xs => insertionSort less xs []) 3
          (⟨[rowWithInt 1, rowWithInt 2], 0⟩ : sliceOp) "n" true = some (.ok ⟨out, 0⟩)
        ∧ OrderByOp.NextN (out.length + 1) ⟨out, 0⟩
            = out.map Except.ok ++ List.replicate 1 (Except.error Error.EOF)
        ∧ out.Chain' (fun a b => ∃ c : Int,
            compareValues GoLib.blank (a.GetD "n") (b.GetD "n") = .ok c
            ∧ (if true = true then 0 ≤ c else c ≤ 0)) :=
  have hkeys : SameTypeKeys "n" [rowWithInt 1, rowWithInt 2] := Or.inl (by
    intro r hr
    simp only [List.mem_cons, List.mem_singleton, List.not_mem_nil, or_false] at hr
    rcases hr with h | h <;> subst h <;> exact ⟨_, rfl⟩)
  ⟨insertionSort_sortsSlice, hkeys,
    NewOrderByOp_sorted GoLib.blank (fun less xs => insertionSort less xs [])
      insertionSort_sortsSlice [rowWithInt 1, rowWithInt 2] "n" true 3 1 (by decide) hkeys⟩

/-- Counterexample to C5 (scenario S5): on the rows `(1,a), (2,b), (1,c)`,
ordering by `k` descending yields `(2,b), (1,c), (1,a)`: the two rows with key
`1`, whose keys compare equal, come out in the reverse of their source order.
The comparator for `desc` is the negation of `<`, which holds between equal
keys, so insertion sort moves a row past the rows it ties with. -/
theorem NewOrderByOp_desc_reverses_ties :
    NewOrderByOp GoLib.blank (fun _ xs => .ok xs) 4
        (⟨[rowKV 1 "a", rowKV 2 "b", rowKV 1 "c"], 0⟩ : sliceOp) "k" true
      = some (.ok ⟨[rowKV 2 "b", rowKV 1 "c", rowKV 1 "a"], 0⟩)
    ∧ keysTie GoLib.blank "k" (rowKV 1 "a") (rowKV 1 "c") = true := by
  constructor <;> decide

/-- C5, amended: with `desc = false`, over an input of at most 6 rows (which
`sort.Slice` sorts by insertion) whose rows all carry the key column with
values of one same type among int, bool and string, the rows whose key compares
equal to the key of any given row come out in their source order. -/
theorem NewOrderByOp_asc_short_stable (lib : GoLib)
    (longSort : (Row → Row → Except Error Bool) → List Row → Except Error (List Row))
    (rows : List Row) (column : String) (fuel : Nat) (hf : rows.length < fuel)
    (hshort : rows.length ≤ 6) (hkeys : SameTypeKeys column rows) :
    ∃ out : List Row,
      NewOrderByOp lib longSort fuel (⟨rows, 0⟩ : sliceOp) column false = some (.ok ⟨out, 0⟩)
      ∧ ∀ x ∈ rows, out.filter (keysTie lib column x) = rows.filter (keysTie lib column x) := by
  have hd := NewOrderByOp_drain_spec rows [] [] fuel hf
  simp only [List.nil_append, List.length_nil] at hd
  by_cases h0 : rows.length = 0
  · have hnil : rows = [] := List.length_eq_zero.mp h0
    subst hnil
    exact ⟨[], by simp [NewOrderByOp, hd], by simp⟩
  · have main : ∀ {κ : Type} [LinearOrder κ] (key : Row → κ),
        (∀ a ∈ rows, ∀ b ∈ rows,
          compareValues lib (a.GetD column) (b.GetD column) = .ok (cmpOf (key a) (key b))) →
        ∃ out : List Row,
          NewOrderByOp lib longSort fuel (⟨rows, 0⟩ : sliceOp) column false
            = some (.ok ⟨out, 0⟩)
          ∧ ∀ x ∈ rows,
              out.filter (keysTie lib column x) = rows.filter (keysTie lib column x) := by
      intro κ _ key hcmp
      have hsort : sortSlice longSort (orderByLess lib column false) rows
          = .ok (isortP (keyLess key false) rows []) := by
        unfold sortSlice
        rw [if_pos hshort]
        apply insertionSort_eq_isortP
        intro a ha b hb
        simp only [List.append_nil] at ha hb
        exact orderByLess_eq_keyLess lib column false key a b (hcmp a ha b hb)
      refine ⟨isortP (keyLess key false) rows [], by simp [NewOrderByOp, hd, h0, hsort], ?_⟩
      intro x hx
      have hperm : (isortP (keyLess key false) rows []).Perm rows := by
        simpa using isortP_perm (keyLess key false) rows []
      have htie : ∀ r ∈ rows, keysTie lib column x r = decide (key r = key x) := by
        intro r hr
        simp only [keysTie, hcmp r hr x hx, Except.ok.injEq, cmpOf_eq_zero_iff]
      have hfilter := isortP_filter (keyLess key false) (fun r => decide (key r = key x))
        (by
          intro a b ha hb
          simp only [decide_eq_true_eq] at ha hb
          simp [keyLess, ha, hb]) rows []
      simp only [List.reverse_nil, List.nil_append] at hfilter
      rw [List.filter_congr (fun r hr => htie r (hperm.mem_iff.mp hr)),
        List.filter_congr (fun r hr => htie r hr)]
      exact hfilter
    rcases SameTypeKeys_cases lib column rows hkeys with ⟨key, hcmp⟩ | ⟨key, hcmp⟩ | ⟨key, hcmp⟩
    · exact main key hcmp
    · exact main key hcmp
    · exact main key hcmp

/-- Witness of the amended C5: the rows of scenario S5 in ascending order keep
`(1,a)` before `(1,c)`. -/
theorem NewOrderByOp_asc_short_stable_witness :
    SameTypeKeys "k" [rowKV 1 "a", rowKV 2 "b", rowKV 1 "c"]
    ∧ ∃ out : List Row,
        NewOrderByOp GoLib.blank (fun _ xs => .ok xs) 4
          (⟨[rowKV 1 "a", rowKV 2 "b", rowKV 1 "c"], 0⟩ : sliceOp) "k" false
            = some (.ok ⟨out, 0⟩)
        ∧ ∀ x ∈ [rowKV 1 "a", rowKV 2 "b", rowKV 1 "c"],
            out.filter (keysTie GoLib.blank "k" x)
              = [rowKV 1 "a", rowKV 2 "b", rowKV 1 "c"].filter (keysTie GoLib.blank "k" x) :=
  have hkeys : SameTypeKeys "k" [rowKV 1 "a", rowKV 2 "b", rowKV 1 "c"] := Or.inl (by
    intro r hr
    simp only [List.mem_cons, List.mem_singleton, List.not_mem_nil, or_false] at hr
    rcases hr with h | h | h <;> subst h <;> exact ⟨_, rfl⟩)
  ⟨hkeys, NewOrderByOp_asc_short_stable GoLib.blank (fun _ xs => .ok xs)
    [rowKV 1 "a", rowKV 2 "b", rowKV 1 "c"] "k" 4 (by decide) (by decide) hkeys⟩

/-! ### Expression evaluation -/

/-- C12: when the two sides evaluate to values that `compareValues` compares
with result `c`, `evalCompare` returns `c == 0` for `==` and for `=`, `c != 0`
for `!=`, `c > 0` for `>`, `c >= 0` for `>=`, `c < 0` for `<`, `c <= 0` for
`<=`, and an error for every other operator string; a column reference and a
literal always evaluate to a value. -/
theorem evalCompare_by_op (lib : GoLib) (row : Row) (L R : Expr) (l r : Value) (c : Int)
    (hL : evalExpr row L = .ok l) (hR : evalExpr row R = .ok r)
    (hc : compareValues lib l r = .ok c) :
    evalCompare lib row L "==" R = .ok (decide (c = 0))
    ∧ evalCompare lib row L "=" R = .ok (decide (c = 0))
    ∧ evalCompare lib row L "!=" R = .ok (decide (c ≠ 0))
    ∧ evalCompare lib row L ">" R = .ok (decide (c > 0))
    ∧ evalCompare lib row L ">=" R = .ok (decide (c ≥ 0))
    ∧ evalCompare lib row L "<" R = .ok (decide (c < 0))
    ∧ evalCompare lib row L "<=" R = .ok (decide (c ≤ 0))
    ∧ (∀ op : String, op ∉ ["==", "=", "!=", ">", ">=", "<", "<="] →
        evalCompare lib row L op R = .error (.other "unsupported operator"))
    ∧ (∀ n : String, evalExpr row (.ColumnRef n) = .ok (row.GetD n))
    ∧ (∀ v : Value, evalExpr row (.Literal v) = .ok v) := by
  refine ⟨?_, ?_, ?_, ?_, ?_, ?_, ?_, ?_, fun _ => rfl, fun _ => rfl⟩
  · simp [evalCompare, hL, hR, hc]
  · simp [evalCompare, hL, hR, hc]
  · simp [evalCompare, hL, hR, hc]
  · simp [evalCompare, hL, hR, hc]
  · simp [evalCompare, hL, hR, hc]
  · simp [evalCompare, hL, hR, hc]
  · simp [evalCompare, hL, hR, hc]
  · intro op hop
    simp only [List.mem_cons, List.mem_singleton, List.not_mem_nil, or_false, not_or] at hop
    obtain ⟨h1, h2, h3, h4, h5, h6, h7⟩ := hop
    simp only [evalCompare, hL, hR, hc]
    rw [if_neg (by simp [h1, h2]), if_neg h3, if_neg h4, if_neg h5, if_neg h6, if_neg h7]

/-- Witness of C12 (`TestEvalCompareOps`): the column `age = 3` against the
literal 3. -/
theorem evalCompare_by_op_witness :
    evalCompare GoLib.blank sampleRow (.ColumnRef "age") "==" (.Literal ⟨TypeInt, .int 3⟩)
        = .ok (decide ((0 : Int) = 0))
    ∧ evalCompare GoLib.blank sampleRow (.ColumnRef "age") "=" (.Literal ⟨TypeInt, .int 3⟩)
        = .ok (decide ((0 : Int) = 0)) :=
  have h := evalCompare_by_op GoLib.blank sampleRow (.ColumnRef "age")
    (.Literal ⟨TypeInt, .int 3⟩) ⟨TypeInt, .int 3⟩ ⟨TypeInt, .int 3⟩ 0 (by rfl) (by rfl)
    (by rfl)
  ⟨h.1, h.2.1⟩

/-- C13: when `evalLogical` returns false on `L`, it returns false without
error on `LogicalExpr{L, "and", R}` whatever `R` is, also an `R` on which it
would return an error; when it returns true on `L`, it returns true without
error on `LogicalExpr{L, "or", R}`. -/
theorem evalLogical_short_circuit (lib : GoLib) (row : Row) (L R : Expr) :
    (evalLogical lib row L = .ok false →
        evalLogical lib row (.LogicalExpr L "and" R) = .ok false)
    ∧ (evalLogical lib row L = .ok true →
        evalLogical lib row (.LogicalExpr L "or" R) = .ok true) := by
  constructor
  · intro h
    simp [evalLogical, h]
  · intro h
    simp [evalLogical, h]

/-- Witness of C13 (`TestEvalLogicalShortCircuit`): the right side is an
expression on which `evalLogical` returns an error. -/
theorem evalLogical_short_circuit_witness :
    evalLogical GoLib.blank sampleRow .other = .error (.other "unsupported expression")
    ∧ evalLogical GoLib.blank sampleRow
        (.LogicalExpr (.CompareExpr (.ColumnRef "age") ">" (.Literal ⟨TypeInt, .int 100⟩))
          "and" .other) = .ok false
    ∧ evalLogical GoLib.blank sampleRow
        (.LogicalExpr (.CompareExpr (.ColumnRef "age") ">" (.Literal ⟨TypeInt, .int 1⟩))
          "or" .other) = .ok true :=
  ⟨rfl,
    (evalLogical_short_circuit GoLib.blank sampleRow
      (.CompareExpr (.ColumnRef "age") ">" (.Literal ⟨TypeInt, .int 100⟩)) .other).1 (by rfl),
    (evalLogical_short_circuit GoLib.blank sampleRow
      (.CompareExpr (.ColumnRef "age") ">" (.Literal ⟨TypeInt, .int 1⟩)) .other).2 (by rfl)⟩

/-- Counterexample to C14: on the row `n = 1` the absent column `missing`
evaluates to the zero value, whose tag is not `string` and whose textual form
is `<nil>`, and its comparison with the string literal `""` under `==` is
false. -/
theorem evalExpr_absent_column_not_empty_string :
    (rowWithInt 1).Get "missing" = none
    ∧ evalExpr (rowWithInt 1) (.ColumnRef "missing") = .ok ⟨"", .nil⟩
    ∧ (⟨"", .nil⟩ : Value).Typ ≠ TypeString
    ∧ Value.String GoLib.blank ⟨"", .nil⟩ = .ok "<nil>"
    ∧ evalCompare GoLib.blank (rowWithInt 1) (.ColumnRef "missing") "=="
        (.Literal ⟨TypeString, .str ""⟩) = .ok false := by
  refine ⟨by rfl, by rfl, by decide, by rfl, ?_⟩
  simp [evalCompare, evalExpr, Row.GetD, Row.Get, rowWithInt, NewSchema, NewSchema.loop,
    GoMap.set, GoMap.get, Value.zero, compareValues, Value.String, Sprintv, TypeInt, TypeFloat,
    TypeBool, TypeDateTime, TypeString]
  decide

/-- C14, amended: for a column name the row does not contain, `evalExpr` of the
column reference returns without error the zero value, whose type tag is empty
and whose textual form is `<nil>`; its comparison under `==` with a string
literal `s` is true exactly when `s` is `<nil>`, so it is false for `""`. -/
theorem evalExpr_absent_column_zero_value (lib : GoLib) (row : Row) (n : String)
    (habs : row.Get n = none) :
    evalExpr row (.ColumnRef n) = .ok ⟨"", .nil⟩
    ∧ Value.String lib ⟨"", .nil⟩ = .ok "<nil>"
    ∧ (∀ s : String, evalCompare lib row (.ColumnRef n) "==" (.Literal ⟨TypeString, .str s⟩)
        = .ok (decide (s = "<nil>")))
    ∧ evalCompare lib row (.ColumnRef n) "==" (.Literal ⟨TypeString, .str ""⟩) = .ok false := by
  have hev : evalExpr row (.ColumnRef n) = .ok ⟨"", .nil⟩ := by
    simp [evalExpr, Row.GetD, habs, Value.zero]
  have hstr : Value.String lib ⟨"", .nil⟩ = .ok "<nil>" := by rfl
  have hcmp : ∀ s : String, compareValues lib ⟨"", .nil⟩ ⟨TypeString, .str s⟩
      = .ok (cmpOf "<nil>" s) := by
    intro s
    have h1 : ¬ ("" : String) = TypeInt := by decide
    have h2 : ¬ ("" : String) = TypeFloat := by decide
    have h3 : ¬ ("" : String) = TypeBool := by decide
    have h4 : ¬ ("" : String) = TypeDateTime := by decide
    have h5 : ¬ ("" : String) = TypeString := by decide
    simp only [compareValues, Value.String, Sprintv, h1, h2, h3, h4, h5, if_false, if_true,
      cmpOf]
    by_cases hab : "<nil>" < s <;> by_cases hba : "<nil>" > s <;> simp [hab, hba]
  have hall : ∀ s : String,
      evalCompare lib row (.ColumnRef n) "==" (.Literal ⟨TypeString, .str s⟩)
        = .ok (decide (s = "<nil>")) := by
    intro s
    have hget : row.GetD n = ⟨"", .nil⟩ := by simp [Row.GetD, habs, Value.zero]
    simp only [evalCompare, evalExpr, hget, hcmp s, true_or, if_true, cmpOf_eq_zero_iff]
    congr 1
    by_cases h : s = "<nil>"
    · simp [h]
    · have h' : ¬ "<nil>" = s := fun e => h e.symm
      simp [h, h']
  refine ⟨hev, hstr, hall, ?_⟩
  rw [hall ""]
  decide

/-- Witness of the amended C14: the column `missing` of the row `n = 1`. -/
theorem evalExpr_absent_column_zero_value_witness :
    (rowWithInt 1).Get "missing" = none
    ∧ evalExpr (rowWithInt 1) (.ColumnRef "missing") = .ok ⟨"", .nil⟩ :=
  ⟨by rfl, (evalExpr_absent_column_zero_value GoLib.blank (rowWithInt 1) "missing" (by rfl)).1⟩

/-- C15: with an int on the left, `compareValues` returns the sign of the left
integer minus `toInt64` of the right value, and `toInt64` is the integer itself
for an int, 1 and 0 for the bools true and false, and 0 for every string and
every datetime; so the int 30 compared with the string `"30"` is compared with
0. -/
theorem compareValues_int_left (lib : GoLib) (i : Int) (b : Value) (t : Int)
    (ht : toInt64 b = .ok t) :
    compareValues lib ⟨TypeInt, .int i⟩ b = .ok (Int.sign (i - t))
    ∧ (∀ j : Int, toInt64 ⟨TypeInt, .int j⟩ = .ok j)
    ∧ toInt64 ⟨TypeBool, .bool true⟩ = .ok 1
    ∧ toInt64 ⟨TypeBool, .bool false⟩ = .ok 0
    ∧ (∀ s : String, toInt64 ⟨TypeString, .str s⟩ = .ok 0)
    ∧ (∀ d : Time, toInt64 ⟨TypeDateTime, .time d⟩ = .ok 0)
    ∧ compareValues lib ⟨TypeInt, .int 30⟩ ⟨TypeString, .str "30"⟩ = .ok 1 := by
  have hsign : (if i < t then (-1 : Int) else if i > t then 1 else 0) = Int.sign (i - t) := by
    by_cases h1 : i < t
    · rw [if_pos h1, Int.sign_eq_neg_one_of_neg (by omega)]
    · by_cases h2 : i > t
      · rw [if_neg h1, if_pos h2, Int.sign_eq_one_of_pos (by omega)]
      · have : i - t = 0 := by omega
        rw [if_neg h1, if_neg h2, this]
        rfl
  refine ⟨?_, fun _ => rfl, rfl, rfl, fun _ => rfl, fun _ => rfl, rfl⟩
  simp only [compareValues, if_true, ht]
  rw [hsign]

/-- Witness of C15: the int 30 against the string `"30"`. -/
theorem compareValues_int_left_witness :
    toInt64 ⟨TypeString, .str "30"⟩ = .ok 0
    ∧ compareValues GoLib.blank ⟨TypeInt, .int 30⟩ ⟨TypeString, .str "30"⟩
        = .ok (Int.sign (30 - 0)) :=
  ⟨rfl, (compareValues_int_left GoLib.blank 30 ⟨TypeString, .str "30"⟩ 0 rfl).1⟩

/-- C16: `compareValues` of a value with itself is 0 whenever the payload has
the shape the type tag announces, for the tags string, int, float, bool and
datetime and for any other tag, which is compared by textual form. -/
theorem compareValues_self (lib : GoLib) (a : Value) (hwt : a.wellTagged = true) :
    compareValues lib a a = .ok 0 := by
  obtain ⟨ty, v⟩ := a
  simp only [Value.wellTagged] at hwt
  by_cases h1 : ty = TypeInt
  · subst h1
    have hs : ¬ TypeInt = TypeString := by decide
    simp only [hs, if_false, if_true] at hwt
    cases v <;> simp at hwt
    simp [compareValues, toInt64]
  · by_cases h2 : ty = TypeFloat
    · subst h2
      have hs : ¬ TypeFloat = TypeString := by decide
      simp only [hs, h1, if_false, if_true] at hwt
      cases v <;> simp at hwt
      simp [compareValues, toFloat64, h1, Float64.lt]
    · by_cases h3 : ty = TypeBool
      · subst h3
        have hs : ¬ TypeBool = TypeString := by decide
        simp only [hs, h1, h2, if_false, if_true] at hwt
        cases v <;> simp at hwt
        rename_i b
        cases b <;> simp [compareValues, toBool, h1, h2]
      · by_cases h4 : ty = TypeDateTime
        · subst h4
          have hs : ¬ TypeDateTime = TypeString := by decide
          simp only [hs, h1, h2, h3, if_false, if_true] at hwt
          cases v <;> simp at hwt
          simp [compareValues, toTime, h1, h2, h3, Time.Before, Time.After]
        · by_cases h5 : ty = TypeString
          · subst h5
            simp only [if_true] at hwt
            cases v <;> simp at hwt
            simp [compareValues, Value.String, h1, h2, h3, h4]
          · simp [compareValues, Value.String, h1, h2, h3, h4, h5]

/-- Witness of C16: a string value and a value with an unknown tag. -/
theorem compareValues_self_witness :
    compareValues GoLib.blank ⟨TypeString, .str "x"⟩ ⟨TypeString, .str "x"⟩ = .ok 0
    ∧ compareValues GoLib.blank ⟨"uuid", .int 7⟩ ⟨"uuid", .int 7⟩ = .ok 0 :=
  ⟨compareValues_self GoLib.blank ⟨TypeString, .str "x"⟩ (by decide),
    compareValues_self GoLib.blank ⟨"uuid", .int 7⟩ (by decide)⟩

/-! ### The row invariant -/

/-- The row invariant says that there are as many values as columns and that
each value has the type of its column. -/
theorem RowInv_iff (r : Row) :
    RowInv r ↔ r.Values.length = r.Schema.Columns.length
      ∧ ∀ (i : Nat) (hv : i < r.Values.length) (hc : i < r.Schema.Columns.length),
          (r.Values.get ⟨i, hv⟩).Typ = (r.Schema.Columns.get ⟨i, hc⟩).Typ := by
  unfold RowInv
  constructor
  · intro h
    have hlen : r.Values.length = r.Schema.Columns.length := by
      have := congrArg List.length h
      simpa using this
    refine ⟨hlen, ?_⟩
    intro i hv hc
    have h1 : (r.Values.map Value.Typ)[i]? = (r.Schema.Columns.map Column.Typ)[i]? := by
      rw [h]
    simpa [List.getElem?_map, List.getElem?_eq_getElem hv, List.getElem?_eq_getElem hc] using h1
  · intro ⟨hlen, h⟩
    apply List.ext_getElem?
    intro i
    by_cases hv : i < r.Values.length
    · have hc : i < r.Schema.Columns.length := by omega
      simpa [List.getElem?_map, List.getElem?_eq_getElem hv, List.getElem?_eq_getElem hc]
        using h i hv hc
    · have hc : ¬ i < r.Schema.Columns.length := by omega
      simp [List.getElem?_map, List.getElem?_eq_none (Nat.le_of_not_lt hv),
        List.getElem?_eq_none (Nat.le_of_not_lt hc)]

theorem FilterOp_Next_inv {σ : Type} [Operator σ] (lib : GoLib) (P : σ → Prop)
    (hin : Delivers P RowInv) (fuel : Nat) :
    ∀ (f f' : FilterOp σ) (res : Except Error Row),
      FilterOp.Next lib fuel f = some (res, f') → P f.In →
      P f'.In ∧ ∀ r : Row, res = .ok r → RowInv r := by
  induction fuel with
  | zero => intro f f' res h; simp [FilterOp.Next] at h
  | succ n ih =>
    intro f f' res h hP
    have hd := hin f.In hP
    simp only [FilterOp.Next] at h
    cases hn : Operator.Next f.In with
    | mk r0 s =>
      rw [hn] at h hd
      cases r0 with
      | error e =>
        simp only [Option.some.injEq, Prod.mk.injEq] at h
        obtain ⟨h1, h2⟩ := h
        subst h1; subst h2
        exact ⟨hd.1, fun r hr => by simp at hr⟩
      | ok row =>
        simp only at h
        cases hev : evalLogical lib row f.Expr with
        | error e =>
          rw [hev] at h
          simp only [Option.some.injEq, Prod.mk.injEq] at h
          obtain ⟨h1, h2⟩ := h
          subst h1; subst h2
          exact ⟨hd.1, fun r hr => by simp at hr⟩
        | ok b =>
          rw [hev] at h
          cases b with
          | true =>
            simp only [Option.some.injEq, Prod.mk.injEq] at h
            obtain ⟨h1, h2⟩ := h
            subst h1; subst h2
            refine ⟨hd.1, fun r hr => ?_⟩
            simp only [Except.ok.injEq] at hr
            subst hr
            exact hd.2 row rfl
          | false =>
            simp only at h
            exact ih _ f' res h hd.1

theorem ProjectOp_loop_types (row : Row) (names : List String) :
    (names.filterMap row.Get).map Value.Typ
      = (names.filterMap (fun n => (row.Get n).map (fun (v : Value) => (⟨n, v.Typ⟩ : Column)))).map
          Column.Typ := by
  induction names with
  | nil => rfl
  | cons n ns ih =>
    cases h : row.Get n with
    | none => simp [List.filterMap_cons, h, ih]
    | some v => simp [List.filterMap_cons, h, ih]

theorem ProjectOp_Next_inv {σ : Type} [Operator σ] (p : ProjectOp σ) (r : Row)
    (h : (ProjectOp.Next p).1 = .ok r) : RowInv r := by
  unfold ProjectOp.Next at h
  cases hn : Operator.Next p.In with
  | mk r0 s =>
    rw [hn] at h
    cases r0 with
    | error e => simp at h
    | ok row =>
      simp only [ProjectOp_loop_eq, List.nil_append, Except.ok.injEq] at h
      subst h
      exact ProjectOp_loop_types row p.Columns

theorem ExtendOp_Next_inv {σ : Type} [Operator σ] (P : σ → Prop) (hin : Delivers P RowInv)
    (e : ExtendOp σ) (hP : P e.In) (r : Row) (h : (ExtendOp.Next e).1 = .ok r) :
    RowInv r := by
  have hd := hin e.In hP
  unfold ExtendOp.Next at h
  cases hn : Operator.Next e.In with
  | mk r0 s =>
    rw [hn] at h hd
    cases r0 with
    | error err => simp at h
    | ok row =>
      have hrow : RowInv row := hd.2 row rfl
      simp only at h
      cases hv : evalExpr row e.Value with
      | error err => rw [hv] at h; simp at h
      | ok val =>
        rw [hv] at h
        simp only [Except.ok.injEq] at h
        subst h
        unfold RowInv at hrow ⊢
        simp [NewSchema, hrow]

theorem TakeOp_Next_inv {σ : Type} [Operator σ] (P : σ → Prop) (hin : Delivers P RowInv)
    (t : TakeOp σ) (hP : P t.In) :
    P (TakeOp.Next t).2.In ∧ ∀ r : Row, (TakeOp.Next t).1 = .ok r → RowInv r := by
  have hd := hin t.In hP
  unfold TakeOp.Next
  split
  · exact ⟨hP, fun r hr => by simp at hr⟩
  · cases hn : Operator.Next t.In with
    | mk r0 s =>
      rw [hn] at hd
      cases r0 with
      | error err => exact ⟨hd.1, fun r hr => by simp at hr⟩
      | ok row =>
        refine ⟨hd.1, fun r hr => ?_⟩
        simp only [Except.ok.injEq] at hr
        subst hr
        exact hd.2 row rfl

theorem shift_perm {α : Type} (less : α → α → Except Error Bool) (x : α) (rev : List α) :
    ∀ l : List α, insertionSort.shift less x rev = .ok l → l.Perm (x :: rev) := by
  induction rev with
  | nil =>
    intro l h
    simp only [insertionSort.shift, Except.ok.injEq] at h
    subst h
    exact List.Perm.refl _
  | cons p ps ih =>
    intro l h
    simp only [insertionSort.shift] at h
    cases hl : less x p with
    | error e => rw [hl] at h; simp at h
    | ok b =>
      rw [hl] at h
      cases b with
      | false =>
        simp only [Except.ok.injEq] at h
        subst h
        exact List.Perm.refl _
      | true =>
        simp only at h
        cases hs : insertionSort.shift less x ps with
        | error e => rw [hs] at h; simp at h
        | ok l' =>
          rw [hs] at h
          simp only [Except.ok.injEq] at h
          subst h
          exact (List.Perm.cons p (ih l' hs)).trans (List.Perm.swap x p ps)

theorem insertionSort_perm {α : Type} (less : α → α → Except Error Bool) (xs : List α) :
    ∀ (rev out : List α), insertionSort less xs rev = .ok out → out.Perm (xs ++ rev) := by
  induction xs with
  | nil =>
    intro rev out h
    simp only [insertionSort, Except.ok.injEq] at h
    subst h
    simp
  | cons x xs ih =>
    intro rev out h
    simp only [insertionSort] at h
    cases hs : insertionSort.shift less x rev with
    | error e => rw [hs] at h; simp at h
    | ok rev1 =>
      rw [hs] at h
      refine (ih rev1 out h).trans ?_
      refine (List.Perm.append_left xs (shift_perm less x rev rev1 hs)).trans ?_
      simp

theorem NewOrderByOp_drain_inv {σ : Type} [Operator σ] (P : σ → Prop) (Good : Row → Prop)
    (hin : Delivers P Good) (fuel : Nat) :
    ∀ (inp s' : σ) (acc rows : List Row),
      NewOrderByOp.drain fuel inp acc = some (.ok rows, s') → P inp →
      (∀ r ∈ acc, Good r) → ∀ r ∈ rows, Good r := by
  induction fuel with
  | zero => intro inp s' acc rows h; simp [NewOrderByOp.drain] at h
  | succ n ih =>
    intro inp s' acc rows h hP hacc
    have hd := hin inp hP
    simp only [NewOrderByOp.drain] at h
    cases hn : Operator.Next inp with
    | mk r0 s =>
      rw [hn] at h hd
      cases r0 with
      | error e =>
        cases e with
        | EOF =>
          simp only [Option.some.injEq, Prod.mk.injEq, Except.ok.injEq] at h
          rw [← h.1]
          exact hacc
        | other m => simp at h
        | panic m => simp at h
      | ok row =>
        simp only at h
        refine ih s s' (acc ++ [row]) rows h hd.1 ?_
        intro r hr
        rcases List.mem_append.mp hr with h1 | h1
        · exact hacc r h1
        · simp only [List.mem_singleton] at h1
          subst h1
          exact hd.2 r rfl

theorem NewOrderByOp_inv {σ : Type} [Operator σ] (lib : GoLib)
    (longSort : (Row → Row → Except Error Bool) → List Row → Except Error (List Row))
    (hperm : PermutesSlice longSort) (P : σ → Prop) (hin : Delivers P RowInv) (fuel : Nat)
    (inp : σ) (column : String) (desc : Bool) (o : OrderByOp)
    (h : NewOrderByOp lib longSort fuel inp column desc = some (.ok o)) (hP : P inp) :
    ∀ r ∈ o.rows, RowInv r := by
  unfold NewOrderByOp at h
  cases hd : NewOrderByOp.drain fuel inp [] with
  | none => rw [hd] at h; simp at h
  | some q =>
    obtain ⟨res, s'⟩ := q
    rw [hd] at h
    cases res with
    | error e => simp at h
    | ok rows =>
      have hrows := NewOrderByOp_drain_inv P RowInv hin fuel inp s' [] rows hd hP (by simp)
      simp only at h
      split at h
      · simp only [Option.some.injEq, Except.ok.injEq] at h
        subst h
        exact hrows
      · cases hs : sortSlice longSort (orderByLess lib column desc) rows with
        | error e => rw [hs] at h; simp at h
        | ok sorted =>
          rw [hs] at h
          simp only [Option.some.injEq, Except.ok.injEq] at h
          subst h
          have hp : sorted.Perm rows := by
            unfold sortSlice at hs
            split at hs
            · simpa using insertionSort_perm _ rows [] sorted hs
            · exact hperm _ rows sorted hs
          intro r hr
          exact hrows r (hp.mem_iff.mp hr)

theorem OrderByOp_Next_mem (o : OrderByOp) (r : Row) (h : (OrderByOp.Next o).1 = .ok r) :
    r ∈ o.rows ∧ (OrderByOp.Next o).2.rows = o.rows := by
  unfold OrderByOp.Next at h ⊢
  split
  · rename_i hge; rw [if_pos hge] at h; simp at h
  · rename_i hge
    rw [if_neg hge] at h
    cases hg : o.rows[o.idx]? with
    | none => rw [hg] at h; simp at h
    | some row =>
      rw [hg] at h
      simp only [Except.ok.injEq] at h
      subst h
      exact ⟨List.getElem?_mem hg, rfl⟩

theorem NewSummarizeOp_keyOf_length (lib : GoLib) (row : Row) (names : List String) :
    ∀ (vals : List Value) (parts : List String) (out : List Value × List String),
      NewSummarizeOp.keyOf lib row names vals parts = .ok out →
      out.1.length = vals.length + names.length := by
  induction names with
  | nil =>
    intro vals parts out h
    simp only [NewSummarizeOp.keyOf, Except.ok.injEq] at h
    subst h
    simp
  | cons n ns ih =>
    intro vals parts out h
    simp only [NewSummarizeOp.keyOf] at h
    cases hs : (row.GetD n).String lib with
    | error e => rw [hs] at h; simp at h
    | ok t =>
      rw [hs] at h
      have := ih _ _ out h
      simp only [List.length_append, List.length_singleton, List.length_cons,
        List.length_nil] at this ⊢
      omega

theorem NewSummarizeOp_drain_lengths {σ : Type} [Operator σ] (lib : GoLib)
    (by_ : List String) (fuel : Nat) :
    ∀ (inp s' : σ) (counts counts' : GoMap Int) (keys keys' : GoMap (List Value)),
      NewSummarizeOp.drain lib by_ fuel inp counts keys = some (.ok (counts', keys'), s') →
      (∀ (k : String) (v : List Value), keys.get k = some v → v.length = by_.length) →
      ∀ (k : String) (v : List Value), keys'.get k = some v → v.length = by_.length := by
  induction fuel with
  | zero => intro inp s' counts counts' keys keys' h; simp [NewSummarizeOp.drain] at h
  | succ n ih =>
    intro inp s' counts counts' keys keys' h hK
    simp only [NewSummarizeOp.drain] at h
    cases hn : Operator.Next inp with
    | mk r0 s =>
      rw [hn] at h
      cases r0 with
      | error e =>
        cases e with
        | EOF =>
          simp only [Option.some.injEq, Prod.mk.injEq, Except.ok.injEq] at h
          rw [← h.1.2]
          exact hK
        | other m => simp at h
        | panic m => simp at h
      | ok row =>
        simp only at h
        cases hk : NewSummarizeOp.keyOf lib row by_ [] [] with
        | error e => rw [hk] at h; simp at h
        | ok vp =>
          obtain ⟨vals, parts⟩ := vp
          rw [hk] at h
          have hlen := NewSummarizeOp_keyOf_length lib row by_ [] [] (vals, parts) hk
          simp only [List.length_nil, Nat.zero_add] at hlen
          refine ih s s' _ counts' _ keys' h ?_
          intro k v hget
          cases hg : keys.get (stringsJoin parts "|") with
          | some v0 =>
            rw [hg] at hget
            exact hK k v hget
          | none =>
            rw [hg] at hget
            simp only at hget
            rw [GoMap_get_set] at hget
            by_cases hkk : k = stringsJoin parts "|"
            · rw [if_pos hkk] at hget
              simp only [Option.some.injEq] at hget
              rw [← hget]
              exact hlen
            · rw [if_neg hkk] at hget
              exact hK k v hget

theorem NewSummarizeOp_cols_types (vals : List Value) (names : List String) :
    ∀ (i : Nat) (acc cols : List Column),
      NewSummarizeOp.cols vals i names acc = .ok cols →
      cols.map Column.Typ
          = acc.map Column.Typ ++ ((vals.drop i).take names.length).map Value.Typ := by
  induction names with
  | nil =>
    intro i acc cols h
    simp only [NewSummarizeOp.cols, Except.ok.injEq] at h
    subst h
    simp
  | cons n ns ih =>
    intro i acc cols h
    simp only [NewSummarizeOp.cols] at h
    cases hg : vals[i]? with
    | none => rw [hg] at h; simp at h
    | some v =>
      rw [hg] at h
      have h1 := ih (i + 1) _ cols h
      have hi : i < vals.length := by
        by_contra hge
        rw [List.getElem?_eq_none (by omega)] at hg
        exact absurd hg (by simp)
      have hv : vals[i] = v := by
        rw [List.getElem?_eq_getElem hi] at hg
        exact Option.some.inj hg
      rw [h1, List.drop_eq_getElem_cons hi, List.length_cons, List.take_succ_cons, hv]
      simp

theorem NewSummarizeOp_emit_inv (by_ : List String) (counts : GoMap Int)
    (keys : GoMap (List Value))
    (hK : ∀ (k : String) (v : List Value), keys.get k = some v → v.length = by_.length)
    (ks : List String) :
    ∀ (acc rows : List Row), NewSummarizeOp.emit by_ counts keys ks acc = .ok rows →
      (∀ r ∈ acc, RowInv r) → ∀ r ∈ rows, RowInv r := by
  induction ks with
  | nil =>
    intro acc rows h hacc
    simp only [NewSummarizeOp.emit, Except.ok.injEq] at h
    subst h
    exact hacc
  | cons k ks ih =>
    intro acc rows h hacc
    simp only [NewSummarizeOp.emit] at h
    cases hc : NewSummarizeOp.cols ((keys.get k).getD []) 0 by_ [] with
    | error e => rw [hc] at h; simp at h
    | ok cols =>
      rw [hc] at h
      have h1 := NewSummarizeOp_cols_types _ by_ 0 [] cols hc
      refine ih _ rows h ?_
      intro r hr
      rcases List.mem_append.mp hr with hr1 | hr1
      · exact hacc r hr1
      · simp only [List.mem_singleton] at hr1
        subst hr1
        have hle : ((keys.get k).getD []).length ≤ by_.length := by
          cases hg : keys.get k with
          | none => simp
          | some v => simp [hK k v hg]
        unfold RowInv
        simp only [NewSchema, List.map_append, h1, List.map_nil, List.nil_append,
          List.drop_zero, List.map_cons]
        rw [List.take_of_length_le hle]

theorem NewSummarizeOp_inv {σ : Type} [Operator σ] (lib : GoLib)
    (order : List String → List String) (fuel : Nat) (inp : σ) (by_ : List String)
    (op : SummarizeOp) (h : NewSummarizeOp lib order fuel inp by_ = some (.ok op)) :
    ∀ r ∈ op.rows, RowInv r := by
  unfold NewSummarizeOp at h
  cases hd : NewSummarizeOp.drain lib by_ fuel inp [] [] with
  | none => rw [hd] at h; simp at h
  | some q =>
    obtain ⟨res, s'⟩ := q
    rw [hd] at h
    cases res with
    | error e => simp at h
    | ok ck =>
      obtain ⟨counts, keys⟩ := ck
      have hK := NewSummarizeOp_drain_lengths lib by_ fuel inp s' [] counts [] keys hd
        (by intro k v hg; simp [GoMap.get] at hg)
      simp only at h
      cases he : NewSummarizeOp.emit by_ counts keys (order counts.keys) [] with
      | error e => rw [he] at h; simp at h
      | ok rows =>
        rw [he] at h
        simp only [Option.some.injEq, Except.ok.injEq] at h
        subst h
        exact NewSummarizeOp_emit_inv by_ counts keys hK _ [] rows he (by simp)

theorem SummarizeOp_Next_mem (o : SummarizeOp) (r : Row)
    (h : (SummarizeOp.Next o).1 = .ok r) :
    r ∈ o.rows ∧ (SummarizeOp.Next o).2.rows = o.rows := by
  unfold SummarizeOp.Next at h ⊢
  split
  · rename_i hge; rw [if_pos hge] at h; simp at h
  · rename_i hge
    rw [if_neg hge] at h
    cases hg : o.rows[o.idx]? with
    | none => rw [hg] at h; simp at h
    | some row =>
      rw [hg] at h
      simp only [Except.ok.injEq] at h
      subst h
      exact ⟨List.getElem?_mem hg, rfl⟩

theorem joinedRow_inv (left : Row) (rs : Schema) (r : Row) (hl : RowInv left)
    (hr : r.Values.map Value.Typ = rs.Columns.map Column.Typ) :
    RowInv (joinedRow left rs r) := by
  have hlen : r.Values.length = rs.Columns.length := by
    have := congrArg List.length hr
    simpa using this
  unfold RowInv at hl ⊢
  simp only [joinedRow, NewSchema, buildJoinedRows_cols_eq, List.map_append, List.map_map, hl,
    ← hlen, List.take_length, hr]
  congr 1

theorem buildJoinedRows_inv (left : Row) (found : List Row) (rs : Schema) (rows : List Row)
    (h : buildJoinedRows left found rs = .ok rows) (hl : RowInv left)
    (hf : ∀ r ∈ found, r.Values.map Value.Typ = rs.Columns.map Column.Typ) :
    ∀ r ∈ rows, RowInv r := by
  have hlen : ∀ r ∈ found, rs.Columns.length ≤ r.Values.length := by
    intro r hr
    have := congrArg List.length (hf r hr)
    simp only [List.length_map] at this
    omega
  rw [buildJoinedRows_eq left found rs hlen] at h
  simp only [Except.ok.injEq] at h
  subst h
  intro r hr
  obtain ⟨r0, hr0, rfl⟩ := List.mem_map.mp hr
  exact joinedRow_inv left rs r0 hl (hf r0 hr0)

theorem NewJoinOp_load_inv {ρ : Type} [Operator ρ] (lib : GoLib) (rk : String)
    (Q : ρ → Prop) (Good : Row → Prop) (hin : Delivers Q Good) (fuel : Nat) :
    ∀ (reader rd' : ρ) (m m' : GoMap (List Row)),
      NewJoinOp.load lib rk fuel reader m = some (.ok m', rd') → Q reader →
      (∀ (k : String) (rows : List Row), m.get k = some rows → ∀ r ∈ rows, Good r) →
      ∀ (k : String) (rows : List Row), m'.get k = some rows → ∀ r ∈ rows, Good r := by
  induction fuel with
  | zero => intro reader rd' m m' h; simp [NewJoinOp.load] at h
  | succ n ih =>
    intro reader rd' m m' h hQ hm
    have hd := hin reader hQ
    simp only [NewJoinOp.load] at h
    cases hn : Operator.Next reader with
    | mk r0 s =>
      rw [hn] at h hd
      cases r0 with
      | error e =>
        cases e with
        | EOF =>
          simp only [Option.some.injEq, Prod.mk.injEq, Except.ok.injEq] at h
          rw [← h.1]
          exact hm
        | other msg => simp at h
        | panic msg => simp at h
      | ok row =>
        simp only at h
        cases hs : (row.GetD rk).String lib with
        | error e => rw [hs] at h; simp at h
        | ok key =>
          rw [hs] at h
          refine ih s rd' _ m' h hd.1 ?_
          intro k rows hget r hr
          rw [GoMap_get_set] at hget
          by_cases hk : k = key
          · rw [if_pos hk] at hget
            simp only [Option.some.injEq] at hget
            rw [← hget] at hr
            rcases List.mem_append.mp hr with h1 | h1
            · cases hg : m.get key with
              | none => rw [hg] at h1; simp at h1
              | some old =>
                rw [hg] at h1
                exact hm key old hg r h1
            · simp only [List.mem_singleton] at h1
              subst h1
              exact hd.2 r rfl
          · rw [if_neg hk] at hget
            exact hm k rows hget r hr

theorem NewJoinOp_inv {σ ρ : Type} [Operator ρ] (lib : GoLib) (fuel : Nat) (inp : σ)
    (reader : ρ) (rs : Schema) (lk rk : String) (Q : ρ → Prop)
    (hin : Delivers Q (fun r => RowInv r ∧ r.Schema.Columns = rs.Columns)) (hQ : Q reader)
    (j : JoinOp σ) (h : NewJoinOp lib fuel inp (.ok (reader, rs)) lk rk = some (.ok j)) :
    JoinInv j ∧ j.In = inp := by
  unfold NewJoinOp at h
  simp only at h
  cases hl : NewJoinOp.load lib rk fuel reader [] with
  | none => rw [hl] at h; simp at h
  | some q =>
    obtain ⟨res, rd'⟩ := q
    rw [hl] at h
    cases res with
    | error e => simp at h
    | ok m =>
      simp only [Option.some.injEq, Except.ok.injEq] at h
      subst h
      refine ⟨⟨?_, by simp⟩, rfl⟩
      intro k rows hget r hr
      have := NewJoinOp_load_inv lib rk Q _ hin fuel reader rd' [] m hl hQ
        (by intro k rows hg; simp [GoMap.get] at hg) k rows hget r hr
      simp only
      rw [← this.2]
      exact this.1

theorem JoinOp_Next_inv {σ : Type} [Operator σ] (lib : GoLib) (P : σ → Prop)
    (hin : Delivers P RowInv) (fuel : Nat) :
    ∀ (j j' : JoinOp σ) (res : Except Error Row),
      JoinOp.Next lib fuel j = some (res, j') → P j.In → JoinInv j →
      P j'.In ∧ JoinInv j' ∧ ∀ r : Row, res = .ok r → RowInv r := by
  induction fuel with
  | zero => intro j j' res h; simp [JoinOp.Next] at h
  | succ n ih =>
    intro j j' res h hP hJ
    simp only [JoinOp.Next] at h
    split at h
    · cases hg : j.pending[j.pendingIdx]? with
      | none =>
        rw [hg] at h
        simp only [Option.some.injEq, Prod.mk.injEq] at h
        obtain ⟨h1, h2⟩ := h
        subst h1; subst h2
        exact ⟨hP, hJ, fun r hr => by simp at hr⟩
      | some row =>
        rw [hg] at h
        simp only [Option.some.injEq, Prod.mk.injEq] at h
        obtain ⟨h1, h2⟩ := h
        subst h1; subst h2
        refine ⟨hP, ⟨hJ.1, hJ.2⟩, fun r hr => ?_⟩
        simp only [Except.ok.injEq] at hr
        subst hr
        exact hJ.2 _ (List.getElem?_mem hg)
    · have hd := hin j.In hP
      cases hn : Operator.Next j.In with
      | mk r0 s =>
        rw [hn] at h hd
        have hJ0 : ∀ (pend : List Row), (∀ r ∈ pend, RowInv r) →
            JoinInv ({ j with In := s, pending := pend, pendingIdx := 0 } : JoinOp σ) :=
          fun pend hp => ⟨hJ.1, hp⟩
        cases r0 with
        | error e =>
          simp only [Option.some.injEq, Prod.mk.injEq] at h
          obtain ⟨h1, h2⟩ := h
          subst h1; subst h2
          exact ⟨hd.1, hJ0 [] (by simp), fun r hr => by simp at hr⟩
        | ok leftRow =>
          simp only at h
          cases hs : (leftRow.GetD j.LeftKey).String lib with
          | error e =>
            rw [hs] at h
            simp only [Option.some.injEq, Prod.mk.injEq] at h
            obtain ⟨h1, h2⟩ := h
            subst h1; subst h2
            exact ⟨hd.1, hJ0 [] (by simp), fun r hr => by simp at hr⟩
          | ok key =>
            rw [hs] at h
            simp only at h
            split at h
            · exact ih _ j' res h hd.1 (hJ0 [] (by simp))
            · cases hb : buildJoinedRows leftRow ((j.Right.get key).getD []) j.RightSchema with
              | error e =>
                rw [hb] at h
                simp only [Option.some.injEq, Prod.mk.injEq] at h
                obtain ⟨h1, h2⟩ := h
                subst h1; subst h2
                exact ⟨hd.1, hJ0 [] (by simp), fun r hr => by simp at hr⟩
              | ok rows =>
                rw [hb] at h
                have hrows := buildJoinedRows_inv leftRow _ j.RightSchema rows hb
                  (hd.2 leftRow rfl) (by
                    intro r hr
                    cases hg : j.Right.get key with
                    | none => rw [hg] at hr; simp at hr
                    | some found =>
                      rw [hg] at hr
                      exact hJ.1 key found hg r hr)
                exact ih _ j' res h hd.1 (hJ0 rows hrows)

/-- The finite source `sliceOp` delivers only rows of its slice. -/
theorem sliceOp_delivers (Good : Row → Prop) :
    Delivers (fun s : sliceOp => ∀ r ∈ s.rows, Good r) Good := by
  intro s hs
  show (∀ r ∈ (sliceOp.Next s).2.rows, Good r) ∧ ∀ r, (sliceOp.Next s).1 = .ok r → Good r
  unfold sliceOp.Next
  split
  · exact ⟨hs, fun r hr => by simp at hr⟩
  · cases hg : s.rows[s.idx]? with
    | none => exact ⟨hs, fun r hr => by simp at hr⟩
    | some row =>
      refine ⟨hs, fun r hr => ?_⟩
      simp only [Except.ok.injEq] at hr
      subst hr
      exact hs _ (List.getElem?_mem hg)

/-- C11: the row invariant is preserved by every execution operator.  For an
input that delivers only rows with as many values as columns and each value of
the type of its column: every row returned by `FilterOp.Next`, `ProjectOp.Next`,
`ExtendOp.Next` and `TakeOp.Next` has the two properties (and the input of the
operator stays such an input); so has every row of the operators built by
`NewOrderByOp` and `NewSummarizeOp`, whose `Next` returns only these rows; and,
the rows of the right reader having the two properties too and carrying the
reader's schema, so has every row returned by `JoinOp.Next` of the operator
built by `NewJoinOp`. -/
theorem operators_preserve_RowInv {σ ρ : Type} [Operator σ] [Operator ρ] (lib : GoLib)
    (P : σ → Prop) (hin : Delivers P RowInv) :
    (∀ (fuel : Nat) (f f' : FilterOp σ) (res : Except Error Row),
        FilterOp.Next lib fuel f = some (res, f') → P f.In →
        P f'.In ∧ ∀ r : Row, res = .ok r → RowInv r)
    ∧ (∀ (p : ProjectOp σ), (P p.In → P (ProjectOp.Next p).2.In)
        ∧ ∀ r : Row, (ProjectOp.Next p).1 = .ok r → RowInv r)
    ∧ (∀ (e : ExtendOp σ), P e.In →
        P (ExtendOp.Next e).2.In ∧ ∀ r : Row, (ExtendOp.Next e).1 = .ok r → RowInv r)
    ∧ (∀ (t : TakeOp σ), P t.In →
        P (TakeOp.Next t).2.In ∧ ∀ r : Row, (TakeOp.Next t).1 = .ok r → RowInv r)
    ∧ (∀ (longSort : (Row → Row → Except Error Bool) → List Row → Except Error (List Row)),
        PermutesSlice longSort →
        ∀ (fuel : Nat) (inp : σ) (column : String) (desc : Bool) (o : OrderByOp),
          NewOrderByOp lib longSort fuel inp column desc = some (.ok o) → P inp →
          ∀ r ∈ o.rows, RowInv r)
    ∧ (∀ (o : OrderByOp) (r : Row), (OrderByOp.Next o).1 = .ok r →
        r ∈ o.rows ∧ (OrderByOp.Next o).2.rows = o.rows)
    ∧ (∀ (order : List String → List String) (fuel : Nat) (inp : σ) (by_ : List String)
        (op : SummarizeOp),
          NewSummarizeOp lib order fuel inp by_ = some (.ok op) → ∀ r ∈ op.rows, RowInv r)
    ∧ (∀ (o : SummarizeOp) (r : Row), (SummarizeOp.Next o).1 = .ok r →
        r ∈ o.rows ∧ (SummarizeOp.Next o).2.rows = o.rows)
    ∧ (∀ (fuel : Nat) (inp : σ) (reader : ρ) (rs : Schema) (lk rk : String) (Q : ρ → Prop),
        Delivers Q (fun r => RowInv r ∧ r.Schema.Columns = rs.Columns) → Q reader →
        ∀ j : JoinOp σ, NewJoinOp lib fuel inp (.ok (reader, rs)) lk rk = some (.ok j) →
          JoinInv j ∧ j.In = inp)
    ∧ (∀ (fuel : Nat) (j j' : JoinOp σ) (res : Except Error Row),
        JoinOp.Next lib fuel j = some (res, j') → P j.In → JoinInv j →
        P j'.In ∧ JoinInv j' ∧ ∀ r : Row, res = .ok r → RowInv r) := by
  refine ⟨fun fuel => FilterOp_Next_inv lib P hin fuel, ?_, ?_, TakeOp_Next_inv P hin, ?_,
    OrderByOp_Next_mem, ?_, SummarizeOp_Next_mem, ?_, fun fuel => JoinOp_Next_inv lib P hin fuel⟩
  · intro p
    refine ⟨fun hP => ?_, ProjectOp_Next_inv p⟩
    have hd := (hin p.In hP).1
    unfold ProjectOp.Next
    cases hn : Operator.Next p.In with
    | mk r0 s =>
      rw [hn] at hd
      cases r0 <;> exact hd
  · intro e hP
    refine ⟨?_, ExtendOp_Next_inv P hin e hP⟩
    have hd := (hin e.In hP).1
    unfold ExtendOp.Next
    cases hn : Operator.Next e.In with
    | mk r0 s =>
      rw [hn] at hd
      cases r0 with
      | error err => exact hd
      | ok row =>
        simp only
        cases evalExpr row e.Value <;> exact hd
  · intro longSort hperm fuel inp column desc o h hP
    exact NewOrderByOp_inv lib longSort hperm P hin fuel inp column desc o h hP
  · intro order fuel inp by_ op h
    exact NewSummarizeOp_inv lib order fuel inp by_ op h
  · intro fuel inp reader rs lk rk Q hQin hQ j h
    exact NewJoinOp_inv lib fuel inp reader rs lk rk Q hQin hQ j h

/-- Witness of C11: the row that `ExtendOp.Next` returns on the row `n = 7`. -/
theorem operators_preserve_RowInv_witness :
    Delivers (fun s : sliceOp => ∀ r ∈ s.rows, RowInv r) RowInv
    ∧ RowInv ⟨NewSchema [⟨"n", TypeInt⟩, ⟨"copy", TypeInt⟩],
        [⟨TypeInt, .int 7⟩, ⟨TypeInt, .int 7⟩]⟩ :=
  ⟨sliceOp_delivers RowInv,
    ((@operators_preserve_RowInv sliceOp sliceOp _ _ GoLib.blank
        (fun s : sliceOp => ∀ r ∈ s.rows, RowInv r) (sliceOp_delivers RowInv)).2.2.1
      (⟨⟨[rowWithInt 7], 0⟩, "copy", .ColumnRef "n"⟩ : ExtendOp sliceOp)
      (by
        intro r hr
        simp only [List.mem_singleton] at hr
        subst hr
        rfl)).2 _ (by rfl)⟩

/-! ### Parse: the source designator -/

theorem Split_go_nosep (sep : Char) (a : List Char) :
    ∀ cur : List Char, sep ∉ a → Split.go sep a cur = [⟨cur ++ a⟩] := by
  induction a with
  | nil => intro cur _; simp [Split.go]
  | cons c cs ih =>
    intro cur h
    simp only [List.mem_cons, not_or] at h
    have hc : ¬ c = sep := fun e => h.1 e.symm
    simp only [Split.go, hc, if_false]
    rw [ih (cur ++ [c]) h.2]
    simp

theorem Split_go_append (sep : Char) (a b : List Char) :
    ∀ cur : List Char, sep ∉ a →
      Split.go sep (a ++ sep :: b) cur = ⟨cur ++ a⟩ :: Split.go sep b [] := by
  induction a with
  | nil => intro cur _; simp [Split.go]
  | cons c cs ih =>
    intro cur h
    simp only [List.mem_cons, not_or] at h
    have hc : ¬ c = sep := fun e => h.1 e.symm
    simp only [List.cons_append, Split.go, hc, if_false, List.append_eq]
    rw [ih (cur ++ [c]) h.2]
    simp

/-- `strings.Split` cuts at the first separator. -/
theorem Split_first (first rest : String) (sep : Char) (h : sep ∉ first.data) :
    Split (first ++ String.singleton sep ++ rest) sep = first :: Split rest sep := by
  unfold Split
  have : (first ++ String.singleton sep ++ rest).data = first.data ++ sep :: rest.data := by
    simp [String.data_append, String.singleton]
  rw [this, Split_go_append sep first.data rest.data [] h]
  simp

/-- After the first part the loop of `Parse` does not look at the index. -/
theorem Parse_loop_index (lib : GoLib) (ps : List String) :
    ∀ (i j : Nat) (ops : List PlanOperator), 0 < i → 0 < j →
      Parse.loop lib i ps ops = Parse.loop lib j ps ops := by
  induction ps with
  | nil => intro i j ops _ _; simp [Parse.loop]
  | cons p ps ih =>
    intro i j ops hi hj
    have hi0 : ¬ i = 0 := by omega
    have hj0 : ¬ j = 0 := by omega
    simp only [Parse.loop, hi0, hj0, false_and, if_false]
    rw [ih (i + 1) (j + 1) ops (by omega) (by omega)]
    split
    · rfl
    · split
      · rfl
      · rw [ih (i + 1) (j + 1) _ (by omega) (by omega)]

/-- Counterexample to C17: after an empty first segment the segment `T` is
parsed as an operator, so `Parse(" | T | take 1")` is an error, while
`Parse("T | take 1")` is the operator list `[TakeOp 1]`. -/
theorem Parse_designator_only_first :
    Parse GoLib.blank " | T | take 1" = .error (.other "unknown operator: T")
    ∧ Parse GoLib.blank "T | take 1" = .ok [.TakeOp 1] := by
  constructor <;> decide

/-- C17, amended: the first pipe segment, the text before the first `|`, is the
source designator: when after trimming it is a single field that is not an
operator keyword, it contributes no operator, that is, `Parse` returns what it
returns on the query with that segment emptied, which is the result of parsing
the later segments as operators; alone it is an empty query.  A later segment
is parsed as an operator whatever stands before it. -/
theorem Parse_first_segment_designator (lib : GoLib) (first rest : String)
    (hbar : '|' ∉ first.data) (hd : isDesignator lib (TrimSpace first) = true) :
    Parse lib (first ++ "|" ++ rest) = Parse lib ("|" ++ rest)
    ∧ Parse lib (first ++ "|" ++ rest) = Parse.loop lib 1 (Split rest '|') []
    ∧ Parse lib first = .error (.other "empty query")
    ∧ (∀ (i : Nat) (seg : String) (ps : List String) (ops : List PlanOperator), 0 < i →
        TrimSpace seg ≠ "" →
        Parse.loop lib i (seg :: ps) ops
          = match parseOperator lib (TrimSpace seg) with
            | .error err => .error err
            | .ok op => Parse.loop lib (i + 1) ps (ops ++ [op])) := by
  have h1 : Split (first ++ "|" ++ rest) '|' = first :: Split rest '|' :=
    Split_first first rest '|' hbar
  have h2 : Split ("|" ++ rest) '|' = "" :: Split rest '|' := by
    have := Split_first "" rest '|' (by simp)
    simpa using this
  have hA : Parse lib (first ++ "|" ++ rest) = Parse.loop lib 1 (Split rest '|') [] := by
    unfold Parse
    rw [h1]
    simp only [Parse.loop, hd, and_self, if_true, Nat.zero_add]
    split <;> rfl
  have hB : Parse lib ("|" ++ rest) = Parse.loop lib 1 (Split rest '|') [] := by
    unfold Parse
    rw [h2]
    have : TrimSpace "" = "" := by decide
    simp only [Parse.loop, this, if_true, Nat.zero_add]
  refine ⟨hA.trans hB.symm, hA, ?_, ?_⟩
  · unfold Parse Split
    rw [Split_go_nosep '|' first.data [] hbar]
    simp only [List.nil_append, Parse.loop, hd, and_self, if_true]
    split <;> simp [Parse.loop]
  · intro i seg ps ops hi hseg
    have hi0 : ¬ i = 0 := by omega
    simp only [Parse.loop, hseg, hi0, false_and, if_false]

/-- Witness of the amended C17: the query `T | take 1`. -/
theorem Parse_first_segment_designator_witness :
    '|' ∉ "T ".data ∧ isDesignator GoLib.blank (TrimSpace "T ") = true
    ∧ Parse GoLib.blank ("T " ++ "|" ++ " take 1") = Parse GoLib.blank ("|" ++ " take 1") :=
  ⟨by decide, by decide,
    (Parse_first_segment_designator GoLib.blank "T " " take 1" (by decide) (by decide)).1⟩

/-! ### parseOperator: letter case and whitespace -/

/-- C18, the code at the failing inputs: with the keyword in upper case,
`where` fails, `project` and `extend` take the keyword into the first name, and
`summarize` fails, because `strings.TrimPrefix` compares the keyword exactly;
`take`, `order by` and `join` parse as in lower case. -/
theorem parseOperator_upper_case_keyword :
    parseOperator GoLib.blank "where a > 1"
        = .ok (.WhereOp (.CompareExpr (.ColumnRef "a") ">" (.Literal ⟨TypeInt, .int 1⟩)))
    ∧ parseOperator GoLib.blank "WHERE a > 1" = .error (.other "invalid comparison operator")
    ∧ parseOperator GoLib.blank "project a, b" = .ok (.ProjectOp ["a", "b"])
    ∧ parseOperator GoLib.blank "PROJECT a, b" = .ok (.ProjectOp ["PROJECT a", "b"])
    ∧ parseOperator GoLib.blank "extend x = 1"
        = .ok (.ExtendOp "x" (.Literal ⟨TypeInt, .int 1⟩))
    ∧ parseOperator GoLib.blank "EXTEND x = 1"
        = .ok (.ExtendOp "EXTEND x" (.Literal ⟨TypeInt, .int 1⟩))
    ∧ parseOperator GoLib.blank "summarize count() by a" = .ok (.SummarizeOp ["a"])
    ∧ parseOperator GoLib.blank "SUMMARIZE count() by a"
        = .error (.other "only count() supported in summarize")
    ∧ parseOperator GoLib.blank "TAKE 5" = .ok (.TakeOp 5)
    ∧ parseOperator GoLib.blank "ORDER BY a DESC" = .ok (.OrderByOp "a" true)
    ∧ parseOperator GoLib.blank "JOIN (x) ON a == b" = .ok (.JoinOp "inner" "x" "a" "b") := by
  refine ⟨?_, ?_, ?_, ?_, ?_, ?_, ?_, ?_, ?_, ?_, ?_⟩ <;> decide

/-- C20, the code at the failing inputs: two spaces between `order` and `by`,
and a tab after `on`, make `Parse` fail, because the code tests for the literal
texts `order by` and `on `; with a single space both queries parse. -/
theorem Parse_whitespace_runs :
    Parse GoLib.blank "T | order by a" = .ok [.OrderByOp "a" false]
    ∧ Parse GoLib.blank "T | order  by a" = .error (.other "invalid order by")
    ∧ Parse GoLib.blank "T | join (x) on a == b" = .ok [.JoinOp "inner" "x" "a" "b"]
    ∧ Parse GoLib.blank "T | join (x) on\ta == b" = .error (.other "join requires on clause")
    ∧ Parse GoLib.blank "T | take  1" = .ok [.TakeOp 1]
    ∧ Parse GoLib.blank "T | where  a  >  1"
        = .ok [.WhereOp (.CompareExpr (.ColumnRef "a") ">" (.Literal ⟨TypeInt, .int 1⟩))] := by
  refine ⟨?_, ?_, ?_, ?_, ?_, ?_⟩ <;> decide

/-! ### parseLogicalExpr -/

theorem dropWhile_none (p : Char → Bool) (l : List Char) (h : ∀ x ∈ l, p x = false) :
    l.dropWhile p = l := by
  cases l with
  | nil => rfl
  | cons c cs => simp [List.dropWhile, h c (by simp)]

theorem TrimSpace_field (t : String) (h : isField t) : TrimSpace t = t := by
  unfold TrimSpace trimRight trimLeft
  rw [dropWhile_none isSpace t.data h.2,
    dropWhile_none isSpace t.data.reverse (fun x hx => h.2 x (List.mem_reverse.mp hx))]
  simp

theorem parseLiteralOrColumn_field (lib : GoLib) (t : String) (h : isField t) :
    parseLiteralOrColumn lib t = .ok (operandExpr lib t) := by
  have hne : ¬ t = "" := by
    intro e
    rw [e] at h
    exact h.1 rfl
  have hex : ∃ e, parseLiteralOrColumn lib t = .ok e := by
    unfold parseLiteralOrColumn
    simp only [TrimSpace_field t h, hne, if_false]
    split
    · exact ⟨_, rfl⟩
    · split
      · exact ⟨_, rfl⟩
      · cases ParseInt t with
        | some v => exact ⟨_, rfl⟩
        | none =>
          cases lib.ParseFloat t with
          | some v => exact ⟨_, rfl⟩
          | none =>
            cases ParseBool t with
            | some v => exact ⟨_, rfl⟩
            | none => exact ⟨_, rfl⟩
  obtain ⟨e, he⟩ := hex
  simp [operandExpr, he]

theorem parseCompare_valid (lib : GoLib) (c : String × String × String)
    (hop : isCompareOp c.2.1) (hf : isField c.2.2) :
    parseCompare lib [c.1, c.2.1, c.2.2] = .ok (cmpExpr lib c) := by
  unfold isCompareOp at hop
  simp only [parseCompare, List.isEmpty_cons, Bool.false_eq_true, if_false, hop, if_true, Join,
    parseLiteralOrColumn_field lib c.2.2 hf, cmpExpr]

theorem parseLogicalExpr_loop_valid (lib : GoLib) (body : String)
    (more : List (String × String × String × String))
    (hmore : ∀ oc ∈ more, (ToLower lib oc.1 = "and" ∨ ToLower lib oc.1 = "or")
      ∧ isCompareOp oc.2.2.1 ∧ isField oc.2.2.2) :
    ∀ (e : Expr) (extra : List String),
      parseLogicalExpr.loop lib body e
          (more.flatMap (fun oc => [oc.1, oc.2.1, oc.2.2.1, oc.2.2.2]) ++ extra)
        = parseLogicalExpr.loop lib body
            (leftNest e (more.map (fun oc => (ToLower lib oc.1, cmpExpr lib oc.2)))) extra := by
  induction more with
  | nil => intro e extra; rfl
  | cons oc more ih =>
    intro e extra
    obtain ⟨hconn, hop, hf⟩ := hmore oc (by simp)
    have hnot : ¬ (ToLower lib oc.1 ≠ "and" ∧ ToLower lib oc.1 ≠ "or") := by
      intro h
      rcases hconn with h1 | h1
      · exact h.1 h1
      · exact h.2 h1
    have hcmp := parseCompare_valid lib oc.2 hop hf
    simp only [List.flatMap_cons, List.cons_append, List.nil_append, parseLogicalExpr.loop, hnot,
      if_false, hcmp, List.map_cons, leftNest]
    exact ih (fun x hx => hmore x (by simp [hx])) _ extra

theorem parseLogicalExpr_loop_short (lib : GoLib) (body : String) (e : Expr)
    (extra : List String) (h1 : 0 < extra.length) (h2 : extra.length < 4) :
    parseLogicalExpr.loop lib body e extra
      = .error (.other ("invalid logical expression: " ++ body)) := by
  match extra, h1, h2 with
  | [_], _, _ => rfl
  | [_, _], _, _ => rfl
  | [_, _, _], _, _ => rfl

theorem Fields_go_field (t : List Char) :
    ∀ (cur rest : List Char), (∀ ch ∈ t, isSpace ch = false) →
      Fields.go (t ++ rest) cur = Fields.go rest (cur ++ t) := by
  induction t with
  | nil => intro cur rest _; simp
  | cons c cs ih =>
    intro cur rest h
    have hc : isSpace c = false := h c (by simp)
    simp only [List.cons_append, Fields.go, hc, Bool.false_eq_true, if_false, List.append_eq]
    rw [ih (cur ++ [c]) rest (fun x hx => h x (by simp [hx]))]
    simp

/-- `strings.Fields` gives back the tokens joined by single spaces. -/
theorem Fields_Join (toks : List String) (h : ∀ t ∈ toks, isField t) :
    Fields (Join toks " ") = toks := by
  unfold Fields
  induction toks with
  | nil => rfl
  | cons a rest ih =>
    have ha := h a (by simp)
    have hae : a.data.isEmpty = false := by
      cases hd : a.data with
      | nil => exact absurd hd ha.1
      | cons c cs => rfl
    cases rest with
    | nil =>
      have := Fields_go_field a.data [] [] ha.2
      simp only [List.append_nil, List.nil_append] at this
      simp only [Join, this, Fields.go, hae, Bool.false_eq_true, if_false]
    | cons b rest =>
      have hdata : (Join (a :: b :: rest) " ").data
          = a.data ++ ' ' :: (Join (b :: rest) " ").data := by
        simp [Join, String.data_append]
      have hsp : isSpace ' ' = true := by decide
      rw [hdata, Fields_go_field a.data [] _ ha.2]
      simp only [List.nil_append, Fields.go, hsp, if_true, hae, Bool.false_eq_true, if_false]
      rw [ih (fun t ht => h t (by simp [ht]))]

/-- C19: for a first valid three-token comparison followed by any number of
connectives `and`/`or` in any letter case, each with a valid three-token
comparison, `parseLogicalExpr` of a text whose fields are these tokens, such as
the tokens joined by single spaces, returns the strictly left-nested tree with
the connectives lower-cased, `and` and `or` alike; when one to three further
tokens follow (a trailing connective, a comparison without connective, an
incomplete comparison) it returns an error, and so it does when the token in
the place of a connective is neither `and` nor `or`. -/
theorem parseLogicalExpr_left_nested (lib : GoLib) (body : String)
    (first : String × String × String) (more : List (String × String × String × String))
    (extra : List String)
    (hfirst : isCompareOp first.2.1 ∧ isField first.2.2)
    (hmore : ∀ oc ∈ more, (ToLower lib oc.1 = "and" ∨ ToLower lib oc.1 = "or")
      ∧ isCompareOp oc.2.2.1 ∧ isField oc.2.2.2)
    (hbody : Fields body = tokensOf first more ++ extra) :
    (extra = [] →
      parseLogicalExpr lib body
        = .ok (leftNest (cmpExpr lib first)
            (more.map (fun oc => (ToLower lib oc.1, cmpExpr lib oc.2)))))
    ∧ (0 < extra.length → extra.length < 4 →
      parseLogicalExpr lib body = .error (.other ("invalid logical expression: " ++ body)))
    ∧ (∀ (o a b c : String) (tail : List String), extra = o :: a :: b :: c :: tail →
      ToLower lib o ≠ "and" → ToLower lib o ≠ "or" →
      parseLogicalExpr lib body = .error (.other ("expected logical operator, got " ++ o)))
    ∧ ((∀ t ∈ tokensOf first more, isField t) →
      Fields (Join (tokensOf first more) " ") = tokensOf first more) := by
  have hcmp := parseCompare_valid lib first hfirst.1 hfirst.2
  have hrun : parseLogicalExpr lib body
      = parseLogicalExpr.loop lib body
          (leftNest (cmpExpr lib first)
            (more.map (fun oc => (ToLower lib oc.1, cmpExpr lib oc.2)))) extra := by
    unfold parseLogicalExpr
    rw [hbody]
    simp only [tokensOf, List.cons_append, List.nil_append, hcmp]
    exact parseLogicalExpr_loop_valid lib body more hmore _ extra
  refine ⟨?_, ?_, ?_, Fields_Join _⟩
  · intro he
    rw [hrun, he]
    rfl
  · intro h1 h2
    rw [hrun]
    exact parseLogicalExpr_loop_short lib body _ extra h1 h2
  · intro o a b c tail he h1 h2
    rw [hrun, he]
    simp [parseLogicalExpr.loop, h1, h2]

/-- Witness of C19 (`TestParseWhereAndOr`): `age > 30 AND active == true or
name == bob` nests to the left. -/
theorem parseLogicalExpr_left_nested_witness :
    parseLogicalExpr GoLib.blank "age > 30 AND active == true or name == bob"
      = .ok (.LogicalExpr
          (.LogicalExpr
            (.CompareExpr (.ColumnRef "age") ">" (.Literal ⟨TypeInt, .int 30⟩))
            "and"
            (.CompareExpr (.ColumnRef "active") "==" (.Literal ⟨TypeBool, .bool true⟩)))
          "or"
          (.CompareExpr (.ColumnRef "name") "==" (.ColumnRef "bob"))) :=
  ((parseLogicalExpr_left_nested GoLib.blank "age > 30 AND active == true or name == bob"
      ("age", ">", "30") [("AND", "active", "==", "true"), ("or", "name", "==", "bob")] []
      ⟨by decide, by decide⟩
      (by
        intro oc hoc
        simp only [List.mem_cons, List.mem_singleton, List.not_mem_nil, or_false] at hoc
        rcases hoc with h | h <;> subst h <;> decide)
      (by decide)).1 rfl).trans (by decide)

/-! ### NewSchema -/

theorem lastIndexFrom_none (n : String) (cols : List Column) (i : Nat)
    (h : lastIndexFrom n i cols = none) : ∀ c ∈ cols, c.Name ≠ n := by
  intro c hc hn
  have hm : n ∈ cols.map Column.Name := List.mem_map.mpr ⟨c, hc, hn⟩
  have := (lastIndexFrom_isSome_iff n cols i).mpr hm
  simp [h] at this

/-- The position found by `lastIndexFrom` holds a column of that name, and no
later position does. -/
theorem lastIndexFrom_last (n : String) (cols : List Column) :
    ∀ (i j : Nat), lastIndexFrom n i cols = some j →
      (∃ c, cols[j - i]? = some c ∧ c.Name = n)
      ∧ ∀ (k : Nat) (c : Column), j - i < k → cols[k]? = some c → c.Name ≠ n := by
  induction cols with
  | nil => intro i j h; simp [lastIndexFrom] at h
  | cons d ds ih =>
    intro i j h
    simp only [lastIndexFrom] at h
    cases hl : lastIndexFrom n (i + 1) ds with
    | some j' =>
      rw [hl] at h
      simp only [Option.some.injEq] at h
      subst h
      have hb := lastIndexFrom_bounds n ds (i + 1) j' hl
      obtain ⟨⟨c, hc, hcn⟩, hlater⟩ := ih (i + 1) j' hl
      have hji : j' - i = (j' - (i + 1)) + 1 := by omega
      refine ⟨⟨c, ?_, hcn⟩, ?_⟩
      · rw [hji, List.getElem?_cons_succ]
        exact hc
      · intro k c' hk hc'
        obtain ⟨k', rfl⟩ : ∃ k', k = k' + 1 := ⟨k - 1, by omega⟩
        rw [List.getElem?_cons_succ] at hc'
        exact hlater k' c' (by omega) hc'
    | none =>
      rw [hl] at h
      simp only at h
      split at h
      · rename_i hdn
        simp only [Option.some.injEq] at h
        subst h
        refine ⟨⟨d, by simp, hdn⟩, ?_⟩
        intro k c' hk hc'
        obtain ⟨k', rfl⟩ : ∃ k', k = k' + 1 := ⟨k - 1, by omega⟩
        rw [List.getElem?_cons_succ] at hc'
        exact lastIndexFrom_none n ds (i + 1) hl c' (List.getElem?_mem hc')
      · exact absurd h (by simp)

/-- C29: for every column list, `NewSchema` keeps the columns as given; a name
has an entry in its index exactly when some column bears it, and the entry is a
position below the number of columns that holds a column of that name while no
later position does (the last such column); hence the index maps the name of
column `i` to `i` whenever no other position holds a column of that name. -/
theorem NewSchema_index_last (cols : List Column) :
    (NewSchema cols).Columns = cols
    ∧ (∀ (n : String) (j : Nat), (NewSchema cols).Index.get n = some j →
        j < cols.length ∧ (∃ c, cols[j]? = some c ∧ c.Name = n)
        ∧ ∀ (k : Nat) (c : Column), j < k → cols[k]? = some c → c.Name ≠ n)
    ∧ (∀ n : String, (NewSchema cols).Index.get n = none ↔ ∀ c ∈ cols, c.Name ≠ n)
    ∧ (∀ (i : Nat) (c : Column), cols[i]? = some c →
        (∀ (k : Nat) (d : Column), cols[k]? = some d → d.Name = c.Name → k = i) →
        (NewSchema cols).Index.get c.Name = some i) := by
  have hlast : ∀ (n : String) (j : Nat), (NewSchema cols).Index.get n = some j →
      j < cols.length ∧ (∃ c, cols[j]? = some c ∧ c.Name = n)
      ∧ ∀ (k : Nat) (c : Column), j < k → cols[k]? = some c → c.Name ≠ n := by
    intro n j h
    rw [NewSchema_get] at h
    have hb := lastIndexFrom_bounds n cols 0 j h
    have hl := lastIndexFrom_last n cols 0 j h
    simp only [Nat.sub_zero] at hl
    exact ⟨by omega, hl.1, hl.2⟩
  have hnone : ∀ n : String, (NewSchema cols).Index.get n = none ↔ ∀ c ∈ cols, c.Name ≠ n := by
    intro n
    rw [NewSchema_get]
    constructor
    · exact lastIndexFrom_none n cols 0
    · intro h
      cases hl : lastIndexFrom n 0 cols with
      | none => rfl
      | some j =>
        obtain ⟨⟨c, hc, hcn⟩, _⟩ := lastIndexFrom_last n cols 0 j hl
        exact absurd hcn (h c (List.getElem?_mem hc))
  refine ⟨rfl, hlast, hnone, ?_⟩
  intro i c hc huniq
  cases hg : (NewSchema cols).Index.get c.Name with
  | none => exact absurd rfl ((hnone c.Name).mp hg c (List.getElem?_mem hc))
  | some j =>
    obtain ⟨_, ⟨d, hd, hdn⟩, _⟩ := hlast c.Name j hg
    rw [huniq j d hd hdn]

/-- Witness of C29: in the columns `a, b, a` the index of `a` is 2, the position
of the last column called `a`, and the index of `b` is 1. -/
theorem NewSchema_index_last_witness :
    (NewSchema [⟨"a", TypeString⟩, ⟨"b", TypeInt⟩, ⟨"a", TypeInt⟩]).Index.get "a" = some 2
    ∧ (NewSchema [⟨"a", TypeString⟩, ⟨"b", TypeInt⟩, ⟨"a", TypeInt⟩]).Index.get "b" = some 1 :=
  ⟨by decide,
    (NewSchema_index_last [⟨"a", TypeString⟩, ⟨"b", TypeInt⟩, ⟨"a", TypeInt⟩]).2.2.2 1
      ⟨"b", TypeInt⟩ (by decide)
      (by
        intro k d hk hd
        match k, hk with
        | 0, hk => simp at hk; subst hk; simp at hd
        | 1, _ => rfl
        | 2, hk => simp at hk; subst hk; simp at hd
        | (k + 3), hk => simp at hk)⟩

/-! ### InferType and ParseValue -/

theorem parsesAs_int (lib : GoLib) (v : String) : parsesAs lib TypeInt v = (ParseInt v).isSome := by
  simp [parsesAs]

theorem parsesAs_float (lib : GoLib) (v : String) :
    parsesAs lib TypeFloat v = (lib.ParseFloat v).isSome := by
  have h : ¬ TypeFloat = TypeInt := by decide
  simp [parsesAs, h]

theorem parsesAs_bool (lib : GoLib) (v : String) :
    parsesAs lib TypeBool v = (ParseBool v).isSome := by
  have h1 : ¬ TypeBool = TypeInt := by decide
  have h2 : ¬ TypeBool = TypeFloat := by decide
  simp [parsesAs, h1, h2]

theorem parsesAs_time (lib : GoLib) (v : String) :
    parsesAs lib TypeDateTime v = (lib.ParseRFC3339 v).isSome := by
  have h1 : ¬ TypeDateTime = TypeInt := by decide
  have h2 : ¬ TypeDateTime = TypeFloat := by decide
  have h3 : ¬ TypeDateTime = TypeBool := by decide
  simp [parsesAs, h1, h2, h3]

theorem admissible_string (lib : GoLib) (vs : List String) :
    admissible lib TypeString vs = true := by
  have h1 : ¬ TypeString = TypeInt := by decide
  have h2 : ¬ TypeString = TypeFloat := by decide
  have h3 : ¬ TypeString = TypeBool := by decide
  have h4 : ¬ TypeString = TypeDateTime := by decide
  simp [admissible, parsesAs, h1, h2, h3, h4]

/-- The flags after the loop of `InferType`: a flag stays set exactly when its
type is admissible for the samples read. -/
theorem InferType_loop_eq (lib : GoLib) (vs : List String) :
    ∀ f : InferFlags, InferType.loop lib vs f
      = ⟨f.isInt && admissible lib TypeInt vs, f.isFloat && admissible lib TypeFloat vs,
          f.isBool && admissible lib TypeBool vs, f.isTime && admissible lib TypeDateTime vs⟩ := by
  induction vs with
  | nil => intro f; simp [InferType.loop, admissible]
  | cons v vs ih =>
    intro f
    obtain ⟨a, b, c, d⟩ := f
    by_cases hv : TrimSpace v = ""
    · simp only [InferType.loop, hv, if_true, ih]
      simp [admissible, hv]
    · simp only [InferType.loop, hv, if_false, ih]
      have hadm : ∀ t, admissible lib t (v :: vs)
          = (parsesAs lib t (TrimSpace v) && admissible lib t vs) := by
        intro t
        simp [admissible, hv]
      simp only [hadm, parsesAs_int, parsesAs_float, parsesAs_bool, parsesAs_time]
      cases a <;> cases b <;> cases c <;> cases d <;>
        cases ParseInt (TrimSpace v) <;> cases lib.ParseFloat (TrimSpace v) <;>
        cases ParseBool (TrimSpace v) <;> cases lib.ParseRFC3339 (TrimSpace v) <;> simp

theorem admissible_blank (lib : GoLib) (t : Typ) (vs : List String)
    (h : ∀ v ∈ vs, TrimSpace v = "") : admissible lib t vs = true := by
  simp only [admissible, List.all_eq_true]
  intro v hv
  simp [h v hv]

/-- C26: `InferType` equals the reference definition (`string` on the empty
list, otherwise the first admissible type in the order int, float, bool,
datetime, string, a type being admissible when every sample that is not empty
after trimming parses under it); so a non-empty list of blank samples yields
int, and the samples `x`, `2` yield string (the library rejecting `x` as a float
and as an instant). -/
theorem InferType_eq_spec (lib : GoLib) (values : List String) :
    InferType lib values = InferTypeSpec lib values
    ∧ (values ≠ [] → (∀ v ∈ values, TrimSpace v = "") → InferType lib values = TypeInt)
    ∧ (lib.ParseFloat "x" = none → lib.ParseRFC3339 "x" = none →
        InferType lib ["x", "2"] = TypeString) := by
  have hflags : ∀ vs : List String, vs ≠ [] → InferType lib vs
      = if admissible lib TypeInt vs then TypeInt
        else if admissible lib TypeFloat vs then TypeFloat
        else if admissible lib TypeBool vs then TypeBool
        else if admissible lib TypeDateTime vs then TypeDateTime
        else TypeString := by
    intro vs hne
    have hlen : ¬ vs.length = 0 := by
      cases vs with
      | nil => exact absurd rfl hne
      | cons a l => simp
    simp only [InferType, hlen, if_false, InferType_loop_eq, Bool.true_and]
  refine ⟨?_, ?_, ?_⟩
  · cases values with
    | nil => rfl
    | cons v vs =>
      rw [hflags (v :: vs) (by simp)]
      simp only [InferTypeSpec, List.find?, admissible_string]
      cases admissible lib TypeInt (v :: vs) <;> cases admissible lib TypeFloat (v :: vs) <;>
        cases admissible lib TypeBool (v :: vs) <;>
        cases admissible lib TypeDateTime (v :: vs) <;> simp
  · intro hne hblank
    rw [hflags values hne, admissible_blank lib TypeInt values hblank]
    simp
  · intro hf ht
    rw [hflags ["x", "2"] (by simp)]
    have hx : TrimSpace "x" = "x" := by decide
    have h2 : TrimSpace "2" = "2" := by decide
    have hxe : ¬ ("x" : String) = "" := by decide
    have h2e : ¬ ("2" : String) = "" := by decide
    have hi : ParseInt "x" = none := by decide
    have hb : ParseBool "x" = none := by decide
    simp [admissible, hx, h2, hxe, h2e, parsesAs_int, parsesAs_float, parsesAs_bool,
      parsesAs_time, hi, hb, hf, ht]

/-- Witness of C26 (`TestInferType`): the single empty sample yields int. -/
theorem InferType_eq_spec_witness : InferType GoLib.blank [""] = TypeInt :=
  (InferType_eq_spec GoLib.blank [""]).2.1 (by decide) (by decide)

/-- C27 as stated fails: the sample of one space is not empty, `InferType` skips
it as blank and answers int, and `ParseValue` under int rejects it. -/
theorem ParseValue_InferType_blank_sample :
    " " ∈ [" "] ∧ " " ≠ "" ∧ InferType GoLib.blank [" "] = TypeInt
    ∧ ParseValue GoLib.blank (InferType GoLib.blank [" "]) " "
        = .error (.other "strconv.ParseInt") := by
  decide

/-- C27, amended: for every list of samples and every sample of it that is not
empty after trimming, `ParseValue` under the inferred type succeeds and returns
a value tagged with that type, whose payload has the shape of the tag. -/
theorem ParseValue_InferType (lib : GoLib) (s : List String) (v : String)
    (hv : v ∈ s) (hne : TrimSpace v ≠ "") :
    ∃ p : Payload, ParseValue lib (InferType lib s) v = .ok ⟨InferType lib s, p⟩
      ∧ Value.wellTagged ⟨InferType lib s, p⟩ = true := by
  have hlen : ¬ s.length = 0 := by
    cases s with
    | nil => simp at hv
    | cons a l => simp
  have hadm : ∀ t, admissible lib t s = true → parsesAs lib t (TrimSpace v) = true := by
    intro t h
    simp only [admissible, List.all_eq_true] at h
    have := h v hv
    simpa [hne] using this
  have h1 : ¬ TypeFloat = TypeInt := by decide
  have h2 : ¬ TypeBool = TypeInt := by decide
  have h3 : ¬ TypeBool = TypeFloat := by decide
  have h4 : ¬ TypeDateTime = TypeInt := by decide
  have h5 : ¬ TypeDateTime = TypeFloat := by decide
  have h6 : ¬ TypeDateTime = TypeBool := by decide
  have h7 : ¬ TypeString = TypeInt := by decide
  have h8 : ¬ TypeString = TypeFloat := by decide
  have h9 : ¬ TypeString = TypeBool := by decide
  have h10 : ¬ TypeString = TypeDateTime := by decide
  have g7 : ¬ TypeInt = TypeString := by decide
  have g8 : ¬ TypeFloat = TypeString := by decide
  have g9 : ¬ TypeBool = TypeString := by decide
  have g10 : ¬ TypeDateTime = TypeString := by decide
  simp only [InferType, hlen, if_false, InferType_loop_eq, Bool.true_and]
  by_cases hi : admissible lib TypeInt s = true
  · have hp := hadm _ hi
    rw [parsesAs_int] at hp
    obtain ⟨n, hn⟩ := Option.isSome_iff_exists.mp hp
    exact ⟨.int n, by simp [hi, ParseValue, hn], by simp [hi, Value.wellTagged, g7]⟩
  · by_cases hf : admissible lib TypeFloat s = true
    · have hp := hadm _ hf
      rw [parsesAs_float] at hp
      obtain ⟨n, hn⟩ := Option.isSome_iff_exists.mp hp
      exact ⟨.float n, by simp [hi, hf, ParseValue, hn, h1],
        by simp [hi, hf, Value.wellTagged, h1, g8]⟩
    · by_cases hb : admissible lib TypeBool s = true
      · have hp := hadm _ hb
        rw [parsesAs_bool] at hp
        obtain ⟨n, hn⟩ := Option.isSome_iff_exists.mp hp
        exact ⟨.bool n, by simp [hi, hf, hb, ParseValue, hn, h2, h3],
          by simp [hi, hf, hb, Value.wellTagged, h2, h3, g9]⟩
      · by_cases ht : admissible lib TypeDateTime s = true
        · have hp := hadm _ ht
          rw [parsesAs_time] at hp
          obtain ⟨n, hn⟩ := Option.isSome_iff_exists.mp hp
          exact ⟨.time n, by simp [hi, hf, hb, ht, ParseValue, hn, h4, h5, h6],
            by simp [hi, hf, hb, ht, Value.wellTagged, h4, h5, h6, g10]⟩
        · exact ⟨.str (TrimSpace v), by simp [hi, hf, hb, ht, ParseValue, h7, h8, h9, h10],
            by simp [hi, hf, hb, ht, Value.wellTagged]⟩

/-- Witness of C27: the samples `1`, ` 2 ` are inferred int and the second
parses to the int 2. -/
theorem ParseValue_InferType_witness :
    ∃ p : Payload, ParseValue GoLib.blank (InferType GoLib.blank ["1", " 2 "]) " 2 "
        = .ok ⟨InferType GoLib.blank ["1", " 2 "], p⟩
      ∧ Value.wellTagged ⟨InferType GoLib.blank ["1", " 2 "], p⟩ = true :=
  ParseValue_InferType GoLib.blank ["1", " 2 "] " 2 " (by decide) (by decide)

/-! ### Decimal numerals: `strconv.FormatInt` and `strconv.ParseInt` -/

theorem digitsValue_append (xs ys : List Char) :
    ∀ acc : Nat, digitsValue (xs ++ ys) acc = (digitsValue xs acc).bind (digitsValue ys) := by
  induction xs with
  | nil => intro acc; simp [digitsValue]
  | cons c cs ih =>
    intro acc
    simp only [List.cons_append, digitsValue]
    split
    · exact ih _
    · rfl

theorem digitsValue_digits (cs : List Char) :
    ∀ (acc v : Nat), digitsValue cs acc = some v → ∀ c ∈ cs, '0' ≤ c ∧ c ≤ '9' := by
  induction cs with
  | nil => intro _ _ _ c hc; simp at hc
  | cons d ds ih =>
    intro acc v h c hc
    simp only [digitsValue] at h
    split at h
    · rename_i hd
      rcases List.mem_cons.mp hc with e | hmem
      · rw [e]; exact hd
      · exact ih _ v h c hmem
    · exact absurd h (by simp)

theorem toDigitsCore_append (fuel : Nat) :
    ∀ (n : Nat) (ds : List Char),
      Nat.toDigitsCore 10 fuel n ds = Nat.toDigitsCore 10 fuel n [] ++ ds := by
  induction fuel with
  | zero => intro n ds; simp [Nat.toDigitsCore]
  | succ f ih =>
    intro n ds
    simp only [Nat.toDigitsCore]
    split
    · simp
    · rw [ih (n / 10) (Nat.digitChar (n % 10) :: ds), ih (n / 10) [Nat.digitChar (n % 10)]]
      simp

theorem digitChar_digit (m : Nat) (h : m < 10) :
    ('0' ≤ Nat.digitChar m ∧ Nat.digitChar m ≤ '9')
      ∧ (Nat.digitChar m).toNat - '0'.toNat = m := by
  interval_cases m <;> decide

theorem digitsValue_toDigitsCore (fuel : Nat) :
    ∀ n : Nat, n < fuel → digitsValue (Nat.toDigitsCore 10 fuel n []) 0 = some n := by
  induction fuel with
  | zero => intro n h; omega
  | succ f ih =>
    intro n h
    have hd := digitChar_digit (n % 10) (Nat.mod_lt n (by decide))
    simp only [Nat.toDigitsCore]
    split
    · rename_i h0
      have hn : n % 10 = n := Nat.mod_eq_of_lt (by omega)
      simp only [digitsValue, hd.1, and_self, if_true, hd.2]
      simp [hn]
    · rename_i h0
      rw [toDigitsCore_append, digitsValue_append, ih (n / 10) (by omega)]
      simp only [Option.bind, digitsValue, hd.1, and_self, if_true, hd.2]
      congr 1
      omega

theorem toDigitsCore_ne_nil (fuel n : Nat) : Nat.toDigitsCore 10 (fuel + 1) n [] ≠ [] := by
  simp only [Nat.toDigitsCore]
  split
  · simp
  · rw [toDigitsCore_append]
    simp

theorem digitsValue_repr (n : Nat) : digitsValue (Nat.repr n).data 0 = some n := by
  simp only [Nat.repr, Nat.toDigits, List.asString]
  exact digitsValue_toDigitsCore (n + 1) n (by omega)

theorem repr_ne_nil (n : Nat) : (Nat.repr n).data ≠ [] := by
  simp only [Nat.repr, Nat.toDigits, List.asString]
  exact toDigitsCore_ne_nil n n

theorem digit_not_space (c : Char) (h : '0' ≤ c ∧ c ≤ '9') : isSpace c = false := by
  have h1 : 48 ≤ c.toNat := h.1
  have h2 : c.toNat ≤ 57 := h.2
  simp only [isSpace, Bool.or_eq_false_iff, decide_eq_false_iff_not, Bool.and_eq_false_iff]
  omega

/-- Without a sign, `ParseInt` reads the value of the digits. -/
theorem ParseInt_digits (s : String) (n : Nat) (hne : s.data ≠ [])
    (hv : digitsValue s.data 0 = some n) (hr : n < 2 ^ 63) : ParseInt s = some (n : Int) := by
  have hdig := digitsValue_digits s.data 0 n hv
  cases hs : s.data with
  | nil => exact absurd hs hne
  | cons c cs =>
    have hc : '0' ≤ c ∧ c ≤ '9' := hdig c (by simp [hs])
    have hplus : c ≠ '+' := by
      intro e; rw [e] at hc; exact absurd hc.1 (by decide)
    have hminus : c ≠ '-' := by
      intro e; rw [e] at hc; exact absurd hc.1 (by decide)
    rw [hs] at hv
    unfold ParseInt
    rw [hs]
    split
    · rename_i heq
      simp only [List.cons.injEq] at heq
      exact absurd heq.1 hplus
    · rename_i heq
      simp only [List.cons.injEq] at heq
      exact absurd heq.1 hminus
    · simp only [List.isEmpty_cons, Bool.false_eq_true, if_false, hv]
      have h1 : (- 2 ^ 63 : Int) ≤ (n : Int) := by
        have : (0 : Int) ≤ (n : Int) := Int.ofNat_nonneg n
        omega
      have h2 : (n : Int) < 2 ^ 63 := by exact_mod_cast hr
      simp
      omega

/-- After a minus sign, `ParseInt` reads the opposite of the value of the
digits. -/
theorem ParseInt_minus (ds : String) (n : Nat) (hne : ds.data ≠ [])
    (hv : digitsValue ds.data 0 = some n) (hr : n ≤ 2 ^ 63) :
    ParseInt ("-" ++ ds) = some (- (n : Int)) := by
  have hdata : ("-" ++ ds).data = '-' :: ds.data := by
    simp [String.data_append]
  have hemp : ds.data.isEmpty = false := by
    cases hd : ds.data with
    | nil => exact absurd hd hne
    | cons c cs => rfl
  unfold ParseInt
  rw [hdata]
  simp only [hemp, Bool.false_eq_true, if_false, hv, if_true]
  have h1 : (- 2 ^ 63 : Int) ≤ - (n : Int) := by
    have : (n : Int) ≤ 2 ^ 63 := by exact_mod_cast hr
    omega
  have h2 : - (n : Int) < 2 ^ 63 := by
    have : (0 : Int) ≤ (n : Int) := Int.ofNat_nonneg n
    omega
  simp
  omega

/-- `strconv.ParseInt` reads back what `strconv.FormatInt` prints, for every
`int64`. -/
theorem ParseInt_FormatInt (n : Int) (hlo : - 2 ^ 63 ≤ n) (hhi : n < 2 ^ 63) :
    ParseInt (FormatInt n) = some n := by
  unfold FormatInt
  by_cases hneg : n < 0
  · rw [if_pos hneg]
    have h := ParseInt_minus (Nat.repr n.natAbs) n.natAbs (repr_ne_nil _) (digitsValue_repr _)
      (by omega)
    rw [h]
    congr 1
    omega
  · rw [if_neg hneg]
    have h := ParseInt_digits (Nat.repr n.natAbs) n.natAbs (repr_ne_nil _) (digitsValue_repr _)
      (by omega)
    rw [h]
    congr 1
    omega

theorem FormatInt_isField (n : Int) : isField (FormatInt n) := by
  have hrep : ∀ c ∈ (Nat.repr n.natAbs).data, isSpace c = false := fun c hc =>
    digit_not_space c (digitsValue_digits _ 0 _ (digitsValue_repr n.natAbs) c hc)
  unfold FormatInt isField
  by_cases hneg : n < 0
  · rw [if_pos hneg]
    simp only [String.data_append]
    refine ⟨by simp, ?_⟩
    intro c hc
    rcases List.mem_append.mp hc with h | h
    · have : c = '-' := by simpa using h
      rw [this]; decide
    · exact hrep c h
  · rw [if_neg hneg]
    exact ⟨repr_ne_nil _, hrep⟩

/-- What `ParseInt` accepts lies in the range of `int64`. -/
theorem ParseInt_range (s : String) (n : Int) (h : ParseInt s = some n) :
    - 2 ^ 63 ≤ n ∧ n < 2 ^ 63 := by
  unfold ParseInt at h
  simp only at h
  split at h
  · exact absurd h (by simp)
  · split at h
    · exact absurd h (by simp)
    · split at h <;> split at h <;>
        first
        | (simp only [Option.some.injEq] at h; subst h; assumption)
        | exact absurd h (by simp)

/-- C28: for every `int64` `n`, `String` prints the int value `n` as
`FormatInt n` and `ParseValue` under int reads that text back as the int value
`n`; for every bool `b`, `String` prints exactly `true` or `false` and
`ParseValue` under bool reads it back as `b`; hence for every text that
`ParseValue` accepts under int or bool, the parsed value prints to a text that
parses to the same value again. -/
theorem ParseValue_String_roundtrip (lib : GoLib) :
    (∀ n : Int, - 2 ^ 63 ≤ n → n < 2 ^ 63 →
      Value.String lib ⟨TypeInt, .int n⟩ = .ok (FormatInt n)
      ∧ ParseValue lib TypeInt (FormatInt n) = .ok ⟨TypeInt, .int n⟩)
    ∧ (∀ b : Bool,
      Value.String lib ⟨TypeBool, .bool b⟩ = .ok (if b then "true" else "false")
      ∧ ParseValue lib TypeBool (if b then "true" else "false") = .ok ⟨TypeBool, .bool b⟩)
    ∧ (∀ (t : Typ) (s : String) (v : Value), t = TypeInt ∨ t = TypeBool →
      ParseValue lib t s = .ok v →
      ∃ txt : String, Value.String lib v = .ok txt ∧ ParseValue lib t txt = .ok v) := by
  have g1 : ¬ TypeInt = TypeString := by decide
  have g2 : ¬ TypeBool = TypeString := by decide
  have g3 : ¬ TypeBool = TypeInt := by decide
  have g4 : ¬ TypeBool = TypeFloat := by decide
  have hint : ∀ n : Int, - 2 ^ 63 ≤ n → n < 2 ^ 63 →
      Value.String lib ⟨TypeInt, .int n⟩ = .ok (FormatInt n)
      ∧ ParseValue lib TypeInt (FormatInt n) = .ok ⟨TypeInt, .int n⟩ := by
    intro n hlo hhi
    refine ⟨by simp [Value.String, g1], ?_⟩
    simp only [ParseValue, if_true, TrimSpace_field _ (FormatInt_isField n),
      ParseInt_FormatInt n hlo hhi]
  have hbool : ∀ b : Bool,
      Value.String lib ⟨TypeBool, .bool b⟩ = .ok (if b then "true" else "false")
      ∧ ParseValue lib TypeBool (if b then "true" else "false") = .ok ⟨TypeBool, .bool b⟩ := by
    intro b
    refine ⟨by simp [Value.String, g2, g3, g4], ?_⟩
    have ht : TrimSpace "true" = "true" := by decide
    have hf : TrimSpace "false" = "false" := by decide
    have pt : ParseBool "true" = some true := by decide
    have pf : ParseBool "false" = some false := by decide
    cases b <;> simp [ParseValue, g3, g4, ht, hf, pt, pf]
  refine ⟨hint, hbool, ?_⟩
  intro t s v ht hok
  rcases ht with rfl | rfl
  · simp only [ParseValue, if_true] at hok
    cases hp : ParseInt (TrimSpace s) with
    | none => rw [hp] at hok; exact absurd hok (by simp)
    | some n =>
      rw [hp] at hok
      simp only [Except.ok.injEq] at hok
      subst hok
      have hr := ParseInt_range _ n hp
      exact ⟨FormatInt n, (hint n hr.1 hr.2).1, (hint n hr.1 hr.2).2⟩
  · simp only [ParseValue, g3, g4, if_false, if_true] at hok
    cases hp : ParseBool (TrimSpace s) with
    | none => rw [hp] at hok; exact absurd hok (by simp)
    | some b =>
      rw [hp] at hok
      simp only [Except.ok.injEq] at hok
      subst hok
      exact ⟨if b then "true" else "false", (hbool b).1, (hbool b).2⟩

/-- Witness of C28: the text ` +07 ` parses under int to 7, which prints as `7`
and parses to 7 again. -/
theorem ParseValue_String_roundtrip_witness :
    ∃ txt : String, Value.String GoLib.blank ⟨TypeInt, .int 7⟩ = .ok txt
      ∧ ParseValue GoLib.blank TypeInt txt = .ok ⟨TypeInt, .int 7⟩ :=
  (ParseValue_String_roundtrip GoLib.blank).2.2 TypeInt " +07 " ⟨TypeInt, .int 7⟩
    (Or.inl rfl) (by decide)

/-! ### Records read by the readers -/

/-- C30: the readers fill a missing value with the string payload `""` under
the type tag of the column; for the schema `a:int, b:int` and the record `1`,
and for the JSON object with the key `a` only, the second value has the tag int
and a string payload, on which `Value.String` panics. -/
theorem parseRecord_short_record_payload :
    parseRecord GoLib.blank (NewSchema [⟨"a", TypeInt⟩, ⟨"b", TypeInt⟩]) ["1"]
      = .ok ⟨NewSchema [⟨"a", TypeInt⟩, ⟨"b", TypeInt⟩],
          [⟨TypeInt, .int 1⟩, ⟨TypeInt, .str ""⟩]⟩
    ∧ parseObject GoLib.blank (fun raw : String => raw)
        (NewSchema [⟨"a", TypeInt⟩, ⟨"b", TypeInt⟩]) [("a", "1")]
      = .ok ⟨NewSchema [⟨"a", TypeInt⟩, ⟨"b", TypeInt⟩],
          [⟨TypeInt, .int 1⟩, ⟨TypeInt, .str ""⟩]⟩
    ∧ Value.wellTagged ⟨TypeInt, .str ""⟩ = false
    ∧ Value.String GoLib.blank ⟨TypeInt, .str ""⟩
        = .error (.panic "interface conversion: not an int64")
    ∧ compareValues GoLib.blank ⟨TypeInt, .str ""⟩ ⟨TypeInt, .int 0⟩
        = .error (.panic "interface conversion: not an int64") := by
  decide

/-! ### Quoted strings and operands -/

/-- C21: the body of `where` is cut at white space whatever the quotes, so the
query `T | where name == "a b"` is an error and not the comparison with the
string `a b`; `parseCompare` does join the tokens of an operand of several
tokens, and `extend` keeps the same quoted operand whole. -/
theorem Parse_where_quoted_space :
    Parse GoLib.blank "T | where name == \"a b\""
      = .error (.other "invalid logical expression: name == \"a b\"")
    ∧ Fields "name == \"a b\"" = ["name", "==", "\"a", "b\""]
    ∧ parseCompare GoLib.blank ["name", "==", "\"a", "b\""]
      = .ok (.CompareExpr (.ColumnRef "name") "==" (.Literal ⟨TypeString, .str "a b"⟩))
    ∧ Parse GoLib.blank "T | extend x = \"a b\""
      = .ok [.ExtendOp "x" (.Literal ⟨TypeString, .str "a b"⟩)] := by
  decide

theorem dropWhile_append_true (p : Char → Bool) (c : Char) (hc : p c = true) (l : List Char) :
    (l ++ [c]).dropWhile p = if l.all p then [] else l.dropWhile p ++ [c] := by
  induction l with
  | nil => simp [List.dropWhile, hc]
  | cons d ds ih =>
    by_cases hd : p d = true
    · simp only [List.cons_append, List.dropWhile, hd, List.all_cons, Bool.true_and]
      exact ih
    · have hd' : p d = false := by simpa using hd
      simp [List.dropWhile, hd']

/-- `strings.Trim` of a text wrapped in one more pair of the cut character. -/
theorem Trim_wrapped (s : String) (cut : Char) :
    Trim (String.singleton cut ++ s ++ String.singleton cut) cut = Trim s cut := by
  have hp : (fun c => c == cut) cut = true := by simp
  have hdata : (String.singleton cut ++ s ++ String.singleton cut).data
      = cut :: (s.data ++ [cut]) := by
    simp [String.data_append, String.singleton]
  unfold Trim trimRight trimLeft
  rw [hdata]
  have h1 : (cut :: (s.data ++ [cut])).dropWhile (fun c => c == cut)
      = (s.data ++ [cut]).dropWhile (fun c => c == cut) := by
    simp [List.dropWhile]
  rw [h1, dropWhile_append_true (fun c => c == cut) cut hp]
  by_cases hall : s.data.all (fun c => c == cut) = true
  · have hnil : s.data.dropWhile (fun c => c == cut) = [] := by
      rw [List.dropWhile_eq_nil_iff]
      intro x hx
      exact List.all_eq_true.mp hall x hx
    simp [hall, hnil]
  · simp only [hall, Bool.false_eq_true, if_false, List.reverse_append, List.reverse_cons,
      List.reverse_nil, List.nil_append, List.singleton_append]
    simp [List.dropWhile]

/-- `strings.Trim` keeps a text that neither begins nor ends with the cut
character. -/
theorem Trim_id (s : String) (cut : Char)
    (h1 : ∀ c, s.data.head? = some c → c ≠ cut)
    (h2 : ∀ c, s.data.getLast? = some c → c ≠ cut) : Trim s cut = s := by
  have hl : ∀ l : List Char, (∀ c, l.head? = some c → c ≠ cut) →
      l.dropWhile (fun c => c == cut) = l := by
    intro l h
    cases l with
    | nil => rfl
    | cons d ds =>
      have hb : (d == cut) = false := beq_eq_false_iff_ne.mpr (h d rfl)
      simp [List.dropWhile, hb]
  unfold Trim trimRight trimLeft
  rw [hl s.data h1, hl s.data.reverse (by
    intro c hc
    rw [List.head?_reverse] at hc
    exact h2 c hc)]
  simp

theorem TrimSpace_ends (l : List Char)
    (h1 : ∀ c, l.head? = some c → isSpace c = false)
    (h2 : ∀ c, l.getLast? = some c → isSpace c = false) :
    TrimSpace ⟨l⟩ = ⟨l⟩ := by
  have hl : ∀ l : List Char, (∀ c, l.head? = some c → isSpace c = false) →
      l.dropWhile isSpace = l := by
    intro l h
    cases l with
    | nil => rfl
    | cons d ds => simp [List.dropWhile, h d rfl]
  unfold TrimSpace trimRight trimLeft
  simp only
  rw [hl l h1, hl l.reverse (by
    intro c hc
    rw [List.head?_reverse] at hc
    exact h2 c hc)]
  simp

/-- C22 as stated fails: the text `"a"` wrapped in one more pair of double
quotes yields the string `a`, both pairs of quotes being removed. -/
theorem parseLiteralOrColumn_quotes_all_trimmed :
    parseLiteralOrColumn GoLib.blank ("\"" ++ "\"a\"" ++ "\"")
      = .ok (.Literal ⟨TypeString, .str "a"⟩)
    ∧ parseLiteralOrColumn GoLib.blank ("\"" ++ "\"a\"" ++ "\"")
      ≠ .ok (.Literal ⟨TypeString, .str "\"a\""⟩)
    ∧ parseLiteralOrColumn GoLib.blank ("'" ++ "'a" ++ "'")
      = .ok (.Literal ⟨TypeString, .str "a"⟩) := by
  decide

/-- C22, amended: for every string `s`, `parseLiteralOrColumn` applied to `s`
wrapped in one pair of double quotes returns the string literal whose value is
`s` without its leading and trailing double quotes, which is exactly `s` when
`s` neither begins nor ends with a double quote; likewise for one pair of
single quotes. -/
theorem parseLiteralOrColumn_quoted (lib : GoLib) (s : String) :
    parseLiteralOrColumn lib ("\"" ++ s ++ "\"")
      = .ok (.Literal ⟨TypeString, .str (Trim s '"')⟩)
    ∧ parseLiteralOrColumn lib ("'" ++ s ++ "'")
      = .ok (.Literal ⟨TypeString, .str (Trim s '\'')⟩)
    ∧ ((∀ c, s.data.head? = some c → c ≠ '"') → (∀ c, s.data.getLast? = some c → c ≠ '"') →
        parseLiteralOrColumn lib ("\"" ++ s ++ "\"") = .ok (.Literal ⟨TypeString, .str s⟩))
    ∧ ((∀ c, s.data.head? = some c → c ≠ '\'') →
        (∀ c, s.data.getLast? = some c → c ≠ '\'') →
        parseLiteralOrColumn lib ("'" ++ s ++ "'") = .ok (.Literal ⟨TypeString, .str s⟩)) := by
  have key : ∀ q : Char, isSpace q = false → (q = '"' ∨ q = '\'') →
      parseLiteralOrColumn lib (String.singleton q ++ s ++ String.singleton q)
        = .ok (.Literal ⟨TypeString, .str (Trim s q)⟩) := by
    intro q hq hcase
    have hdata : (String.singleton q ++ s ++ String.singleton q).data
        = q :: (s.data ++ [q]) := by
      simp [String.data_append, String.singleton]
    have heq : String.singleton q ++ s ++ String.singleton q = ⟨q :: (s.data ++ [q])⟩ := by
      rw [← hdata]
    have htrim : TrimSpace (String.singleton q ++ s ++ String.singleton q)
        = String.singleton q ++ s ++ String.singleton q := by
      rw [heq]
      apply TrimSpace_ends
      · intro c hc
        simp only [List.head?_cons, Option.some.injEq] at hc
        rw [← hc]; exact hq
      · intro c hc
        have : (q :: (s.data ++ [q])).getLast? = some q := by
          rw [← List.cons_append, List.getLast?_append]
          simp
        rw [this] at hc
        simp only [Option.some.injEq] at hc
        rw [← hc]; exact hq
    have hne : ¬ (String.singleton q ++ s ++ String.singleton q) = "" := by
      intro e
      have := congrArg String.data e
      rw [hdata] at this
      simp at this
    have hpre : ∀ p : Char, HasPrefix (String.singleton q ++ s ++ String.singleton q)
        (String.singleton p) = (p == q) := by
      intro p
      simp [HasPrefix, hdata, String.singleton, List.isPrefixOf]
    have hsuf : ∀ p : Char, HasSuffix (String.singleton q ++ s ++ String.singleton q)
        (String.singleton p) = (p == q) := by
      intro p
      simp [HasSuffix, hdata, String.singleton, List.isPrefixOf]
    have hd : ("\"" : String) = String.singleton '"' := rfl
    have hs : ("'" : String) = String.singleton '\'' := rfl
    rcases hcase with rfl | rfl
    · unfold parseLiteralOrColumn
      simp only [htrim, hne, if_false, hd, hpre, hsuf, Trim_wrapped]
      simp
    · unfold parseLiteralOrColumn
      simp only [htrim, hne, if_false, hd, hs, hpre, hsuf, Trim_wrapped]
      simp
  have hd : ("\"" : String) = String.singleton '"' := rfl
  have hs : ("'" : String) = String.singleton '\'' := rfl
  have kd := key '"' (by decide) (Or.inl rfl)
  have ks := key '\'' (by decide) (Or.inr rfl)
  rw [← hd] at kd
  rw [← hs] at ks
  refine ⟨kd, ks, ?_, ?_⟩
  · intro h1 h2
    rw [kd, Trim_id s '"' h1 h2]
  · intro h1 h2
    rw [ks, Trim_id s '\'' h1 h2]

/-- Witness of C22 (`TestParseLiterals`): the text `x y` in double quotes is the
string literal `x y`. -/
theorem parseLiteralOrColumn_quoted_witness :
    parseLiteralOrColumn GoLib.blank ("\"" ++ "x y" ++ "\"")
      = .ok (.Literal ⟨TypeString, .str "x y"⟩) :=
  (parseLiteralOrColumn_quoted GoLib.blank "x y").2.2.1 (by decide) (by decide)

/-- C23 as stated fails: `strconv.ParseBool` accepts more spellings than `true`
and `false`, so the operands `t`, `T`, `F` and `TRUE` are bool literals, not
column references. -/
theorem parseLiteralOrColumn_bool_spellings :
    parseLiteralOrColumn GoLib.blank "t" = .ok (.Literal ⟨TypeBool, .bool true⟩)
    ∧ parseLiteralOrColumn GoLib.blank "t" ≠ .ok (.ColumnRef "t")
    ∧ parseLiteralOrColumn GoLib.blank "T" = .ok (.Literal ⟨TypeBool, .bool true⟩)
    ∧ parseLiteralOrColumn GoLib.blank "F" = .ok (.Literal ⟨TypeBool, .bool false⟩)
    ∧ parseLiteralOrColumn GoLib.blank "TRUE" = .ok (.Literal ⟨TypeBool, .bool true⟩) := by
  decide

/-- C23, amended: for an operand that is not empty after trimming and is not
wrapped in double or single quotes, `parseLiteralOrColumn` returns an int
literal if `strconv.ParseInt` accepts the trimmed operand, else a float literal
if `strconv.ParseFloat` accepts it, else a bool literal if `strconv.ParseBool`
accepts it, and otherwise a column reference to the trimmed operand;
`ParseBool` accepts exactly `1`, `t`, `T`, `TRUE`, `true`, `True` as true and
`0`, `f`, `F`, `FALSE`, `false`, `False` as false, and `ParseInt` accepts the
decimal print of every `int64`. -/
theorem parseLiteralOrColumn_order (lib : GoLib) (raw0 : String)
    (hne : TrimSpace raw0 ≠ "")
    (hdq : ¬ (HasPrefix (TrimSpace raw0) "\"" = true ∧ HasSuffix (TrimSpace raw0) "\"" = true))
    (hsq : ¬ (HasPrefix (TrimSpace raw0) "'" = true ∧ HasSuffix (TrimSpace raw0) "'" = true)) :
    (∀ i : Int, ParseInt (TrimSpace raw0) = some i →
      parseLiteralOrColumn lib raw0 = .ok (.Literal ⟨TypeInt, .int i⟩))
    ∧ (ParseInt (TrimSpace raw0) = none → ∀ f : Float64,
      lib.ParseFloat (TrimSpace raw0) = some f →
      parseLiteralOrColumn lib raw0 = .ok (.Literal ⟨TypeFloat, .float f⟩))
    ∧ (ParseInt (TrimSpace raw0) = none → lib.ParseFloat (TrimSpace raw0) = none →
      ∀ b : Bool, ParseBool (TrimSpace raw0) = some b →
      parseLiteralOrColumn lib raw0 = .ok (.Literal ⟨TypeBool, .bool b⟩))
    ∧ (ParseInt (TrimSpace raw0) = none → lib.ParseFloat (TrimSpace raw0) = none →
      ParseBool (TrimSpace raw0) = none →
      parseLiteralOrColumn lib raw0 = .ok (.ColumnRef (TrimSpace raw0)))
    ∧ (∀ s : String, ParseBool s = some true
        ↔ s ∈ ["1", "t", "T", "TRUE", "true", "True"])
    ∧ (∀ s : String, ParseBool s = some false
        ↔ s ∈ ["0", "f", "F", "FALSE", "false", "False"])
    ∧ (∀ n : Int, - 2 ^ 63 ≤ n → n < 2 ^ 63 → ParseInt (FormatInt n) = some n) := by
  have hq : (HasPrefix (TrimSpace raw0) "\"" && HasSuffix (TrimSpace raw0) "\"") = false := by
    cases h1 : HasPrefix (TrimSpace raw0) "\"" <;> cases h2 : HasSuffix (TrimSpace raw0) "\""
      <;> simp_all
  have hs : (HasPrefix (TrimSpace raw0) "'" && HasSuffix (TrimSpace raw0) "'") = false := by
    cases h1 : HasPrefix (TrimSpace raw0) "'" <;> cases h2 : HasSuffix (TrimSpace raw0) "'"
      <;> simp_all
  refine ⟨?_, ?_, ?_, ?_, ?_, ?_, ParseInt_FormatInt⟩
  · intro i hi
    simp only [parseLiteralOrColumn, hne, if_false, hq, hs, Bool.false_eq_true, hi]
  · intro hi f hf
    simp only [parseLiteralOrColumn, hne, if_false, hq, hs, Bool.false_eq_true, hi, hf]
  · intro hi hf b hb
    simp only [parseLiteralOrColumn, hne, if_false, hq, hs, Bool.false_eq_true, hi, hf, hb]
  · intro hi hf hb
    simp only [parseLiteralOrColumn, hne, if_false, hq, hs, Bool.false_eq_true, hi, hf, hb]
  · intro s
    unfold ParseBool
    simp only [List.mem_cons, List.mem_singleton, List.not_mem_nil, or_false]
    constructor
    · intro h
      split at h
      · assumption
      · split at h <;> simp at h
    · intro h
      rw [if_pos h]
  · intro s
    unfold ParseBool
    simp only [List.mem_cons, List.mem_singleton, List.not_mem_nil, or_false]
    constructor
    · intro h
      split at h
      · simp at h
      · split at h
        · assumption
        · simp at h
    · intro h
      have hnot : ¬ (s = "1" ∨ s = "t" ∨ s = "T" ∨ s = "TRUE" ∨ s = "true" ∨ s = "True") := by
        rcases h with h | h | h | h | h | h <;> subst h <;> decide
      rw [if_neg hnot, if_pos h]

/-- Witness of C23: the operand `True` is a bool literal, and ` age ` is a
reference to the column `age`. -/
theorem parseLiteralOrColumn_order_witness :
    parseLiteralOrColumn GoLib.blank "True" = .ok (.Literal ⟨TypeBool, .bool true⟩)
    ∧ parseLiteralOrColumn GoLib.blank " age " = .ok (.ColumnRef "age") :=
  ⟨(parseLiteralOrColumn_order GoLib.blank "True" (by decide) (by decide) (by decide)).2.2.1
      (by decide) rfl true (by decide),
    (by decide)⟩

/-! ### parseTake -/

/-- C24 as stated fails: `take -1` is accepted, with the count -1. -/
theorem parseTake_negative_accepted :
    parseTake "take -1" = .ok (.TakeOp (-1))
    ∧ Parse GoLib.blank "T | take -1" = .ok [.TakeOp (-1)] := by
  decide

/-- C24, amended: `parseTake` accepts a segment exactly when it has two fields
and the second is a decimal integer in the range of `int64`, with an optional
sign, and then returns `TakeOp` with that count, negative or not; a segment
without exactly two fields and a count that is not such an integer are
rejected; in particular `take` followed by the decimal print of any `int64` is
accepted with that count. -/
theorem parseTake_accepts (seg : String) :
    (∀ n : Int, parseTake seg = .ok (.TakeOp n)
      ↔ ∃ kw count : String, Fields seg = [kw, count] ∧ ParseInt count = some n)
    ∧ (∀ op : PlanOperator, parseTake seg = .ok op →
      ∃ n : Int, op = .TakeOp n ∧ - 2 ^ 63 ≤ n ∧ n < 2 ^ 63)
    ∧ ((Fields seg).length ≠ 2 → parseTake seg = .error (.other "take requires a count"))
    ∧ (∀ kw count : String, Fields seg = [kw, count] → ParseInt count = none →
      parseTake seg = .error (.other "invalid take count"))
    ∧ (∀ n : Int, - 2 ^ 63 ≤ n → n < 2 ^ 63 →
      parseTake ("take " ++ FormatInt n) = .ok (.TakeOp n)) := by
  have hshape : ∀ kw count : String, Fields seg = [kw, count] →
      parseTake seg = match ParseInt count with
        | none => .error (.other "invalid take count")
        | some n => .ok (.TakeOp n) := by
    intro kw count h
    simp only [parseTake, h]
  have hother : (Fields seg).length ≠ 2 →
      parseTake seg = .error (.other "take requires a count") := by
    intro h
    unfold parseTake
    split
    · rename_i heq
      rw [heq] at h
      exact absurd rfl h
    · rfl
  have hcases : (Fields seg).length ≠ 2 ∨ ∃ kw count : String, Fields seg = [kw, count] := by
    cases hf : Fields seg with
    | nil => left; simp
    | cons a l =>
      cases l with
      | nil => left; simp
      | cons b l2 =>
        cases l2 with
        | nil => right; exact ⟨a, b, rfl⟩
        | cons c l3 => left; simp
  refine ⟨?_, ?_, hother, ?_, ?_⟩
  · intro n
    constructor
    · intro h
      rcases hcases with hlen | ⟨kw, count, hf⟩
      · rw [hother hlen] at h
        exact absurd h (by simp)
      · refine ⟨kw, count, hf, ?_⟩
        rw [hshape kw count hf] at h
        cases hp : ParseInt count with
        | none => rw [hp] at h; exact absurd h (by simp)
        | some m =>
          rw [hp] at h
          simp only [Except.ok.injEq, PlanOperator.TakeOp.injEq] at h
          rw [h]
    · rintro ⟨kw, count, hf, hp⟩
      rw [hshape kw count hf, hp]
  · intro op h
    rcases hcases with hlen | ⟨kw, count, hf⟩
    · rw [hother hlen] at h
      exact absurd h (by simp)
    · rw [hshape kw count hf] at h
      cases hp : ParseInt count with
      | none => rw [hp] at h; exact absurd h (by simp)
      | some m =>
        rw [hp] at h
        simp only [Except.ok.injEq] at h
        exact ⟨m, h.symm, ParseInt_range count m hp⟩
  · intro kw count hf hp
    rw [hshape kw count hf, hp]
  · intro n hlo hhi
    have hj : "take " ++ FormatInt n = Join ["take", FormatInt n] " " := by
      simp only [Join]
      rfl
    have hfields : Fields ("take " ++ FormatInt n) = ["take", FormatInt n] := by
      rw [hj]
      apply Fields_Join
      intro t ht
      simp only [List.mem_cons, List.mem_singleton, List.not_mem_nil, or_false] at ht
      rcases ht with rfl | rfl
      · decide
      · exact FormatInt_isField n
    simp only [parseTake, hfields, ParseInt_FormatInt n hlo hhi]

/-- Witness of C24 (`TestParseSuccessCases`, `TestParseErrors`): `take 5` is
accepted with the count 5. -/
theorem parseTake_accepts_witness : parseTake "take 5" = .ok (.TakeOp 5) :=
  ((parseTake_accepts "take 5").1 5).mpr ⟨"take", "5", by decide, by decide⟩

/-! ### parseJoin -/

theorem Index_go_append (c : Char) (a b : List Char) (h : c ∉ a) :
    ∀ i : Nat, Index.go c (a ++ c :: b) i = some (i + a.length) := by
  induction a with
  | nil => intro i; simp [Index.go]
  | cons d ds ih =>
    intro i
    simp only [List.mem_cons, not_or] at h
    have hd : ¬ d = c := fun e => h.1 e.symm
    simp only [List.cons_append, Index.go, hd, if_false, List.append_eq, ih h.2 (i + 1),
      List.length_cons]
    congr 1
    omega

theorem Index_go_none (c : Char) (l : List Char) (h : c ∉ l) :
    ∀ i : Nat, Index.go c l i = none := by
  induction l with
  | nil => intro i; rfl
  | cons d ds ih =>
    intro i
    simp only [List.mem_cons, not_or] at h
    have hd : ¬ d = c := fun e => h.1 e.symm
    simp only [Index.go, hd, if_false, ih h.2]

theorem LastIndex_go_notin (c : Char) (l : List Char) (h : c ∉ l) :
    ∀ (i : Nat) (last : Option Nat), LastIndex.go c l i last = last := by
  induction l with
  | nil => intro i last; rfl
  | cons d ds ih =>
    intro i last
    simp only [List.mem_cons, not_or] at h
    have hd : ¬ d = c := fun e => h.1 e.symm
    simp only [LastIndex.go, hd, if_false, ih h.2]

theorem LastIndex_go_append (c : Char) (a b : List Char) (h : c ∉ b) :
    ∀ (i : Nat) (last : Option Nat),
      LastIndex.go c (a ++ c :: b) i last = some (i + a.length) := by
  induction a with
  | nil =>
    intro i last
    simp [LastIndex.go, LastIndex_go_notin c b h]
  | cons d ds ih =>
    intro i last
    simp only [List.cons_append, LastIndex.go, List.append_eq, ih (i + 1), List.length_cons]
    congr 1
    omega

theorem ToLower_append (lib : GoLib) (a b : String) :
    ToLower lib (a ++ b) = ToLower lib a ++ ToLower lib b := by
  apply String.ext
  simp [ToLower, String.data_append]

theorem ToLower_ascii (lib : GoLib) (s : String)
    (h : ∀ c ∈ s.data, c.toNat < 128 ∧ c.toLower = c) : ToLower lib s = s := by
  apply String.ext
  simp only [ToLower]
  conv_rhs => rw [← List.map_id s.data]
  apply List.map_congr_left
  intro c hc
  simp [(h c hc).1, (h c hc).2]

theorem HasPrefix_append (p s : String) : HasPrefix (p ++ s) p = true := by
  simp [HasPrefix, String.data_append, List.isPrefixOf_iff_prefix]

theorem HasPrefix_append_of (a b p : String) (h : HasPrefix a p = true) :
    HasPrefix (a ++ b) p = true := by
  simp only [HasPrefix, String.data_append, List.isPrefixOf_iff_prefix] at h ⊢
  exact h.trans (List.prefix_append _ _)

theorem TrimSpace_lead (c : Char) (l : List Char) (hc : isSpace c = true) :
    TrimSpace ⟨c :: l⟩ = TrimSpace ⟨l⟩ := by
  simp [TrimSpace, trimLeft, List.dropWhile, hc]

theorem TrimSpace_trail (c : Char) (l : List Char) (hc : isSpace c = true) :
    TrimSpace ⟨l ++ [c]⟩ = TrimSpace ⟨l⟩ := by
  simp only [TrimSpace, trimLeft, trimRight]
  rw [dropWhile_append_true isSpace c hc]
  by_cases hall : l.all isSpace = true
  · have hnil : l.dropWhile isSpace = [] := by
      rw [List.dropWhile_eq_nil_iff]
      intro x hx
      exact List.all_eq_true.mp hall x hx
    simp [hall, hnil]
  · simp only [hall, Bool.false_eq_true, if_false, List.reverse_append, List.reverse_cons,
      List.reverse_nil, List.nil_append, List.singleton_append]
    simp [List.dropWhile, hc]

/-- The places that `parseJoin` finds in a segment of the form
`head(R)tail`, where `head` has no opening and `tail` no closing
parenthesis. -/
theorem parseJoin_slices (lib : GoLib) (seg head R tail : String)
    (hseg : seg.data = head.data ++ '(' :: (R.data ++ ')' :: tail.data))
    (hj : HasPrefix (ToLower lib head) "join" = true)
    (ho : '(' ∉ head.data) (hc : ')' ∉ tail.data) :
    HasPrefix (ToLower lib seg) "join" = true
    ∧ Index seg '(' = some head.data.length
    ∧ LastIndex seg ')' = some (head.data.length + (R.data.length + 1))
    ∧ sliceBetween seg (head.data.length + 1) (head.data.length + (R.data.length + 1)) = R
    ∧ sliceBetween seg 0 head.data.length = head
    ∧ sliceFrom seg (head.data.length + (R.data.length + 1) + 1) = tail := by
  refine ⟨?_, ?_, ?_, ?_, ?_, ?_⟩
  · simp only [HasPrefix, ToLower, hseg, List.map_append, List.isPrefixOf_iff_prefix] at hj ⊢
    exact hj.trans (List.prefix_append _ _)
  · simp only [Index, hseg]
    rw [Index_go_append '(' head.data _ ho 0]
    simp
  · have h2 : seg.data = (head.data ++ '(' :: R.data) ++ ')' :: tail.data := by
      rw [hseg]; simp
    simp only [LastIndex, h2]
    rw [LastIndex_go_append ')' _ tail.data hc 0 none]
    simp
  · have h2 : seg.data = ((head.data ++ ['(']) ++ R.data) ++ ')' :: tail.data := by
      rw [hseg]; simp
    apply String.ext
    simp only [sliceBetween, h2]
    rw [List.take_left' (by simp), List.drop_left' (by simp)]
  · apply String.ext
    simp only [sliceBetween, hseg, List.drop_zero]
    rw [List.take_left' rfl]
  · have h2 : seg.data = (head.data ++ '(' :: (R.data ++ [')'])) ++ tail.data := by
      rw [hseg]; simp
    apply String.ext
    simp only [sliceFrom, h2]
    rw [List.drop_left' (by simp; omega)]

/-- What `parseJoin` returns on a segment `head(R)tail` with a right path that
is not blank, an `on` clause and at least three tokens after it. -/
theorem parseJoin_eval (lib : GoLib) (seg head R tail kind L op K : String)
    (more : List String)
    (hseg : seg.data = head.data ++ '(' :: (R.data ++ ')' :: tail.data))
    (hj : HasPrefix (ToLower lib head) "join" = true)
    (ho : '(' ∉ head.data) (hc : ')' ∉ tail.data)
    (hR : TrimSpace R ≠ "")
    (hkind : (if Contains (ToLower lib (TrimSpace head)) "kind=" = true then
        parseJoin.kind lib (Fields (TrimSpace head)) "inner" else "inner") = kind)
    (hon : HasPrefix (ToLower lib (TrimSpace tail)) "on " = true)
    (hf : Fields (sliceFrom (TrimSpace tail) 3) = L :: op :: K :: more) :
    parseJoin lib seg
      = if op ≠ "==" ∧ op ≠ "=" then .error (.other "join on only supports = or ==")
        else if kind ≠ "inner" then .error (.other "only inner join supported")
        else .ok (.JoinOp kind (TrimSpace R) L K) := by
  obtain ⟨h1, h2, h3, h4, h5, h6⟩ := parseJoin_slices lib seg head R tail hseg hj ho hc
  have hlt : ¬ (head.data.length + (R.data.length + 1) ≤ head.data.length) := by omega
  unfold parseJoin
  simp only [h1, h2, h3, h4, h5, h6, hlt, hR, hkind, hon, hf, Bool.not_true, Bool.false_eq_true,
    if_false]

theorem parseJoin_empty_path (lib : GoLib) (seg head R tail : String)
    (hseg : seg.data = head.data ++ '(' :: (R.data ++ ')' :: tail.data))
    (hj : HasPrefix (ToLower lib head) "join" = true)
    (ho : '(' ∉ head.data) (hc : ')' ∉ tail.data)
    (hR : TrimSpace R = "") :
    parseJoin lib seg = .error (.other "join requires right input path") := by
  obtain ⟨h1, h2, h3, h4, h5, h6⟩ := parseJoin_slices lib seg head R tail hseg hj ho hc
  have hlt : ¬ (head.data.length + (R.data.length + 1) ≤ head.data.length) := by omega
  unfold parseJoin
  simp only [h1, h2, h3, h4, hlt, hR, Bool.not_true, Bool.false_eq_true, if_false, if_true]

theorem parseJoin_no_on (lib : GoLib) (seg head R tail : String)
    (hseg : seg.data = head.data ++ '(' :: (R.data ++ ')' :: tail.data))
    (hj : HasPrefix (ToLower lib head) "join" = true)
    (ho : '(' ∉ head.data) (hc : ')' ∉ tail.data)
    (hR : TrimSpace R ≠ "")
    (hon : HasPrefix (ToLower lib (TrimSpace tail)) "on " = false) :
    parseJoin lib seg = .error (.other "join requires on clause") := by
  obtain ⟨h1, h2, h3, h4, h5, h6⟩ := parseJoin_slices lib seg head R tail hseg hj ho hc
  have hlt : ¬ (head.data.length + (R.data.length + 1) ≤ head.data.length) := by omega
  unfold parseJoin
  simp only [h1, h2, h3, h4, h5, h6, hlt, hR, hon, Bool.not_true, Bool.not_false,
    Bool.false_eq_true, if_false, if_true]

theorem parseJoin_no_paren (lib : GoLib) (seg : String)
    (h : Index seg '(' = none ∨ LastIndex seg ')' = none) :
    ∃ msg : String, parseJoin lib seg = .error (.other msg) := by
  unfold parseJoin
  by_cases hp : (!HasPrefix (ToLower lib seg) "join") = true
  · simp only [hp, if_true]
    exact ⟨_, rfl⟩
  · simp only [hp, if_false]
    rcases h with h | h
    · rw [h]
      cases LastIndex seg ')' <;> exact ⟨_, rfl⟩
    · rw [h]
      cases Index seg '(' <;> exact ⟨_, rfl⟩

/-- The `on` clause ` on L op K` of three fields without a closing
parenthesis. -/
theorem parseJoin_on_clause (lib : GoLib) (L op K : String)
    (hL : isField L) (hop : isField op) (hK : isField K)
    (hLp : ')' ∉ L.data) (hopp : ')' ∉ op.data) (hKp : ')' ∉ K.data) :
    ')' ∉ (" on " ++ L ++ " " ++ op ++ " " ++ K).data
    ∧ HasPrefix (ToLower lib (TrimSpace (" on " ++ L ++ " " ++ op ++ " " ++ K))) "on " = true
    ∧ Fields (sliceFrom (TrimSpace (" on " ++ L ++ " " ++ op ++ " " ++ K)) 3) = [L, op, K] := by
  have hdata : (" on " ++ L ++ " " ++ op ++ " " ++ K).data
      = ' ' :: 'o' :: 'n' :: ' ' :: (L.data ++ ' ' :: (op.data ++ ' ' :: K.data)) := by
    simp [String.data_append]
  have hKlast : ∀ c, K.data.getLast? = some c → isSpace c = false := by
    intro c hc
    exact hK.2 c (List.mem_of_getLast?_eq_some hc)
  have hKne : K.data ≠ [] := hK.1
  have htrim : TrimSpace (" on " ++ L ++ " " ++ op ++ " " ++ K)
      = "on " ++ Join [L, op, K] " " := by
    have e1 : (" on " ++ L ++ " " ++ op ++ " " ++ K)
        = ⟨' ' :: 'o' :: 'n' :: ' ' :: (L.data ++ ' ' :: (op.data ++ ' ' :: K.data))⟩ :=
      String.ext hdata
    rw [e1, TrimSpace_lead ' ' _ (by decide), TrimSpace_ends]
    · apply String.ext
      simp [Join, String.data_append]
    · intro c hc
      simp only [List.head?_cons, Option.some.injEq] at hc
      rw [← hc]; decide
    · intro c hc
      apply hKlast c
      have hl : ('o' :: 'n' :: ' ' :: (L.data ++ ' ' :: (op.data ++ ' ' :: K.data)))
          = ('o' :: 'n' :: ' ' :: (L.data ++ ' ' :: (op.data ++ [' ']))) ++ K.data := by
        simp
      rw [hl, List.getLast?_append_of_ne_nil _ hKne] at hc
      exact hc
  refine ⟨?_, ?_, ?_⟩
  · rw [hdata]
    simp [hLp, hopp, hKp]
  · rw [htrim, ToLower_append, ToLower_ascii lib "on " (by decide)]
    exact HasPrefix_append _ _
  · rw [htrim]
    have hs : sliceFrom ("on " ++ Join [L, op, K] " ") 3 = Join [L, op, K] " " := by
      apply String.ext
      simp [sliceFrom, String.data_append]
    rw [hs]
    apply Fields_Join
    intro t ht
    simp only [List.mem_cons, List.mem_singleton, List.not_mem_nil, or_false] at ht
    rcases ht with rfl | rfl | rfl <;> assumption

/-- The join head `join ` without a kind: the kind is `inner`. -/
theorem parseJoin_head_plain (lib : GoLib) :
    HasPrefix (ToLower lib "join ") "join" = true
    ∧ '(' ∉ ("join " : String).data
    ∧ (if Contains (ToLower lib (TrimSpace "join ")) "kind=" = true then
        parseJoin.kind lib (Fields (TrimSpace "join ")) "inner" else "inner") = "inner" := by
  have ht : TrimSpace "join " = "join" := by decide
  have hc : Contains "join" "kind=" = false := by decide
  refine ⟨?_, by decide, ?_⟩
  · rw [ToLower_ascii lib "join " (by decide)]
    decide
  · rw [ht, ToLower_ascii lib "join" (by decide), hc]
    simp

/-- The join head `join kind=k `: the kind is `k` in lower case. -/
theorem parseJoin_head_kind (lib : GoLib) (k : String) (hk : isField k) (hkp : '(' ∉ k.data) :
    HasPrefix (ToLower lib ("join kind=" ++ k ++ " ")) "join" = true
    ∧ '(' ∉ ("join kind=" ++ k ++ " ").data
    ∧ (if Contains (ToLower lib (TrimSpace ("join kind=" ++ k ++ " "))) "kind=" = true then
        parseJoin.kind lib (Fields (TrimSpace ("join kind=" ++ k ++ " "))) "inner"
        else "inner") = ToLower lib k := by
  have hlow : ToLower lib "join kind=" = "join kind=" := ToLower_ascii lib _ (by decide)
  have hlow2 : ToLower lib "kind=" = "kind=" := ToLower_ascii lib _ (by decide)
  have hlow3 : ToLower lib "join" = "join" := ToLower_ascii lib _ (by decide)
  have hklast : ∀ c, k.data.getLast? = some c → isSpace c = false := fun c hc =>
    hk.2 c (List.mem_of_getLast?_eq_some hc)
  have htrim : TrimSpace ("join kind=" ++ k ++ " ") = "join kind=" ++ k := by
    have e1 : ("join kind=" ++ k ++ " ") = ⟨("join kind=".data ++ k.data) ++ [' ']⟩ := by
      apply String.ext
      simp [String.data_append]
    have e2 : ("join kind=" ++ k) = ⟨"join kind=".data ++ k.data⟩ := by
      apply String.ext
      simp [String.data_append]
    rw [e1, TrimSpace_trail ' ' _ (by decide), e2]
    apply TrimSpace_ends
    · intro c hc
      have : ("join kind=".data ++ k.data).head? = some 'j' := by simp
      rw [this] at hc
      simp only [Option.some.injEq] at hc
      rw [← hc]; decide
    · intro c hc
      rw [List.getLast?_append_of_ne_nil _ hk.1] at hc
      exact hklast c hc
  have hjoin : ("join kind=" ++ k) = Join ["join", "kind=" ++ k] " " := by
    apply String.ext
    simp [Join, String.data_append]
  have hfield : isField ("kind=" ++ k) := by
    refine ⟨by simp [String.data_append], ?_⟩
    intro c hc
    simp only [String.data_append, List.mem_append] at hc
    rcases hc with h | h
    · have hall : ∀ d ∈ ("kind=" : String).data, isSpace d = false := by decide
      exact hall c h
    · exact hk.2 c h
  have hfields : Fields ("join kind=" ++ k) = ["join", "kind=" ++ k] := by
    rw [hjoin]
    apply Fields_Join
    intro t ht
    simp only [List.mem_cons, List.mem_singleton, List.not_mem_nil, or_false] at ht
    rcases ht with rfl | rfl
    · decide
    · exact hfield
  have hcontains : Contains (ToLower lib ("join kind=" ++ k)) "kind=" = true := by
    rw [ToLower_append, hlow]
    simp [Contains, containsL, String.data_append, List.isPrefixOf]
  have hpre1 : HasPrefix (ToLower lib "join") "kind=" = false := by
    rw [hlow3]; decide
  have hpre2 : HasPrefix (ToLower lib ("kind=" ++ k)) "kind=" = true := by
    rw [ToLower_append, hlow2]
    exact HasPrefix_append _ _
  have htp : TrimPrefix ("kind=" ++ k) "kind=" = k := by
    simp only [TrimPrefix, HasPrefix_append, if_true]
    apply String.ext
    simp [sliceFrom, String.data_append]
  refine ⟨?_, ?_, ?_⟩
  · have e : ("join kind=" ++ k ++ " ") = "join kind=" ++ (k ++ " ") := by
      apply String.ext
      simp [String.data_append]
    rw [e, ToLower_append, hlow]
    exact HasPrefix_append_of _ _ _ (by decide)
  · simp [String.data_append, hkp]
  · rw [htrim, hcontains, if_pos rfl, hfields]
    simp only [parseJoin.kind, hpre1, hpre2, Bool.false_eq_true, if_false, if_true, htp]

/-- What `parseJoin` returns on `head(R) on L op K` for three fields without a
closing parenthesis. -/
theorem parseJoin_form (lib : GoLib) (head R L op K kind : String)
    (hj : HasPrefix (ToLower lib head) "join" = true) (ho : '(' ∉ head.data)
    (hkind : (if Contains (ToLower lib (TrimSpace head)) "kind=" = true then
        parseJoin.kind lib (Fields (TrimSpace head)) "inner" else "inner") = kind)
    (hR : TrimSpace R ≠ "")
    (hL : isField L) (hop : isField op) (hK : isField K)
    (hLp : ')' ∉ L.data) (hopp : ')' ∉ op.data) (hKp : ')' ∉ K.data) :
    parseJoin lib (head ++ "(" ++ R ++ ")" ++ (" on " ++ L ++ " " ++ op ++ " " ++ K))
      = if op ≠ "==" ∧ op ≠ "=" then .error (.other "join on only supports = or ==")
        else if kind ≠ "inner" then .error (.other "only inner join supported")
        else .ok (.JoinOp kind (TrimSpace R) L K) := by
  obtain ⟨h1, h2, h3⟩ := parseJoin_on_clause lib L op K hL hop hK hLp hopp hKp
  exact parseJoin_eval lib _ head R (" on " ++ L ++ " " ++ op ++ " " ++ K) kind L op K []
    (by simp [String.data_append]) hj ho h1 hR hkind h2 h3

/-- C25 as stated fails: a key token with a closing parenthesis moves the place
that `parseJoin` takes for the end of the right source (the last closing
parenthesis of the segment), and a right source with white space around it is
returned trimmed. -/
theorem parseJoin_key_with_paren :
    parseJoin GoLib.blank ("join (" ++ "x" ++ ") on " ++ "a" ++ " == " ++ "b)")
      = .error (.other "join requires on clause")
    ∧ parseJoin GoLib.blank ("join (" ++ " x " ++ ") on " ++ "a" ++ " == " ++ "b")
      = .ok (.JoinOp "inner" "x" "a" "b") := by
  decide

/-- C25, amended: for every right source `R` that is not blank and all key
tokens `L` and `K` without a closing parenthesis, `parseJoin` of
`join (R) on L == K`, of `join (R) on L = K` and of
`join kind=inner (R) on L == K` returns the inner `JoinOp` with the right
source `R` trimmed and the keys `L` and `K`; a kind that is not `inner` in
lower case, an on-operator other than `=` and `==`, a segment without an
opening or without a closing parenthesis, a blank source between the
parentheses and a text after the source that does not start with `on ` each
give an error. -/
theorem parseJoin_inner (lib : GoLib) (R L K : String)
    (hR : TrimSpace R ≠ "") (hL : isField L) (hK : isField K)
    (hLp : ')' ∉ L.data) (hKp : ')' ∉ K.data) :
    parseJoin lib ("join (" ++ R ++ ") on " ++ L ++ " == " ++ K)
      = .ok (.JoinOp "inner" (TrimSpace R) L K)
    ∧ parseJoin lib ("join (" ++ R ++ ") on " ++ L ++ " = " ++ K)
      = .ok (.JoinOp "inner" (TrimSpace R) L K)
    ∧ parseJoin lib ("join kind=inner (" ++ R ++ ") on " ++ L ++ " == " ++ K)
      = .ok (.JoinOp "inner" (TrimSpace R) L K)
    ∧ (∀ k : String, isField k → '(' ∉ k.data → ToLower lib k ≠ "inner" →
      parseJoin lib ("join kind=" ++ k ++ " (" ++ R ++ ") on " ++ L ++ " == " ++ K)
        = .error (.other "only inner join supported"))
    ∧ (∀ op : String, isField op → ')' ∉ op.data → op ≠ "==" → op ≠ "=" →
      parseJoin lib ("join (" ++ R ++ ") on " ++ L ++ " " ++ op ++ " " ++ K)
        = .error (.other "join on only supports = or =="))
    ∧ (∀ seg : String, Index seg '(' = none ∨ LastIndex seg ')' = none →
      ∃ msg : String, parseJoin lib seg = .error (.other msg))
    ∧ (∀ blank tail : String, TrimSpace blank = "" → ')' ∉ tail.data →
      parseJoin lib ("join (" ++ blank ++ ")" ++ tail)
        = .error (.other "join requires right input path"))
    ∧ (∀ tail : String, ')' ∉ tail.data →
      HasPrefix (ToLower lib (TrimSpace tail)) "on " = false →
      parseJoin lib ("join (" ++ R ++ ")" ++ tail)
        = .error (.other "join requires on clause")) := by
  obtain ⟨p1, p2, p3⟩ := parseJoin_head_plain lib
  have heq : isField "==" := by decide
  have heq1 : isField "=" := by decide
  have heqp : ')' ∉ ("==" : String).data := by decide
  have heq1p : ')' ∉ ("=" : String).data := by decide
  refine ⟨?_, ?_, ?_, ?_, ?_, ?_, ?_, ?_⟩
  · have e : "join (" ++ R ++ ") on " ++ L ++ " == " ++ K
        = "join " ++ "(" ++ R ++ ")" ++ (" on " ++ L ++ " " ++ "==" ++ " " ++ K) := by
      apply String.ext
      simp [String.data_append]
    rw [e, parseJoin_form lib "join " R L "==" K "inner" p1 p2 p3 hR hL heq hK hLp heqp hKp]
    simp
  · have e : "join (" ++ R ++ ") on " ++ L ++ " = " ++ K
        = "join " ++ "(" ++ R ++ ")" ++ (" on " ++ L ++ " " ++ "=" ++ " " ++ K) := by
      apply String.ext
      simp [String.data_append]
    rw [e, parseJoin_form lib "join " R L "=" K "inner" p1 p2 p3 hR hL heq1 hK hLp heq1p hKp]
    simp
  · obtain ⟨q1, q2, q3⟩ := parseJoin_head_kind lib "inner" (by decide) (by decide)
    have hlow : ToLower lib "inner" = "inner" := ToLower_ascii lib _ (by decide)
    rw [hlow] at q3
    have e : "join kind=inner (" ++ R ++ ") on " ++ L ++ " == " ++ K
        = ("join kind=" ++ "inner" ++ " ") ++ "(" ++ R ++ ")"
          ++ (" on " ++ L ++ " " ++ "==" ++ " " ++ K) := by
      apply String.ext
      simp [String.data_append]
    rw [e, parseJoin_form lib _ R L "==" K "inner" q1 q2 q3 hR hL heq hK hLp heqp hKp]
    simp
  · intro k hk hkp hne
    obtain ⟨q1, q2, q3⟩ := parseJoin_head_kind lib k hk hkp
    have e : "join kind=" ++ k ++ " (" ++ R ++ ") on " ++ L ++ " == " ++ K
        = ("join kind=" ++ k ++ " ") ++ "(" ++ R ++ ")"
          ++ (" on " ++ L ++ " " ++ "==" ++ " " ++ K) := by
      apply String.ext
      simp [String.data_append]
    rw [e, parseJoin_form lib _ R L "==" K (ToLower lib k) q1 q2 q3 hR hL heq hK hLp heqp hKp]
    simp [hne]
  · intro op hop hopp h1 h2
    have e : "join (" ++ R ++ ") on " ++ L ++ " " ++ op ++ " " ++ K
        = "join " ++ "(" ++ R ++ ")" ++ (" on " ++ L ++ " " ++ op ++ " " ++ K) := by
      apply String.ext
      simp [String.data_append]
    rw [e, parseJoin_form lib "join " R L op K "inner" p1 p2 p3 hR hL hop hK hLp hopp hKp]
    simp [h1, h2]
  · exact fun seg h => parseJoin_no_paren lib seg h
  · intro blank tail hb ht
    exact parseJoin_empty_path lib _ "join " blank tail (by simp [String.data_append]) p1 p2 ht hb
  · intro tail ht hon
    exact parseJoin_no_on lib _ "join " R tail (by simp [String.data_append]) p1 p2 ht hR hon

/-- Witness of C25 (`TestParseJoinSuccessCases`): `join (file.csv) on a == b`
is the inner join on `a` and `b`. -/
theorem parseJoin_inner_witness :
    parseJoin GoLib.blank ("join (" ++ "file.csv" ++ ") on " ++ "a" ++ " == " ++ "b")
      = .ok (.JoinOp "inner" (TrimSpace "file.csv") "a" "b") :=
  (parseJoin_inner GoLib.blank "file.csv" "a" "b" (by decide) (by decide) (by decide)
    (by decide) (by decide)).1

/-! ### Projection twice -/

/-- The row that `ProjectOp` builds from a row that has all the requested
columns. -/
theorem ProjectOp_loop_present (row : Row) (cols : List String)
    (h : ∀ n ∈ cols, (row.Get n).isSome = true) :
    ProjectOp.loop row cols [] []
      = (cols.map (fun n => (⟨n, (row.GetD n).Typ⟩ : Column)), cols.map row.GetD) := by
  rw [ProjectOp_loop_eq]
  simp only [List.nil_append, Prod.mk.injEq]
  constructor
  · rw [← List.filterMap_eq_map]
    apply List.filterMap_congr
    intro n hn
    obtain ⟨v, hv⟩ := Option.isSome_iff_exists.mp (h n hn)
    simp [Row.GetD, hv]
  · rw [← List.filterMap_eq_map]
    apply List.filterMap_congr
    intro n hn
    obtain ⟨v, hv⟩ := Option.isSome_iff_exists.mp (h n hn)
    simp [Row.GetD, hv]

/-- In a projected row, each requested column is found with the value it has
in the row projected. -/
theorem ProjectOp_row_Get (g : String → Value) (cols : List String) (n : String)
    (hn : n ∈ cols) :
    Row.Get ⟨NewSchema (cols.map (fun m => (⟨m, (g m).Typ⟩ : Column))), cols.map g⟩ n
      = some (g n) := by
  have hmem : n ∈ (cols.map (fun m => (⟨m, (g m).Typ⟩ : Column))).map Column.Name := by
    simp only [List.map_map, List.mem_map, Function.comp]
    exact ⟨n, hn, rfl⟩
  have hsome := (lastIndexFrom_isSome_iff n _ 0).mpr hmem
  obtain ⟨j, hj⟩ := Option.isSome_iff_exists.mp hsome
  have hb := lastIndexFrom_bounds n _ 0 j hj
  obtain ⟨⟨c, hc, hcn⟩, _⟩ := lastIndexFrom_last n _ 0 j hj
  simp only [Nat.sub_zero, List.getElem?_map] at hc
  simp only [List.length_map] at hb
  have hjlt : j < cols.length := by omega
  have hcj : cols[j]? = some cols[j] := List.getElem?_eq_getElem hjlt
  rw [hcj] at hc
  simp only [Option.map_some', Option.some.injEq] at hc
  have hname : cols[j] = n := by
    rw [← hc] at hcn
    exact hcn
  unfold Row.Get
  simp only [NewSchema_get, hj, List.length_map, List.getElem?_map, hcj, Option.map_some', hname]
  simp [hjlt]

/-- C34: for an input that delivers a row in which all the columns `cols` are
present, `ProjectOp` with `cols` over `ProjectOp` with `cols` returns the very row
that `ProjectOp` with `cols` returns: the same column names and types, the same
index and the same values. -/
theorem ProjectOp_idempotent {σ : Type} [Operator σ] (s s' : σ) (row : Row)
    (cols : List String) (hnext : Operator.Next s = (.ok row, s'))
    (hpresent : ∀ n ∈ cols, (row.Get n).isSome = true) :
    (ProjectOp.Next (⟨⟨s, cols⟩, cols⟩ : ProjectOp (ProjectOp σ))).1
      = (ProjectOp.Next (⟨s, cols⟩ : ProjectOp σ)).1
    ∧ (ProjectOp.Next (⟨s, cols⟩ : ProjectOp σ)).1
      = .ok ⟨NewSchema (cols.map (fun n => (⟨n, (row.GetD n).Typ⟩ : Column))),
          cols.map row.GetD⟩ := by
  have h1 : ProjectOp.Next (⟨s, cols⟩ : ProjectOp σ)
      = (.ok ⟨NewSchema (cols.map (fun n => (⟨n, (row.GetD n).Typ⟩ : Column))),
          cols.map row.GetD⟩, ⟨s', cols⟩) := by
    simp only [ProjectOp.Next, hnext, ProjectOp_loop_present row cols hpresent]
  have hget : ∀ n ∈ cols,
      Row.Get ⟨NewSchema (cols.map (fun m => (⟨m, (row.GetD m).Typ⟩ : Column))),
        cols.map row.GetD⟩ n = some (row.GetD n) :=
    fun n hn => ProjectOp_row_Get row.GetD cols n hn
  have hgetD : ∀ n ∈ cols,
      Row.GetD ⟨NewSchema (cols.map (fun m => (⟨m, (row.GetD m).Typ⟩ : Column))),
        cols.map row.GetD⟩ n = row.GetD n := by
    intro n hn
    show (Row.Get _ n).getD Value.zero = row.GetD n
    rw [hget n hn]
    rfl
  have h2 := ProjectOp_loop_present
    ⟨NewSchema (cols.map (fun m => (⟨m, (row.GetD m).Typ⟩ : Column))), cols.map row.GetD⟩ cols
    (fun n hn => by rw [hget n hn]; rfl)
  have hmap1 : cols.map (fun n => (⟨n, (Row.GetD
      ⟨NewSchema (cols.map (fun m => (⟨m, (row.GetD m).Typ⟩ : Column))), cols.map row.GetD⟩
        n).Typ⟩ : Column))
      = cols.map (fun n => (⟨n, (row.GetD n).Typ⟩ : Column)) := by
    apply List.map_congr_left
    intro n hn
    rw [hgetD n hn]
  have hmap2 : cols.map (Row.GetD
      ⟨NewSchema (cols.map (fun m => (⟨m, (row.GetD m).Typ⟩ : Column))), cols.map row.GetD⟩)
      = cols.map row.GetD := by
    apply List.map_congr_left
    intro n hn
    rw [hgetD n hn]
  refine ⟨?_, by rw [h1]⟩
  rw [h1]
  simp only [ProjectOp.Next, Operator.Next, hnext, ProjectOp_loop_present row cols hpresent, h2,
    hmap1, hmap2]

/-- Witness of C34: the columns `v, k` of the row `(k = 1, v = a)`. -/
theorem ProjectOp_idempotent_witness :
    (ProjectOp.Next (⟨⟨(⟨[rowKV 1 "a"], 0⟩ : sliceOp), ["v", "k"]⟩, ["v", "k"]⟩ :
        ProjectOp (ProjectOp sliceOp))).1
      = (ProjectOp.Next (⟨(⟨[rowKV 1 "a"], 0⟩ : sliceOp), ["v", "k"]⟩ : ProjectOp sliceOp)).1 :=
  (ProjectOp_idempotent (⟨[rowKV 1 "a"], 0⟩ : sliceOp) ⟨[rowKV 1 "a"], 1⟩ (rowKV 1 "a")
    ["v", "k"] (by rfl) (by decide)).1

/-! ### OrderByOp: a rearrangement of the input -/

/-- C36: over a finite input, with fuel for its loop, `NewOrderByOp` returns;
when it returns an operator, in either direction, the rows of the operator are
a rearrangement of the rows of the input, with the same length and each row the
same number of times, and successive calls of `Next` yield exactly these rows
and then `io.EOF`; it does return an operator when the comparison of the sort
keys never panics (and `sort.Slice` returns on long slices). -/
theorem NewOrderByOp_permutation (lib : GoLib)
    (longSort : (Row → Row → Except Error Bool) → List Row → Except Error (List Row))
    (hperm : PermutesSlice longSort) (rows : List Row) (column : String) (desc : Bool)
    (fuel : Nat) (hf : rows.length < fuel) :
    (∃ res, NewOrderByOp lib longSort fuel (⟨rows, 0⟩ : sliceOp) column desc = some res)
    ∧ (∀ o : OrderByOp,
        NewOrderByOp lib longSort fuel (⟨rows, 0⟩ : sliceOp) column desc = some (.ok o) →
        o.rows.Perm rows ∧ o.rows.length = rows.length
        ∧ (∀ r : Row, o.rows.count r = rows.count r)
        ∧ ∀ k : Nat, OrderByOp.NextN (rows.length + k) o
            = o.rows.map Except.ok ++ List.replicate k (Except.error Error.EOF))
    ∧ ((∀ a ∈ rows, ∀ b ∈ rows, ∃ c : Int,
          compareValues lib (a.GetD column) (b.GetD column) = .ok c) →
        (rows.length ≤ 6 ∨ ReturnsSlice longSort) →
        ∃ o : OrderByOp,
          NewOrderByOp lib longSort fuel (⟨rows, 0⟩ : sliceOp) column desc = some (.ok o)) := by
  have hdrain := NewOrderByOp_drain_spec rows [] [] fuel hf
  simp only [List.nil_append, List.length_nil] at hdrain
  have hshape : NewOrderByOp lib longSort fuel (⟨rows, 0⟩ : sliceOp) column desc
      = if rows.length = 0 then some (.ok { rows := rows, idx := 0 })
        else
          match sortSlice longSort (orderByLess lib column desc) rows with
          | .error err => some (.error err)
          | .ok sorted => some (.ok { rows := sorted, idx := 0 }) := by
    simp only [NewOrderByOp, hdrain]
  have hsorted : ∀ sorted : List Row,
      sortSlice longSort (orderByLess lib column desc) rows = .ok sorted → sorted.Perm rows := by
    intro sorted h
    unfold sortSlice at h
    split at h
    · have := insertionSort_perm _ rows [] sorted h
      simpa using this
    · exact hperm _ rows sorted h
  refine ⟨?_, ?_, ?_⟩
  · rw [hshape]
    split
    · exact ⟨_, rfl⟩
    · split <;> exact ⟨_, rfl⟩
  · intro o ho
    rw [hshape] at ho
    have hkey : o.idx = 0 ∧ o.rows.Perm rows := by
      split at ho
      · simp only [Option.some.injEq, Except.ok.injEq] at ho
        subst ho
        exact ⟨rfl, List.Perm.refl _⟩
      · split at ho
        · simp at ho
        · rename_i sorted hs
          simp only [Option.some.injEq, Except.ok.injEq] at ho
          subst ho
          exact ⟨rfl, hsorted sorted hs⟩
    obtain ⟨hidx, hp⟩ := hkey
    refine ⟨hp, hp.length_eq, fun r => hp.count_eq r, ?_⟩
    intro k
    have ho' : o = ⟨[] ++ o.rows, ([] : List Row).length⟩ := by
      cases o
      simp only at hidx
      subst hidx
      rfl
    have h := OrderByOp_NextN_all o.rows [] k
    rw [← ho', hp.length_eq] at h
    exact h
  · intro htotal hlong
    rw [hshape]
    split
    · exact ⟨_, rfl⟩
    · have hless : ∀ a ∈ rows, ∀ b ∈ rows, ∃ c : Bool,
          orderByLess lib column desc a b = .ok c := by
        intro a ha b hb
        obtain ⟨c, hc⟩ := htotal a ha b hb
        exact ⟨if desc then !decide (c < 0) else decide (c < 0), by
          simp only [orderByLess, hc]⟩
      have hex : ∃ sorted, sortSlice longSort (orderByLess lib column desc) rows
          = .ok sorted := by
        unfold sortSlice
        split
        · refine ⟨_, insertionSort_eq_isortP _
            (fun a b => match orderByLess lib column desc a b with
              | .ok c => c
              | .error _ => false) rows [] ?_⟩
          intro a ha b hb
          simp only [List.append_nil] at ha hb
          obtain ⟨c, hc⟩ := hless a ha b hb
          simp only [hc]
        · rename_i hlen
          rcases hlong with h6 | hret
          · exact absurd h6 hlen
          · exact hret _ rows hless
      obtain ⟨sorted, hs⟩ := hex
      rw [hs]
      exact ⟨_, rfl⟩

/-- Witness of C36: the rows `(2, b)`, `(1, a)` ordered by `k` are the same two
rows. -/
theorem NewOrderByOp_permutation_witness :
    List.Perm [rowKV 1 "a", rowKV 2 "b"] [rowKV 2 "b", rowKV 1 "a"] :=
  ((NewOrderByOp_permutation GoLib.blank (fun less xs => insertionSort less xs [])
      (fun less xs out h => by simpa using insertionSort_perm less xs [] out h)
      [rowKV 2 "b", rowKV 1 "a"] "k" false 3 (by decide)).2.1
    ⟨[rowKV 1 "a", rowKV 2 "b"], 0⟩ (by decide)).1

/-! ### Summarize: the composite key -/

/-- C37: with the BY columns `x`, `y`, the rows `("a|b", "c")` and
`("a", "b|c")` have the same composite key `a|b|c`, and `NewSummarizeOp` counts
them in one group: it returns the single row `("a|b", "c", 2)`. -/
theorem NewSummarizeOp_key_collision :
    groupKey GoLib.blank ["x", "y"]
        ⟨NewSchema [⟨"x", TypeString⟩, ⟨"y", TypeString⟩],
          [⟨TypeString, .str "a|b"⟩, ⟨TypeString, .str "c"⟩]⟩ = "a|b|c"
    ∧ groupKey GoLib.blank ["x", "y"]
        ⟨NewSchema [⟨"x", TypeString⟩, ⟨"y", TypeString⟩],
          [⟨TypeString, .str "a"⟩, ⟨TypeString, .str "b|c"⟩]⟩ = "a|b|c"
    ∧ NewSummarizeOp GoLib.blank (fun ks => ks) 3
        (⟨[⟨NewSchema [⟨"x", TypeString⟩, ⟨"y", TypeString⟩],
              [⟨TypeString, .str "a|b"⟩, ⟨TypeString, .str "c"⟩]⟩,
            ⟨NewSchema [⟨"x", TypeString⟩, ⟨"y", TypeString⟩],
              [⟨TypeString, .str "a"⟩, ⟨TypeString, .str "b|c"⟩]⟩], 0⟩ : sliceOp)
        ["x", "y"]
      = some (.ok ⟨[⟨NewSchema [⟨"x", TypeString⟩, ⟨"y", TypeString⟩, ⟨"count", TypeInt⟩],
            [⟨TypeString, .str "a|b"⟩, ⟨TypeString, .str "c"⟩, ⟨TypeInt, .int 2⟩]⟩], 0⟩) := by
  decide

/-! ### Join on an absent key -/

theorem Value_zero_String (lib : GoLib) : Value.String lib Value.zero = .ok "<nil>" := by
  have h1 : ¬ ("" : String) = TypeString := by decide
  have h2 : ¬ ("" : String) = TypeInt := by decide
  have h3 : ¬ ("" : String) = TypeFloat := by decide
  have h4 : ¬ ("" : String) = TypeBool := by decide
  have h5 : ¬ ("" : String) = TypeDateTime := by decide
  simp [Value.String, Value.zero, Sprintv, h1, h2, h3, h4, h5]

/-- C40 as stated fails: a left row without the key column `k` and a right row
without it both have the key text `<nil>`, and the join emits their joined
row. -/
theorem JoinOp_absent_keys_match :
    (match NewJoinOp GoLib.blank 3
        (⟨[⟨NewSchema [⟨"x", TypeInt⟩], [⟨TypeInt, .int 1⟩]⟩], 0⟩ : sliceOp)
        (.ok ((⟨[⟨NewSchema [⟨"y", TypeInt⟩], [⟨TypeInt, .int 7⟩]⟩], 0⟩ : sliceOp),
          NewSchema [⟨"y", TypeInt⟩])) "k" "k" with
      | some (.ok j) => (callN (JoinOp.Next GoLib.blank 4) 2 j).map Prod.fst
      | _ => none)
      = some [.ok ⟨NewSchema [⟨"x", TypeInt⟩, ⟨"y", TypeInt⟩],
                [⟨TypeInt, .int 1⟩, ⟨TypeInt, .int 7⟩]⟩, .error .EOF] := by
  decide

/-- C40, amended: a left row that lacks the left key column is looked up under
the key text `<nil>`, the text of the zero value: with the right side a finite
list of rows, `NewJoinOp` builds the operator and `JoinOp.Next` emits for that
left row one joined row per right row whose key text is `<nil>`, in order, and
then `io.EOF`; these are all the right rows when the right key column is absent
from them, and none when no right row has the key text `<nil>`. -/
theorem JoinOp_absent_left_key (lib : GoLib) (l : Row) (rights : List Row) (rs : Schema)
    (lk rk : String) (fuelR fuel k : Nat) (hl : l.Get lk = none)
    (hR : ∀ r ∈ rights, ∃ t, (r.GetD rk).String lib = .ok t)
    (hlen : ∀ r ∈ rights, rs.Columns.length ≤ r.Values.length)
    (hfR : rights.length < fuelR) (hf : 2 < fuel) :
    ∃ j : JoinOp sliceOp,
      NewJoinOp lib fuelR (⟨[l], 0⟩ : sliceOp) (.ok ((⟨rights, 0⟩ : sliceOp), rs)) lk rk
        = some (.ok j)
      ∧ (callN (JoinOp.Next lib fuel)
            (((rights.filter (hasKeyText lib rk "<nil>")).map (joinedRow l rs)).length + k)
            j).map Prod.fst
          = some (((rights.filter (hasKeyText lib rk "<nil>")).map (joinedRow l rs)).map
                Except.ok ++ List.replicate k (Except.error Error.EOF))
      ∧ ((∀ r ∈ rights, r.Get rk = none) →
          rights.filter (hasKeyText lib rk "<nil>") = rights)
      ∧ ((∀ r ∈ rights, (r.GetD rk).String lib ≠ .ok "<nil>") →
          rights.filter (hasKeyText lib rk "<nil>") = []) := by
  have hzero : (l.GetD lk).String lib = .ok "<nil>" := by
    simp only [Row.GetD, hl, Option.getD_none]
    exact Value_zero_String lib
  have hgroup : joinGroup lib lk rk rs rights l
      = (rights.filter (hasKeyText lib rk "<nil>")).map (joinedRow l rs) := by
    simp only [joinGroup, rightMatches, hzero]
  obtain ⟨m, hm, hget⟩ := NewJoinOp_load_spec lib rk rights [] [] fuelR hfR hR
  simp only [List.nil_append, List.length_nil] at hm
  have hright : ∀ t : String, (m.get t).getD [] = rights.filter (hasKeyText lib rk t) := by
    intro t
    rw [hget t]
    simp [GoMap.get]
  refine ⟨JoinOp.over m rs lk rk [] [l] [] 0, ?_, ?_, ?_, ?_⟩
  · simp [NewJoinOp, hm, JoinOp.over]
  · have h := JoinOp_callN_run lib m rs lk rk rights hright hlen fuel k _ rfl _ [] [l] [] 0
      (by simp) (by
        intro x hx
        simp only [List.mem_singleton] at hx
        subst hx
        exact ⟨_, hzero⟩) rfl (by simp; omega)
    simp only [List.length_nil, Nat.sub_zero, Nat.zero_add, List.drop_nil, List.nil_append,
      List.flatMap_cons, List.flatMap_nil, List.append_nil, hgroup] at h
    exact h
  · intro habsent
    rw [List.filter_eq_self]
    intro r hr
    have hz : (r.GetD rk).String lib = .ok "<nil>" := by
      simp only [Row.GetD, habsent r hr, Option.getD_none]
      exact Value_zero_String lib
    simp [hasKeyText, hz]
  · intro hnone
    rw [List.filter_eq_nil_iff]
    intro r hr
    have hne := hnone r hr
    unfold hasKeyText
    split
    · rename_i s hs
      simp only [beq_iff_eq]
      intro e
      rw [e] at hs
      exact hne hs
    · simp

/-- Witness of C40: a left row without the key `k` against one right row with
`k = 7` yields no joined row. -/
theorem JoinOp_absent_left_key_witness :
    ∃ j : JoinOp sliceOp,
      NewJoinOp GoLib.blank 3 (⟨[rowWithInt 1], 0⟩ : sliceOp)
          (.ok ((⟨[rowKV 7 "a"], 0⟩ : sliceOp), NewSchema [⟨"k", TypeInt⟩, ⟨"v", TypeString⟩]))
          "k" "k" = some (.ok j)
      ∧ (callN (JoinOp.Next GoLib.blank 4) 1 j).map Prod.fst = some [.error .EOF] :=
  match JoinOp_absent_left_key GoLib.blank (rowWithInt 1) [rowKV 7 "a"]
      (NewSchema [⟨"k", TypeInt⟩, ⟨"v", TypeString⟩]) "k" "k" 3 4 1 (by decide)
      (by
        intro r hr
        simp only [List.mem_singleton] at hr
        subst hr
        exact ⟨_, rfl⟩)
      (by decide) (by decide) (by decide) with
  | ⟨j, hj, hrun, _, _⟩ => ⟨j, hj, hrun.trans (by decide)⟩

/-! ### Parsed predicates evaluate without error -/

/-- The shapes of a value whose payload matches its tag. -/
theorem wellTagged_cases (v : Value) (h : v.wellTagged = true) :
    (∃ i, v = ⟨TypeInt, .int i⟩) ∨ (∃ f, v = ⟨TypeFloat, .float f⟩)
    ∨ (∃ b, v = ⟨TypeBool, .bool b⟩) ∨ (∃ t, v = ⟨TypeDateTime, .time t⟩)
    ∨ (∃ s, v = ⟨TypeString, .str s⟩)
    ∨ (v.Typ ≠ TypeInt ∧ v.Typ ≠ TypeFloat ∧ v.Typ ≠ TypeBool ∧ v.Typ ≠ TypeDateTime
        ∧ v.Typ ≠ TypeString) := by
  obtain ⟨ty, p⟩ := v
  simp only [Value.wellTagged] at h
  by_cases h1 : ty = TypeInt
  · subst h1
    have hs : ¬ TypeInt = TypeString := by decide
    simp only [hs, if_false, if_true] at h
    cases p <;> simp at h
    exact Or.inl ⟨_, rfl⟩
  · by_cases h2 : ty = TypeFloat
    · subst h2
      have hs : ¬ TypeFloat = TypeString := by decide
      simp only [hs, h1, if_false, if_true] at h
      cases p <;> simp at h
      exact Or.inr (Or.inl ⟨_, rfl⟩)
    · by_cases h3 : ty = TypeBool
      · subst h3
        have hs : ¬ TypeBool = TypeString := by decide
        simp only [hs, h1, h2, if_false, if_true] at h
        cases p <;> simp at h
        exact Or.inr (Or.inr (Or.inl ⟨_, rfl⟩))
      · by_cases h4 : ty = TypeDateTime
        · subst h4
          have hs : ¬ TypeDateTime = TypeString := by decide
          simp only [hs, h1, h2, h3, if_false, if_true] at h
          cases p <;> simp at h
          exact Or.inr (Or.inr (Or.inr (Or.inl ⟨_, rfl⟩)))
        · by_cases h5 : ty = TypeString
          · subst h5
            simp only [if_true] at h
            cases p <;> simp at h
            exact Or.inr (Or.inr (Or.inr (Or.inr (Or.inl ⟨_, rfl⟩))))
          · exact Or.inr (Or.inr (Or.inr (Or.inr (Or.inr ⟨h1, h2, h3, h4, h5⟩))))

/-- On a value whose payload matches its tag the conversions and `String` do
not panic. -/
theorem conversions_ok (lib : GoLib) (v : Value) (h : v.wellTagged = true) :
    (∃ i, toInt64 v = .ok i) ∧ (∃ f, toFloat64 v = .ok f) ∧ (∃ b, toBool lib v = .ok b)
    ∧ (∃ t, toTime v = .ok t) ∧ (∃ s, v.String lib = .ok s) := by
  rcases wellTagged_cases v h with ⟨i, rfl⟩ | ⟨f, rfl⟩ | ⟨b, rfl⟩ | ⟨t, rfl⟩ | ⟨s, rfl⟩ | hother
  · exact ⟨⟨_, rfl⟩, ⟨_, rfl⟩, ⟨_, rfl⟩, ⟨_, rfl⟩, ⟨_, rfl⟩⟩
  · exact ⟨⟨_, rfl⟩, ⟨_, rfl⟩, ⟨_, rfl⟩, ⟨_, rfl⟩, ⟨_, rfl⟩⟩
  · exact ⟨⟨_, rfl⟩, ⟨_, rfl⟩, ⟨_, rfl⟩, ⟨_, rfl⟩, ⟨_, rfl⟩⟩
  · exact ⟨⟨_, rfl⟩, ⟨_, rfl⟩, ⟨_, rfl⟩, ⟨_, rfl⟩, ⟨_, rfl⟩⟩
  · exact ⟨⟨_, rfl⟩, ⟨_, rfl⟩, ⟨_, rfl⟩, ⟨_, rfl⟩, ⟨_, rfl⟩⟩
  · obtain ⟨h1, h2, h3, h4, h5⟩ := hother
    have hstr : v.String lib = .ok (Sprintv lib v.V) := by
      simp [Value.String, h1, h2, h3, h4, h5]
    have hi : toInt64 v = .ok 0 := by simp [toInt64, h1, h2, h3]
    have hf : toFloat64 v = .ok ⟨0⟩ := by simp [toFloat64, h1, h2, h3]
    have ht : toTime v = .ok ⟨0, 0, 0⟩ := by simp [toTime, h4]
    have hb : toBool lib v = .ok (Sprintv lib v.V == "true") := by
      simp [toBool, h1, h2, h3, hstr]
    exact ⟨⟨_, hi⟩, ⟨_, hf⟩, ⟨_, hb⟩, ⟨_, ht⟩, ⟨_, hstr⟩⟩

/-- `compareValues` does not panic on values whose payloads match their tags. -/
theorem compareValues_ok (lib : GoLib) (a b : Value) (ha : a.wellTagged = true)
    (hb : b.wellTagged = true) : ∃ c, compareValues lib a b = .ok c := by
  obtain ⟨⟨bi, hbi⟩, ⟨bf, hbf⟩, ⟨bb, hbb⟩, ⟨bt, hbt⟩, ⟨bs, hbs⟩⟩ := conversions_ok lib b hb
  have g1 : ¬ TypeFloat = TypeInt := by decide
  have g2 : ¬ TypeBool = TypeInt := by decide
  have g3 : ¬ TypeBool = TypeFloat := by decide
  have g4 : ¬ TypeDateTime = TypeInt := by decide
  have g5 : ¬ TypeDateTime = TypeFloat := by decide
  have g6 : ¬ TypeDateTime = TypeBool := by decide
  have g7 : ¬ TypeString = TypeInt := by decide
  have g8 : ¬ TypeString = TypeFloat := by decide
  have g9 : ¬ TypeString = TypeBool := by decide
  have g10 : ¬ TypeString = TypeDateTime := by decide
  rcases wellTagged_cases a ha with ⟨i, rfl⟩ | ⟨f, rfl⟩ | ⟨c, rfl⟩ | ⟨t, rfl⟩ | ⟨s, rfl⟩ | hother
  · (simp only [compareValues, if_true, hbi]; exact ⟨_, rfl⟩)
  · (simp only [compareValues, g1, if_false, if_true, hbf]; exact ⟨_, rfl⟩)
  · (simp only [compareValues, g2, g3, if_false, if_true, hbb]; exact ⟨_, rfl⟩)
  · (simp only [compareValues, g4, g5, g6, if_false, if_true, hbt]; exact ⟨_, rfl⟩)
  · have hs : Value.String lib ⟨TypeString, .str s⟩ = .ok s := rfl
    (simp only [compareValues, g7, g8, g9, g10, if_false, hs, hbs]; exact ⟨_, rfl⟩)
  · obtain ⟨h1, h2, h3, h4, h5⟩ := hother
    obtain ⟨_, _, _, _, ⟨as_, has⟩⟩ := conversions_ok lib a ha
    (simp only [compareValues, h1, h2, h3, h4, if_false, has, hbs]; exact ⟨_, rfl⟩)

theorem GetD_wellTagged (row : Row) (n : String)
    (h : ∀ v ∈ row.Values, v.wellTagged = true) : (row.GetD n).wellTagged = true := by
  unfold Row.GetD Row.Get
  split
  · rfl
  · split
    · rfl
    · rename_i idx _ _
      cases hv : row.Values[idx]? with
      | none => rfl
      | some v => exact h v (List.getElem?_mem hv)

theorem evalExpr_operand (row : Row) (e : Expr) (he : isOperand e = true)
    (h : ∀ v ∈ row.Values, v.wellTagged = true) :
    ∃ v, evalExpr row e = .ok v ∧ v.wellTagged = true := by
  cases e with
  | ColumnRef n => exact ⟨_, rfl, GetD_wellTagged row n h⟩
  | Literal v => exact ⟨v, rfl, he⟩
  | CompareExpr l op r => simp [isOperand] at he
  | LogicalExpr l op r => simp [isOperand] at he
  | other => simp [isOperand] at he

theorem evalLogical_comparison (lib : GoLib) (row : Row) (e : Expr)
    (he : isComparison e = true) (h : ∀ v ∈ row.Values, v.wellTagged = true) :
    ∃ b, evalLogical lib row e = .ok b := by
  cases e with
  | CompareExpr l op r =>
    cases l with
    | ColumnRef n =>
      simp only [isComparison, Bool.and_eq_true, decide_eq_true_eq] at he
      obtain ⟨hop, hr⟩ := he
      obtain ⟨rv, hrv, hrw⟩ := evalExpr_operand row r hr h
      obtain ⟨c, hc⟩ := compareValues_ok lib (row.GetD n) rv (GetD_wellTagged row n h) hrw
      have hl : evalExpr row (.ColumnRef n) = .ok (row.GetD n) := rfl
      simp only [evalLogical, evalCompare, hl, hrv, hc]
      unfold isCompareOp at hop
      rcases hop with rfl | rfl | rfl | rfl | rfl | rfl | rfl <;> exact ⟨_, rfl⟩
    | Literal v => simp [isComparison] at he
    | CompareExpr a b c => simp [isComparison] at he
    | LogicalExpr a b c => simp [isComparison] at he
    | other => simp [isComparison] at he
  | ColumnRef n => simp [isComparison] at he
  | Literal v => simp [isComparison] at he
  | LogicalExpr l op r => simp [isComparison] at he
  | other => simp [isComparison] at he

/-- A predicate of the parser's shape evaluates to a boolean on every row whose
values have payloads matching their tags. -/
theorem evalLogical_predicate (lib : GoLib) (row : Row)
    (h : ∀ v ∈ row.Values, v.wellTagged = true) :
    ∀ e : Expr, isPredicate e = true → ∃ b, evalLogical lib row e = .ok b := by
  intro e
  induction e with
  | LogicalExpr l op r ihl _ =>
    intro he
    simp only [isPredicate, Bool.and_eq_true, Bool.or_eq_true, decide_eq_true_eq] at he
    obtain ⟨⟨hop, hl⟩, hr⟩ := he
    obtain ⟨bl, hbl⟩ := ihl hl
    obtain ⟨br, hbr⟩ := evalLogical_comparison lib row r hr h
    simp only [evalLogical, hbl, hbr]
    rcases hop with rfl | rfl <;> cases bl <;> simp
  | CompareExpr l op r _ _ =>
    intro he
    exact evalLogical_comparison lib row _ (by simpa [isPredicate] using he) h
  | ColumnRef n => intro he; simp [isPredicate, isComparison] at he
  | Literal v => intro he; simp [isPredicate, isComparison] at he
  | other => intro he; simp [isPredicate, isComparison] at he

theorem parseLiteralOrColumn_operand (lib : GoLib) (raw : String) (e : Expr)
    (h : parseLiteralOrColumn lib raw = .ok e) : isOperand e = true := by
  have g1 : ¬ TypeInt = TypeString := by decide
  have g2 : ¬ TypeFloat = TypeString := by decide
  have g3 : ¬ TypeFloat = TypeInt := by decide
  have g4 : ¬ TypeBool = TypeString := by decide
  have g5 : ¬ TypeBool = TypeInt := by decide
  have g6 : ¬ TypeBool = TypeFloat := by decide
  unfold parseLiteralOrColumn at h
  simp only at h
  split at h
  · exact absurd h (by simp)
  · split at h
    · simp only [Except.ok.injEq] at h
      subst h
      simp [isOperand, Value.wellTagged]
    · split at h
      · simp only [Except.ok.injEq] at h
        subst h
        simp [isOperand, Value.wellTagged]
      · split at h
        · simp only [Except.ok.injEq] at h
          subst h
          simp [isOperand, Value.wellTagged, g1]
        · split at h
          · simp only [Except.ok.injEq] at h
            subst h
            simp [isOperand, Value.wellTagged, g2, g3]
          · split at h
            · simp only [Except.ok.injEq] at h
              subst h
              simp [isOperand, Value.wellTagged, g4, g5, g6]
            · simp only [Except.ok.injEq] at h
              subst h
              rfl

theorem parseCompare_comparison (lib : GoLib) (tokens : List String) (e : Expr)
    (h : parseCompare lib tokens = .ok e) : isComparison e = true := by
  unfold parseCompare at h
  split at h
  · rename_i left op rest2
    split at h
    · exact absurd h (by simp)
    · split at h
      · rename_i hop
        split at h
        · exact absurd h (by simp)
        · rename_i right hr
          simp only [Except.ok.injEq] at h
          subst h
          have := parseLiteralOrColumn_operand lib _ right hr
          simp [isComparison, isCompareOp, hop, this]
      · exact absurd h (by simp)
  · exact absurd h (by simp)

theorem parseLogicalExpr_loop_predicate (lib : GoLib) (body : String) (n : Nat) :
    ∀ (toks : List String) (expr e : Expr), toks.length ≤ n → isPredicate expr = true →
      parseLogicalExpr.loop lib body expr toks = .ok e → isPredicate e = true := by
  induction n with
  | zero =>
    intro toks expr e hlen hexpr h
    have : toks = [] := List.length_eq_zero.mp (by omega)
    subst this
    simp only [parseLogicalExpr.loop, Except.ok.injEq] at h
    rw [← h]
    exact hexpr
  | succ n ih =>
    intro toks expr e hlen hexpr h
    match toks, hlen, h with
    | [], _, h =>
      simp only [parseLogicalExpr.loop, Except.ok.injEq] at h
      rw [← h]
      exact hexpr
    | [_], _, h => simp [parseLogicalExpr.loop] at h
    | [_, _], _, h => simp [parseLogicalExpr.loop] at h
    | [_, _, _], _, h => simp [parseLogicalExpr.loop] at h
    | o :: a :: b :: c :: rest, hlen, h =>
      simp only [parseLogicalExpr.loop] at h
      split at h
      · exact absurd h (by simp)
      · rename_i hop
        split at h
        · exact absurd h (by simp)
        · rename_i right hr
          have hcmp := parseCompare_comparison lib _ right hr
          have hop' : ToLower lib o = "and" ∨ ToLower lib o = "or" := by
            by_cases h1 : ToLower lib o = "and"
            · exact Or.inl h1
            · by_cases h2 : ToLower lib o = "or"
              · exact Or.inr h2
              · exact absurd ⟨h1, h2⟩ hop
          refine ih rest _ e (by simp only [List.length_cons] at hlen; omega) ?_ h
          simp only [isPredicate, hexpr, hcmp, Bool.and_true, Bool.or_eq_true,
            decide_eq_true_eq]
          exact hop'

theorem parseLogicalExpr_predicate (lib : GoLib) (body : String) (e : Expr)
    (h : parseLogicalExpr lib body = .ok e) : isPredicate e = true := by
  unfold parseLogicalExpr at h
  split at h
  · rename_i a b c rest _
    split at h
    · exact absurd h (by simp)
    · rename_i left hl
      have hcmp := parseCompare_comparison lib _ left hl
      have hpred : isPredicate left = true := by
        cases left <;> simp_all [isPredicate, isComparison]
      exact parseLogicalExpr_loop_predicate lib body rest.length rest left e (Nat.le_refl _)
        hpred h
  · exact absurd h (by simp)

theorem parseProject_not_where (seg : String) (p : Expr) :
    parseProject seg ≠ .ok (.WhereOp p) := by
  intro h
  unfold parseProject at h
  simp only at h
  repeat' (split at h)
  all_goals simp at h

theorem parseExtend_not_where (lib : GoLib) (seg : String) (p : Expr) :
    parseExtend lib seg ≠ .ok (.WhereOp p) := by
  intro h
  unfold parseExtend at h
  simp only at h
  repeat' (split at h)
  all_goals simp at h

theorem parseSummarize_not_where (lib : GoLib) (seg : String) (p : Expr) :
    parseSummarize lib seg ≠ .ok (.WhereOp p) := by
  intro h
  unfold parseSummarize at h
  simp only at h
  repeat' (split at h)
  all_goals simp at h

theorem parseTake_not_where (seg : String) (p : Expr) :
    parseTake seg ≠ .ok (.WhereOp p) := by
  intro h
  unfold parseTake at h
  repeat' (split at h)
  all_goals simp at h

theorem parseOrderBy_not_where (lib : GoLib) (seg : String) (p : Expr) :
    parseOrderBy lib seg ≠ .ok (.WhereOp p) := by
  intro h
  unfold parseOrderBy at h
  simp only at h
  repeat' (split at h)
  all_goals simp at h

theorem parseJoin_not_where (lib : GoLib) (seg : String) (p : Expr) :
    parseJoin lib seg ≠ .ok (.WhereOp p) := by
  intro h
  unfold parseJoin at h
  simp only at h
  repeat' (split at h)
  all_goals simp at h

theorem parseOperator_where (lib : GoLib) (seg : String) (p : Expr)
    (h : parseOperator lib seg = .ok (.WhereOp p)) : isPredicate p = true := by
  unfold parseOperator at h
  split at h
  · exact absurd h (by simp)
  · simp only at h
    split at h
    · unfold parseWhere at h
      simp only at h
      split at h
      · exact absurd h (by simp)
      · split at h
        · exact absurd h (by simp)
        · rename_i expr hexpr
          simp only [Except.ok.injEq, PlanOperator.WhereOp.injEq] at h
          subst h
          exact parseLogicalExpr_predicate lib _ expr hexpr
    · split at h
      · exact absurd h (parseProject_not_where seg p)
      · split at h
        · exact absurd h (parseExtend_not_where lib seg p)
        · split at h
          · exact absurd h (parseSummarize_not_where lib seg p)
          · split at h
            · exact absurd h (parseTake_not_where seg p)
            · split at h
              · exact absurd h (parseOrderBy_not_where lib seg p)
              · split at h
                · exact absurd h (parseJoin_not_where lib seg p)
                · simp at h

theorem Parse_loop_where (lib : GoLib) (parts : List String) :
    ∀ (i : Nat) (ops result : List PlanOperator),
      (∀ p, PlanOperator.WhereOp p ∈ ops → isPredicate p = true) →
      Parse.loop lib i parts ops = .ok result →
      ∀ p, PlanOperator.WhereOp p ∈ result → isPredicate p = true := by
  induction parts with
  | nil =>
    intro i ops result hops h
    simp only [Parse.loop] at h
    split at h
    · exact absurd h (by simp)
    · simp only [Except.ok.injEq] at h
      subst h
      exact hops
  | cons part parts ih =>
    intro i ops result hops h
    simp only [Parse.loop] at h
    split at h
    · exact ih _ ops result hops h
    · split at h
      · exact ih _ ops result hops h
      · split at h
        · exact absurd h (by simp)
        · rename_i op hop
          refine ih _ _ result ?_ h
          intro p hp
          rcases List.mem_append.mp hp with hmem | hmem
          · exact hops p hmem
          · simp only [List.mem_singleton] at hmem
            rw [← hmem] at hop
            exact parseOperator_where lib _ p hop

/-- C35: for every query that `Parse` accepts, every `WhereOp` predicate of the
result has the shape of comparisons `column op operand`, with an operator among
`==`, `=`, `!=`, `>`, `>=`, `<`, `<=` and a column or literal operand, connected
to the left by `and` and `or`; on every row whose values have payloads matching
their tags, `evalLogical` of the predicate returns a boolean and no error. -/
theorem Parse_predicates_total (lib : GoLib) (q : String) (ops : List PlanOperator)
    (p : Expr) (row : Row) (hparse : Parse lib q = .ok ops)
    (hp : PlanOperator.WhereOp p ∈ ops) (hrow : ∀ v ∈ row.Values, v.wellTagged = true) :
    isPredicate p = true ∧ ∃ b : Bool, evalLogical lib row p = .ok b := by
  have hpred : isPredicate p = true :=
    Parse_loop_where lib _ 0 [] ops (by intro p hp; simp at hp) hparse p hp
  exact ⟨hpred, evalLogical_predicate lib row hrow p hpred⟩

/-- Witness of C35: the predicate of `T | where age > 1 and name == "bob"` on the
row `age = 3`, in which the column `name` is absent. -/
theorem Parse_predicates_total_witness :
    ∃ b : Bool, evalLogical GoLib.blank sampleRow
      (.LogicalExpr (.CompareExpr (.ColumnRef "age") ">" (.Literal ⟨TypeInt, .int 1⟩)) "and"
        (.CompareExpr (.ColumnRef "name") "==" (.Literal ⟨TypeString, .str "bob"⟩))) = .ok b :=
  (Parse_predicates_total GoLib.blank "T | where age > 1 and name == \"bob\""
    [.WhereOp (.LogicalExpr (.CompareExpr (.ColumnRef "age") ">" (.Literal ⟨TypeInt, .int 1⟩))
      "and" (.CompareExpr (.ColumnRef "name") "==" (.Literal ⟨TypeString, .str "bob"⟩)))]
    _ sampleRow (by decide) (List.mem_singleton.mpr rfl) (by decide)).2

/-! ### The driver: table names -/

theorem Fields_go_nonempty (cs : List Char) :
    ∀ (cur : List Char) (t : String), t ∈ Fields.go cs cur → t.data ≠ [] := by
  induction cs with
  | nil =>
    intro cur t ht
    simp only [Fields.go] at ht
    split at ht
    · simp at ht
    · rename_i hc
      simp only [List.mem_singleton] at ht
      subst ht
      intro e
      exact hc (by simp only at e; rw [e]; rfl)
  | cons c cs ih =>
    intro cur t ht
    simp only [Fields.go] at ht
    split at ht
    · split at ht
      · exact ih [] t ht
      · rename_i hc
        rcases List.mem_cons.mp ht with h | h
        · subst h
          intro e
          exact hc (by simp only at e; rw [e]; rfl)
        · exact ih [] t h
    · exact ih _ t ht

theorem Fields_go_nil (cs : List Char) :
    ∀ cur : List Char, Fields.go cs cur = [] → ∀ c ∈ cs, isSpace c = true := by
  induction cs with
  | nil => intro _ _ c hc; simp at hc
  | cons d ds ih =>
    intro cur h c hc
    simp only [Fields.go] at h
    split at h
    · rename_i hd
      split at h
      · rcases List.mem_cons.mp hc with e | hmem
        · rw [e]; exact hd
        · exact ih [] h c hmem
      · simp at h
    · rename_i hd
      have hgo : ∀ (l cur2 : List Char), cur2 ≠ [] → Fields.go l cur2 ≠ [] := by
        intro l
        induction l with
        | nil =>
          intro cur2 hne
          cases cur2 with
          | nil => exact absurd rfl hne
          | cons a as_ => simp [Fields.go]
        | cons x xs ihx =>
          intro cur2 hne
          cases cur2 with
          | nil => exact absurd rfl hne
          | cons a as_ =>
            simp only [Fields.go]
            split
            · simp
            · exact ihx _ (by simp)
      exact absurd h (hgo ds (cur ++ [d]) (by simp))

/-- A text that is not empty after trimming has a field. -/
theorem Fields_TrimSpace_ne_nil (s : String) (h : TrimSpace s ≠ "") :
    Fields (TrimSpace s) ≠ [] := by
  intro hnil
  have hall := Fields_go_nil (TrimSpace s).data [] hnil
  apply h
  apply String.ext
  show (TrimSpace s).data = []
  have hdata : (TrimSpace s).data
      = ((s.data.dropWhile isSpace).reverse.dropWhile isSpace).reverse := rfl
  cases hx : (s.data.dropWhile isSpace).reverse.dropWhile isSpace with
  | nil => rw [hdata, hx]; rfl
  | cons x xs =>
    have hxn : isSpace x = false := by
      have := List.head_dropWhile_not isSpace (s.data.dropWhile isSpace).reverse
        (by rw [hx]; simp)
      simpa [hx] using this
    have hmem : x ∈ (TrimSpace s).data := by
      rw [hdata, hx]
      simp
    rw [hall x hmem] at hxn
    exact absurd hxn (by simp)

/-- C38 as stated fails: for `T foo | take 1` the driver takes `T` as the table
name, while `Parse` parses the first segment as an operator and fails. -/
theorem parseTableName_several_fields :
    parseTableName GoLib.blank "T foo | take 1" = .ok "T"
    ∧ isDesignator GoLib.blank (TrimSpace "T foo ") = false
    ∧ Parse GoLib.blank "T foo | take 1" = .error (.other "unknown operator: T") := by
  decide

/-- C38, amended: `parseTableName` does not panic; it returns a non-empty name
exactly when the first segment, trimmed, has a first field that is not an
operator keyword, and the name is that field.  So whenever `Parse` drops the
first segment as a source designator, a single field that is not an operator
keyword, `parseTableName` returns that field; it also returns the first field
of a first segment of several fields, which `Parse` parses as an operator. -/
theorem parseTableName_first_field (lib : GoLib) (q p0 : String) (ps : List String)
    (hsplit : Split q '|' = p0 :: ps) :
    (∃ name : String, parseTableName lib q = .ok name)
    ∧ (isDesignator lib (TrimSpace p0) = true →
        ∃ f : String, Fields (TrimSpace p0) = [f] ∧ f ≠ "" ∧ parseTableName lib q = .ok f)
    ∧ (∀ (f : String) (rest : List String), Fields (TrimSpace p0) = f :: rest →
        isOperator lib f = false → f ≠ "" ∧ parseTableName lib q = .ok f)
    ∧ (∀ name : String, parseTableName lib q = .ok name → name ≠ "" →
        ∃ rest : List String, Fields (TrimSpace p0) = name :: rest
          ∧ isOperator lib name = false) := by
  have hop : ∀ f : String, isOperatorToken lib f = isOperator lib f := fun _ => rfl
  have hne : ∀ (f : String) (rest : List String), Fields (TrimSpace p0) = f :: rest →
      f ≠ "" := by
    intro f rest hf e
    have := Fields_go_nonempty (TrimSpace p0).data [] f (by
      show f ∈ Fields (TrimSpace p0)
      rw [hf]; simp)
    rw [e] at this
    exact this rfl
  have hfirst : ∀ (f : String) (rest : List String), Fields (TrimSpace p0) = f :: rest →
      parseTableName lib q = if isOperator lib f then .ok "" else .ok f := by
    intro f rest hf
    have htrim : ¬ TrimSpace p0 = "" := by
      intro e
      rw [e] at hf
      have hnil : Fields "" = [] := by decide
      rw [hnil] at hf
      exact absurd hf (by simp)
    simp only [parseTableName, hsplit, htrim, if_false, hf, hop]
  have hres : ∃ name : String, parseTableName lib q = .ok name := by
    by_cases htrim : TrimSpace p0 = ""
    · exact ⟨"", by simp only [parseTableName, hsplit, htrim, if_true]⟩
    · cases hf : Fields (TrimSpace p0) with
      | nil => exact absurd hf (Fields_TrimSpace_ne_nil p0 htrim)
      | cons f rest =>
        rw [hfirst f rest hf]
        split <;> exact ⟨_, rfl⟩
  refine ⟨hres, ?_, ?_, ?_⟩
  · intro hd
    unfold isDesignator at hd
    split at hd
    · rename_i f hf
      have hfo : isOperator lib f = false := by simpa using hd
      exact ⟨f, hf, hne f [] hf, by rw [hfirst f [] hf, hfo]; rfl⟩
    · exact absurd hd (by simp)
  · intro f rest hf hfo
    exact ⟨hne f rest hf, by rw [hfirst f rest hf, hfo]; rfl⟩
  · intro name hname hnonempty
    by_cases htrim : TrimSpace p0 = ""
    · simp only [parseTableName, hsplit, htrim, if_true, Except.ok.injEq] at hname
      exact absurd hname.symm hnonempty
    · cases hf : Fields (TrimSpace p0) with
      | nil => exact absurd hf (Fields_TrimSpace_ne_nil p0 htrim)
      | cons f rest =>
        rw [hfirst f rest hf] at hname
        cases hfo : isOperator lib f with
        | true =>
          rw [hfo] at hname
          simp only [if_true, Except.ok.injEq] at hname
          exact absurd hname.symm hnonempty
        | false =>
          rw [hfo] at hname
          simp only [Bool.false_eq_true, if_false, Except.ok.injEq] at hname
          subst hname
          exact ⟨rest, rfl, hfo⟩

/-- Witness of C38 (`TestParseTableName`): for `T | where age > 1` the first
segment is a designator and the table name is `T`. -/
theorem parseTableName_first_field_witness :
    ∃ f : String, Fields (TrimSpace "T ") = [f] ∧ f ≠ ""
      ∧ parseTableName GoLib.blank "T | where age > 1" = .ok f :=
  (parseTableName_first_field GoLib.blank "T | where age > 1" "T " [" where age > 1"]
    (by decide)).2.1 (by decide)

/-- C32: with the single input `A=a.csv`, which `ToMap` turns into the single
table `A`, a query without a leading table name is resolved to the name `T` and
fails with `unknown table name: T`; the bare path `a.csv` and the input
`T=a.csv` are resolved to `a.csv`, and two tables fail as the code says. -/
theorem run_inputPath_single_named :
    ToMap ["A=a.csv"] = .ok [("A", "a.csv")]
    ∧ parseTableName GoLib.blank "where name == \"alice\"" = .ok ""
    ∧ run.inputPath GoLib.blank ["A=a.csv"] "where name == \"alice\""
      = .error (.other "unknown table name: T")
    ∧ run.inputPath GoLib.blank ["a.csv"] "where name == \"alice\"" = .ok "a.csv"
    ∧ run.inputPath GoLib.blank ["T=a.csv"] "where name == \"alice\"" = .ok "a.csv"
    ∧ run.inputPath GoLib.blank ["A=a.csv", "B=b.csv"] "where name == \"alice\""
      = .error (.other
          "query must specify a table name when multiple inputs are provided") := by
  decide

/-! ### Rows read under an explicit schema -/

/-- The tag of the value that `ParseValue` returns: the type asked for when it
is int, float, bool or datetime, and string otherwise. -/
theorem ParseValue_tag (lib : GoLib) (t : Typ) (raw : String) (v : Value)
    (h : ParseValue lib t raw = .ok v) :
    v.Typ = if t = TypeInt ∨ t = TypeFloat ∨ t = TypeBool ∨ t = TypeDateTime then t
      else TypeString := by
  unfold ParseValue at h
  simp only at h
  split at h
  · rename_i ht
    split at h
    · exact absurd h (by simp)
    · simp only [Except.ok.injEq] at h
      subst h
      simp [ht]
  · split at h
    · rename_i ht
      split at h
      · exact absurd h (by simp)
      · simp only [Except.ok.injEq] at h
        subst h
        simp [ht]
    · split at h
      · rename_i ht
        split at h
        · exact absurd h (by simp)
        · simp only [Except.ok.injEq] at h
          subst h
          simp [ht]
      · split at h
        · rename_i ht
          split at h
          · exact absurd h (by simp)
          · simp only [Except.ok.injEq] at h
            subst h
            simp [ht]
        · rename_i h1 h2 h3 h4
          simp only [Except.ok.injEq] at h
          subst h
          simp [h1, h2, h3, h4]

theorem parseRecord_loop_tags (lib : GoLib) (record : List String) (cols : List Column) :
    ∀ (i : Nat) (acc vals : List Value),
      parseRecord.loop lib record i cols acc = .ok vals →
      vals.map Value.Typ = acc.map Value.Typ ++ recordTags record i cols := by
  induction cols with
  | nil =>
    intro i acc vals h
    simp only [parseRecord.loop, Except.ok.injEq] at h
    subst h
    simp [recordTags]
  | cons c cs ih =>
    intro i acc vals h
    simp only [parseRecord.loop] at h
    split at h
    · rename_i hge
      rw [ih (i + 1) _ vals h]
      simp [recordTags, recordTag, hge]
    · rename_i hge
      split at h
      · exact absurd h (by simp)
      · rename_i v hv
        rw [ih (i + 1) _ vals h]
        simp [recordTags, recordTag, hge, ParseValue_tag lib _ _ v hv]

theorem recordTags_five (record : List String) (cols : List Column)
    (h : ∀ c ∈ cols, c.Typ = TypeString ∨ c.Typ = TypeInt ∨ c.Typ = TypeFloat
      ∨ c.Typ = TypeBool ∨ c.Typ = TypeDateTime) :
    ∀ i : Nat, recordTags record i cols = cols.map Column.Typ := by
  induction cols with
  | nil => intro i; rfl
  | cons c cs ih =>
    intro i
    simp only [recordTags, List.map_cons, ih (fun d hd => h d (by simp [hd]))]
    congr 1
    unfold recordTag
    rcases h c (by simp) with hc | hc | hc | hc | hc
    · split
      · rfl
      · split
        · rfl
        · exact hc.symm
    all_goals simp [hc]

theorem SplitN2_go_append (sep : Char) (a b : List Char) :
    ∀ cur : List Char, sep ∉ a →
      SplitN2.go sep (a ++ sep :: b) cur = [⟨cur ++ a⟩, ⟨b⟩] := by
  induction a with
  | nil => intro cur _; simp [SplitN2.go]
  | cons c cs ih =>
    intro cur h
    simp only [List.mem_cons, not_or] at h
    have hc : ¬ c = sep := fun e => h.1 e.symm
    simp only [List.cons_append, SplitN2.go, hc, if_false, List.append_eq]
    rw [ih (cur ++ [c]) h.2]
    simp

/-- The schema text `name:t` of one column: `parseSchema` lets the type text
through, in lower case, whatever it is. -/
theorem parseSchema_one (lib : GoLib) (name t : String) (hn : isField name) (ht : isField t)
    (hn1 : ',' ∉ name.data) (hn2 : ':' ∉ name.data) (ht1 : ',' ∉ t.data) :
    parseSchema lib (name ++ ":" ++ t) = .ok (NewSchema [⟨name, ToLower lib t⟩]) := by
  have hdata : (name ++ ":" ++ t).data = name.data ++ ':' :: t.data := by
    simp [String.data_append]
  have hsplit : Split (name ++ ":" ++ t) ',' = [name ++ ":" ++ t] := by
    unfold Split
    rw [Split_go_nosep ',' _ [] (by rw [hdata]; simp [hn1, ht1])]
    simp only [List.nil_append]
  have hfield : isField (name ++ ":" ++ t) := by
    refine ⟨by rw [hdata]; simp, ?_⟩
    intro c hc
    rw [hdata] at hc
    simp only [List.mem_append, List.mem_cons] at hc
    rcases hc with h | h | h
    · exact hn.2 c h
    · rw [h]; decide
    · exact ht.2 c h
  have hne : ¬ (name ++ ":" ++ t) = "" := by
    intro e
    have := hfield.1
    rw [e] at this
    exact this rfl
  have hsplit2 : SplitN2 (name ++ ":" ++ t) ':' = [name, t] := by
    unfold SplitN2
    rw [hdata, SplitN2_go_append ':' name.data t.data [] hn2]
    simp
  simp only [parseSchema, hsplit, parseSchema.loop, TrimSpace_field _ hfield, hne, if_false,
    hsplit2, TrimSpace_field _ hn, TrimSpace_field _ ht, List.nil_append, List.length_singleton]
  simp

/-- C39 as stated fails: `parseSchema` accepts `a:text`, and under the column
type `text` the value read is tagged `string`. -/
theorem parseRecord_unknown_type_tag :
    parseSchema GoLib.blank "a:text" = .ok (NewSchema [⟨"a", "text"⟩])
    ∧ parseRecord GoLib.blank (NewSchema [⟨"a", "text"⟩]) ["x"]
      = .ok ⟨NewSchema [⟨"a", "text"⟩], [⟨TypeString, .str "x"⟩]⟩
    ∧ [(⟨TypeString, .str "x"⟩ : Value)].map Value.Typ
      ≠ (NewSchema [⟨"a", "text"⟩]).Columns.map Column.Typ := by
  decide

/-- C39, amended: every row that `parseRecord` returns has the schema of the
reader and, position by position, the tag of the column for a missing field and
the tag that `ParseValue` returns for a present one; so it satisfies the row
type invariant whenever the column types are among string, int, float, bool and
datetime.  `ParseValue(t, raw)` returns a value tagged `t` for int, float, bool
and datetime and tagged string for every other `t`, and `parseSchema` lets every
type text through in lower case. -/
theorem parseRecord_row_types (lib : GoLib) (s : Schema) (record : List String) (row : Row)
    (hrow : parseRecord lib s record = .ok row) :
    row.Schema = s
    ∧ row.Values.map Value.Typ = recordTags record 0 s.Columns
    ∧ ((∀ c ∈ s.Columns, c.Typ = TypeString ∨ c.Typ = TypeInt ∨ c.Typ = TypeFloat
          ∨ c.Typ = TypeBool ∨ c.Typ = TypeDateTime) → RowInv row)
    ∧ (∀ (t : Typ) (raw : String) (v : Value), ParseValue lib t raw = .ok v →
        v.Typ = if t = TypeInt ∨ t = TypeFloat ∨ t = TypeBool ∨ t = TypeDateTime then t
          else TypeString)
    ∧ (∀ name t : String, isField name → isField t → ',' ∉ name.data → ':' ∉ name.data →
        ',' ∉ t.data →
        parseSchema lib (name ++ ":" ++ t) = .ok (NewSchema [⟨name, ToLower lib t⟩])) := by
  unfold parseRecord at hrow
  split at hrow
  · exact absurd hrow (by simp)
  · rename_i vals hvals
    simp only [Except.ok.injEq] at hrow
    subst hrow
    have htags := parseRecord_loop_tags lib record s.Columns 0 [] vals hvals
    simp only [List.map_nil, List.nil_append] at htags
    refine ⟨rfl, htags, ?_, ParseValue_tag lib, parseSchema_one lib⟩
    intro hfive
    unfold RowInv
    simp only
    rw [htags, recordTags_five record s.Columns hfive 0]

/-- Witness of C39: the record `1, x` under the schema `a:int, b:string`. -/
theorem parseRecord_row_types_witness :
    RowInv ⟨NewSchema [⟨"a", TypeInt⟩, ⟨"b", TypeString⟩],
      [⟨TypeInt, .int 1⟩, ⟨TypeString, .str "x"⟩]⟩ :=
  (parseRecord_row_types GoLib.blank (NewSchema [⟨"a", TypeInt⟩, ⟨"b", TypeString⟩])
    ["1", "x"] _ (by decide)).2.2.1 (by decide)

/-- Under the type inferred from a list of samples, every sample of the list that
is not blank parses, to a value of that type. -/
theorem ParseValue_inferred (lib : GoLib) (s : List String) (v : String)
    (hv : v ∈ s) (hne : TrimSpace v ≠ "") :
    ∃ p : Payload, ParseValue lib (InferType lib s) v = .ok ⟨InferType lib s, p⟩
      ∧ Value.wellTagged ⟨InferType lib s, p⟩ = true := by
  have hlen : ¬ s.length = 0 := by
    cases s with
    | nil => simp at hv
    | cons a l => simp
  have hadm : ∀ t, admissible lib t s = true → parsesAs lib t (TrimSpace v) = true := by
    intro t h
    simp only [admissible, List.all_eq_true] at h
    have := h v hv
    simpa [hne] using this
  have h1 : ¬ TypeFloat = TypeInt := by decide
  have h2 : ¬ TypeBool = TypeInt := by decide
  have h3 : ¬ TypeBool = TypeFloat := by decide
  have h4 : ¬ TypeDateTime = TypeInt := by decide
  have h5 : ¬ TypeDateTime = TypeFloat := by decide
  have h6 : ¬ TypeDateTime = TypeBool := by decide
  have h7 : ¬ TypeString = TypeInt := by decide
  have h8 : ¬ TypeString = TypeFloat := by decide
  have h9 : ¬ TypeString = TypeBool := by decide
  have h10 : ¬ TypeString = TypeDateTime := by decide
  have g7 : ¬ TypeInt = TypeString := by decide
  have g8 : ¬ TypeFloat = TypeString := by decide
  have g9 : ¬ TypeBool = TypeString := by decide
  have g10 : ¬ TypeDateTime = TypeString := by decide
  simp only [InferType, hlen, if_false, InferType_loop_eq, Bool.true_and]
  by_cases hi : admissible lib TypeInt s = true
  · have hp := hadm _ hi
    rw [parsesAs_int] at hp
    obtain ⟨n, hn⟩ := Option.isSome_iff_exists.mp hp
    exact ⟨.int n, by simp [hi, ParseValue, hn], by simp [hi, Value.wellTagged, g7]⟩
  · by_cases hf : admissible lib TypeFloat s = true
    · have hp := hadm _ hf
      rw [parsesAs_float] at hp
      obtain ⟨n, hn⟩ := Option.isSome_iff_exists.mp hp
      exact ⟨.float n, by simp [hi, hf, ParseValue, hn, h1],
        by simp [hi, hf, Value.wellTagged, h1, g8]⟩
    · by_cases hb : admissible lib TypeBool s = true
      · have hp := hadm _ hb
        rw [parsesAs_bool] at hp
        obtain ⟨n, hn⟩ := Option.isSome_iff_exists.mp hp
        exact ⟨.bool n, by simp [hi, hf, hb, ParseValue, hn, h2, h3],
          by simp [hi, hf, hb, Value.wellTagged, h2, h3, g9]⟩
      · by_cases ht : admissible lib TypeDateTime s = true
        · have hp := hadm _ ht
          rw [parsesAs_time] at hp
          obtain ⟨n, hn⟩ := Option.isSome_iff_exists.mp hp
          exact ⟨.time n, by simp [hi, hf, hb, ht, ParseValue, hn, h4, h5, h6],
            by simp [hi, hf, hb, ht, Value.wellTagged, h4, h5, h6, g10]⟩
        · exact ⟨.str (TrimSpace v), by simp [hi, hf, hb, ht, ParseValue, h7, h8, h9, h10],
            by simp [hi, hf, hb, ht, Value.wellTagged]⟩
/-! ### The CSV reader: sampling and replay -/

theorem NewReader_addSamples_get (record : List String) (cols : List (List String)) :
    ∀ (c k : Nat), (NewReader.addSamples c cols record)[k]?
      = (cols[k]?).map (fun col => col ++ (record[c + k]?).toList) := by
  induction cols with
  | nil => intro c k; simp [NewReader.addSamples]
  | cons col cols ih =>
    intro c k
    cases k with
    | zero =>
      simp only [NewReader.addSamples, List.getElem?_cons_zero, Option.map_some', Nat.add_zero,
        Option.some.injEq]
      by_cases hc : c < record.length
      · simp [hc, List.getElem?_eq_getElem hc, List.getD_eq_getElem?_getD]
      · simp [hc, List.getElem?_eq_none (Nat.le_of_not_lt hc)]
    | succ k =>
      simp only [NewReader.addSamples, List.getElem?_cons_succ, ih (c + 1) k]
      have : c + 1 + k = c + (k + 1) := by omega
      rw [this]

theorem csv_Read_record (fields : List String) (rest : List csv.Item) (k : Nat) (hk : 0 < k) :
    csv.Reader.Read ⟨.record fields :: rest, k⟩
      = (if fields.length = k then .ok fields else .error (.other ErrFieldCount), ⟨rest, k⟩) := by
  have hk2 : k > 0 := hk
  by_cases h : fields.length = k
  · simp only [csv.Reader.Read, hk2, if_true, h, ne_eq, not_true_eq_false, if_false]
  · simp only [csv.Reader.Read, hk2, if_true, h, ne_eq, not_false_eq_true, if_false]

theorem csv_Read_header (head : List String) (rest : List csv.Item) :
    (csv.NewReader (.record head :: rest)).Read = (.ok head, ⟨rest, head.length⟩) := by
  simp [csv.Reader.Read, csv.NewReader]

theorem NewReader_sample_spec (k : Nat) (hk : 0 < k) (n : Nat) :
    ∀ (records buffer : List (List String)) (cols : List (List String)),
      (∀ record ∈ records.take n, record.length = k) →
      NewReader.sample n ⟨records.map .record, k⟩ buffer cols
        = .ok (⟨(records.drop n).map .record, k⟩, buffer ++ records.take n,
            (records.take n).foldl (fun cs record => NewReader.addSamples 0 cs record) cols) := by
  induction n with
  | zero => intro records buffer cols _; simp [NewReader.sample]
  | succ n ih =>
    intro records buffer cols h
    cases records with
    | nil => simp [NewReader.sample, csv.Reader.Read]
    | cons record rest =>
      have hlen : record.length = k := h record (by simp)
      have hrest : ∀ r ∈ rest.take n, r.length = k := by
        intro r hr
        exact h r (by simp [hr])
      simp only [NewReader.sample, List.map_cons, csv_Read_record _ _ k hk, hlen, if_true,
        ih rest _ _ hrest, List.drop_succ_cons, List.take_succ_cons,
        List.foldl_cons, List.append_assoc, List.singleton_append]

/-- A record among the sampled ones whose number of fields is not that of the
header makes the sampling loop fail. -/
theorem NewReader_sample_ragged (k : Nat) (hk : 0 < k) (n : Nat) :
    ∀ (records buffer : List (List String)) (cols : List (List String)),
      (∃ record ∈ records.take n, record.length ≠ k) →
      NewReader.sample n ⟨records.map .record, k⟩ buffer cols
        = .error (.other ("sample read: " ++ ErrFieldCount)) := by
  induction n with
  | zero =>
    intro records buffer cols h
    obtain ⟨r, hr, _⟩ := h
    simp at hr
  | succ n ih =>
    intro records buffer cols h
    cases records with
    | nil =>
      obtain ⟨r, hr, _⟩ := h
      simp at hr
    | cons record rest =>
      by_cases hlen : record.length = k
      · have hrest : ∃ r ∈ rest.take n, r.length ≠ k := by
          obtain ⟨r, hr, hne⟩ := h
          simp only [List.take_succ_cons, List.mem_cons] at hr
          rcases hr with rfl | hr
          · exact absurd hlen hne
          · exact ⟨r, hr, hne⟩
        simp only [NewReader.sample, List.map_cons, csv_Read_record _ _ k hk, hlen, if_true,
          ih rest _ _ hrest]
      · simp only [NewReader.sample, List.map_cons, csv_Read_record _ _ k hk, hlen, if_false,
          Error.text]

theorem NewReader_samples_get (records : List (List String)) :
    ∀ (cols : List (List String)) (k : Nat),
      (records.foldl (fun cs record => NewReader.addSamples 0 cs record) cols)[k]?
        = (cols[k]?).map (fun col => col ++ columnOf k records) := by
  induction records with
  | nil => intro cols k; simp [columnOf]
  | cons record rest ih =>
    intro cols k
    simp only [List.foldl_cons, ih, NewReader_addSamples_get, Nat.zero_add, Option.map_map]
    congr 1
    funext col
    simp only [Function.comp, columnOf, List.filterMap_cons, List.append_assoc]
    cases record[k]? <;> simp

theorem NewReader_inferred_get (lib : GoLib) (cols : List (List String))
    (names : List String) :
    ∀ (i j : Nat), (NewReader.inferred lib cols i names)[j]?
      = (names[j]?).map (fun name => (⟨name, InferType lib (cols.getD (i + j) [])⟩ : Column)) := by
  induction names with
  | nil => intro i j; simp [NewReader.inferred]
  | cons name names ih =>
    intro i j
    cases j with
    | zero => simp [NewReader.inferred]
    | succ j =>
      simp only [NewReader.inferred, List.getElem?_cons_succ, ih (i + 1) j]
      have : i + 1 + j = i + (j + 1) := by omega
      rw [this]

theorem NewReader_inferred_length (lib : GoLib) (cols : List (List String))
    (names : List String) :
    ∀ i : Nat, (NewReader.inferred lib cols i names).length = names.length := by
  induction names with
  | nil => intro i; rfl
  | cons name names ih => intro i; simp [NewReader.inferred, ih]

/-- The successive results of `Reader.Next`: the records of the buffer from the
position reached through `parseRecord`, then the records still to read, each
through `parseRecord` when it has the expected number of fields and as the
error `ErrFieldCount` otherwise. -/
theorem Reader_NextN_eq (lib : GoLib) (schema : Schema) (k : Nat) (hk : 0 < k) (n : Nat) :
    ∀ (recs buffer : List (List String)) (ix : Nat), ix ≤ buffer.length →
      n + ix ≤ buffer.length + recs.length →
      Reader.NextN lib n ⟨⟨recs.map .record, k⟩, schema, buffer, ix⟩
        = ((buffer.drop ix).map (parseRecord lib schema)
            ++ recs.map (fun record =>
                if record.length = k then parseRecord lib schema record
                else .error (.other ErrFieldCount))).take n := by
  induction n with
  | zero => intro recs buffer ix _ _; simp [Reader.NextN]
  | succ n ih =>
    intro recs buffer ix hix hn
    by_cases hlt : ix < buffer.length
    · have hget : buffer[ix]? = some buffer[ix] := List.getElem?_eq_getElem hlt
      have hnext : Reader.Next lib ⟨⟨recs.map .record, k⟩, schema, buffer, ix⟩
          = (parseRecord lib schema buffer[ix], ⟨⟨recs.map .record, k⟩, schema, buffer, ix + 1⟩) := by
        simp only [Reader.Next, hlt, if_true, hget]
      have hd : buffer.drop ix = buffer[ix] :: buffer.drop (ix + 1) :=
        List.drop_eq_getElem_cons hlt
      simp only [Reader.NextN, hnext, ih recs buffer (ix + 1) (by omega) (by omega), hd,
        List.map_cons, List.cons_append, List.take_succ_cons]
    · have hdrop : buffer.drop ix = [] := List.drop_eq_nil_of_le (by omega)
      cases recs with
      | nil =>
        simp only [List.length_nil] at hn
        omega
      | cons record rest =>
        have hnext : Reader.Next lib ⟨⟨.record record :: rest.map .record, k⟩, schema, buffer, ix⟩
            = (if record.length = k then parseRecord lib schema record
                else .error (.other ErrFieldCount),
               ⟨⟨rest.map .record, k⟩, schema, buffer, ix⟩) := by
          simp only [Reader.Next, hlt, if_false, csv_Read_record _ _ k hk]
          by_cases hlen : record.length = k
          · simp only [hlen, if_true]
          · simp only [hlen, if_false]
        simp only [Reader.NextN, hnext,
          ih rest buffer ix hix (by simp only [List.length_cons] at hn; omega), hdrop,
          List.map_nil, List.nil_append, List.map_cons, List.take_succ_cons]

theorem parseRecord_loop_ok (lib : GoLib) (record : List String) (cols : List Column) :
    ∀ (i : Nat) (acc : List Value),
      (∀ (j : Nat) (c : Column) (f : String), cols[j]? = some c → record[i + j]? = some f →
        ∃ v, ParseValue lib c.Typ f = .ok v) →
      ∃ vals, parseRecord.loop lib record i cols acc = .ok vals := by
  induction cols with
  | nil => intro i acc _; exact ⟨acc, rfl⟩
  | cons c cs ih =>
    intro i acc h
    have hrest : ∀ (j : Nat) (d : Column) (f : String), cs[j]? = some d →
        record[i + 1 + j]? = some f → ∃ v, ParseValue lib d.Typ f = .ok v := by
      intro j d f hd hf
      have e : i + 1 + j = i + (j + 1) := by omega
      rw [e] at hf
      exact h (j + 1) d f (by simpa using hd) hf
    simp only [parseRecord.loop]
    split
    · exact ih (i + 1) _ hrest
    · rename_i hge
      have hlt : i < record.length := by omega
      obtain ⟨v, hv⟩ := h 0 c (record.getD i "") (by simp) (by
        simp [List.getElem?_eq_getElem hlt, List.getD_eq_getElem?_getD])
      rw [hv]
      exact ih (i + 1) _ hrest

/-- C31 as stated fails: in the file with header `a, b` and the records
`1, x` and `(empty), y`, the column `a` is inferred int, the first call of
`Next` returns the first row and the second call fails on the empty field. -/
theorem Reader_Next_empty_field :
    (NewReader GoLib.blank (csvFile ["a", "b"] [["1", "x"], ["", "y"]]) none).map
        (fun r => (r.schema, Reader.NextN GoLib.blank 2 r))
      = .ok (NewSchema [⟨"a", TypeInt⟩, ⟨"b", TypeString⟩],
          [.ok ⟨NewSchema [⟨"a", TypeInt⟩, ⟨"b", TypeString⟩],
              [⟨TypeInt, .int 1⟩, ⟨TypeString, .str "x"⟩]⟩,
           .error (.other "parse column a")]) := by
  decide

/-- A record with fewer fields than the header: on the file `a,b / 1` the
function `NewReader` fails, and under an explicit schema the call of `Next`
does. -/
theorem NewReader_short_record :
    NewReader GoLib.blank (csvFile ["a", "b"] [["1"]]) none
      = .error (.other "sample read: wrong number of fields")
    ∧ (NewReader GoLib.blank (csvFile ["a", "b"] [["1"]])
          (some (NewSchema [⟨"a", TypeInt⟩, ⟨"b", TypeString⟩]))).map
        (fun r => Reader.NextN GoLib.blank 2 r)
      = .ok [.error (.other "wrong number of fields"), .error .EOF] := by
  decide

/-- C31, amended: without an explicit schema, on a file whose header has a
field, `NewReader` fails with a sample read error when one of the first 100
records has not as many fields as the header; otherwise it returns a reader
that has buffered the first 100 records and inferred the type of each column of
the header from the fields of these records at its position.  For every `n` up
to the number of records, the first `n` calls of `Next` return, in file order,
one result per record: the result of `parseRecord` under the inferred schema,
which for the buffered records is the result of every call, and the error of
the field count for a later record that has not as many fields as the header.
The call for a buffered record succeeds when none of its fields is blank, and
fails on a field that does not parse, such as an empty field in a column
inferred int. -/
theorem NewReader_replays_records (lib : GoLib) (head : List String)
    (records : List (List String)) (n : Nat) (hhead : head ≠ []) (hn : n ≤ records.length) :
    ((∃ record ∈ records.take inferSampleSize, record.length ≠ head.length) →
      ∃ msg, NewReader lib (csvFile head records) none
        = .error (.other ("sample read: " ++ msg)))
    ∧ ((∀ record ∈ records.take inferSampleSize, record.length = head.length) →
      ∃ r, NewReader lib (csvFile head records) none = .ok r
        ∧ r.buffer = records.take inferSampleSize
        ∧ r.bufferIx = 0
        ∧ r.csvr = ⟨(records.drop inferSampleSize).map .record, head.length⟩
        ∧ r.schema.Columns.length = head.length
        ∧ (∀ (i : Nat) (name : String), head[i]? = some name →
            r.schema.Columns[i]?
              = some ⟨name, InferType lib (columnOf i (records.take inferSampleSize))⟩)
        ∧ Reader.NextN lib n r
            = (records.take n).map (fun record =>
                if record.length = head.length then parseRecord lib r.schema record
                else .error (.other ErrFieldCount))
        ∧ (n ≤ inferSampleSize →
            Reader.NextN lib n r = (records.take n).map (parseRecord lib r.schema))
        ∧ (∀ record ∈ records.take inferSampleSize,
            (∀ f ∈ record, TrimSpace f ≠ "") →
            ∃ row, parseRecord lib r.schema record = .ok row ∧ row.Schema = r.schema)) := by
  have hk : 0 < head.length := List.length_pos.mpr hhead
  refine ⟨?_, ?_⟩
  · intro hragged
    refine ⟨ErrFieldCount, ?_⟩
    simp only [NewReader, csvFile, csv_Read_header,
      NewReader_sample_ragged head.length hk inferSampleSize records _ _ hragged]
  · intro hall
    have hcol : ∀ (i : Nat) (name : String), head[i]? = some name →
        (NewSchema (NewReader.inferred lib
              ((records.take inferSampleSize).foldl
                (fun cs record => NewReader.addSamples 0 cs record)
                (List.replicate head.length [])) 0 head)).Columns[i]?
          = some ⟨name, InferType lib (columnOf i (records.take inferSampleSize))⟩ := by
      intro i name hi
      have hlt : i < head.length := by
        by_contra hge
        rw [List.getElem?_eq_none (Nat.le_of_not_lt hge)] at hi
        exact absurd hi (by simp)
      have hsamples := NewReader_samples_get (records.take inferSampleSize)
        (List.replicate head.length []) i
      rw [List.getElem?_replicate] at hsamples
      simp only [hlt, if_true, Option.map_some', List.nil_append] at hsamples
      simp only [NewSchema, NewReader_inferred_get, hi, Option.map_some', Nat.zero_add,
        List.getD_eq_getElem?_getD, hsamples, Option.getD_some]
    have hlen : (NewSchema (NewReader.inferred lib
              ((records.take inferSampleSize).foldl
                (fun cs record => NewReader.addSamples 0 cs record)
                (List.replicate head.length [])) 0 head)).Columns.length = head.length := by
      simp [NewSchema, NewReader_inferred_length]
    have hnext : Reader.NextN lib n
        ⟨⟨(records.drop inferSampleSize).map .record, head.length⟩,
          NewSchema (NewReader.inferred lib
              ((records.take inferSampleSize).foldl
                (fun cs record => NewReader.addSamples 0 cs record)
                (List.replicate head.length [])) 0 head),
          records.take inferSampleSize, 0⟩
        = (records.take n).map (fun record =>
            if record.length = head.length then
              parseRecord lib (NewSchema (NewReader.inferred lib
                ((records.take inferSampleSize).foldl
                  (fun cs record => NewReader.addSamples 0 cs record)
                  (List.replicate head.length [])) 0 head)) record
            else .error (.other ErrFieldCount)) := by
      rw [Reader_NextN_eq lib _ head.length hk n _ _ 0 (Nat.zero_le _) (by simp; omega)]
      have hbuf : (records.take inferSampleSize).map (parseRecord lib
            (NewSchema (NewReader.inferred lib
              ((records.take inferSampleSize).foldl
                (fun cs record => NewReader.addSamples 0 cs record)
                (List.replicate head.length [])) 0 head)))
          = (records.take inferSampleSize).map (fun record =>
              if record.length = head.length then
                parseRecord lib (NewSchema (NewReader.inferred lib
                  ((records.take inferSampleSize).foldl
                    (fun cs record => NewReader.addSamples 0 cs record)
                    (List.replicate head.length [])) 0 head)) record
              else .error (.other ErrFieldCount)) := by
        apply List.map_congr_left
        intro record hrec
        simp only [hall record hrec, if_true]
      rw [List.drop_zero, hbuf, ← List.map_append, List.take_append_drop, List.map_take]
    refine ⟨_, by
      simp only [NewReader, csvFile, csv_Read_header,
        NewReader_sample_spec head.length hk inferSampleSize records _ _ hall, List.nil_append],
      rfl, rfl, rfl, hlen, hcol, hnext, ?_, ?_⟩
    · intro hle
      rw [hnext]
      apply List.map_congr_left
      intro record hrec
      have hmem : record ∈ records.take inferSampleSize := by
        have e : records.take n = (records.take inferSampleSize).take n := by
          rw [List.take_take, Nat.min_eq_left hle]
        rw [e] at hrec
        exact List.mem_of_mem_take hrec
      simp only [hall record hmem, if_true]
    · intro record hrec hfields
      have hloop := parseRecord_loop_ok lib record
        (NewSchema (NewReader.inferred lib
              ((records.take inferSampleSize).foldl
                (fun cs record => NewReader.addSamples 0 cs record)
                (List.replicate head.length [])) 0 head)).Columns 0 [] (by
          intro j c f hc hf
          rw [Nat.zero_add] at hf
          have hjlt : j < head.length := by
            by_contra hge
            rw [List.getElem?_eq_none (by omega)] at hc
            exact absurd hc (by simp)
          have hname : head[j]? = some head[j] := List.getElem?_eq_getElem hjlt
          rw [hcol j _ hname] at hc
          simp only [Option.some.injEq] at hc
          subst hc
          have hmem : f ∈ columnOf j (records.take inferSampleSize) := by
            simp only [columnOf, List.mem_filterMap]
            exact ⟨record, hrec, hf⟩
          obtain ⟨p, hp, _⟩ := ParseValue_inferred lib _ f hmem
            (hfields f (List.mem_iff_getElem?.mpr ⟨j, hf⟩))
          exact ⟨_, hp⟩)
      obtain ⟨vals, hvals⟩ := hloop
      exact ⟨⟨_, vals⟩, by simp only [parseRecord, hvals], rfl⟩

/-- Witness of C31 (`TestReaderBuffer`): the file `a,b / 1,2 / 3,4`. -/
theorem NewReader_replays_records_witness :
    (NewReader GoLib.blank (csvFile ["a", "b"] [["1", "2"], ["3", "4"]]) none).map
        (fun r => Reader.NextN GoLib.blank 2 r)
      = (NewReader GoLib.blank (csvFile ["a", "b"] [["1", "2"], ["3", "4"]]) none).map
        (fun r => ([["1", "2"], ["3", "4"]].take 2).map (parseRecord GoLib.blank r.schema)) := by
  obtain ⟨r, h1, _, _, _, _, _, _, h8, _⟩ :=
    (NewReader_replays_records GoLib.blank ["a", "b"] [["1", "2"], ["3", "4"]] 2
      (by decide) (by decide)).2 (by decide)
  rw [h1]
  simp only [Except.map, h8 (by decide)]

/-! ### The JSON reader: the order of the inferred columns -/

theorem firstSeen_append (a b : List String) :
    ∀ acc : List String, firstSeen (a ++ b) acc = firstSeen b (firstSeen a acc) := by
  induction a with
  | nil => intro acc; rfl
  | cons k ks ih => intro acc; simp only [List.cons_append, firstSeen, List.append_eq, ih]

theorem firstSeen_nodup (ks : List String) :
    ∀ acc : List String, acc.Nodup → (firstSeen ks acc).Nodup := by
  induction ks with
  | nil => intro acc h; exact h
  | cons k ks ih =>
    intro acc h
    simp only [firstSeen]
    split
    · exact ih acc h
    · rename_i hk
      apply ih
      rw [List.nodup_append]
      refine ⟨h, by simp, ?_⟩
      intro a ha hb
      simp only [List.mem_singleton] at hb
      subst hb
      exact absurd ha hk

theorem firstSeen_mem (ks : List String) :
    ∀ (acc : List String) (k : String), k ∈ firstSeen ks acc ↔ k ∈ ks ∨ k ∈ acc := by
  induction ks with
  | nil => intro acc k; simp [firstSeen]
  | cons x xs ih =>
    intro acc k
    simp only [firstSeen, ih, List.mem_cons]
    split
    · rename_i hx
      constructor
      · rintro (h | h)
        · exact Or.inl (Or.inr h)
        · exact Or.inr h
      · rintro ((h | h) | h)
        · exact Or.inr (h ▸ hx)
        · exact Or.inl h
        · exact Or.inr h
    · simp only [List.mem_append, List.mem_singleton]
      constructor
      · rintro (h | h | h)
        · exact Or.inl (Or.inr h)
        · exact Or.inr h
        · exact Or.inl (Or.inl h)
      · rintro ((h | h) | h)
        · exact Or.inr (Or.inr h)
        · exact Or.inl h
        · exact Or.inr (Or.inl h)

theorem jsonio_addSamples_keys {J : Type} (render : J → String) (obj : List (String × J)) :
    ∀ cs : GoMap (List String),
      (jsonio.NewReader.addSamples render obj cs).keys = firstSeen (GoMap.keys obj) cs.keys := by
  induction obj with
  | nil => intro cs; rfl
  | cons kv rest ih =>
    intro cs
    obtain ⟨k, v⟩ := kv
    simp only [jsonio.NewReader.addSamples]
    rw [ih, GoMap_keys_set]
    rfl

theorem jsonio_sample_keys {J : Type} (render : J → String) (n : Nat) :
    ∀ (lines rest : List (JSONLine J)) (buffer buffer' : List (GoMap J))
      (cs cs' : GoMap (List String)),
      jsonio.NewReader.sample render n lines buffer cs = .ok (rest, buffer', cs') →
      cs'.keys = firstSeen (sampledKeys n lines) cs.keys := by
  induction n with
  | zero =>
    intro lines rest buffer buffer' cs cs' h
    simp only [jsonio.NewReader.sample, Except.ok.injEq, Prod.mk.injEq] at h
    rw [← h.2.2]
    rfl
  | succ n ih =>
    intro lines rest buffer buffer' cs cs' h
    cases lines with
    | nil =>
      simp only [jsonio.NewReader.sample, Except.ok.injEq, Prod.mk.injEq] at h
      rw [← h.2.2]
      rfl
    | cons line more =>
      cases line with
      | blank =>
        simp only [jsonio.NewReader.sample] at h
        simp only [sampledKeys]
        exact ih more rest buffer buffer' cs cs' h
      | malformed => simp [jsonio.NewReader.sample] at h
      | object obj =>
        simp only [jsonio.NewReader.sample] at h
        rw [ih more rest _ buffer' _ cs' h, jsonio_addSamples_keys]
        simp only [sampledKeys, firstSeen_append]

/-- C33 as stated fails: for the one line with the keys `a`, `b` in this order,
and the map ranged over with `b` first, which Go allows, the inferred columns
are `b`, `a`, not the keys as first seen. -/
theorem jsonio_NewReader_order_not_first_seen :
    (match jsonio.NewReader GoLib.blank (fun n : Nat => Nat.repr n) List.reverse
        [.object [("a", 1), ("b", 2)]] none with
      | .ok r => r.schema.Columns.map Column.Name
      | .error _ => []) = ["b", "a"]
    ∧ firstSeen (sampledKeys inferSampleSize [JSONLine.object [("a", 1), ("b", 2)]]) []
      = ["a", "b"] := by
  decide

/-- C33, amended: with no explicit schema, the names of the columns inferred by
the JSON reader are the keys observed in the sampled lines, each once, in the
order in which Go ranges over the map of the samples: whatever this order, a
rearrangement of the keys as first seen; they are in first-seen order when the
map happens to be ranged over in that order. -/
theorem jsonio_NewReader_columns {J : Type} (lib : GoLib) (render : J → String)
    (order : List String → List String) (horder : ∀ ks : List String, (order ks).Perm ks)
    (lines : List (JSONLine J)) (r : jsonio.Reader J)
    (h : jsonio.NewReader lib render order lines none = .ok r) :
    r.schema.Columns.map Column.Name
      = order (firstSeen (sampledKeys inferSampleSize lines) [])
    ∧ (r.schema.Columns.map Column.Name).Perm
        (firstSeen (sampledKeys inferSampleSize lines) [])
    ∧ (r.schema.Columns.map Column.Name).Nodup
    ∧ (∀ k : String, k ∈ r.schema.Columns.map Column.Name
        ↔ k ∈ sampledKeys inferSampleSize lines)
    ∧ (order (firstSeen (sampledKeys inferSampleSize lines) [])
          = firstSeen (sampledKeys inferSampleSize lines) [] →
        r.schema.Columns.map Column.Name
          = firstSeen (sampledKeys inferSampleSize lines) []) := by
  unfold jsonio.NewReader at h
  simp only at h
  split at h
  · exact absurd h (by simp)
  · rename_i rest buffer colSamples hs
    have hkeys := jsonio_sample_keys render inferSampleSize lines rest [] buffer [] colSamples hs
    simp only [GoMap.keys, List.map_nil] at hkeys
    simp only [Except.ok.injEq] at h
    subst h
    have hnames : (NewSchema ((order (GoMap.keys colSamples)).map (fun name =>
        (⟨name, InferType lib ((GoMap.get colSamples name).getD [])⟩ : Column)))).Columns.map
          Column.Name = order (firstSeen (sampledKeys inferSampleSize lines) []) := by
      simp only [NewSchema, List.map_map, GoMap.keys, hkeys]
      exact List.map_id _
    have hperm := horder (firstSeen (sampledKeys inferSampleSize lines) [])
    have hnodup := firstSeen_nodup (sampledKeys inferSampleSize lines) [] List.nodup_nil
    refine ⟨hnames, ?_, ?_, ?_, ?_⟩
    · rw [hnames]; exact hperm
    · rw [hnames]; exact hperm.nodup_iff.mpr hnodup
    · intro k
      rw [hnames, hperm.mem_iff, firstSeen_mem]
      simp
    · intro hid
      rw [hnames, hid]

/-- Witness of C33: ranged over in first-seen order, the keys `a`, `b`, then
`c` of two lines give the columns `a`, `b`, `c`. -/
theorem jsonio_NewReader_columns_witness :
    (NewSchema [⟨"a", TypeInt⟩, ⟨"b", TypeInt⟩, ⟨"c", TypeInt⟩]).Columns.map Column.Name
      = firstSeen (sampledKeys inferSampleSize
          [JSONLine.object [("a", 1), ("b", 2)], .blank, .object [("b", 3), ("c", 4)]]) [] :=
  (jsonio_NewReader_columns GoLib.blank (fun n : Nat => Nat.repr n) (fun ks => ks)
    (fun ks => List.Perm.refl ks)
    [.object [("a", 1), ("b", 2)], .blank, .object [("b", 3), ("c", 4)]]
    ⟨[], NewSchema [⟨"a", TypeInt⟩, ⟨"b", TypeInt⟩, ⟨"c", TypeInt⟩],
      [[("a", 1), ("b", 2)], [("b", 3), ("c", 4)]], 0, ["a", "b", "c"]⟩ (by rfl)).1

end Kql
